import Mathlib

/-!
# Parallel merge sort scheduler (hw3/111511141.c)

A shallow embedding of the eight-leaf merge-sort scheduler: the two array
kernels `bubble_sort` and `merge`, the job records built by the dispatcher,
the dependency scan over the fifteen-node merge tree, the interleaving
of one dispatcher with a pool of workers, the job queue as a linked list, and
the loading of the input file.

Conventions of the embedding.
* The C arrays `array` and `temp_array` are `List Int`; a read `a[k]` is
  `a.getD k 0` and a write `a[k] = v` is `a.set k v`.  Elements are only
  compared and copied, never added, so no overflow is involved.
* Index variables are `Nat`.  All index expressions of the source stay
  between `0` and `num_elements` for the calls the dispatcher produces, so
  no `int` overflow occurs for `num_elements <= MAX_ELEMENTS`.
* In the scheduler state `Sched` the job queue is the list of the jobs it
  holds, oldest first; `linked_add_job` and `linked_get_job` are the same two
  functions on the nodes and pointers of the source, and `represents` ties the
  two views together.
* A `for` loop whose bound is not changed by its body runs
  `bound - init` times; such loops recurse on that trip count.  The data
  dependent `while` loop of `merge` recurses on a fuel argument and tests
  the loop condition at every iteration.
* The trial is modelled at two levels.  In `Step` every critical section is
  one step.  In `LockStep` every `pthread_mutex_lock` and every `sem_wait` is
  a blocking step of its own and the loops of the dispatcher run one
  iteration per step; `coarse` maps its states to those of `Step`.
* The input file is the list of the items that `fscanf(file, "%d", ...)`
  distinguishes (`Token`); the `int` stored for a numeral is `scanned_int`.
-/

namespace MergeSched

/-! ## Constants -/

/-- Constant `MAX_ELEMENTS`. -/
def MAX_ELEMENTS : Nat := 1000000

/-- Constant `NUM_TASKS`. -/
def NUM_TASKS : Nat := 15

/-- Constant `NUM_SORT_TASKS`. -/
def NUM_SORT_TASKS : Nat := 8

/-- Constant `MAX_THREADS`. -/
def MAX_THREADS : Nat := 8

/-! ## Array kernels -/

/-- The body of the inner loop of `bubble_sort`:
`if (array[j] > array[j+1]) swap(array[j], array[j+1])`. -/
def bubble_step (array : List Int) (j : Nat) : List Int :=
  if array.getD j 0 > array.getD (j + 1) 0 then
    let temp := array.getD j 0
    let array1 := array.set j (array.getD (j + 1) 0)
    array1.set (j + 1) temp
  else array

/-- The inner loop `for (j = ...; j < bound; j++)` of `bubble_sort`, entered
with loop variable `j` and `trips = bound - j` iterations left. -/
def bubble_inner (array : List Int) (j : Nat) : Nat → List Int
  | 0 => array
  | trips + 1 => bubble_inner (bubble_step array j) (j + 1) trips

/-- The outer loop `for (i = ...; i < end_index - 1; i++)` of `bubble_sort`,
entered with loop variable `i` and `trips = end_index - 1 - i` iterations left.
The inner loop runs `j` from `start_index` up to
`end_index - 1 - (i - start_index)`. -/
def bubble_outer (start_index end_index : Nat) (array : List Int) (i : Nat) :
    Nat → List Int
  | 0 => array
  | trips + 1 =>
    bubble_outer start_index end_index
      (bubble_inner array start_index
        (end_index - 1 - (i - start_index) - start_index))
      (i + 1) trips

/-- Function `bubble_sort(start_index, end_index)` acting on `array`.
For `end_index = 0` the C bound `end_index - 1` is `-1` and the loop does not
run; the truncated subtraction gives a trip count of `0` as well. -/
def bubble_sort (array : List Int) (start_index end_index : Nat) : List Int :=
  bubble_outer start_index end_index array start_index
    (end_index - 1 - start_index)

/-- Library call `memcpy(dst + off, src + off, cnt * sizeof(int))`, element by
element. -/
def memcpy_from (dst src : List Int) (off : Nat) : Nat → List Int
  | 0 => dst
  | cnt + 1 => memcpy_from (dst.set off (src.getD off 0)) src (off + 1) cnt

/-- The loop variables of `merge` together with the array being written. -/
structure MergeVars where
  array : List Int
  i : Nat
  j : Nat
  k : Nat
deriving DecidableEq, Repr

/-- First loop of `merge`: `while (i < mid && j < end)`, taking the left head
when `temp_array[i] <= temp_array[j]`. -/
def merge_both (temp_array : List Int) (mid end_ : Nat) :
    Nat → MergeVars → MergeVars
  | 0, v => v
  | fuel + 1, v =>
    if v.i < mid ∧ v.j < end_ then
      if temp_array.getD v.i 0 ≤ temp_array.getD v.j 0 then
        merge_both temp_array mid end_ fuel
          { array := v.array.set v.k (temp_array.getD v.i 0),
            i := v.i + 1, j := v.j, k := v.k + 1 }
      else
        merge_both temp_array mid end_ fuel
          { array := v.array.set v.k (temp_array.getD v.j 0),
            i := v.i, j := v.j + 1, k := v.k + 1 }
    else v

/-- Second loop of `merge`: `while (i < mid) array[k++] = temp_array[i++]`. -/
def merge_left (temp_array : List Int) (mid : Nat) :
    Nat → MergeVars → MergeVars
  | 0, v => v
  | fuel + 1, v =>
    if v.i < mid then
      merge_left temp_array mid fuel
        { array := v.array.set v.k (temp_array.getD v.i 0),
          i := v.i + 1, j := v.j, k := v.k + 1 }
    else v

/-- Third loop of `merge`: `while (j < end) array[k++] = temp_array[j++]`. -/
def merge_right (temp_array : List Int) (end_ : Nat) :
    Nat → MergeVars → MergeVars
  | 0, v => v
  | fuel + 1, v =>
    if v.j < end_ then
      merge_right temp_array end_ fuel
        { array := v.array.set v.k (temp_array.getD v.j 0),
          i := v.i, j := v.j + 1, k := v.k + 1 }
    else v

/-- Function `merge(start, mid, end)` acting on the pair
`(array, temp_array)`.  Every iteration of the three loops advances `i` or
`j`, so `end - start` bounds the number of iterations of each of them. -/
def merge (array temp_array : List Int) (start mid end_ : Nat) :
    List Int × List Int :=
  let temp_array1 := memcpy_from temp_array array start (end_ - start)
  let v0 : MergeVars := { array := array, i := start, j := mid, k := start }
  let v1 := merge_both temp_array1 mid end_ (end_ - start) v0
  let v2 := merge_left temp_array1 mid (end_ - start) v1
  let v3 := merge_right temp_array1 end_ (end_ - start) v2
  (v3.array, temp_array1)


/-! ## Jobs and the job queue -/

/-- Enumeration `JobStatus`, the values stored in `progress_done`. -/
inductive JobStatus where
  | NOT_DISPATCHED
  | DISPATCHED
  | COMPLETED
deriving DecidableEq, Repr

/-- Record `Job`.  The field `end` of the source is `end_` here.  The `id` is
an `Int` because `get_job` answers an empty queue with the id `-1`. -/
structure Job where
  start : Nat
  mid : Nat
  end_ : Nat
  id : Int
deriving DecidableEq, Repr

/-- Program counter of the dispatcher thread: before the seed loop, at the
test of `while (progress_done[0] != COMPLETED)`, blocked in
`sem_wait(&dispatcher_signal)`, and returned. -/
inductive DispatcherPc where
  | seed
  | test
  | wait
  | done
deriving DecidableEq, Repr

/-- Program counter of a worker thread: blocked in `sem_wait(&jobs_available)`,
past the wait and the shutdown test (about to lock `queue_mutex`), holding a
dequeued job before running it, having run it before reporting it, and
returned. -/
inductive WorkerPc where
  | wait
  | woken
  | run (job : Job)
  | report (job : Job)
  | exited
deriving DecidableEq, Repr

/-- The shared variables of one trial together with the program counters of
the threads.  `queue` is the linked list from `job_queue_head` to
`job_queue_tail`; `jobs_available` and `dispatcher_signal` are the values of
the two semaphores; `chunk_size` is the dispatcher's local variable;
`joined` records that `main` has passed `pthread_join(dispatcher_thread)` and
run its cleanup. -/
structure Sched where
  array : List Int
  temp_array : List Int
  num_elements : Int
  progress_done : List JobStatus
  queue : List Job
  job_count : Nat
  job_cnt : Nat
  jobs_available : Nat
  dispatcher_signal : Nat
  chunk_size : Nat
  dispatcher : DispatcherPc
  workers : List WorkerPc
  joined : Bool
deriving DecidableEq, Repr

/-- Function `add_job`: append at the tail, count the job in `job_count` and
in the diagnostic counter `job_cnt`. -/
def add_job (s : Sched) (job : Job) : Sched :=
  { s with queue := s.queue ++ [job], job_count := s.job_count + 1,
           job_cnt := s.job_cnt + 1 }

/-- Function `get_job`: the invalid job `{0, 0, 0, -1}` on an empty queue,
otherwise the head, which is unlinked and discounted from `job_count`. -/
def get_job (s : Sched) : Job × Sched :=
  match s.queue with
  | [] => ({ start := 0, mid := 0, end_ := 0, id := -1 }, s)
  | job :: rest => (job, { s with queue := rest, job_count := s.job_count - 1 })

/-! ## The dispatcher -/

/-- The job built by iteration `i` of the seed loop of
`dispatcher_thread_func`. -/
def seed_job (num_elements chunk_size i : Nat) : Job :=
  { start := i * chunk_size,
    end_ := if i = NUM_SORT_TASKS - 1 then num_elements else (i + 1) * chunk_size,
    mid := 0,
    id := 7 + (i : Int) }

/-- The seed loop `for (i = 0; i < NUM_SORT_TASKS; i++)`, entered with loop
variable `i` and `trips` iterations left: `add_job(job)` followed by
`sem_post(&jobs_available)`. -/
def seed_loop (s : Sched) (i : Nat) : Nat → Sched
  | 0 => s
  | trips + 1 =>
    let s1 := add_job s (seed_job s.num_elements.toNat s.chunk_size i)
    seed_loop { s1 with jobs_available := s1.jobs_available + 1 } (i + 1) trips

/-- The job built by the dependency scan at loop variable `n` (the id of the
left child); its id is `(n - 1) / 2`. -/
def scan_job (num_elements chunk_size n : Nat) : Job :=
  if n ≥ 7 then
    { start := (n - 7) * chunk_size,
      mid := (n - 7) * chunk_size + chunk_size,
      end_ := if n = 13 then num_elements else (n - 7) * chunk_size + 2 * chunk_size,
      id := (((n - 1) / 2 : Nat) : Int) }
  else if n ≥ 3 then
    { start := (n - 3) * 2 * chunk_size,
      mid := (n - 3) * 2 * chunk_size + 2 * chunk_size,
      end_ := if n = 5 then num_elements else (n - 3) * 2 * chunk_size + 4 * chunk_size,
      id := (((n - 1) / 2 : Nat) : Int) }
  else
    { start := 0,
      mid := 4 * chunk_size,
      end_ := num_elements,
      id := (((n - 1) / 2 : Nat) : Int) }

/-- Read of `progress_done[n]`. -/
def status_at (progress_done : List JobStatus) (n : Nat) : JobStatus :=
  progress_done.getD n JobStatus.NOT_DISPATCHED

/-- The body of the scan loop at loop variable `n`: when both `n` and `n + 1`
are `COMPLETED` and `(n - 1) / 2` is `NOT_DISPATCHED`, mark the parent
`DISPATCHED`, enqueue its job and post `jobs_available`. -/
def scan_step (s : Sched) (n : Nat) : Sched :=
  if status_at s.progress_done n = JobStatus.COMPLETED ∧
      status_at s.progress_done (n + 1) = JobStatus.COMPLETED ∧
      status_at s.progress_done ((n - 1) / 2) = JobStatus.NOT_DISPATCHED then
    let s1 := { s with
      progress_done := s.progress_done.set ((n - 1) / 2) JobStatus.DISPATCHED }
    let s2 := add_job s1 (scan_job s.num_elements.toNat s.chunk_size n)
    { s2 with jobs_available := s2.jobs_available + 1 }
  else s

/-- The scan loop `for (int n = 13; n > 0; n -= 2)`, entered with loop
variable `n`.  The loop variable strictly decreases, so `n` itself bounds the
number of iterations left and the fuel `13` used by `scan_pass` never runs
out; in C the variable ends at `-1`, here the truncated `1 - 2` is `0`, and
both fail the test `n > 0`. -/
def scan_loop : Nat → Sched → Nat → Sched
  | 0, s, _ => s
  | fuel + 1, s, n => if n > 0 then scan_loop fuel (scan_step s n) (n - 2) else s

/-- One pass of the dependency scan of `dispatcher_thread_func`. -/
def scan_pass (s : Sched) : Sched := scan_loop 13 s 13

/-- Dispatcher step: the seed phase, from thread start to the first test of
the `while` condition. -/
def dispatcher_seed (s : Sched) : Sched :=
  let s1 := { s with chunk_size := s.num_elements.toNat / NUM_SORT_TASKS }
  { seed_loop s1 0 NUM_SORT_TASKS with dispatcher := DispatcherPc.test }

/-- Dispatcher step: the test `progress_done[0] != COMPLETED` of the `while`
loop, leading to `sem_wait` or to `return NULL`. -/
def dispatcher_test (s : Sched) : Sched :=
  if status_at s.progress_done 0 ≠ JobStatus.COMPLETED then
    { s with dispatcher := DispatcherPc.wait }
  else { s with dispatcher := DispatcherPc.done }

/-- Dispatcher step: `sem_wait(&dispatcher_signal)` returns and one scan pass
runs under `progress_mutex`. -/
def dispatcher_scan (s : Sched) : Sched :=
  { scan_pass { s with dispatcher_signal := s.dispatcher_signal - 1 } with
    dispatcher := DispatcherPc.test }

/-! ## The workers -/

/-- The job execution of `worker_thread_func`: `bubble_sort` for ids `>= 7`,
`merge` otherwise, acting on `(array, temp_array)`. -/
def exec_job (job : Job) (mem : List Int × List Int) : List Int × List Int :=
  if job.id ≥ 7 then (bubble_sort mem.1 job.start job.end_, mem.2)
  else merge mem.1 mem.2 job.start job.mid job.end_

/-- Worker step: `sem_wait(&jobs_available)` returns, followed by the test
`if (num_elements == -1) break;`. -/
def worker_wake (s : Sched) (w : Nat) : Sched :=
  let s1 := { s with jobs_available := s.jobs_available - 1 }
  if s1.num_elements = -1 then
    { s1 with workers := s1.workers.set w WorkerPc.exited }
  else { s1 with workers := s1.workers.set w WorkerPc.woken }

/-- Worker step: the section under `queue_mutex`, `get_job()` when
`job_count > 0`, and the test `if (job.id == -1) continue;`. -/
def worker_take (s : Sched) (w : Nat) : Sched :=
  if s.job_count > 0 then
    let r := get_job s
    if r.1.id = -1 then { r.2 with workers := r.2.workers.set w WorkerPc.wait }
    else { r.2 with workers := r.2.workers.set w (WorkerPc.run r.1) }
  else { s with workers := s.workers.set w WorkerPc.wait }

/-- Worker step: the call of `bubble_sort` or `merge` for the job held. -/
def worker_run (s : Sched) (w : Nat) (job : Job) : Sched :=
  let mem := exec_job job (s.array, s.temp_array)
  { s with array := mem.1, temp_array := mem.2,
           workers := s.workers.set w (WorkerPc.report job) }

/-- Worker step: `progress_done[job.id] = COMPLETED` under `progress_mutex`,
then `sem_post(&dispatcher_signal)`. -/
def worker_report (s : Sched) (w : Nat) (job : Job) : Sched :=
  { s with progress_done := s.progress_done.set job.id.toNat JobStatus.COMPLETED,
           dispatcher_signal := s.dispatcher_signal + 1,
           workers := s.workers.set w WorkerPc.wait }

/-- Cleanup of `main` after `pthread_join(dispatcher_thread)`:
`num_elements = -1` and one `sem_post(&jobs_available)` per worker. -/
def main_cleanup (s : Sched) : Sched :=
  { s with num_elements := -1,
           jobs_available := s.jobs_available + s.workers.length,
           joined := true }

/-- The state of a trial after the initialisation in `main`, before any
thread has run: `input` is the array read from the file, `scratch` the
contents of the freshly allocated `temp_array`, `n` the number of workers. -/
def init_state (input scratch : List Int) (n : Nat) : Sched :=
  { array := input, temp_array := scratch, num_elements := (input.length : Int),
    progress_done := List.replicate NUM_TASKS JobStatus.NOT_DISPATCHED,
    queue := [], job_count := 0, job_cnt := 0,
    jobs_available := 0, dispatcher_signal := 0, chunk_size := 0,
    dispatcher := DispatcherPc.seed,
    workers := List.replicate n WorkerPc.wait, joined := false }

/-- One atomic step of the trial: a dispatcher step, a step of worker `w`, or
the cleanup of `main`.  A `sem_wait` step is enabled only when the semaphore
is positive. -/
inductive Step : Sched → Sched → Prop where
  | seed (s : Sched) : s.dispatcher = DispatcherPc.seed → Step s (dispatcher_seed s)
  | test (s : Sched) : s.dispatcher = DispatcherPc.test → Step s (dispatcher_test s)
  | scan (s : Sched) : s.dispatcher = DispatcherPc.wait → 0 < s.dispatcher_signal →
      Step s (dispatcher_scan s)
  | wake (s : Sched) (w : Nat) : s.workers.get? w = some WorkerPc.wait →
      0 < s.jobs_available → Step s (worker_wake s w)
  | take (s : Sched) (w : Nat) : s.workers.get? w = some WorkerPc.woken →
      Step s (worker_take s w)
  | run (s : Sched) (w : Nat) (job : Job) : s.workers.get? w = some (WorkerPc.run job) →
      Step s (worker_run s w job)
  | report (s : Sched) (w : Nat) (job : Job) :
      s.workers.get? w = some (WorkerPc.report job) → Step s (worker_report s w job)
  | cleanup (s : Sched) : s.dispatcher = DispatcherPc.done → s.joined = false →
      Step s (main_cleanup s)

/-- The states a trial can reach from its initial state. -/
inductive Reachable (input scratch : List Int) (n : Nat) : Sched → Prop where
  | init : Reachable input scratch n (init_state input scratch n)
  | step (s t : Sched) : Reachable input scratch n s → Step s t →
      Reachable input scratch n t

/-! ## Sequential runs of the fifteen jobs -/

/-- The job the dispatcher produces for node `id`: the seeded job for a leaf
`7..14`, the scanned job for an internal node `0..6` (built at the loop
variable `2 * id + 1`, the id of its left child). -/
def node_job (num_elements id : Nat) : Job :=
  if id ≥ 7 then seed_job num_elements (num_elements / NUM_SORT_TASKS) (id - 7)
  else scan_job num_elements (num_elements / NUM_SORT_TASKS) (2 * id + 1)

/-- Running the jobs of the nodes listed in `order`, one after the other. -/
def run_order (num_elements : Nat) (order : List Nat) (mem : List Int × List Int) :
    List Int × List Int :=
  order.foldl (fun m id => exec_job (node_job num_elements id) m) mem

/-- An order of execution of the fifteen jobs that respects the dependency
tree: every node id `0..14` occurs exactly once, and every merge `p` occurs
after both of its children `2p + 1` and `2p + 2`. -/
def respects_dependencies (order : List Nat) : Prop :=
  order.Perm (List.range NUM_TASKS) ∧
  ∀ p, p < 7 → order.indexOf (2 * p + 1) < order.indexOf p ∧
    order.indexOf (2 * p + 2) < order.indexOf p

/-- Order in which a single worker executes the jobs: the leaves as seeded,
then the merges level by level as the scan enqueues them. -/
def single_worker_order : List Nat := [7, 8, 9, 10, 11, 12, 13, 14, 6, 5, 4, 3, 2, 1, 0]

/-- The slice `array[s..e)`. -/
def slice (array : List Int) (s e : Nat) : List Int := (array.drop s).take (e - s)

/-- The standard left-biased two-way merge of two lists, as the specification
words it: the left head is taken when it is `<=` the right head, and the
remaining run is appended once the other is exhausted. -/
def left_biased_merge : List Int → List Int → List Int
  | [], r => r
  | x :: l, [] => x :: l
  | x :: l, y :: r =>
    if x ≤ y then x :: left_biased_merge l (y :: r)
    else y :: left_biased_merge (x :: l) r
termination_by l r => l.length + r.length

/-- Pairs of `array[s..e)` whose upper index is at least `m` are in order. -/
def suffix_ordered (a : List Int) (s e m : Nat) : Prop :=
  ∀ k l, s ≤ k → k < l → l < e → m ≤ l → a.getD k 0 ≤ a.getD l 0

/-! ## The merge tree -/

/-- Position of chunk boundary `k` of `0..8` in an array of `num_elements`
elements: `k * chunk_size`, except that the last boundary is `num_elements`. -/
def boundary (num_elements k : Nat) : Nat :=
  if k = 8 then num_elements else k * (num_elements / NUM_SORT_TASKS)

/-- First chunk boundary of node `v` of the merge tree. -/
def node_lo (v : Nat) : Nat :=
  if v ≥ 7 then v - 7 else if v ≥ 3 then 2 * (v - 3) else if v ≥ 1 then 4 * (v - 1) else 0

/-- Last chunk boundary of node `v` of the merge tree. -/
def node_hi (v : Nat) : Nat :=
  if v ≥ 7 then v - 6 else if v ≥ 3 then 2 * (v - 3) + 2 else if v ≥ 1 then 4 * v else 8

/-- Node `a` is `v` or one of the at most `fuel` nearest ancestors of `v`; the
parent of `v > 0` is `(v - 1) / 2`. -/
def is_ancestor : Nat → Nat → Nat → Bool
  | 0, a, v => decide (v = a)
  | fuel + 1, a, v => decide (v = a) || (decide (0 < v) && is_ancestor fuel a ((v - 1) / 2))

/-- Node `id` can run after the nodes in `done`: it is a node of the tree, has
not run, and, when it is a merge, both of its children have run. -/
def ready (done : List Nat) (id : Nat) : Prop :=
  id < 15 ∧ id ∉ done ∧ (id < 7 → 2 * id + 1 ∈ done ∧ 2 * id + 2 ∈ done)

/-- Every node of the list can run after the nodes before it and `done`. -/
def valid_from (done : List Nat) : List Nat → Prop
  | [] => True
  | id :: rest => ready done id ∧ valid_from (id :: done) rest

/-- The invariant of a sequential run: `done` is closed under children; the
range of every finished node whose parent has not run holds the sorted
permutation of the input on that range; the range of every leaf that has not
run holds the input. -/
structure TreeInv (input : List Int) (done : List Nat) (mem : List Int × List Int) :
    Prop where
  len1 : mem.1.length = input.length
  len2 : mem.2.length = input.length
  closed : ∀ p, p < 7 → p ∈ done → 2 * p + 1 ∈ done ∧ 2 * p + 2 ∈ done
  top : ∀ v, v < 15 → v ∈ done → (v = 0 ∨ (v - 1) / 2 ∉ done) →
    (slice mem.1 (node_job input.length v).start (node_job input.length v).end_).Sorted
        (· ≤ ·) ∧
    (slice mem.1 (node_job input.length v).start (node_job input.length v).end_).Perm
      (slice input (node_job input.length v).start (node_job input.length v).end_)
  leaf : ∀ v, 7 ≤ v → v < 15 → v ∉ done →
    slice mem.1 (node_job input.length v).start (node_job input.length v).end_ =
      slice input (node_job input.length v).start (node_job input.length v).end_

/-! ## The dependency scan, described from the table before the pass -/

/-- Internal node `p` is ready in the table `progress_done`: both children are
`COMPLETED` and `p` itself is `NOT_DISPATCHED`. -/
def mergeable (progress_done : List JobStatus) (p : Nat) : Prop :=
  status_at progress_done (2 * p + 1) = JobStatus.COMPLETED ∧
  status_at progress_done (2 * p + 2) = JobStatus.COMPLETED ∧
  status_at progress_done p = JobStatus.NOT_DISPATCHED

instance (progress_done : List JobStatus) (p : Nat) : Decidable (mergeable progress_done p) := by
  unfold mergeable; infer_instance

/-- The ready internal nodes among `6, 5, ..., 7 - k`, in that order. -/
def ready_list (progress_done : List JobStatus) : Nat → List Nat
  | 0 => []
  | k + 1 =>
    ready_list progress_done k ++ (if mergeable progress_done (6 - k) then [6 - k] else [])

/-- The table `progress_done` with the ready nodes among `6, 5, ..., 7 - k`
marked `DISPATCHED`. -/
def mark_ready (progress_done : List JobStatus) : Nat → List JobStatus
  | 0 => progress_done
  | k + 1 =>
    if mergeable progress_done (6 - k) then
      (mark_ready progress_done k).set (6 - k) JobStatus.DISPATCHED
    else mark_ready progress_done k

/-- The state after the first `k` iterations of the scan loop, described from
the state `s` before the pass. -/
def scan_result (s : Sched) (k : Nat) : Sched :=
  { s with
    progress_done := mark_ready s.progress_done k,
    queue := s.queue ++
      (ready_list s.progress_done k).map
        (fun q => scan_job s.num_elements.toNat s.chunk_size (2 * q + 1)),
    job_count := s.job_count + (ready_list s.progress_done k).length,
    job_cnt := s.job_cnt + (ready_list s.progress_done k).length,
    jobs_available := s.jobs_available + (ready_list s.progress_done k).length }

/-- Worker program counter `pc` holds `job`, before or after running it. -/
def holds (pc : WorkerPc) (job : Job) : Prop :=
  pc = WorkerPc.run job ∨ pc = WorkerPc.report job

/-- The id of `job` is a node of the tree, and when it is an internal node that
node is no longer `NOT_DISPATCHED` in `progress_done`. -/
def job_marked (progress_done : List JobStatus) (job : Job) : Prop :=
  0 ≤ job.id ∧ job.id < 15 ∧
  (job.id < 7 → status_at progress_done job.id.toNat ≠ JobStatus.NOT_DISPATCHED)

/-- The dependency invariant of the scheduler: the table has fifteen entries,
an internal node that left `NOT_DISPATCHED` has both children `COMPLETED`, and
every job in the queue or held by a worker is marked in the table. -/
structure SchedInv (s : Sched) : Prop where
  len : s.progress_done.length = 15
  dep : ∀ p, p < 7 → status_at s.progress_done p ≠ JobStatus.NOT_DISPATCHED →
    status_at s.progress_done (2 * p + 1) = JobStatus.COMPLETED ∧
    status_at s.progress_done (2 * p + 2) = JobStatus.COMPLETED
  inq : ∀ job, job ∈ s.queue → job_marked s.progress_done job
  held : ∀ pc job, pc ∈ s.workers → holds pc job → job_marked s.progress_done job

/-! ## Concrete inputs used to exercise the theorems -/

/-- An input of eight elements. -/
def sample_input : List Int := [5, 3, 1, 4, 2, 9, 7, 6]

/-- A zeroed scratch buffer of eight elements. -/
def sample_scratch : List Int := [0, 0, 0, 0, 0, 0, 0, 0]

/-- An order in which every merge runs as soon as its two children are done. -/
def eager_order : List Nat := [13, 14, 6, 11, 12, 5, 2, 7, 8, 3, 9, 10, 4, 1, 0]

/-- A state in which the eight leaves are `COMPLETED` and no merge has been
dispatched. -/
def leaves_done_state : Sched :=
  { init_state sample_input sample_scratch 2 with
    progress_done :=
      List.replicate 7 JobStatus.NOT_DISPATCHED ++ List.replicate 8 JobStatus.COMPLETED,
    chunk_size := 1,
    dispatcher := DispatcherPc.wait,
    dispatcher_signal := 1 }

/-! ## The job queue as a linked list -/

/-- Record `Node` of the source.  The address of a node is its index in the
heap of nodes; `next = none` is the `NULL` pointer. -/
structure Node where
  job : Job
  next : Option Nat
deriving DecidableEq, Repr

/-- The variables of the job queue at the level of pointers: `heap` holds the
nodes handed out by `malloc` so far (a fresh node gets the next index, and a
freed node is not handed out again), `job_queue_head` and `job_queue_tail` are
the two pointers, `job_count` and `job_cnt` the two counters (C `int`). -/
structure JobQueue where
  heap : List Node
  job_queue_head : Option Nat
  job_queue_tail : Option Nat
  job_count : Int
  job_cnt : Int
deriving DecidableEq, Repr

/-- Function `add_job` of the source on the linked list.  The write
`job_queue_tail->next = new_node` through a pointer that is not the address of
a node does not occur for a queue built by `add_job` and `get_job`; it leaves
the heap as it is. -/
def linked_add_job (q : JobQueue) (job : Job) : JobQueue :=
  let new_node := q.heap.length
  let heap1 := q.heap ++ [{ job := job, next := none }]
  match q.job_queue_tail with
  | none =>
    { heap := heap1, job_queue_head := some new_node, job_queue_tail := some new_node,
      job_count := q.job_count + 1, job_cnt := q.job_cnt + 1 }
  | some tail =>
    { heap :=
        (match heap1.get? tail with
         | some node => heap1.set tail { node with next := some new_node }
         | none => heap1),
      job_queue_head := q.job_queue_head, job_queue_tail := some new_node,
      job_count := q.job_count + 1, job_cnt := q.job_cnt + 1 }

/-- The job `{0, 0, 0, -1}` that `get_job` returns on an empty queue. -/
def empty_job : Job := { start := 0, mid := 0, end_ := 0, id := -1 }

/-- Function `get_job` of the source on the linked list. -/
def linked_get_job (q : JobQueue) : Job × JobQueue :=
  match q.job_queue_head with
  | none => (empty_job, q)
  | some head =>
    match q.heap.get? head with
    | none => (empty_job, q)
    | some temp_node =>
      (temp_node.job,
        { q with
          job_queue_head := temp_node.next,
          job_queue_tail := if temp_node.next = none then none else q.job_queue_tail,
          job_count := q.job_count - 1 })

/-- The queue variables as `main` initialises them for a trial. -/
def empty_queue (heap : List Node) : JobQueue :=
  { heap := heap, job_queue_head := none, job_queue_tail := none, job_count := 0,
    job_cnt := 0 }

/-- The nodes reached from pointer `p` by following `next` are the cells
`(address, job)` listed, and the last of them has `next = NULL`. -/
def chain (heap : List Node) : Option Nat → List (Nat × Job) → Prop
  | p, [] => p = none
  | p, cell :: rest =>
    p = some cell.1 ∧
    ∃ node, heap.get? cell.1 = some node ∧ node.job = cell.2 ∧ chain heap node.next rest

/-- The linked list `q` holds the jobs `jobs`, oldest first: the chain from
`job_queue_head` carries them, `job_queue_tail` points to its last node, and
`job_count` is their number. -/
def represents (q : JobQueue) (jobs : List Job) : Prop :=
  ∃ cells, chain q.heap q.job_queue_head cells ∧ cells.map Prod.snd = jobs ∧
    q.job_queue_tail = (cells.map Prod.fst).getLast? ∧
    q.job_count = (jobs.length : Int)

/-- An operation on the queue: `add_job(job)` or `get_job()`. -/
inductive QueueOp where
  | push (job : Job)
  | pop
deriving DecidableEq, Repr

/-- Running a sequence of queue operations on the linked list; the result
lists the jobs returned by the `get_job` calls, in call order. -/
def linked_run (q : JobQueue) : List QueueOp → List Job × JobQueue
  | [] => ([], q)
  | QueueOp.push job :: ops => linked_run (linked_add_job q job) ops
  | QueueOp.pop :: ops =>
    let r := linked_get_job q
    let rest := linked_run r.2 ops
    (r.1 :: rest.1, rest.2)

/-- The first-in first-out queue of the specification, on the list of the jobs
not yet removed: a push appends, a pop returns the oldest job, or the invalid
job when there is none. -/
def fifo_run (jobs : List Job) : List QueueOp → List Job × List Job
  | [] => ([], jobs)
  | QueueOp.push job :: ops => fifo_run (jobs ++ [job]) ops
  | QueueOp.pop :: ops =>
    match jobs with
    | [] =>
      let rest := fifo_run [] ops
      (empty_job :: rest.1, rest.2)
    | job :: later =>
      let rest := fifo_run later ops
      (job :: rest.1, rest.2)

/-! ## Reading the input -/

/-- A lexical item of `input.txt` as `fscanf(file, "%d", ...)` divides the
text after skipping white space: a numeral (an optional sign followed by
decimal digits) with its mathematical value, which need not fit a C `int`; a
sign `+` or `-` that no digit follows; any other text, which starts with a
character that cannot begin a numeral. -/
inductive Token where
  | int (value : Int)
  | sign
  | other
deriving DecidableEq, Repr

/-- The `int` that `fscanf(file, "%d", &x)` stores for a numeral of value
`value`.  A value in the range of a 32-bit `int`, `-2147483648` to
`2147483647`, is stored as it is.  For a value out of range the C standard
leaves the behaviour undefined; the C library of the platform converts the
digits with `strtol`, which clamps to the range of a 64-bit `long`, and stores
the low 32 bits of the result. -/
def scanned_int (value : Int) : Int :=
  let clamped : Int :=
    if value > 9223372036854775807 then 9223372036854775807
    else if value < -9223372036854775808 then -9223372036854775808
    else value
  (clamped + 2147483648) % 4294967296 - 2147483648

/-- Library call `fscanf(file, "%d", &x)` on the items still unread.  A numeral
is consumed and its value stored as an `int`.  A sign that no digit follows is
consumed as the input item, the conversion fails and nothing is stored.  On any
other text the conversion fails, nothing is stored and the text stays unread
(C standard, 7.21.6.2).  At end of file the conversion fails as well. -/
def fscanf_int : List Token → Option Int × List Token
  | Token.int value :: rest => (some (scanned_int value), rest)
  | Token.sign :: rest => (none, rest)
  | Token.other :: rest => (none, Token.other :: rest)
  | [] => (none, [])

/-- The global variables that `read_input_file` sets. -/
structure InputVars where
  num_elements : Int
  array : List Int
  temp_array : List Int
deriving DecidableEq, Repr

/-- The loop `for (i = 0; i < num_elements; i++) fscanf(file, "%d", &array[i])`
of `read_input_file`, entered with loop variable `i` and `trips` iterations
left. -/
def read_loop (array : List Int) (stream : List Token) (i : Nat) : Nat → List Int
  | 0 => array
  | trips + 1 =>
    let r := fscanf_int stream
    read_loop (match r.1 with
      | some value => array.set i value
      | none => array) r.2 (i + 1) trips

/-- Library call `malloc(sizeof(int) * count)`: a block of `count` ints whose
contents are the indeterminate values `fresh`; for a negative `count` the size
wraps around and no block is obtained. -/
def malloc_ints (count : Int) (fresh : Nat → Int) : List Int :=
  (List.range count.toNat).map fresh

/-- Function `read_input_file`.  `file` is `none` when `fopen` fails, otherwise
the tokens of the file; `g` holds the globals before the call; `fresh1` and
`fresh2` are the contents of the blocks that `malloc` hands out.  The result is
the return value and the globals after the call. -/
def read_input_file (file : Option (List Token)) (g : InputVars)
    (fresh1 fresh2 : Nat → Int) : Int × InputVars :=
  match file with
  | none => (-1, g)
  | some stream =>
    let r := fscanf_int stream
    let num_elements :=
      match r.1 with
      | some value => value
      | none => g.num_elements
    if num_elements > (MAX_ELEMENTS : Int) then
      (-1, { g with num_elements := num_elements })
    else
      let array := malloc_ints num_elements fresh1
      let temp_array := malloc_ints num_elements fresh2
      (0, { num_elements := num_elements,
            array := read_loop array r.2 0 num_elements.toNat,
            temp_array := temp_array })

/-- The state of a trial with `n` workers after the initialisation in `main`,
for the globals `g` left by `read_input_file`. -/
def trial_state (g : InputVars) (n : Nat) : Sched :=
  { array := g.array, temp_array := g.temp_array, num_elements := g.num_elements,
    progress_done := List.replicate NUM_TASKS JobStatus.NOT_DISPATCHED,
    queue := [], job_count := 0, job_cnt := 0,
    jobs_available := 0, dispatcher_signal := 0, chunk_size := 0,
    dispatcher := DispatcherPc.seed,
    workers := List.replicate n WorkerPc.wait, joined := false }

/-- The head of one iteration of the loop of `main`, for `n` workers:
`if (read_input_file() != 0) return 1;` followed by the initialisation.  The
result is the exit status `1` of the program, or the initial state of the
trial. -/
def main_begin_trial (file : Option (List Token)) (g : InputVars)
    (fresh1 fresh2 : Nat → Int) (n : Nat) : Except Int Sched :=
  let r := read_input_file file g fresh1 fresh2
  if r.1 ≠ 0 then Except.error 1 else Except.ok (trial_state r.2 n)

/-! ## One iteration of the worker loop -/

/-- One iteration of the `while (1)` loop of `worker_thread_func`, run by
worker `w` without interleaving, from the return of `sem_wait` on: the loop is
left on shutdown, the iteration ends early on an empty queue or an invalid
job, and otherwise the job is run and reported. -/
def worker_iteration (s : Sched) (w : Nat) : Sched :=
  let s1 := worker_wake s w
  match s1.workers.get? w with
  | some WorkerPc.woken =>
    let s2 := worker_take s1 w
    match s2.workers.get? w with
    | some (WorkerPc.run job) => worker_report (worker_run s2 w job) w job
    | _ => s2
  | _ => s1

/-! ## Progress of a trial -/

/-- Position of a status in the life cycle `NOT_DISPATCHED`, `DISPATCHED`,
`COMPLETED`. -/
def status_rank : JobStatus → Nat
  | JobStatus.NOT_DISPATCHED => 0
  | JobStatus.DISPATCHED => 1
  | JobStatus.COMPLETED => 2

/-- Job `job` is in the queue or held by a worker. -/
def flying (s : Sched) (job : Job) : Prop :=
  job ∈ s.queue ∨ ∃ pc, pc ∈ s.workers ∧ holds pc job

/-- A job of node `v` is in the queue or held by a worker. -/
def in_flight (s : Sched) (v : Nat) : Prop :=
  ∃ job, job.id = (v : Int) ∧ flying s job

/-- Invariants of the flow of jobs and signals through a trial. -/
structure FlowInv (s : Sched) : Prop where
  cnt : s.job_count = s.queue.length
  numel : s.joined = false → s.num_elements ≠ -1
  noexit : s.joined = false → WorkerPc.exited ∉ s.workers
  nojoin : s.joined = true → s.dispatcher = DispatcherPc.done
  tokens : s.joined = false →
    s.jobs_available + s.workers.count WorkerPc.woken = s.queue.length
  quiet : s.dispatcher_signal = 0 → ∀ p, p < 7 → ¬ mergeable s.progress_done p
  done : s.dispatcher = DispatcherPc.done →
    status_at s.progress_done 0 = JobStatus.COMPLETED
  rootsig : s.dispatcher = DispatcherPc.wait →
    status_at s.progress_done 0 = JobStatus.COMPLETED → 0 < s.dispatcher_signal
  leafnd : ∀ v, 7 ≤ v → status_at s.progress_done v ≠ JobStatus.DISPATCHED
  flightd : ∀ p, p < 7 → status_at s.progress_done p = JobStatus.DISPATCHED →
    in_flight s p
  flightl : s.dispatcher ≠ DispatcherPc.seed → ∀ v, 7 ≤ v → v < 15 →
    status_at s.progress_done v = JobStatus.NOT_DISPATCHED → in_flight s v

/-- Number of steps a worker at `pc` can still cause without a new job: the
take after a wake; the run, the report, and the scan and test that the report
triggers. -/
def worker_weight : WorkerPc → Nat
  | WorkerPc.wait => 0
  | WorkerPc.woken => 1
  | WorkerPc.run _ => 4
  | WorkerPc.report _ => 3
  | WorkerPc.exited => 0

/-- Number of steps the dispatcher can still take without a signal: the seed
step with the eight jobs it enqueues and the test after it; one test. -/
def dispatcher_weight : DispatcherPc → Nat
  | DispatcherPc.seed => 50
  | DispatcherPc.test => 1
  | DispatcherPc.wait => 0
  | DispatcherPc.done => 0

/-- One when node `p` is `NOT_DISPATCHED`, zero otherwise. -/
def pending_bit (progress_done : List JobStatus) (p : Nat) : Nat :=
  if status_at progress_done p = JobStatus.NOT_DISPATCHED then 1 else 0

/-- Number of internal nodes that are `NOT_DISPATCHED`. -/
def pending_merges (progress_done : List JobStatus) : Nat :=
  pending_bit progress_done 0 + pending_bit progress_done 1 + pending_bit progress_done 2 +
  pending_bit progress_done 3 + pending_bit progress_done 4 + pending_bit progress_done 5 +
  pending_bit progress_done 6

/-- A bound on the number of steps a trial can still take from state `s`. -/
def sched_measure (s : Sched) : Nat :=
  6 * pending_merges s.progress_done + dispatcher_weight s.dispatcher +
  2 * s.jobs_available + 4 * s.queue.length + (s.workers.map worker_weight).sum +
  2 * s.dispatcher_signal + (if s.joined then 0 else 2 * s.workers.length + 1)

/-- State `t` is reached from state `s` by exactly `k` steps. -/
inductive RunLen : Sched → Nat → Sched → Prop where
  | zero (s : Sched) : RunLen s 0 s
  | succ (s t u : Sched) (k : Nat) : RunLen s k t → Step t u → RunLen s (k + 1) u

/-! ## More concrete states -/

/-- The state of a one-worker trial on the sample after the seed phase. -/
def seeded_state : Sched := dispatcher_seed (init_state sample_input sample_scratch 1)

/-- The state in which the worker has dequeued and run the job of leaf `7` and
is about to report it. -/
def leaf_run_state : Sched :=
  worker_run (worker_take (worker_wake seeded_state 0) 0) 0 (seed_job 8 1 0)

/-! ## States and streams for the later theorems -/

/-- A state in which one unit of `jobs_available` is left although the queue is
empty, as the worker's empty-queue branch supposes. -/
def spurious_state : Sched :=
  { init_state sample_input sample_scratch 1 with
    jobs_available := 1, dispatcher := DispatcherPc.wait }

/-- The state of the one-worker sample trial after the cleanup of `main`, with
the job queue artificially left non-empty. -/
def shutdown_state : Sched :=
  main_cleanup { seeded_state with dispatcher := DispatcherPc.done }

/-- An input file announcing three elements whose second data item is text
that cannot begin a numeral, such as `3 5 x 7 9`. -/
def malformed_file : List Token :=
  [Token.int 3, Token.int 5, Token.other, Token.int 7, Token.int 9]

/-- An input file announcing three elements whose second data item is a lone
sign, such as `3 5 - 7 9`. -/
def signed_file : List Token :=
  [Token.int 3, Token.int 5, Token.sign, Token.int 7, Token.int 9]

/-- The value that call number `k` (counted from `0`) of successive calls
`fscanf(file, "%d", &x)` stores, starting with `stream` unread; `none` when
that call fails. -/
def fscanf_nth : Nat → List Token → Option Int
  | 0, stream => (fscanf_int stream).1
  | k + 1, stream => fscanf_nth k (fscanf_int stream).2

/-- The loop variables of `merge` after its three loops. -/
def merge_final (array temp_array : List Int) (start mid end_ : Nat) : MergeVars :=
  let temp_array1 := memcpy_from temp_array array start (end_ - start)
  merge_right temp_array1 end_ (end_ - start)
    (merge_left temp_array1 mid (end_ - start)
      (merge_both temp_array1 mid end_ (end_ - start)
        { array := array, i := start, j := mid, k := start }))

/-- The state of the one-worker sample trial in which the worker has passed
`sem_wait(&jobs_available)` after the seed phase. -/
def woken_state : Sched := worker_wake seeded_state 0

/-! ## The history of the job queue -/

/-- The jobs that a step from `s` to `t` appended at the tail of the queue. -/
def enqueued_by (s t : Sched) : List Job := t.queue.drop s.queue.length

/-- The jobs that a step from `s` to `t` removed from the head of the queue. -/
def dequeued_by (s t : Sched) : List Job :=
  s.queue.take (s.queue.length - t.queue.length)

/-- A trial has reached state `s` having enqueued the jobs `enq` and dequeued
the jobs `deq`, each list in the order of the events. -/
inductive History (input scratch : List Int) (n : Nat) :
    Sched → List Job → List Job → Prop where
  | init : History input scratch n (init_state input scratch n) [] []
  | step (s t : Sched) (enq deq : List Job) : History input scratch n s enq deq →
      Step s t → History input scratch n t (enq ++ enqueued_by s t) (deq ++ dequeued_by s t)

/-- Number of jobs of node `v` in the list `jobs`. -/
def id_count (jobs : List Job) (v : Nat) : Nat :=
  jobs.countP (fun job => decide (job.id = (v : Int)))

/-- One when a worker at `pc` holds a job of node `v`, zero otherwise. -/
def hold_bit (v : Nat) : WorkerPc → Nat
  | WorkerPc.run job => if job.id = (v : Int) then 1 else 0
  | WorkerPc.report job => if job.id = (v : Int) then 1 else 0
  | _ => 0

/-- Number of workers that hold a job of node `v`. -/
def held_count (s : Sched) (v : Nat) : Nat := (s.workers.map (hold_bit v)).sum

/-- One when node `v` is `COMPLETED`, zero otherwise. -/
def done_bit (progress_done : List JobStatus) (v : Nat) : Nat :=
  if status_at progress_done v = JobStatus.COMPLETED then 1 else 0

/-- One when the job of node `v` has not been built yet: a leaf before the seed
loop, an internal node that is `NOT_DISPATCHED`. -/
def fresh_bit (s : Sched) (v : Nat) : Nat :=
  if v ≥ 7 then (if s.dispatcher = DispatcherPc.seed then 1 else 0)
  else pending_bit s.progress_done v

/-- The ledger of a trial on `input` in state `s` with the enqueued jobs `enq`
and the dequeued jobs `deq`: the queue holds the enqueued jobs not yet
dequeued, `job_cnt` counts the enqueued jobs, every enqueued job is the job of
a node, the job of a node is enqueued once unless it has not been built, a
dequeued job is held by a worker or its node is `COMPLETED`, and the variables
read when jobs are built keep their values until shutdown. -/
structure Ledger (input : List Int) (s : Sched) (enq deq : List Job) : Prop where
  fifo : enq = deq ++ s.queue
  cnt : enq.length = s.job_cnt
  jobs : ∀ job, job ∈ enq → ∃ v, v < 15 ∧ job = node_job input.length v
  once : ∀ v, v < 15 → id_count enq v + fresh_bit s v = 1
  taken : ∀ v, v < 15 → id_count deq v = held_count s v + done_bit s.progress_done v
  heldin : ∀ pc job, pc ∈ s.workers → holds pc job → job ∈ deq
  chunk : s.dispatcher ≠ DispatcherPc.seed → s.chunk_size = input.length / NUM_SORT_TASKS
  numel : s.joined = false → s.num_elements = (input.length : Int)
  shut : s.joined = true → s.num_elements = -1
  nowoken : s.joined = true → WorkerPc.woken ∉ s.workers
  total : s.job_cnt + pending_merges s.progress_done +
    (if s.dispatcher = DispatcherPc.seed then 8 else 0) = 15

/-! ## Schedules -/

/-- The moves of the threads of a trial, one for each kind of step of `Step`. -/
inductive Move where
  | seed
  | test
  | scan
  | wake (w : Nat)
  | take (w : Nat)
  | run (w : Nat)
  | report (w : Nat)
  | cleanup
deriving DecidableEq, Repr

/-- The state after move `m` from state `s`, when `Step` enables the move. -/
def perform (s : Sched) : Move → Option Sched
  | Move.seed => if s.dispatcher = DispatcherPc.seed then some (dispatcher_seed s) else none
  | Move.test => if s.dispatcher = DispatcherPc.test then some (dispatcher_test s) else none
  | Move.scan =>
    if s.dispatcher = DispatcherPc.wait ∧ 0 < s.dispatcher_signal then
      some (dispatcher_scan s)
    else none
  | Move.wake w =>
    if s.workers.get? w = some WorkerPc.wait ∧ 0 < s.jobs_available then
      some (worker_wake s w)
    else none
  | Move.take w =>
    if s.workers.get? w = some WorkerPc.woken then some (worker_take s w) else none
  | Move.run w =>
    match s.workers.get? w with
    | some (WorkerPc.run job) => some (worker_run s w job)
    | _ => none
  | Move.report w =>
    match s.workers.get? w with
    | some (WorkerPc.report job) => some (worker_report s w job)
    | _ => none
  | Move.cleanup =>
    if s.dispatcher = DispatcherPc.done ∧ s.joined = false then some (main_cleanup s)
    else none

/-- The state after the moves of a schedule, when each is enabled in turn. -/
def perform_all : Sched → List Move → Option Sched
  | s, [] => some s
  | s, m :: rest =>
    match perform s m with
    | some t => perform_all t rest
    | none => none

/-- The four moves by which worker `w` handles one job. -/
def one_job (w : Nat) : List Move := [Move.wake w, Move.take w, Move.run w, Move.report w]

/-- A schedule of a one-worker trial up to the first dependency scan that
finds a pair of completed leaves: the seed phase, the leaves `7` and `8`, the
test of the dispatcher and one scan. -/
def first_merge_schedule : List Move :=
  [Move.seed] ++ one_job 0 ++ one_job 0 ++ [Move.test, Move.scan]

/-- A schedule of a whole one-worker trial up to the return of the
dispatcher: the eight leaves, then the merges level by level, each level
after the scan that dispatches it. -/
def whole_trial_schedule : List Move :=
  [Move.seed] ++
  one_job 0 ++ one_job 0 ++ one_job 0 ++ one_job 0 ++
  one_job 0 ++ one_job 0 ++ one_job 0 ++ one_job 0 ++
  [Move.test, Move.scan, Move.test] ++
  one_job 0 ++ one_job 0 ++ one_job 0 ++ one_job 0 ++
  [Move.scan, Move.test] ++
  one_job 0 ++ one_job 0 ++
  [Move.scan, Move.test] ++
  one_job 0 ++
  [Move.scan, Move.test]

/-- The state of the one-worker sample trial in which the leaves `7` and `8`
are `COMPLETED` and the scan has dispatched their parent, node `3`. -/
def first_merge_state : Sched :=
  (perform_all (init_state sample_input sample_scratch 1) first_merge_schedule).getD
    (init_state sample_input sample_scratch 1)

/-- The state of the one-worker sample trial in which the dispatcher has
returned. -/
def finished_state : Sched :=
  (perform_all (init_state sample_input sample_scratch 1) whole_trial_schedule).getD
    (init_state sample_input sample_scratch 1)

/-! ## The trial with its mutexes

The steps of `Step` take each critical section as a whole.  In the model
below a step holds at most one blocking call (`sem_wait` or
`pthread_mutex_lock`), as its first action, followed by code that cannot block:
every `pthread_mutex_lock` is a step of its own, so that a thread can be
blocked on a mutex, and the seed loop and the dependency scan are taken one
iteration at a time, so that the workers run while the dispatcher is inside
them. -/

/-- Program counter of the dispatcher thread at the level of its blocking
calls: at line 160, before `chunk_size` is set and `queue_mutex` is locked;
holding `queue_mutex` at the test `i < NUM_SORT_TASKS` of the seed loop; at the
test of the `while` loop;
blocked in `sem_wait(&dispatcher_signal)`; before
`pthread_mutex_lock(&progress_mutex)`; holding `progress_mutex` at the test
`n > 0` of the scan loop; holding `progress_mutex` with the job of the pair `n`
built, before `pthread_mutex_lock(&queue_mutex)`; holding both mutexes before
`add_job(job)`; and returned. -/
inductive LockDispatcherPc where
  | start
  | seeding (i : Nat)
  | test
  | wait
  | enter
  | scan (n : Nat)
  | add (n : Nat) (job : Job)
  | adding (n : Nat) (job : Job)
  | done
deriving DecidableEq, Repr

/-- Program counter of a worker thread at the level of its blocking calls:
blocked in `sem_wait(&jobs_available)`; past the wait and the shutdown test,
before `pthread_mutex_lock(&queue_mutex)`; holding `queue_mutex` at the test
`job_count > 0`; holding a dequeued job before running it; having run it,
before `pthread_mutex_lock(&progress_mutex)`; holding `progress_mutex` before
the job is marked; and returned. -/
inductive LockWorkerPc where
  | wait
  | woken
  | locked
  | run (job : Job)
  | report (job : Job)
  | marking (job : Job)
  | exited
deriving DecidableEq, Repr

/-- The shared variables of one trial, the two mutexes (`true` when locked)
and the program counters of the threads. -/
structure LockSched where
  array : List Int
  temp_array : List Int
  num_elements : Int
  progress_done : List JobStatus
  queue : List Job
  job_count : Nat
  job_cnt : Nat
  jobs_available : Nat
  dispatcher_signal : Nat
  chunk_size : Nat
  queue_mutex : Bool
  progress_mutex : Bool
  dispatcher : LockDispatcherPc
  workers : List LockWorkerPc
  joined : Bool
deriving DecidableEq, Repr

/-- Function `add_job` on the state with mutexes. -/
def lock_add_job (s : LockSched) (job : Job) : LockSched :=
  { s with queue := s.queue ++ [job], job_count := s.job_count + 1,
           job_cnt := s.job_cnt + 1 }

/-- Function `get_job` on the state with mutexes. -/
def lock_get_job (s : LockSched) : Job × LockSched :=
  match s.queue with
  | [] => ({ start := 0, mid := 0, end_ := 0, id := -1 }, s)
  | job :: rest => (job, { s with queue := rest, job_count := s.job_count - 1 })

/-- Dispatcher: `chunk_size = num_elements / NUM_SORT_TASKS`,
`pthread_mutex_lock(&queue_mutex)` and the initialisation `i = 0` of the seed
loop (lines 160-162).  The quotient is that of the natural numbers, which is
the C quotient for `num_elements >= -7`. -/
def lock_seed_enter (s : LockSched) : LockSched :=
  { s with chunk_size := s.num_elements.toNat / NUM_SORT_TASKS, queue_mutex := true,
           dispatcher := LockDispatcherPc.seeding 0 }

/-- Dispatcher: one iteration of the seed loop at loop variable `i`:
`add_job(job)` and `sem_post(&jobs_available)` (lines 163-172); when the test
`i < NUM_SORT_TASKS` fails, `pthread_mutex_unlock(&queue_mutex)`
(line 174). -/
def lock_seed_iter (s : LockSched) (i : Nat) : LockSched :=
  if i < NUM_SORT_TASKS then
    let s1 := lock_add_job s (seed_job s.num_elements.toNat s.chunk_size i)
    { s1 with jobs_available := s1.jobs_available + 1,
              dispatcher := LockDispatcherPc.seeding (i + 1) }
  else { s with queue_mutex := false, dispatcher := LockDispatcherPc.test }

/-- Dispatcher: the test `progress_done[0] != COMPLETED` of the `while` loop
(line 178). -/
def lock_test (s : LockSched) : LockSched :=
  if status_at s.progress_done 0 ≠ JobStatus.COMPLETED then
    { s with dispatcher := LockDispatcherPc.wait }
  else { s with dispatcher := LockDispatcherPc.done }

/-- Dispatcher: `sem_wait(&dispatcher_signal)` returns (line 180). -/
def lock_signal (s : LockSched) : LockSched :=
  { s with dispatcher_signal := s.dispatcher_signal - 1,
           dispatcher := LockDispatcherPc.enter }

/-- Dispatcher: `pthread_mutex_lock(&progress_mutex)` and the initialisation
`n = 13` of the scan loop (lines 183-185). -/
def lock_scan_enter (s : LockSched) : LockSched :=
  { s with progress_mutex := true, dispatcher := LockDispatcherPc.scan 13 }

/-- Dispatcher: one iteration of the scan loop at loop variable `n`, up to the
next blocking call.  When the pair `n`, `n + 1` is ready its parent is marked
`DISPATCHED` and the job is built (lines 186-213); otherwise the loop goes on
with `n - 2`; when the test `n > 0` fails, `progress_mutex` is unlocked
(line 224).  As in `scan_loop`, the truncated `1 - 2` is `0`, which fails the
test as the `-1` of the C variable does. -/
def lock_scan_iter (s : LockSched) (n : Nat) : LockSched :=
  if n > 0 then
    if status_at s.progress_done n = JobStatus.COMPLETED ∧
        status_at s.progress_done (n + 1) = JobStatus.COMPLETED ∧
        status_at s.progress_done ((n - 1) / 2) = JobStatus.NOT_DISPATCHED then
      { s with
        progress_done := s.progress_done.set ((n - 1) / 2) JobStatus.DISPATCHED,
        dispatcher := LockDispatcherPc.add n (scan_job s.num_elements.toNat s.chunk_size n) }
    else { s with dispatcher := LockDispatcherPc.scan (n - 2) }
  else { s with progress_mutex := false, dispatcher := LockDispatcherPc.test }

/-- Dispatcher: `pthread_mutex_lock(&queue_mutex)` inside the scan
(line 214). -/
def lock_add_enter (s : LockSched) (n : Nat) (job : Job) : LockSched :=
  { s with queue_mutex := true, dispatcher := LockDispatcherPc.adding n job }

/-- Dispatcher: `add_job(job)`, `pthread_mutex_unlock(&queue_mutex)`,
`sem_post(&jobs_available)` and the step `n -= 2` of the scan loop
(lines 216-219, 185). -/
def lock_add_body (s : LockSched) (n : Nat) (job : Job) : LockSched :=
  let s1 := lock_add_job s job
  { s1 with queue_mutex := false, jobs_available := s1.jobs_available + 1,
            dispatcher := LockDispatcherPc.scan (n - 2) }

/-- Worker: `sem_wait(&jobs_available)` returns, followed by the test
`if (num_elements == -1) break;` (lines 232-234). -/
def lock_wake (s : LockSched) (w : Nat) : LockSched :=
  let s1 := { s with jobs_available := s.jobs_available - 1 }
  if s1.num_elements = -1 then
    { s1 with workers := s1.workers.set w LockWorkerPc.exited }
  else { s1 with workers := s1.workers.set w LockWorkerPc.woken }

/-- Worker: `pthread_mutex_lock(&queue_mutex)` (line 236). -/
def lock_take_enter (s : LockSched) (w : Nat) : LockSched :=
  { s with queue_mutex := true, workers := s.workers.set w LockWorkerPc.locked }

/-- Worker: the section under `queue_mutex`: `get_job()` when `job_count > 0`,
`pthread_mutex_unlock(&queue_mutex)` on either branch, and the test
`if (job.id == -1) continue;` (lines 237-245, 257). -/
def lock_take_body (s : LockSched) (w : Nat) : LockSched :=
  if s.job_count > 0 then
    let r := lock_get_job s
    if r.1.id = -1 then
      { r.2 with queue_mutex := false, workers := r.2.workers.set w LockWorkerPc.wait }
    else
      { r.2 with queue_mutex := false,
                 workers := r.2.workers.set w (LockWorkerPc.run r.1) }
  else { s with queue_mutex := false, workers := s.workers.set w LockWorkerPc.wait }

/-- Worker: the call of `bubble_sort` or `merge` for the job held
(lines 247-251). -/
def lock_run (s : LockSched) (w : Nat) (job : Job) : LockSched :=
  let mem := exec_job job (s.array, s.temp_array)
  { s with array := mem.1, temp_array := mem.2,
           workers := s.workers.set w (LockWorkerPc.report job) }

/-- Worker: `pthread_mutex_lock(&progress_mutex)` (line 252). -/
def lock_mark_enter (s : LockSched) (w : Nat) (job : Job) : LockSched :=
  { s with progress_mutex := true, workers := s.workers.set w (LockWorkerPc.marking job) }

/-- Worker: `progress_done[job.id] = COMPLETED`,
`pthread_mutex_unlock(&progress_mutex)` and `sem_post(&dispatcher_signal)`
(lines 253-255). -/
def lock_mark_body (s : LockSched) (w : Nat) (job : Job) : LockSched :=
  { s with progress_done := s.progress_done.set job.id.toNat JobStatus.COMPLETED,
           progress_mutex := false,
           dispatcher_signal := s.dispatcher_signal + 1,
           workers := s.workers.set w LockWorkerPc.wait }

/-- Cleanup of `main` after `pthread_join(dispatcher_thread)`:
`num_elements = -1` and one `sem_post(&jobs_available)` per worker
(lines 326-329). -/
def lock_cleanup (s : LockSched) : LockSched :=
  { s with num_elements := -1,
           jobs_available := s.jobs_available + s.workers.length,
           joined := true }

/-- The state of a trial with `n` workers after the initialisation in `main`
(lines 269-280), for the globals `g` left by `read_input_file`: both mutexes
unlocked, both semaphores zero, no thread has run. -/
def lock_trial_state (g : InputVars) (n : Nat) : LockSched :=
  { array := g.array, temp_array := g.temp_array, num_elements := g.num_elements,
    progress_done := List.replicate NUM_TASKS JobStatus.NOT_DISPATCHED,
    queue := [], job_count := 0, job_cnt := 0,
    jobs_available := 0, dispatcher_signal := 0, chunk_size := 0,
    queue_mutex := false, progress_mutex := false,
    dispatcher := LockDispatcherPc.start,
    workers := List.replicate n LockWorkerPc.wait, joined := false }

/-- One step of a thread of the trial.  A `sem_wait` step is enabled only when
the semaphore is positive, a `pthread_mutex_lock` step only when the mutex is
unlocked; every other step is always enabled. -/
inductive LockStep : LockSched → LockSched → Prop where
  | seed_enter (s : LockSched) : s.dispatcher = LockDispatcherPc.start →
      s.queue_mutex = false → LockStep s (lock_seed_enter s)
  | seed_iter (s : LockSched) (i : Nat) : s.dispatcher = LockDispatcherPc.seeding i →
      LockStep s (lock_seed_iter s i)
  | test (s : LockSched) : s.dispatcher = LockDispatcherPc.test → LockStep s (lock_test s)
  | signal (s : LockSched) : s.dispatcher = LockDispatcherPc.wait →
      0 < s.dispatcher_signal → LockStep s (lock_signal s)
  | scan_enter (s : LockSched) : s.dispatcher = LockDispatcherPc.enter →
      s.progress_mutex = false → LockStep s (lock_scan_enter s)
  | scan_iter (s : LockSched) (n : Nat) : s.dispatcher = LockDispatcherPc.scan n →
      LockStep s (lock_scan_iter s n)
  | add_enter (s : LockSched) (n : Nat) (job : Job) :
      s.dispatcher = LockDispatcherPc.add n job → s.queue_mutex = false →
      LockStep s (lock_add_enter s n job)
  | add_body (s : LockSched) (n : Nat) (job : Job) :
      s.dispatcher = LockDispatcherPc.adding n job → LockStep s (lock_add_body s n job)
  | wake (s : LockSched) (w : Nat) : s.workers.get? w = some LockWorkerPc.wait →
      0 < s.jobs_available → LockStep s (lock_wake s w)
  | take_enter (s : LockSched) (w : Nat) : s.workers.get? w = some LockWorkerPc.woken →
      s.queue_mutex = false → LockStep s (lock_take_enter s w)
  | take_body (s : LockSched) (w : Nat) : s.workers.get? w = some LockWorkerPc.locked →
      LockStep s (lock_take_body s w)
  | run (s : LockSched) (w : Nat) (job : Job) :
      s.workers.get? w = some (LockWorkerPc.run job) → LockStep s (lock_run s w job)
  | mark_enter (s : LockSched) (w : Nat) (job : Job) :
      s.workers.get? w = some (LockWorkerPc.report job) → s.progress_mutex = false →
      LockStep s (lock_mark_enter s w job)
  | mark_body (s : LockSched) (w : Nat) (job : Job) :
      s.workers.get? w = some (LockWorkerPc.marking job) →
      LockStep s (lock_mark_body s w job)
  | cleanup (s : LockSched) : s.dispatcher = LockDispatcherPc.done → s.joined = false →
      LockStep s (lock_cleanup s)

/-- The states a trial can reach from the state `s0`. -/
inductive LockReachable (s0 : LockSched) : LockSched → Prop where
  | init : LockReachable s0 s0
  | step (s t : LockSched) : LockReachable s0 s → LockStep s t → LockReachable s0 t

/-- State `t` is reached from state `s` by exactly `k` steps of `LockStep`. -/
inductive LockRunLen : LockSched → Nat → LockSched → Prop where
  | zero (s : LockSched) : LockRunLen s 0 s
  | succ (s t u : LockSched) (k : Nat) : LockRunLen s k t → LockStep t u →
      LockRunLen s (k + 1) u

/-! ## From the trial with mutexes to the steps of `Step` -/

/-- The position of `Step` that a worker position with mutexes stands for. -/
def coarse_worker : LockWorkerPc → WorkerPc
  | LockWorkerPc.wait => WorkerPc.wait
  | LockWorkerPc.woken => WorkerPc.woken
  | LockWorkerPc.locked => WorkerPc.woken
  | LockWorkerPc.run job => WorkerPc.run job
  | LockWorkerPc.report job => WorkerPc.report job
  | LockWorkerPc.marking job => WorkerPc.report job
  | LockWorkerPc.exited => WorkerPc.exited

/-- The position of `Step` that a dispatcher position with mutexes stands
for; a seed loop or a scan under way counts as completed. -/
def coarse_dispatcher : LockDispatcherPc → DispatcherPc
  | LockDispatcherPc.start => DispatcherPc.seed
  | LockDispatcherPc.seeding _ => DispatcherPc.test
  | LockDispatcherPc.test => DispatcherPc.test
  | LockDispatcherPc.wait => DispatcherPc.wait
  | LockDispatcherPc.enter => DispatcherPc.wait
  | LockDispatcherPc.scan _ => DispatcherPc.test
  | LockDispatcherPc.add _ _ => DispatcherPc.test
  | LockDispatcherPc.adding _ _ => DispatcherPc.test
  | LockDispatcherPc.done => DispatcherPc.done

/-- The table `progress_done` after the iterations of the scan loop from loop
variable `n` on. -/
def tail_marks : Nat → List JobStatus → Nat → List JobStatus
  | 0, pd, _ => pd
  | fuel + 1, pd, n =>
    if n > 0 then
      if status_at pd n = JobStatus.COMPLETED ∧ status_at pd (n + 1) = JobStatus.COMPLETED ∧
          status_at pd ((n - 1) / 2) = JobStatus.NOT_DISPATCHED then
        tail_marks fuel (pd.set ((n - 1) / 2) JobStatus.DISPATCHED) (n - 2)
      else tail_marks fuel pd (n - 2)
    else pd

/-- The jobs that the iterations of the scan loop from loop variable `n` on
add to the queue. -/
def tail_jobs (num_elements chunk_size : Nat) : Nat → List JobStatus → Nat → List Job
  | 0, _, _ => []
  | fuel + 1, pd, n =>
    if n > 0 then
      if status_at pd n = JobStatus.COMPLETED ∧ status_at pd (n + 1) = JobStatus.COMPLETED ∧
          status_at pd ((n - 1) / 2) = JobStatus.NOT_DISPATCHED then
        scan_job num_elements chunk_size n ::
          tail_jobs num_elements chunk_size fuel
            (pd.set ((n - 1) / 2) JobStatus.DISPATCHED) (n - 2)
      else tail_jobs num_elements chunk_size fuel pd (n - 2)
    else []

/-- The table `progress_done` once the scan that the dispatcher is in has
been completed. -/
def rest_marks (pc : LockDispatcherPc) (pd : List JobStatus) : List JobStatus :=
  match pc with
  | LockDispatcherPc.scan n => tail_marks n pd n
  | LockDispatcherPc.add n _ => tail_marks (n - 2) pd (n - 2)
  | LockDispatcherPc.adding n _ => tail_marks (n - 2) pd (n - 2)
  | _ => pd

/-- The jobs that the seed loop or the scan that the dispatcher is in has yet
to add. -/
def rest_jobs (pc : LockDispatcherPc) (num_elements chunk_size : Nat)
    (pd : List JobStatus) : List Job :=
  match pc with
  | LockDispatcherPc.seeding i =>
    (List.range' i (NUM_SORT_TASKS - i)).map (seed_job num_elements chunk_size)
  | LockDispatcherPc.scan n => tail_jobs num_elements chunk_size n pd n
  | LockDispatcherPc.add n job => job :: tail_jobs num_elements chunk_size (n - 2) pd (n - 2)
  | LockDispatcherPc.adding n job =>
    job :: tail_jobs num_elements chunk_size (n - 2) pd (n - 2)
  | _ => []

/-- The state of `Step` that a state with mutexes stands for: the positions
are those of `coarse_worker` and `coarse_dispatcher`, a seed loop or a scan
under way is completed, a `sem_wait(&dispatcher_signal)` whose scan has not
begun is not counted, and `chunk_size` is not yet set at the start. -/
def coarse (s : LockSched) : Sched :=
  { array := s.array, temp_array := s.temp_array, num_elements := s.num_elements,
    progress_done := rest_marks s.dispatcher s.progress_done,
    queue := s.queue ++
      rest_jobs s.dispatcher s.num_elements.toNat s.chunk_size s.progress_done,
    job_count := s.job_count +
      (rest_jobs s.dispatcher s.num_elements.toNat s.chunk_size s.progress_done).length,
    job_cnt := s.job_cnt +
      (rest_jobs s.dispatcher s.num_elements.toNat s.chunk_size s.progress_done).length,
    jobs_available := s.jobs_available +
      (rest_jobs s.dispatcher s.num_elements.toNat s.chunk_size s.progress_done).length,
    dispatcher_signal := s.dispatcher_signal +
      (if s.dispatcher = LockDispatcherPc.enter then 1 else 0),
    chunk_size := if s.dispatcher = LockDispatcherPc.start then 0 else s.chunk_size,
    dispatcher := coarse_dispatcher s.dispatcher,
    workers := s.workers.map coarse_worker,
    joined := s.joined }

/-- One when the dispatcher at `pc` holds `queue_mutex`, zero otherwise. -/
def dispatcher_holds_queue : LockDispatcherPc → Nat
  | LockDispatcherPc.seeding _ => 1
  | LockDispatcherPc.adding _ _ => 1
  | _ => 0

/-- One when the dispatcher at `pc` holds `progress_mutex`, zero otherwise. -/
def dispatcher_holds_progress : LockDispatcherPc → Nat
  | LockDispatcherPc.scan _ => 1
  | LockDispatcherPc.add _ _ => 1
  | LockDispatcherPc.adding _ _ => 1
  | _ => 0

/-- One when a worker at `pc` holds `queue_mutex`, zero otherwise. -/
def worker_holds_queue : LockWorkerPc → Nat
  | LockWorkerPc.locked => 1
  | _ => 0

/-- One when a worker at `pc` holds `progress_mutex`, zero otherwise. -/
def worker_holds_progress : LockWorkerPc → Nat
  | LockWorkerPc.marking _ => 1
  | _ => 0

/-- Number of threads that hold `queue_mutex`. -/
def queue_holders (s : LockSched) : Nat :=
  dispatcher_holds_queue s.dispatcher + (s.workers.map worker_holds_queue).sum

/-- Number of threads that hold `progress_mutex`. -/
def progress_holders (s : LockSched) : Nat :=
  dispatcher_holds_progress s.dispatcher + (s.workers.map worker_holds_progress).sum

/-- Invariant of the trial with mutexes on `input`: the state of `Step` it
stands for is reachable by `Step`, each mutex is locked exactly when one thread
is inside a section it guards, and a job is built only inside the scan
loop. -/
structure LockInv (input scratch : List Int) (n : Nat) (s : LockSched) : Prop where
  reach : Reachable input scratch n (coarse s)
  qhold : queue_holders s = if s.queue_mutex = true then 1 else 0
  phold : progress_holders s = if s.progress_mutex = true then 1 else 0
  addpos : ∀ k job, s.dispatcher = LockDispatcherPc.add k job ∨
    s.dispatcher = LockDispatcherPc.adding k job → 0 < k

/-- Number of steps the dispatcher at `pc` can take inside one step of `Step`. -/
def lock_dispatcher_weight : LockDispatcherPc → Nat
  | LockDispatcherPc.start => 0
  | LockDispatcherPc.seeding i => NUM_SORT_TASKS - i + 1
  | LockDispatcherPc.test => 0
  | LockDispatcherPc.wait => 1
  | LockDispatcherPc.enter => 0
  | LockDispatcherPc.scan n => 4 * n + 1
  | LockDispatcherPc.add n _ => 4 * n
  | LockDispatcherPc.adding n _ => 4 * n - 1
  | LockDispatcherPc.done => 0

/-- Number of steps a worker at `pc` can take inside one step of `Step`. -/
def lock_worker_weight : LockWorkerPc → Nat
  | LockWorkerPc.woken => 1
  | LockWorkerPc.report _ => 1
  | _ => 0

/-- Number of steps the threads can take inside the steps of `Step` they are
in. -/
def lock_weight (s : LockSched) : Nat :=
  lock_dispatcher_weight s.dispatcher + (s.workers.map lock_worker_weight).sum

/-- A bound on the number of steps a trial with mutexes can still take. -/
def lock_measure (s : LockSched) : Nat :=
  60 * sched_measure (coarse s) + lock_weight s

/-! ## Concrete trials with mutexes -/

/-- The state after the nine steps of the seed loop, eight iterations and the
exit, from the state `s` in which the dispatcher is at `seeding 0`. -/
def lock_seeded (s : LockSched) : LockSched :=
  lock_seed_iter (lock_seed_iter (lock_seed_iter (lock_seed_iter (lock_seed_iter
    (lock_seed_iter (lock_seed_iter (lock_seed_iter (lock_seed_iter s 0) 1) 2) 3) 4) 5) 6) 7) 8

/-- An input file whose count is `-1`. -/
def negative_count_file : List Token := [Token.int (-1)]

/-- The globals that `read_input_file` leaves for `negative_count_file`. -/
def negative_count_vars : InputVars :=
  (read_input_file (some negative_count_file)
    { num_elements := 0, array := [], temp_array := [] } (fun _ => 0) (fun _ => 0)).2

/-- The state of the one-worker trial on `negative_count_file` after the seed
phase, the first test of the dispatcher and the first wake-up of the worker. -/
def deadlocked_state : LockSched :=
  lock_wake (lock_test (lock_seeded (lock_seed_enter
    (lock_trial_state negative_count_vars 1)))) 0

/-- The input file of the sample: the count `8` and the eight elements. -/
def sample_file : List Token := Token.int 8 :: sample_input.map Token.int

/-- The globals that `read_input_file` leaves for `sample_file`. -/
def sample_vars : InputVars :=
  (read_input_file (some sample_file)
    { num_elements := 0, array := [], temp_array := [] } (fun _ => 0) (fun _ => 0)).2

/-- The state of the two-worker trial on the sample in which worker `0` holds
`queue_mutex` and worker `1` is about to lock it. -/
def contended_state : LockSched :=
  lock_take_enter (lock_wake (lock_wake (lock_seeded (lock_seed_enter
    (lock_trial_state sample_vars 2))) 0) 1) 0

/-! ## Lemmas on the array kernels -/

theorem getD_set_eq (a : List Int) (i k : Nat) (v : Int) :
    (a.set i v).getD k 0 = if i = k ∧ i < a.length then v else a.getD k 0 := by
  simp only [List.getD_eq_getElem?_getD, List.getElem?_set]
  by_cases h : i = k
  · subst h
    by_cases h2 : i < a.length
    · simp [h2]
    · simp [h2]
      rw [List.getElem?_eq_none (by omega)]; rfl
  · simp [h]

theorem bubble_step_length (a : List Int) (j : Nat) : (bubble_step a j).length = a.length := by
  unfold bubble_step; split <;> simp

theorem bubble_step_getD (a : List Int) (j k : Nat) (hj : j + 1 < a.length) :
    (bubble_step a j).getD k 0 =
      if k = j then min (a.getD j 0) (a.getD (j + 1) 0)
      else if k = j + 1 then max (a.getD j 0) (a.getD (j + 1) 0)
      else a.getD k 0 := by
  have hj0 : j < a.length := by omega
  by_cases hc : a.getD j 0 > a.getD (j + 1) 0
  · have : bubble_step a j = (a.set j (a.getD (j + 1) 0)).set (j + 1) (a.getD j 0) := by
      unfold bubble_step; exact if_pos hc
    rw [this, getD_set_eq, getD_set_eq, List.length_set]
    by_cases h1 : k = j
    · subst h1
      rw [if_neg (by omega), if_pos ⟨rfl, hj0⟩, if_pos rfl]; omega
    · by_cases h2 : k = j + 1
      · subst h2
        rw [if_pos ⟨rfl, hj⟩, if_neg h1, if_pos rfl]; omega
      · rw [if_neg (by omega), if_neg (by omega), if_neg h1, if_neg h2]
  · have : bubble_step a j = a := by unfold bubble_step; exact if_neg hc
    rw [this]
    by_cases h1 : k = j
    · subst h1; rw [if_pos rfl]; omega
    · by_cases h2 : k = j + 1
      · subst h2; rw [if_neg h1, if_pos rfl]; omega
      · rw [if_neg h1, if_neg h2]

theorem swap_perm (a : List Int) (j : Nat) (hj : j + 1 < a.length) :
    ((a.set j (a.getD (j + 1) 0)).set (j + 1) (a.getD j 0)).Perm a := by
  induction a generalizing j with
  | nil => simp at hj
  | cons x t ih =>
    cases j with
    | zero =>
      cases t with
      | nil => simp at hj
      | cons y t2 => simpa using List.Perm.swap x y t2
    | succ j2 =>
      have := ih j2 (by simpa using hj)
      simpa using this

theorem bubble_step_perm (a : List Int) (j : Nat) (hj : j + 1 < a.length) :
    (bubble_step a j).Perm a := by
  unfold bubble_step
  split
  · exact swap_perm a j hj
  · exact List.Perm.refl _

theorem bubble_inner_length (a : List Int) (j trips : Nat) :
    (bubble_inner a j trips).length = a.length := by
  induction trips generalizing a j with
  | zero => rfl
  | succ t ih => simp [bubble_inner, ih, bubble_step_length]

theorem bubble_inner_perm (a : List Int) (j trips : Nat) (h : j + trips < a.length) :
    (bubble_inner a j trips).Perm a := by
  induction trips generalizing a j with
  | zero => exact List.Perm.refl _
  | succ t ih =>
    have h1 := ih (bubble_step a j) (j + 1) (by rw [bubble_step_length]; omega)
    exact h1.trans (bubble_step_perm a j (by omega))

theorem bubble_inner_frame (a : List Int) (j trips k : Nat) (h : j + trips < a.length)
    (hk : k < j ∨ j + trips < k) :
    (bubble_inner a j trips).getD k 0 = a.getD k 0 := by
  induction trips generalizing a j with
  | zero => rfl
  | succ t ih =>
    show (bubble_inner (bubble_step a j) (j + 1) t).getD k 0 = _
    rw [ih (bubble_step a j) (j + 1) (by rw [bubble_step_length]; omega) (by omega),
      bubble_step_getD a j k (by omega), if_neg (by omega), if_neg (by omega)]

theorem bubble_inner_forall (P : Int → Prop) (lo hi : Nat) (a : List Int) (j trips : Nat)
    (h : j + trips < a.length) (hlo : lo ≤ j) (hhi : j + trips ≤ hi)
    (hP : ∀ k, lo ≤ k → k ≤ hi → P (a.getD k 0)) :
    ∀ k, lo ≤ k → k ≤ hi → P ((bubble_inner a j trips).getD k 0) := by
  induction trips generalizing a j with
  | zero => exact hP
  | succ t ih =>
    apply ih (bubble_step a j) (j + 1) (by rw [bubble_step_length]; omega) (by omega) (by omega)
    intro k h1 h2
    rw [bubble_step_getD a j k (by omega)]
    split_ifs with c1 c2
    · rcases min_choice (a.getD j 0) (a.getD (j + 1) 0) with e | e <;> rw [e]
      · exact hP j (by omega) (by omega)
      · exact hP (j + 1) (by omega) (by omega)
    · rcases max_choice (a.getD j 0) (a.getD (j + 1) 0) with e | e <;> rw [e]
      · exact hP j (by omega) (by omega)
      · exact hP (j + 1) (by omega) (by omega)
    · exact hP k h1 h2

theorem bubble_inner_max (s : Nat) (a : List Int) (j trips : Nat)
    (h : j + trips < a.length)
    (hmax : ∀ k, s ≤ k → k ≤ j → a.getD k 0 ≤ a.getD j 0) :
    ∀ k, s ≤ k → k ≤ j + trips →
      (bubble_inner a j trips).getD k 0 ≤ (bubble_inner a j trips).getD (j + trips) 0 := by
  induction trips generalizing a j with
  | zero => exact hmax
  | succ t ih =>
    have := ih (bubble_step a j) (j + 1) (by rw [bubble_step_length]; omega) (by
      intro k h1 h2
      have e2 : (bubble_step a j).getD (j + 1) 0 = max (a.getD j 0) (a.getD (j + 1) 0) := by
        rw [bubble_step_getD a j (j + 1) (by omega), if_neg (by omega), if_pos rfl]
      rw [e2, bubble_step_getD a j k (by omega)]
      split_ifs with c1 c2
      · omega
      · omega
      · have := hmax k h1 (by omega)
        omega)
    intro k h1 h2
    have h3 := this k h1 (by omega)
    rw [show j + (t + 1) = j + 1 + t by omega]
    exact h3


theorem bubble_outer_length (s e : Nat) (a : List Int) (i trips : Nat) :
    (bubble_outer s e a i trips).length = a.length := by
  induction trips generalizing a i with
  | zero => rfl
  | succ t ih => simp [bubble_outer, ih, bubble_inner_length]

theorem bubble_outer_perm (s e : Nat) (a : List Int) (i trips : Nat)
    (he : e ≤ a.length) (hs : s ≤ i) :
    (bubble_outer s e a i trips).Perm a := by
  induction trips generalizing a i with
  | zero => exact List.Perm.refl _
  | succ t ih =>
    show (bubble_outer s e (bubble_inner a s (e - 1 - (i - s) - s)) (i + 1) t).Perm a
    by_cases hz : e - 1 - (i - s) - s = 0
    · rw [hz]; exact ih a (i + 1) he (by omega)
    · have h1 := ih (bubble_inner a s (e - 1 - (i - s) - s)) (i + 1)
        (by rw [bubble_inner_length]; exact he) (by omega)
      exact h1.trans (bubble_inner_perm a s _ (by omega))

theorem bubble_outer_frame (s e : Nat) (a : List Int) (i trips k : Nat)
    (he : e ≤ a.length) (hs : s ≤ i) (hk : k < s ∨ e ≤ k) :
    (bubble_outer s e a i trips).getD k 0 = a.getD k 0 := by
  induction trips generalizing a i with
  | zero => rfl
  | succ t ih =>
    show (bubble_outer s e (bubble_inner a s (e - 1 - (i - s) - s)) (i + 1) t).getD k 0 = _
    by_cases hz : e - 1 - (i - s) - s = 0
    · rw [hz]; exact ih a (i + 1) he (by omega)
    · rw [ih (bubble_inner a s (e - 1 - (i - s) - s)) (i + 1)
        (by rw [bubble_inner_length]; exact he) (by omega)]
      exact bubble_inner_frame a s _ k (by omega) (by omega)

theorem bubble_outer_ordered (s e : Nat) (a : List Int) (i trips : Nat)
    (he : e ≤ a.length) (hs : s ≤ i) (hi : i + trips = e - 1)
    (hinv : suffix_ordered a s e (e - (i - s))) :
    suffix_ordered (bubble_outer s e a i trips) s e (s + 1) := by
  induction trips generalizing a i with
  | zero =>
    intro k l h1 h2 h3 h4
    exact hinv k l h1 h2 h3 (by omega)
  | succ t ih =>
    show suffix_ordered (bubble_outer s e (bubble_inner a s (e - 1 - (i - s) - s)) (i + 1) t) s e (s + 1)
    apply ih _ (i + 1) (by rw [bubble_inner_length]; exact he) (by omega) (by omega)
    have hb : s + (e - 1 - (i - s) - s) = e - 1 - (i - s) := by omega
    have hlt : s + (e - 1 - (i - s) - s) < a.length := by omega
    intro k l h1 h2 h3 h4
    by_cases hl : e - (i - s) ≤ l
    · -- the upper index is in the part not touched by this pass
      rw [bubble_inner_frame a s _ l hlt (by omega)]
      by_cases hk : k ≤ e - 1 - (i - s)
      · exact bubble_inner_forall (fun x => x ≤ a.getD l 0) s (e - 1 - (i - s)) a s _ hlt
          (le_refl _) (by omega) (fun k2 h5 h6 => hinv k2 l h5 (by omega) h3 hl) k h1 hk
      · rw [bubble_inner_frame a s _ k hlt (by omega)]
        exact hinv k l h1 h2 h3 hl
    · have hl2 : l = s + (e - 1 - (i - s) - s) := by omega
      rw [hl2]
      exact bubble_inner_max s a s _ hlt (fun k2 h5 h6 => by
        have : k2 = s := by omega
        rw [this]) k h1 (by omega)

theorem slice_length (a : List Int) (s e : Nat) (he : e ≤ a.length) :
    (slice a s e).length = e - s := by
  simp [slice]; omega

theorem slice_getD (a : List Int) (s e k : Nat) (hk : k < e - s) :
    (slice a s e).getD k 0 = a.getD (s + k) 0 := by
  simp [slice, List.getD_eq_getElem?_getD, List.getElem?_take, hk]

theorem eq_of_getD (a b : List Int) (hl : a.length = b.length)
    (h : ∀ k, k < a.length → a.getD k 0 = b.getD k 0) : a = b := by
  apply List.ext_getElem hl
  intro n h1 h2
  have := h n h1
  simpa [List.getD_eq_getElem?_getD, List.getElem?_eq_getElem h1, List.getElem?_eq_getElem h2]
    using this

theorem split_three (a : List Int) (s e : Nat) (hs : s ≤ e) :
    a = a.take s ++ (slice a s e ++ a.drop e) := by
  have h1 : a.drop e = (a.drop s).drop (e - s) := by
    rw [List.drop_drop]; congr 1; omega
  rw [slice, h1, List.take_append_drop, List.take_append_drop]

theorem sorted_slice_of_ordered (a : List Int) (s e : Nat) (he : e ≤ a.length)
    (h : suffix_ordered a s e (s + 1)) : (slice a s e).Sorted (· ≤ ·) := by
  unfold List.Sorted
  rw [List.pairwise_iff_getElem]
  intro i j hi hj hij
  rw [slice_length a s e he] at hi hj
  have e1 := slice_getD a s e i hi
  have e2 := slice_getD a s e j hj
  rw [List.getD_eq_getElem _ _ (by rw [slice_length a s e he]; exact hi)] at e1
  rw [List.getD_eq_getElem _ _ (by rw [slice_length a s e he]; exact hj)] at e2
  rw [e1, e2]
  exact h (s + i) (s + j) (by omega) (by omega) (by omega) (by omega)

theorem ordered_of_sorted_slice (a : List Int) (s e : Nat) (he : e ≤ a.length)
    (h : (slice a s e).Sorted (· ≤ ·)) : suffix_ordered a s e 0 := by
  unfold List.Sorted at h
  rw [List.pairwise_iff_getElem] at h
  intro k l h1 h2 h3 _
  have hi : k - s < (slice a s e).length := by rw [slice_length a s e he]; omega
  have hj : l - s < (slice a s e).length := by rw [slice_length a s e he]; omega
  have := h (k - s) (l - s) hi hj (by omega)
  have e1 := slice_getD a s e (k - s) (by omega)
  have e2 := slice_getD a s e (l - s) (by omega)
  rw [List.getD_eq_getElem _ _ hi] at e1
  rw [List.getD_eq_getElem _ _ hj] at e2
  rw [e1, e2, show s + (k - s) = k by omega, show s + (l - s) = l by omega] at this
  exact this

theorem take_eq_of_frame (a b : List Int) (s : Nat) (hl : a.length = b.length)
    (h : ∀ k, k < s → a.getD k 0 = b.getD k 0) : a.take s = b.take s := by
  apply eq_of_getD
  · simp [hl]
  · intro k hk
    simp only [List.length_take] at hk
    simp only [List.getD_eq_getElem?_getD, List.getElem?_take]
    have := h k (by omega)
    simp only [List.getD_eq_getElem?_getD] at this
    simp [show k < s by omega, this]

theorem drop_eq_of_frame (a b : List Int) (e : Nat) (hl : a.length = b.length)
    (h : ∀ k, e ≤ k → a.getD k 0 = b.getD k 0) : a.drop e = b.drop e := by
  apply eq_of_getD
  · simp [hl]
  · intro k _
    have := h (e + k) (by omega)
    simpa [List.getD_eq_getElem?_getD] using this

theorem slice_perm_of_frame (a b : List Int) (s e : Nat) (hs : s ≤ e)
    (hl : a.length = b.length)
    (hf : ∀ k, k < s ∨ e ≤ k → a.getD k 0 = b.getD k 0) (hp : a.Perm b) :
    (slice a s e).Perm (slice b s e) := by
  have ha := split_three a s e hs
  have hb := split_three b s e hs
  rw [ha, hb, take_eq_of_frame a b s hl (fun k hk => hf k (Or.inl hk)),
    drop_eq_of_frame a b e hl (fun k hk => hf k (Or.inr hk))] at hp
  exact (List.perm_append_right_iff _).1 ((List.perm_append_left_iff _).1 hp)

theorem bubble_sort_length (a : List Int) (s e : Nat) : (bubble_sort a s e).length = a.length :=
  bubble_outer_length s e a s _

theorem bubble_sort_frame (a : List Int) (s e k : Nat) (he : e ≤ a.length)
    (hk : k < s ∨ e ≤ k) : (bubble_sort a s e).getD k 0 = a.getD k 0 :=
  bubble_outer_frame s e a s _ k he (le_refl _) hk

theorem bubble_sort_perm (a : List Int) (s e : Nat) (he : e ≤ a.length) :
    (bubble_sort a s e).Perm a :=
  bubble_outer_perm s e a s _ he (le_refl _)

theorem bubble_sort_ordered (a : List Int) (s e : Nat) (hs : s ≤ e) (he : e ≤ a.length) :
    suffix_ordered (bubble_sort a s e) s e (s + 1) := by
  by_cases h : s = e
  · intro k l h1 h2 h3 _; omega
  · apply bubble_outer_ordered s e a s _ he (le_refl _) (by omega)
    intro k l h1 h2 h3 h4
    omega

theorem bubble_sort_sorted_perm (array : List Int) (start end_ : Nat)
    (h1 : start ≤ end_) (h2 : end_ ≤ array.length) :
    (slice (bubble_sort array start end_) start end_).Sorted (· ≤ ·) ∧
    (slice (bubble_sort array start end_) start end_).Perm (slice array start end_) :=
  ⟨sorted_slice_of_ordered _ _ _ (by rw [bubble_sort_length]; exact h2)
      (bubble_sort_ordered array start end_ h1 h2),
   slice_perm_of_frame _ _ _ _ h1 (bubble_sort_length _ _ _)
      (fun k hk => bubble_sort_frame array start end_ k h2 hk)
      (bubble_sort_perm array start end_ h2)⟩

theorem left_biased_merge_nil_right (l : List Int) : left_biased_merge l [] = l := by
  cases l <;> simp [left_biased_merge]

theorem left_biased_merge_perm (l r : List Int) : (left_biased_merge l r).Perm (l ++ r) := by
  induction l generalizing r with
  | nil => simp [left_biased_merge]
  | cons x l ihl =>
    induction r with
    | nil => simp [left_biased_merge]
    | cons y r ihr =>
      rw [left_biased_merge]
      split
      · exact (ihl (y :: r)).cons x
      · refine (ihr.cons y).trans ?_
        exact List.perm_middle.symm

theorem left_biased_merge_sorted (l r : List Int) (hl : l.Sorted (· ≤ ·))
    (hr : r.Sorted (· ≤ ·)) : (left_biased_merge l r).Sorted (· ≤ ·) := by
  induction l generalizing r with
  | nil => simpa [left_biased_merge] using hr
  | cons x l ihl =>
    induction r with
    | nil => simpa [left_biased_merge] using hl
    | cons y r ihr =>
      rw [left_biased_merge]
      have hl2 := List.sorted_cons.1 hl
      have hr2 := List.sorted_cons.1 hr
      split
      · rename_i hxy
        refine List.sorted_cons.2 ⟨?_, ihl (y :: r) hl2.2 hr⟩
        intro b hb
        rcases List.mem_append.1 ((left_biased_merge_perm l (y :: r)).mem_iff.1 hb) with h | h
        · exact hl2.1 b h
        · rcases List.mem_cons.1 h with h | h
          · rw [h]; exact hxy
          · exact le_trans hxy (hr2.1 b h)
      · rename_i hxy
        refine List.sorted_cons.2 ⟨?_, ihr hr2.2⟩
        intro b hb
        rcases List.mem_append.1 ((left_biased_merge_perm (x :: l) r).mem_iff.1 hb) with h | h
        · rcases List.mem_cons.1 h with h | h
          · rw [h]; omega
          · have := hl2.1 b h; omega
        · exact hr2.1 b h

theorem slice_cons (a : List Int) (s e : Nat) (hs : s < e) (he : e ≤ a.length) :
    slice a s e = a.getD s 0 :: slice a (s + 1) e := by
  apply eq_of_getD
  · rw [List.length_cons, slice_length a s e he, slice_length a (s + 1) e he]; omega
  · intro k hk
    rw [slice_length a s e he] at hk
    rw [slice_getD a s e k hk]
    cases k with
    | zero => rfl
    | succ k =>
      rw [List.getD_cons_succ, slice_getD a (s + 1) e k (by omega)]
      congr 1; omega

theorem slice_empty (a : List Int) (s e : Nat) (h : e ≤ s) : slice a s e = [] := by
  simp [slice, show e - s = 0 by omega]

theorem memcpy_from_length (dst src : List Int) (off cnt : Nat) :
    (memcpy_from dst src off cnt).length = dst.length := by
  induction cnt generalizing dst off with
  | zero => rfl
  | succ c ih => simp [memcpy_from, ih]

theorem memcpy_from_getD (dst src : List Int) (off cnt x : Nat)
    (h : off + cnt ≤ dst.length) :
    (memcpy_from dst src off cnt).getD x 0 =
      if off ≤ x ∧ x < off + cnt then src.getD x 0 else dst.getD x 0 := by
  induction cnt generalizing dst off with
  | zero =>
    show dst.getD x 0 = _
    rw [if_neg (by omega)]
  | succ c ih =>
    show (memcpy_from (dst.set off (src.getD off 0)) src (off + 1) c).getD x 0 = _
    rw [ih _ _ (by rw [List.length_set]; omega), getD_set_eq]
    by_cases h1 : off = x
    · subst h1
      rw [if_neg (by omega), if_pos ⟨rfl, by omega⟩, if_pos (by omega)]
    · by_cases h2 : off + 1 ≤ x ∧ x < off + 1 + c
      · rw [if_pos h2, if_pos (by omega)]
      · rw [if_neg h2, if_neg (by omega), if_neg (by omega)]

theorem merge_left_spec (T : List Int) (mid : Nat) (fuel : Nat) (v : MergeVars)
    (hf : mid - v.i ≤ fuel) (hk : v.k + (mid - v.i) ≤ v.array.length) :
    (merge_left T mid fuel v).array.length = v.array.length ∧
    (merge_left T mid fuel v).j = v.j ∧
    (merge_left T mid fuel v).k = v.k + (mid - v.i) ∧
    ∀ x, (merge_left T mid fuel v).array.getD x 0 =
      if v.k ≤ x ∧ x < v.k + (mid - v.i) then T.getD (v.i + (x - v.k)) 0
      else v.array.getD x 0 := by
  induction fuel generalizing v with
  | zero =>
    refine ⟨rfl, rfl, ?_, ?_⟩
    · show v.k = _; omega
    · intro x; show v.array.getD x 0 = _; rw [if_neg (by omega)]
  | succ f ih =>
    by_cases hc : v.i < mid
    · have hu : merge_left T mid (f + 1) v = merge_left T mid f
          { array := v.array.set v.k (T.getD v.i 0), i := v.i + 1, j := v.j, k := v.k + 1 } := by
        rw [merge_left, if_pos hc]
      rw [hu]
      obtain ⟨h1, h2, h3, h4⟩ := ih
        { array := v.array.set v.k (T.getD v.i 0), i := v.i + 1, j := v.j, k := v.k + 1 }
        (by show mid - (v.i + 1) ≤ f; omega)
        (by show v.k + 1 + (mid - (v.i + 1)) ≤ (v.array.set v.k _).length
            rw [List.length_set]; omega)
      refine ⟨by rw [h1]; exact List.length_set _ _ _, h2, by rw [h3]; show v.k + 1 + (mid - (v.i + 1)) = _; omega, ?_⟩
      intro x
      rw [h4 x]
      show (if v.k + 1 ≤ x ∧ x < v.k + 1 + (mid - (v.i + 1)) then T.getD (v.i + 1 + (x - (v.k + 1))) 0
        else (v.array.set v.k (T.getD v.i 0)).getD x 0) = _
      rw [getD_set_eq]
      by_cases hx : v.k = x
      · rw [if_neg (by omega), if_pos ⟨hx, by omega⟩, if_pos (by omega)]
        congr 1; omega
      · by_cases h5 : v.k + 1 ≤ x ∧ x < v.k + 1 + (mid - (v.i + 1))
        · rw [if_pos h5, if_pos (by omega)]; congr 1; omega
        · rw [if_neg h5, if_neg (by omega), if_neg (by omega)]
    · have hu : merge_left T mid (f + 1) v = v := by rw [merge_left, if_neg hc]
      rw [hu]
      refine ⟨rfl, rfl, by omega, ?_⟩
      intro x; rw [if_neg (by omega)]

theorem merge_right_spec (T : List Int) (end_ : Nat) (fuel : Nat) (v : MergeVars)
    (hf : end_ - v.j ≤ fuel) (hk : v.k + (end_ - v.j) ≤ v.array.length) :
    (merge_right T end_ fuel v).array.length = v.array.length ∧
    ∀ x, (merge_right T end_ fuel v).array.getD x 0 =
      if v.k ≤ x ∧ x < v.k + (end_ - v.j) then T.getD (v.j + (x - v.k)) 0
      else v.array.getD x 0 := by
  induction fuel generalizing v with
  | zero =>
    refine ⟨rfl, ?_⟩
    intro x; show v.array.getD x 0 = _; rw [if_neg (by omega)]
  | succ f ih =>
    by_cases hc : v.j < end_
    · have hu : merge_right T end_ (f + 1) v = merge_right T end_ f
          { array := v.array.set v.k (T.getD v.j 0), i := v.i, j := v.j + 1, k := v.k + 1 } := by
        rw [merge_right, if_pos hc]
      rw [hu]
      obtain ⟨h1, h4⟩ := ih
        { array := v.array.set v.k (T.getD v.j 0), i := v.i, j := v.j + 1, k := v.k + 1 }
        (by show end_ - (v.j + 1) ≤ f; omega)
        (by show v.k + 1 + (end_ - (v.j + 1)) ≤ (v.array.set v.k _).length
            rw [List.length_set]; omega)
      refine ⟨by rw [h1]; exact List.length_set _ _ _, ?_⟩
      intro x
      rw [h4 x]
      show (if v.k + 1 ≤ x ∧ x < v.k + 1 + (end_ - (v.j + 1)) then T.getD (v.j + 1 + (x - (v.k + 1))) 0
        else (v.array.set v.k (T.getD v.j 0)).getD x 0) = _
      rw [getD_set_eq]
      by_cases hx : v.k = x
      · rw [if_neg (by omega), if_pos ⟨hx, by omega⟩, if_pos (by omega)]
        congr 1; omega
      · by_cases h5 : v.k + 1 ≤ x ∧ x < v.k + 1 + (end_ - (v.j + 1))
        · rw [if_pos h5, if_pos (by omega)]; congr 1; omega
        · rw [if_neg h5, if_neg (by omega), if_neg (by omega)]
    · have hu : merge_right T end_ (f + 1) v = v := by rw [merge_right, if_neg hc]
      rw [hu]
      refine ⟨rfl, ?_⟩
      intro x; rw [if_neg (by omega)]

theorem merge_tail_spec (T : List Int) (mid end_ f2 f3 : Nat) (v : MergeVars)
    (hi : v.i ≤ mid) (hj : v.j ≤ end_) (hc : ¬ (v.i < mid ∧ v.j < end_))
    (h2 : mid - v.i ≤ f2) (h3 : end_ - v.j ≤ f3)
    (hk : v.k + (mid - v.i) + (end_ - v.j) ≤ v.array.length) :
    (merge_right T end_ f3 (merge_left T mid f2 v)).array.length = v.array.length ∧
    ∀ x, (merge_right T end_ f3 (merge_left T mid f2 v)).array.getD x 0 =
      if v.k ≤ x ∧ x < v.k + (mid - v.i) + (end_ - v.j) then
        (left_biased_merge (slice T v.i mid) (slice T v.j end_)).getD (x - v.k) 0
      else v.array.getD x 0 := by
  obtain ⟨l1, l2, l3, l4⟩ := merge_left_spec T mid f2 v h2 (by omega)
  obtain ⟨r1, r4⟩ := merge_right_spec T end_ f3 (merge_left T mid f2 v)
    (by rw [l2]; exact h3) (by rw [l1, l2, l3]; omega)
  refine ⟨by rw [r1, l1], ?_⟩
  intro x
  rw [r4 x, l2, l3, l4 x]
  by_cases hmi : v.i < mid
  · have hje : end_ - v.j = 0 := by omega
    rw [slice_empty T v.j end_ (by omega), left_biased_merge_nil_right, hje]
    rw [if_neg (by omega)]
    by_cases hx : v.k ≤ x ∧ x < v.k + (mid - v.i)
    · rw [if_pos hx, if_pos (by omega), slice_getD T v.i mid _ (by omega)]
    · rw [if_neg hx, if_neg (by omega)]
  · have hie : mid - v.i = 0 := by omega
    rw [slice_empty T v.i mid (by omega), hie]
    have : left_biased_merge [] (slice T v.j end_) = slice T v.j end_ := by
      rw [left_biased_merge]
    rw [this]
    by_cases hx : v.k + 0 ≤ x ∧ x < v.k + 0 + (end_ - v.j)
    · rw [if_pos hx, if_pos (by omega), slice_getD T v.j end_ _ (by omega)]
      congr 1
    · rw [if_neg hx, if_neg (by omega), if_neg (by omega)]

theorem merge_loops_spec (T : List Int) (mid end_ f2 f3 : Nat) (hT : end_ ≤ T.length)
    (hme : mid ≤ end_) (f1 : Nat) (v : MergeVars)
    (hi : v.i ≤ mid) (hj : v.j ≤ end_) (h1 : (mid - v.i) + (end_ - v.j) ≤ f1)
    (h2 : mid - v.i ≤ f2) (h3 : end_ - v.j ≤ f3)
    (hk : v.k + (mid - v.i) + (end_ - v.j) ≤ v.array.length) :
    (merge_right T end_ f3 (merge_left T mid f2 (merge_both T mid end_ f1 v))).array.length
      = v.array.length ∧
    ∀ x, (merge_right T end_ f3 (merge_left T mid f2
        (merge_both T mid end_ f1 v))).array.getD x 0 =
      if v.k ≤ x ∧ x < v.k + (mid - v.i) + (end_ - v.j) then
        (left_biased_merge (slice T v.i mid) (slice T v.j end_)).getD (x - v.k) 0
      else v.array.getD x 0 := by
  induction f1 generalizing v with
  | zero =>
    have : merge_both T mid end_ 0 v = v := rfl
    rw [this]
    exact merge_tail_spec T mid end_ f2 f3 v hi hj (by omega) h2 h3 hk
  | succ f ih =>
    by_cases hc : v.i < mid ∧ v.j < end_
    · have hsi := slice_cons T v.i mid hc.1 (by omega)
      have hsj := slice_cons T v.j end_ hc.2 hT
      by_cases hle : T.getD v.i 0 ≤ T.getD v.j 0
      · have hu : merge_both T mid end_ (f + 1) v = merge_both T mid end_ f
            { array := v.array.set v.k (T.getD v.i 0), i := v.i + 1, j := v.j, k := v.k + 1 } := by
          rw [merge_both, if_pos hc, if_pos hle]
        rw [hu]
        obtain ⟨g1, g2⟩ := ih
          { array := v.array.set v.k (T.getD v.i 0), i := v.i + 1, j := v.j, k := v.k + 1 }
          (by show v.i + 1 ≤ mid; omega) hj
          (by show mid - (v.i + 1) + (end_ - v.j) ≤ f; omega)
          (by show mid - (v.i + 1) ≤ f2; omega) h3
          (by show v.k + 1 + (mid - (v.i + 1)) + (end_ - v.j) ≤ (v.array.set v.k _).length
              rw [List.length_set]; omega)
        refine ⟨by rw [g1]; exact List.length_set _ _ _, ?_⟩
        intro x
        rw [g2 x]
        show (if v.k + 1 ≤ x ∧ x < v.k + 1 + (mid - (v.i + 1)) + (end_ - v.j) then
            (left_biased_merge (slice T (v.i + 1) mid) (slice T v.j end_)).getD (x - (v.k + 1)) 0
          else (v.array.set v.k (T.getD v.i 0)).getD x 0) = _
        have hm : left_biased_merge (slice T v.i mid) (slice T v.j end_) =
            T.getD v.i 0 :: left_biased_merge (slice T (v.i + 1) mid) (slice T v.j end_) := by
          rw [hsi]
          conv => lhs; rw [hsj]
          rw [left_biased_merge, if_pos hle, ← hsj]
        rw [hm, getD_set_eq]
        by_cases hx : v.k = x
        · rw [if_neg (by omega), if_pos ⟨hx, by omega⟩, if_pos (by omega),
            show x - v.k = 0 by omega]
          rfl
        · by_cases h5 : v.k + 1 ≤ x ∧ x < v.k + 1 + (mid - (v.i + 1)) + (end_ - v.j)
          · rw [if_pos h5, if_pos (by omega), show x - v.k = (x - (v.k + 1)) + 1 by omega,
              List.getD_cons_succ]
          · rw [if_neg h5, if_neg (by omega), if_neg (by omega)]
      · have hu : merge_both T mid end_ (f + 1) v = merge_both T mid end_ f
            { array := v.array.set v.k (T.getD v.j 0), i := v.i, j := v.j + 1, k := v.k + 1 } := by
          rw [merge_both, if_pos hc, if_neg hle]
        rw [hu]
        obtain ⟨g1, g2⟩ := ih
          { array := v.array.set v.k (T.getD v.j 0), i := v.i, j := v.j + 1, k := v.k + 1 }
          hi (by show v.j + 1 ≤ end_; omega)
          (by show mid - v.i + (end_ - (v.j + 1)) ≤ f; omega)
          h2 (by show end_ - (v.j + 1) ≤ f3; omega)
          (by show v.k + 1 + (mid - v.i) + (end_ - (v.j + 1)) ≤ (v.array.set v.k _).length
              rw [List.length_set]; omega)
        refine ⟨by rw [g1]; exact List.length_set _ _ _, ?_⟩
        intro x
        rw [g2 x]
        show (if v.k + 1 ≤ x ∧ x < v.k + 1 + (mid - v.i) + (end_ - (v.j + 1)) then
            (left_biased_merge (slice T v.i mid) (slice T (v.j + 1) end_)).getD (x - (v.k + 1)) 0
          else (v.array.set v.k (T.getD v.j 0)).getD x 0) = _
        have hm : left_biased_merge (slice T v.i mid) (slice T v.j end_) =
            T.getD v.j 0 :: left_biased_merge (slice T v.i mid) (slice T (v.j + 1) end_) := by
          rw [hsj]
          conv => lhs; rw [hsi]
          rw [left_biased_merge, if_neg hle, ← hsi]
        rw [hm, getD_set_eq]
        by_cases hx : v.k = x
        · rw [if_neg (by omega), if_pos ⟨hx, by omega⟩, if_pos (by omega),
            show x - v.k = 0 by omega]
          rfl
        · by_cases h5 : v.k + 1 ≤ x ∧ x < v.k + 1 + (mid - v.i) + (end_ - (v.j + 1))
          · rw [if_pos h5, if_pos (by omega), show x - v.k = (x - (v.k + 1)) + 1 by omega,
              List.getD_cons_succ]
          · rw [if_neg h5, if_neg (by omega), if_neg (by omega)]
    · have hu : merge_both T mid end_ (f + 1) v = v := by rw [merge_both, if_neg hc]
      rw [hu]
      exact merge_tail_spec T mid end_ f2 f3 v hi hj hc h2 h3 hk

theorem memcpy_slice (dst src : List Int) (s e lo hi : Nat) (hse : s ≤ e)
    (hd : e ≤ dst.length) (hs : e ≤ src.length) (hlo : s ≤ lo) (hhi : hi ≤ e) :
    slice (memcpy_from dst src s (e - s)) lo hi = slice src lo hi := by
  apply eq_of_getD
  · rw [slice_length _ _ _ (by rw [memcpy_from_length]; omega), slice_length _ _ _ (by omega)]
  · intro k hk
    rw [slice_length _ _ _ (by rw [memcpy_from_length]; omega)] at hk
    rw [slice_getD _ _ _ _ hk, slice_getD _ _ _ _ hk,
      memcpy_from_getD dst src s (e - s) _ (by omega), if_pos (by omega)]

theorem merge_spec (a t : List Int) (s m e : Nat) (h1 : s ≤ m) (h2 : m ≤ e)
    (h3 : e ≤ a.length) (h4 : e ≤ t.length) :
    (merge a t s m e).1.length = a.length ∧
    ∀ x, (merge a t s m e).1.getD x 0 =
      if s ≤ x ∧ x < e then
        (left_biased_merge (slice a s m) (slice a m e)).getD (x - s) 0
      else a.getD x 0 := by
  have hT : e ≤ (memcpy_from t a s (e - s)).length := by rw [memcpy_from_length]; exact h4
  obtain ⟨g1, g2⟩ := merge_loops_spec (memcpy_from t a s (e - s)) m e (e - s) (e - s) hT h2
    (e - s) { array := a, i := s, j := m, k := s } h1 h2
    (by show m - s + (e - m) ≤ e - s; omega) (by show m - s ≤ e - s; omega)
    (by show e - m ≤ e - s; omega) (by show s + (m - s) + (e - m) ≤ a.length; omega)
  refine ⟨g1, ?_⟩
  intro x
  have := g2 x
  rw [memcpy_slice t a s e s m (by omega) h4 h3 (le_refl _) h2,
    memcpy_slice t a s e m e (by omega) h4 h3 h1 (le_refl _)] at this
  rw [show (merge a t s m e).1 = (merge_right (memcpy_from t a s (e - s)) e (e - s)
    (merge_left (memcpy_from t a s (e - s)) m (e - s)
      (merge_both (memcpy_from t a s (e - s)) m e (e - s)
        { array := a, i := s, j := m, k := s }))).array from rfl, this]
  show (if s ≤ x ∧ x < s + (m - s) + (e - m) then _ else _) = _
  by_cases hx : s ≤ x ∧ x < e
  · rw [if_pos hx, if_pos (by omega)]
  · rw [if_neg hx, if_neg (by omega)]

theorem merge_slice (a t : List Int) (s m e : Nat) (h1 : s ≤ m) (h2 : m ≤ e)
    (h3 : e ≤ a.length) (h4 : e ≤ t.length) :
    slice (merge a t s m e).1 s e = left_biased_merge (slice a s m) (slice a m e) := by
  obtain ⟨g1, g2⟩ := merge_spec a t s m e h1 h2 h3 h4
  have hlen : (left_biased_merge (slice a s m) (slice a m e)).length = e - s := by
    rw [(left_biased_merge_perm _ _).length_eq, List.length_append,
      slice_length a s m (by omega), slice_length a m e h3]
    omega
  apply eq_of_getD
  · rw [slice_length _ _ _ (by rw [g1]; exact h3), hlen]
  · intro k hk
    rw [slice_length _ _ _ (by rw [g1]; exact h3)] at hk
    rw [slice_getD _ _ _ _ hk, g2, if_pos (by omega)]
    congr 1; omega

theorem slice_append (a : List Int) (s m e : Nat) (h1 : s ≤ m) (h2 : m ≤ e)
    (h3 : e ≤ a.length) : slice a s m ++ slice a m e = slice a s e := by
  apply eq_of_getD
  · rw [List.length_append, slice_length a s m (by omega), slice_length a m e h3,
      slice_length a s e h3]
    omega
  · intro k hk
    rw [List.length_append, slice_length a s m (by omega), slice_length a m e h3] at hk
    rw [slice_getD a s e k (by omega)]
    by_cases hkm : k < m - s
    · rw [List.getD_append _ _ _ _ (by rw [slice_length a s m (by omega)]; exact hkm),
        slice_getD a s m k hkm]
    · rw [List.getD_append_right _ _ _ _ (by rw [slice_length a s m (by omega)]; omega),
        slice_length a s m (by omega), slice_getD a m e _ (by omega)]
      congr 1; omega

theorem merge_temp (a t : List Int) (s m e : Nat) :
    (merge a t s m e).2 = memcpy_from t a s (e - s) := rfl

theorem merge_sorted_perm (array temp_array : List Int) (start mid end_ : Nat)
    (h1 : start ≤ mid) (h2 : mid ≤ end_) (h3 : end_ ≤ array.length)
    (h4 : temp_array.length = array.length)
    (hl : (slice array start mid).Sorted (· ≤ ·))
    (hr : (slice array mid end_).Sorted (· ≤ ·)) :
    (slice (merge array temp_array start mid end_).1 start end_).Sorted (· ≤ ·) ∧
    (slice (merge array temp_array start mid end_).1 start end_).Perm
      (slice array start end_) := by
  rw [merge_slice array temp_array start mid end_ h1 h2 h3 (by omega)]
  refine ⟨left_biased_merge_sorted _ _ hl hr, ?_⟩
  rw [← slice_append array start mid end_ h1 h2 h3]
  exact left_biased_merge_perm _ _

/-! ## Lemmas on the ranges of the merge tree -/

theorem boundary_mono (n k l : Nat) (h1 : k ≤ l) (h2 : l ≤ 8) :
    boundary n k ≤ boundary n l := by
  unfold boundary NUM_SORT_TASKS
  have hc : 8 * (n / 8) ≤ n := Nat.mul_div_le n 8
  have hk : k * (n / 8) ≤ l * (n / 8) := Nat.mul_le_mul_right _ h1
  have hl : l * (n / 8) ≤ 8 * (n / 8) := Nat.mul_le_mul_right _ h2
  split_ifs <;> omega

theorem boundary_le (n k : Nat) (h : k ≤ 8) : boundary n k ≤ n := by
  have := boundary_mono n k 8 h (le_refl _)
  simpa [boundary] using this

theorem node_job_range (n v : Nat) (hv : v < 15) :
    (node_job n v).start = boundary n (node_lo v) ∧
    (node_job n v).end_ = boundary n (node_hi v) ∧
    (node_job n v).id = (v : Int) := by
  interval_cases v <;>
    simp [node_job, seed_job, scan_job, boundary, node_lo, node_hi, NUM_SORT_TASKS] <;>
    omega

theorem node_job_mid (n p : Nat) (hp : p < 7) :
    (node_job n p).mid = boundary n (node_hi (2 * p + 1)) := by
  interval_cases p <;>
    simp [node_job, scan_job, boundary, node_hi, NUM_SORT_TASKS] <;>
    omega

theorem node_units : ∀ v, v < 15 → node_lo v ≤ node_hi v ∧ node_hi v ≤ 8 := by
  decide

theorem node_units_children : ∀ p, p < 7 →
    node_lo p = node_lo (2 * p + 1) ∧ node_hi (2 * p + 1) = node_lo (2 * p + 2) ∧
    node_hi p = node_hi (2 * p + 2) := by
  decide

theorem node_units_disjoint : ∀ v, v < 15 → ∀ w, w < 15 →
    is_ancestor 3 v w = false → is_ancestor 3 w v = false →
    node_hi v ≤ node_lo w ∨ node_hi w ≤ node_lo v := by
  decide

theorem node_range_le (n v : Nat) (hv : v < 15) :
    (node_job n v).start ≤ (node_job n v).end_ ∧ (node_job n v).end_ ≤ n := by
  obtain ⟨h1, h2, _⟩ := node_job_range n v hv
  obtain ⟨u1, u2⟩ := node_units v hv
  rw [h1, h2]
  exact ⟨boundary_mono n _ _ u1 u2, boundary_le n _ u2⟩

theorem node_range_children (n p : Nat) (hp : p < 7) :
    (node_job n p).start = (node_job n (2 * p + 1)).start ∧
    (node_job n p).mid = (node_job n (2 * p + 1)).end_ ∧
    (node_job n p).mid = (node_job n (2 * p + 2)).start ∧
    (node_job n p).end_ = (node_job n (2 * p + 2)).end_ := by
  obtain ⟨a1, a2, _⟩ := node_job_range n p (by omega)
  obtain ⟨b1, b2, _⟩ := node_job_range n (2 * p + 1) (by omega)
  obtain ⟨c1, c2, _⟩ := node_job_range n (2 * p + 2) (by omega)
  obtain ⟨u1, u2, u3⟩ := node_units_children p hp
  rw [a1, a2, b1, b2, c1, c2, node_job_mid n p hp, u1, u2, u3]
  exact ⟨rfl, rfl, rfl, rfl⟩

theorem node_range_disjoint (n v w : Nat) (hv : v < 15) (hw : w < 15)
    (h1 : is_ancestor 3 v w = false) (h2 : is_ancestor 3 w v = false) :
    (node_job n v).end_ ≤ (node_job n w).start ∨
    (node_job n w).end_ ≤ (node_job n v).start := by
  obtain ⟨a1, a2, _⟩ := node_job_range n v hv
  obtain ⟨b1, b2, _⟩ := node_job_range n w hw
  rw [a1, a2, b1, b2]
  rcases node_units_disjoint v hv w hw h1 h2 with h | h
  · exact Or.inl (boundary_mono n _ _ h (by have := (node_units w hw); omega))
  · exact Or.inr (boundary_mono n _ _ h (by have := (node_units v hv); omega))

/-! ## Lemmas on sequential runs -/

theorem slice_congr (a b : List Int) (lo hi : Nat) (hl : a.length = b.length)
    (hh : hi ≤ a.length) (h : ∀ x, lo ≤ x → x < hi → a.getD x 0 = b.getD x 0) :
    slice a lo hi = slice b lo hi := by
  apply eq_of_getD
  · rw [slice_length a lo hi hh, slice_length b lo hi (by omega)]
  · intro k hk
    rw [slice_length a lo hi hh] at hk
    rw [slice_getD a lo hi k hk, slice_getD b lo hi k hk]
    exact h _ (by omega) (by omega)

theorem slice_full (a : List Int) : slice a 0 a.length = a := by
  simp [slice]

theorem exec_job_leaf (job : Job) (mem : List Int × List Int) (h : job.id ≥ 7) :
    exec_job job mem = (bubble_sort mem.1 job.start job.end_, mem.2) := by
  unfold exec_job; rw [if_pos h]

theorem exec_job_merge (job : Job) (mem : List Int × List Int) (h : ¬ job.id ≥ 7) :
    exec_job job mem = merge mem.1 mem.2 job.start job.mid job.end_ := by
  unfold exec_job; rw [if_neg h]

theorem node_range_mid (n p : Nat) (hp : p < 7) :
    (node_job n p).start ≤ (node_job n p).mid ∧ (node_job n p).mid ≤ (node_job n p).end_ := by
  obtain ⟨c1, c2, c3, c4⟩ := node_range_children n p hp
  have l := node_range_le n (2 * p + 1) (by omega)
  have r := node_range_le n (2 * p + 2) (by omega)
  omega

theorem exec_node_frame (n w : Nat) (hw : w < 15) (mem : List Int × List Int)
    (h1 : mem.1.length = n) (h2 : mem.2.length = n) :
    (exec_job (node_job n w) mem).1.length = n ∧
    (exec_job (node_job n w) mem).2.length = n ∧
    ∀ x, x < (node_job n w).start ∨ (node_job n w).end_ ≤ x →
      (exec_job (node_job n w) mem).1.getD x 0 = mem.1.getD x 0 := by
  obtain ⟨_, _, hid⟩ := node_job_range n w hw
  obtain ⟨r1, r2⟩ := node_range_le n w hw
  by_cases hl : 7 ≤ w
  · rw [exec_job_leaf _ _ (by rw [hid]; omega)]
    refine ⟨by rw [bubble_sort_length]; exact h1, h2, ?_⟩
    intro x hx
    exact bubble_sort_frame _ _ _ x (by omega) hx
  · rw [exec_job_merge _ _ (by rw [hid]; omega)]
    obtain ⟨m1, m2⟩ := node_range_mid n w (by omega)
    obtain ⟨g1, g2⟩ := merge_spec mem.1 mem.2 _ _ _ m1 m2 (by omega) (by omega)
    refine ⟨by rw [g1]; exact h1, by rw [merge_temp, memcpy_from_length]; exact h2, ?_⟩
    intro x hx
    rw [g2 x, if_neg (by omega)]

theorem exec_node_slice (n w : Nat) (hw : w < 15) (mem : List Int × List Int)
    (h1 : mem.1.length = n) (h2 : mem.2.length = n) (lo hi : Nat) (hh : hi ≤ n)
    (hd : hi ≤ (node_job n w).start ∨ (node_job n w).end_ ≤ lo) :
    slice (exec_job (node_job n w) mem).1 lo hi = slice mem.1 lo hi := by
  obtain ⟨f1, _, f3⟩ := exec_node_frame n w hw mem h1 h2
  apply slice_congr _ _ _ _ (by rw [f1, h1]) (by rw [f1]; exact hh)
  intro x hx1 hx2
  exact f3 x (by omega)

theorem closed_child (done : List Nat)
    (hc : ∀ p, p < 7 → p ∈ done → 2 * p + 1 ∈ done ∧ 2 * p + 2 ∈ done)
    (v : Nat) (h0 : 0 < v) (hv : v < 15) (hp : (v - 1) / 2 ∈ done) : v ∈ done := by
  obtain ⟨a, b⟩ := hc ((v - 1) / 2) (by omega) hp
  rcases Nat.even_or_odd v with he | ho
  · obtain ⟨k, hk⟩ := he
    have : 2 * ((v - 1) / 2) + 2 = v := by omega
    rw [this] at b; exact b
  · obtain ⟨k, hk⟩ := ho
    have : 2 * ((v - 1) / 2) + 1 = v := by omega
    rw [this] at a; exact a

theorem closed_descendant (done : List Nat)
    (hc : ∀ p, p < 7 → p ∈ done → 2 * p + 1 ∈ done ∧ 2 * p + 2 ∈ done)
    (fuel a v : Nat) (hv : v < 15) (ha : a ∈ done) (h : is_ancestor fuel a v = true) :
    v ∈ done := by
  induction fuel generalizing v with
  | zero =>
    simp [is_ancestor] at h
    rw [h]; exact ha
  | succ f ih =>
    simp only [is_ancestor, Bool.or_eq_true, Bool.and_eq_true, decide_eq_true_eq] at h
    rcases h with h | ⟨h0, h⟩
    · rw [h]; exact ha
    · exact closed_child done hc v h0 hv (ih ((v - 1) / 2) (by omega) h)

theorem is_ancestor_internal : ∀ w, w < 15 → ∀ v, v < 15 → v ≠ w →
    is_ancestor 3 w v = true → w < 7 := by
  decide

theorem is_ancestor_nonroot : ∀ w, w < 15 → ∀ v, v < 15 → v ≠ w →
    is_ancestor 3 w v = true → 0 < v := by
  decide

theorem is_ancestor_child : ∀ w, w < 15 → ∀ v, v < 15 → v ≠ w →
    is_ancestor 3 w v = true →
    is_ancestor 2 (2 * w + 1) v = true ∨ is_ancestor 2 (2 * w + 2) v = true := by
  decide

theorem is_ancestor_parent : ∀ w, w < 15 → ∀ v, v < 15 → v ≠ w →
    is_ancestor 3 w v = true →
    ((v - 1) / 2 = w ∨ is_ancestor 2 (2 * w + 1) ((v - 1) / 2) = true) ∨
      is_ancestor 2 (2 * w + 2) ((v - 1) / 2) = true := by
  decide

theorem is_ancestor_leaf : ∀ v, 7 ≤ v → v < 15 → ∀ w, w < 15 → v ≠ w →
    is_ancestor 3 v w = false := by
  decide

theorem ready_not_below (input : List Int) (done : List Nat) (mem : List Int × List Int)
    (inv : TreeInv input done mem) (w : Nat) (hw : w < 15) (hnd : w ∉ done)
    (v : Nat) (hv : v ∈ done) : is_ancestor 3 v w = false := by
  by_contra h
  rw [Bool.not_eq_false] at h
  exact hnd (closed_descendant done inv.closed 3 v w hw hv h)

theorem ready_above (input : List Int) (done : List Nat) (mem : List Int × List Int)
    (inv : TreeInv input done mem) (w : Nat) (hr : ready done w)
    (v : Nat) (hv : v < 15) (hne : v ≠ w) (h : is_ancestor 3 w v = true) :
    v ∈ done ∧ 0 < v ∧ ((v - 1) / 2 = w ∨ (v - 1) / 2 ∈ done) := by
  obtain ⟨hw, _, hch⟩ := hr
  have hw7 := is_ancestor_internal w hw v hv hne h
  obtain ⟨c1, c2⟩ := hch hw7
  refine ⟨?_, is_ancestor_nonroot w hw v hv hne h, ?_⟩
  · rcases is_ancestor_child w hw v hv hne h with g | g
    · exact closed_descendant done inv.closed 2 _ v hv c1 g
    · exact closed_descendant done inv.closed 2 _ v hv c2 g
  · rcases is_ancestor_parent w hw v hv hne h with (g | g) | g
    · exact Or.inl g
    · exact Or.inr (closed_descendant done inv.closed 2 _ _ (by omega) c1 g)
    · exact Or.inr (closed_descendant done inv.closed 2 _ _ (by omega) c2 g)

theorem exec_node_unrelated (n w v : Nat) (hw : w < 15) (hv : v < 15)
    (mem : List Int × List Int) (h1 : mem.1.length = n) (h2 : mem.2.length = n)
    (a1 : is_ancestor 3 v w = false) (a2 : is_ancestor 3 w v = false) :
    slice (exec_job (node_job n w) mem).1 (node_job n v).start (node_job n v).end_ =
      slice mem.1 (node_job n v).start (node_job n v).end_ :=
  exec_node_slice n w hw mem h1 h2 _ _ (node_range_le n v hv).2
    (node_range_disjoint n v w hv hw a1 a2)

theorem exec_node_self (input : List Int) (done : List Nat) (mem : List Int × List Int)
    (inv : TreeInv input done mem) (w : Nat) (hr : ready done w) :
    (slice (exec_job (node_job input.length w) mem).1 (node_job input.length w).start
        (node_job input.length w).end_).Sorted (· ≤ ·) ∧
    (slice (exec_job (node_job input.length w) mem).1 (node_job input.length w).start
        (node_job input.length w).end_).Perm
      (slice input (node_job input.length w).start (node_job input.length w).end_) := by
  obtain ⟨hw, hnd, hch⟩ := hr
  obtain ⟨_, _, hid⟩ := node_job_range input.length w hw
  obtain ⟨r1, r2⟩ := node_range_le input.length w hw
  by_cases hl : 7 ≤ w
  · rw [exec_job_leaf _ _ (by rw [hid]; omega)]
    have := bubble_sort_sorted_perm mem.1 _ _ r1 (by rw [inv.len1]; exact r2)
    rw [inv.leaf w hl hw hnd] at this
    exact this
  · have hw7 : w < 7 := by omega
    rw [exec_job_merge _ _ (by rw [hid]; omega)]
    obtain ⟨m1, m2⟩ := node_range_mid input.length w hw7
    obtain ⟨c1, c2⟩ := hch hw7
    obtain ⟨e1, e2, e3, e4⟩ := node_range_children input.length w hw7
    have tl := inv.top (2 * w + 1) (by omega) c1
      (Or.inr (by rw [show (2 * w + 1 - 1) / 2 = w by omega]; exact hnd))
    have tr := inv.top (2 * w + 2) (by omega) c2
      (Or.inr (by rw [show (2 * w + 2 - 1) / 2 = w by omega]; exact hnd))
    rw [← e1, ← e2] at tl
    rw [← e3, ← e4] at tr
    obtain ⟨g1, g2⟩ := merge_sorted_perm mem.1 mem.2 _ _ _ m1 m2
      (by rw [inv.len1]; exact r2) (by rw [inv.len1, inv.len2]) tl.1 tr.1
    refine ⟨g1, g2.trans ?_⟩
    rw [← slice_append mem.1 _ _ _ m1 m2 (by rw [inv.len1]; exact r2),
      ← slice_append input _ _ _ m1 m2 r2]
    exact List.Perm.append tl.2 tr.2

theorem tree_step (input : List Int) (done : List Nat) (mem : List Int × List Int)
    (inv : TreeInv input done mem) (w : Nat) (hr : ready done w) :
    TreeInv input (w :: done) (exec_job (node_job input.length w) mem) := by
  have hw := hr.1
  have hnd := hr.2.1
  obtain ⟨f1, f2, _⟩ := exec_node_frame input.length w hw mem inv.len1 inv.len2
  refine ⟨f1, f2, ?_, ?_, ?_⟩
  · intro p hp hmem
    rcases List.mem_cons.1 hmem with h | h
    · obtain ⟨c1, c2⟩ := hr.2.2 (by rw [← h]; exact hp)
      rw [h]
      exact ⟨List.mem_cons_of_mem _ c1, List.mem_cons_of_mem _ c2⟩
    · obtain ⟨c1, c2⟩ := inv.closed p hp h
      exact ⟨List.mem_cons_of_mem _ c1, List.mem_cons_of_mem _ c2⟩
  · intro v hv hmem htop
    by_cases hvw : v = w
    · rw [hvw]; exact exec_node_self input done mem inv w hr
    · have hvd : v ∈ done := by
        rcases List.mem_cons.1 hmem with h | h
        · exact absurd h hvw
        · exact h
      have a1 := ready_not_below input done mem inv w hw hnd v hvd
      have a2 : is_ancestor 3 w v = false := by
        by_contra h
        rw [Bool.not_eq_false] at h
        obtain ⟨_, b2, b3⟩ := ready_above input done mem inv w hr v hv hvw h
        rcases htop with h0 | hp
        · omega
        · apply hp
          rcases b3 with b | b
          · rw [b]; exact List.mem_cons_self _ _
          · exact List.mem_cons_of_mem _ b
      rw [exec_node_unrelated input.length w v hw hv mem inv.len1 inv.len2 a1 a2]
      apply inv.top v hv hvd
      rcases htop with h0 | hp
      · exact Or.inl h0
      · exact Or.inr (fun h => hp (List.mem_cons_of_mem _ h))
  · intro v h7 hv hmem
    have hvw : v ≠ w := fun h => hmem (by rw [h]; exact List.mem_cons_self _ _)
    have hvd : v ∉ done := fun h => hmem (List.mem_cons_of_mem _ h)
    have a1 := is_ancestor_leaf v h7 hv w hw hvw
    have a2 : is_ancestor 3 w v = false := by
      by_contra h
      rw [Bool.not_eq_false] at h
      exact hvd (ready_above input done mem inv w hr v hv hvw h).1
    rw [exec_node_unrelated input.length w v hw hv mem inv.len1 inv.len2 a1 a2]
    exact inv.leaf v h7 hv hvd

theorem tree_init (input scratch : List Int) (h : scratch.length = input.length) :
    TreeInv input [] (input, scratch) :=
  ⟨rfl, h, fun _ _ hm => absurd hm (List.not_mem_nil _),
    fun _ _ hm => absurd hm (List.not_mem_nil _), fun _ _ _ _ => rfl⟩

theorem tree_run (input : List Int) (rest : List Nat) (done : List Nat)
    (mem : List Int × List Int) (inv : TreeInv input done mem)
    (hv : valid_from done rest) :
    TreeInv input (rest.reverse ++ done) (run_order input.length rest mem) := by
  induction rest generalizing done mem with
  | nil => simpa [run_order] using inv
  | cons w rest ih =>
    obtain ⟨hr, hv2⟩ := hv
    have := ih (w :: done) _ (tree_step input done mem inv w hr) hv2
    simpa [run_order] using this

theorem index_lt_mem (pre rest : List Nat) (c : Nat)
    (h : (pre ++ rest).indexOf c < pre.length) : c ∈ pre := by
  by_contra hc
  rw [List.indexOf_append_of_not_mem hc] at h
  omega

theorem valid_of_order (order : List Nat) (hn : order.Nodup) (hb : ∀ x ∈ order, x < 15)
    (hd : ∀ p, p < 7 → order.indexOf (2 * p + 1) < order.indexOf p ∧
      order.indexOf (2 * p + 2) < order.indexOf p)
    (rest pre done : List Nat) (ho : pre ++ rest = order)
    (hm : ∀ x, x ∈ done ↔ x ∈ pre) : valid_from done rest := by
  induction rest generalizing pre done with
  | nil => trivial
  | cons w rest ih =>
    have hnp : w ∉ pre := by
      rw [← ho] at hn
      have := (List.nodup_middle.1 hn)
      intro hw
      exact (List.nodup_cons.1 this).1 (List.mem_append_left _ hw)
    have hidx : order.indexOf w = pre.length := by
      rw [← ho, List.indexOf_append_of_not_mem hnp, List.indexOf_cons_self]
      rfl
    refine ⟨⟨hb w (by rw [← ho]; simp), fun h => hnp ((hm w).1 h), ?_⟩, ?_⟩
    · intro hw7
      obtain ⟨d1, d2⟩ := hd w hw7
      rw [hidx, ← ho] at d1 d2
      exact ⟨(hm _).2 (index_lt_mem pre _ _ d1), (hm _).2 (index_lt_mem pre _ _ d2)⟩
    · apply ih (pre ++ [w]) (w :: done) (by rw [← ho]; simp)
      intro x
      simp only [List.mem_cons, List.mem_append, List.mem_singleton, hm x]
      tauto

theorem valid_of_respects (order : List Nat) (h : respects_dependencies order) :
    valid_from [] order := by
  obtain ⟨hp, hd⟩ := h
  apply valid_of_order order (hp.nodup_iff.2 (List.nodup_range _)) _ hd order [] [] rfl
  · intro x; simp
  · intro x hx
    have := (hp.mem_iff.1 hx)
    simpa [NUM_TASKS] using this

theorem run_sorted_perm (input scratch : List Int) (order : List Nat)
    (hs : scratch.length = input.length) (ho : respects_dependencies order) :
    ((run_order input.length order (input, scratch)).1).Sorted (· ≤ ·) ∧
    ((run_order input.length order (input, scratch)).1).Perm input := by
  have inv := tree_run input order [] (input, scratch) (tree_init input scratch hs)
    (valid_of_respects order ho)
  have h0 : 0 ∈ order.reverse ++ [] := by
    rw [List.append_nil, List.mem_reverse, ho.1.mem_iff]
    simp [NUM_TASKS]
  have := inv.top 0 (by omega) h0 (Or.inl rfl)
  obtain ⟨e1, e2, _⟩ := node_job_range input.length 0 (by omega)
  have s0 : (node_job input.length 0).start = 0 := by rw [e1]; simp [node_lo, boundary]
  have s1 : (node_job input.length 0).end_ = input.length := by
    rw [e2]; simp [node_hi, boundary]
  rw [s0, s1] at this
  have f1 : slice (run_order input.length order (input, scratch)).1 0 input.length =
      (run_order input.length order (input, scratch)).1 := by
    have := slice_full (run_order input.length order (input, scratch)).1
    rw [inv.len1] at this
    exact this
  rw [f1, slice_full] at this
  exact this

/-! ## Lemmas on the dependency scan -/

theorem status_at_set (pd : List JobStatus) (i k : Nat) (v : JobStatus) :
    status_at (pd.set i v) k = if i = k ∧ i < pd.length then v else status_at pd k := by
  unfold status_at
  simp only [List.getD_eq_getElem?_getD, List.getElem?_set]
  by_cases h : i = k
  · subst h
    by_cases h2 : i < pd.length
    · simp [h2]
    · simp [h2]
      rw [List.getElem?_eq_none (by omega)]; rfl
  · simp [h]

theorem mark_ready_length (pd : List JobStatus) (k : Nat) :
    (mark_ready pd k).length = pd.length := by
  induction k with
  | zero => rfl
  | succ k ih =>
    unfold mark_ready
    split
    · rw [List.length_set, ih]
    · exact ih

theorem mark_ready_status (pd : List JobStatus) (hl : pd.length = 15) (k : Nat) (hk : k ≤ 7)
    (q : Nat) :
    status_at (mark_ready pd k) q =
      if 7 - k ≤ q ∧ q < 7 ∧ mergeable pd q then JobStatus.DISPATCHED else status_at pd q := by
  induction k with
  | zero => rw [if_neg (by omega)]; rfl
  | succ k ih =>
    have ih := ih (by omega)
    unfold mark_ready
    by_cases hm : mergeable pd (6 - k)
    · rw [if_pos hm, status_at_set, mark_ready_length, ih]
      by_cases hq : 6 - k = q
      · rw [if_pos ⟨hq, by omega⟩, if_pos ⟨by omega, by omega, by rw [← hq]; exact hm⟩]
      · rw [if_neg (by omega)]
        by_cases hc : 7 - k ≤ q ∧ q < 7 ∧ mergeable pd q
        · rw [if_pos hc, if_pos ⟨by omega, hc.2⟩]
        · rw [if_neg hc, if_neg]
          intro hc2
          exact hc ⟨by omega, hc2.2⟩
    · rw [if_neg hm, ih]
      by_cases hc : 7 - k ≤ q ∧ q < 7 ∧ mergeable pd q
      · rw [if_pos hc, if_pos ⟨by omega, hc.2⟩]
      · rw [if_neg hc, if_neg]
        intro hc2
        by_cases hq : 6 - k = q
        · rw [← hq] at hc2; exact hm hc2.2.2
        · exact hc ⟨by omega, hc2.2⟩

theorem mark_ready_completed (pd : List JobStatus) (hl : pd.length = 15) (k : Nat) (hk : k ≤ 7)
    (q : Nat) :
    status_at (mark_ready pd k) q = JobStatus.COMPLETED ↔
      status_at pd q = JobStatus.COMPLETED := by
  rw [mark_ready_status pd hl k hk q]
  by_cases hc : 7 - k ≤ q ∧ q < 7 ∧ mergeable pd q
  · rw [if_pos hc]
    have := hc.2.2.2.2
    rw [this]
    constructor <;> intro h <;> cases h
  · rw [if_neg hc]

theorem mergeable_mark_ready (pd : List JobStatus) (hl : pd.length = 15) (k : Nat) (hk : k < 7) :
    mergeable (mark_ready pd k) (6 - k) ↔ mergeable pd (6 - k) := by
  unfold mergeable
  rw [mark_ready_completed pd hl k (by omega), mark_ready_completed pd hl k (by omega),
    mark_ready_status pd hl k (by omega) (6 - k), if_neg (by omega)]

theorem scan_step_result (s : Sched) (hl : s.progress_done.length = 15) (k : Nat) (hk : k < 7) :
    scan_step (scan_result s k) (13 - 2 * k) = scan_result s (k + 1) := by
  have e1 : (13 - 2 * k - 1) / 2 = 6 - k := by omega
  have e2 : 13 - 2 * k = 2 * (6 - k) + 1 := by omega
  have e3 : 13 - 2 * k + 1 = 2 * (6 - k) + 2 := by omega
  have hm := mergeable_mark_ready s.progress_done hl k hk
  unfold scan_step
  rw [e1, e3]
  by_cases h : mergeable s.progress_done (6 - k)
  · have h2 := hm.2 h
    unfold mergeable at h2
    rw [← e2] at h2
    rw [if_pos (by exact h2)]
    simp only [scan_result, add_job, ready_list, mark_ready, if_pos h, List.map_append,
      List.length_append, List.map_cons, List.map_nil, List.length_cons, List.length_nil,
      List.append_assoc, Nat.add_assoc]
    rw [e2]
  · have h2 := fun x => h (hm.1 x)
    unfold mergeable at h2
    rw [← e2] at h2
    rw [if_neg (by exact h2)]
    simp only [scan_result, ready_list, mark_ready, if_neg h, List.append_nil]

theorem scan_loop_result (s : Sched) (hl : s.progress_done.length = 15) (j k fuel : Nat)
    (hk : k + j = 7) (hf : j ≤ fuel) :
    scan_loop fuel (scan_result s k) (13 - 2 * k) = scan_result s 7 := by
  induction j generalizing k fuel with
  | zero =>
    have h7 : k = 7 := by omega
    subst h7
    cases fuel with
    | zero => rfl
    | succ f => rw [scan_loop, if_neg (by omega)]
  | succ j ih =>
    cases fuel with
    | zero => omega
    | succ f =>
      rw [scan_loop, if_pos (by omega), scan_step_result s hl k (by omega),
        show 13 - 2 * k - 2 = 13 - 2 * (k + 1) by omega]
      exact ih (k + 1) f (by omega) (by omega)

theorem scan_result_zero (s : Sched) : scan_result s 0 = s := by
  simp [scan_result, ready_list, mark_ready]

theorem scan_pass_result (s : Sched) (hl : s.progress_done.length = 15) :
    scan_pass s = scan_result s 7 := by
  have := scan_loop_result s hl 7 0 13 (by omega) (by omega)
  rw [scan_result_zero] at this
  exact this

theorem ready_list_mem (pd : List JobStatus) (k q : Nat) (hk : k ≤ 7) :
    q ∈ ready_list pd k ↔ 7 - k ≤ q ∧ q < 7 ∧ mergeable pd q := by
  induction k with
  | zero => simp [ready_list]; omega
  | succ k ih =>
    have ih := ih (by omega)
    unfold ready_list
    rw [List.mem_append, ih]
    by_cases hm : mergeable pd (6 - k)
    · rw [if_pos hm, List.mem_singleton]
      constructor
      · rintro (h | h)
        · exact ⟨by omega, h.2⟩
        · rw [h]; exact ⟨by omega, by omega, hm⟩
      · intro h
        by_cases hq : q = 6 - k
        · exact Or.inr hq
        · exact Or.inl ⟨by omega, h.2⟩
    · rw [if_neg hm]
      simp only [List.not_mem_nil, or_false]
      constructor
      · intro h; exact ⟨by omega, h.2⟩
      · intro h
        by_cases hq : q = 6 - k
        · rw [hq] at h; exact absurd h.2.2 hm
        · exact ⟨by omega, h.2⟩

theorem ready_list_count (pd : List JobStatus) (k q : Nat) (hk : k ≤ 7) :
    (ready_list pd k).count q = if 7 - k ≤ q ∧ q < 7 ∧ mergeable pd q then 1 else 0 := by
  induction k with
  | zero => rw [if_neg (by omega)]; rfl
  | succ k ih =>
    have ih := ih (by omega)
    unfold ready_list
    rw [List.count_append, ih]
    by_cases hm : mergeable pd (6 - k)
    · rw [if_pos hm]
      by_cases hq : q = 6 - k
      · subst hq
        rw [if_neg (by omega), if_pos ⟨by omega, by omega, hm⟩]
        simp
      · have : List.count q [6 - k] = 0 := by
          rw [List.count_eq_zero]; simpa using hq
        rw [this]
        by_cases hc : 7 - k ≤ q ∧ q < 7 ∧ mergeable pd q
        · rw [if_pos hc, if_pos ⟨by omega, hc.2⟩]
        · rw [if_neg hc, if_neg]
          intro hc2; exact hc ⟨by omega, hc2.2⟩
    · rw [if_neg hm]
      simp only [List.count_nil, Nat.add_zero]
      by_cases hc : 7 - k ≤ q ∧ q < 7 ∧ mergeable pd q
      · rw [if_pos hc, if_pos ⟨by omega, hc.2⟩]
      · rw [if_neg hc, if_neg]
        intro hc2
        by_cases hq : q = 6 - k
        · rw [hq] at hc2; exact hm hc2.2.2
        · exact hc ⟨by omega, hc2.2⟩

theorem scan_job_id (n c q : Nat) : (scan_job n c (2 * q + 1)).id = (q : Int) := by
  have : (2 * q + 1 - 1) / 2 = q := by omega
  unfold scan_job
  split_ifs <;> simp [this]

theorem scan_jobs_count (n c : Nat) (l : List Nat) (p : Nat) :
    ((l.map (fun q => scan_job n c (2 * q + 1))).countP (fun job => job.id = (p : Int))) =
      l.count p := by
  induction l with
  | nil => rfl
  | cons x l ih =>
    rw [List.map_cons, List.countP_cons, ih, List.count_cons, scan_job_id]
    by_cases h : x = p
    · simp [h]
    · have : ¬ ((x : Int) = (p : Int)) := by omega
      simp [h, this]

/-! ## Lemmas on the scheduler -/

theorem seed_loop_spec (s : Sched) (i trips : Nat) :
    seed_loop s i trips =
      { s with
        queue := s.queue ++
          (List.range' i trips).map (seed_job s.num_elements.toNat s.chunk_size),
        job_count := s.job_count + trips,
        job_cnt := s.job_cnt + trips,
        jobs_available := s.jobs_available + trips } := by
  induction trips generalizing s i with
  | zero => simp [seed_loop]
  | succ t ih =>
    rw [seed_loop, ih]
    simp only [add_job, List.range'_succ, List.map_cons, List.append_assoc,
      List.singleton_append]
    congr 1 <;> omega

theorem seed_job_marked (pd : List JobStatus) (n c i : Nat) (hi : i < 8) :
    job_marked pd (seed_job n c i) := by
  unfold job_marked seed_job
  refine ⟨by simp; omega, by simp; omega, ?_⟩
  intro h
  simp at h
  omega

theorem sched_inv_frame (s t : Sched) (inv : SchedInv s)
    (h1 : t.progress_done = s.progress_done) (h2 : t.queue = s.queue)
    (h3 : t.workers = s.workers) : SchedInv t := by
  refine ⟨by rw [h1]; exact inv.len, by rw [h1]; exact inv.dep, ?_, ?_⟩
  · rw [h1, h2]; exact inv.inq
  · rw [h1, h3]; exact inv.held

theorem sched_inv_init (input scratch : List Int) (n : Nat) :
    SchedInv (init_state input scratch n) := by
  refine ⟨rfl, ?_, ?_, ?_⟩
  · intro p hp h
    exfalso; apply h
    interval_cases p <;> rfl
  · intro job hj
    simp [init_state] at hj
  · intro pc job hpc hh
    have : pc = WorkerPc.wait := by
      simpa [init_state] using (List.eq_of_mem_replicate hpc)
    rw [this] at hh
    rcases hh with h | h <;> cases h

theorem sched_inv_seed (s : Sched) (inv : SchedInv s) : SchedInv (dispatcher_seed s) := by
  simp only [dispatcher_seed, seed_loop_spec]
  refine ⟨inv.len, inv.dep, ?_, inv.held⟩
  intro job hj
  rcases List.mem_append.1 hj with h | h
  · exact inv.inq job h
  · obtain ⟨i, hi, rfl⟩ := List.mem_map.1 h
    rw [List.mem_range'_1] at hi
    exact seed_job_marked _ _ _ i (by simp [NUM_SORT_TASKS] at hi; omega)

theorem mark_ready_marked (pd : List JobStatus) (hl : pd.length = 15) (job : Job)
    (h : job_marked pd job) : job_marked (mark_ready pd 7) job := by
  refine ⟨h.1, h.2.1, ?_⟩
  intro h7
  rw [mark_ready_status pd hl 7 (le_refl _)]
  split
  · intro hc; cases hc
  · exact h.2.2 h7

theorem sched_inv_scan (s : Sched) (inv : SchedInv s) : SchedInv (dispatcher_scan s) := by
  have hl := inv.len
  simp only [dispatcher_scan]
  rw [scan_pass_result _ (by exact hl)]
  refine ⟨?_, ?_, ?_, ?_⟩
  · show (mark_ready s.progress_done 7).length = 15
    rw [mark_ready_length]; exact hl
  · intro p hp
    show status_at (mark_ready s.progress_done 7) p ≠ _ →
      status_at (mark_ready s.progress_done 7) (2 * p + 1) = _ ∧
      status_at (mark_ready s.progress_done 7) (2 * p + 2) = _
    rw [mark_ready_completed _ hl 7 (le_refl _), mark_ready_completed _ hl 7 (le_refl _),
      mark_ready_status _ hl 7 (le_refl _)]
    by_cases hm : mergeable s.progress_done p
    · intro _; exact ⟨hm.1, hm.2.1⟩
    · rw [if_neg (fun h => hm h.2.2)]
      exact inv.dep p hp
  · intro job hj
    show job_marked (mark_ready s.progress_done 7) job
    have hj : job ∈ s.queue ++ (ready_list s.progress_done 7).map
        (fun q => scan_job s.num_elements.toNat s.chunk_size (2 * q + 1)) := hj
    rcases List.mem_append.1 hj with h | h
    · exact mark_ready_marked _ hl job (inv.inq job h)
    · obtain ⟨q, hq, rfl⟩ := List.mem_map.1 h
      have hq2 := (ready_list_mem _ 7 q (le_refl _)).1 hq
      rw [job_marked, scan_job_id]
      refine ⟨by omega, by omega, ?_⟩
      intro _
      rw [Int.toNat_ofNat, mark_ready_status _ hl 7 (le_refl _), if_pos hq2]
      intro hc; cases hc
  · intro pc job hpc hh
    exact mark_ready_marked _ hl job (inv.held pc job hpc hh)

theorem held_of_set (s : Sched) (inv : SchedInv s) (w : Nat) (v : WorkerPc)
    (hv : ∀ job, holds v job → job_marked s.progress_done job) :
    ∀ pc job, pc ∈ s.workers.set w v → holds pc job → job_marked s.progress_done job := by
  intro pc job hpc hh
  rcases List.mem_or_eq_of_mem_set hpc with h | h
  · exact inv.held pc job h hh
  · rw [h] at hh; exact hv job hh

theorem not_holds_wait (job : Job) : ¬ holds WorkerPc.wait job := by
  rintro (h | h) <;> cases h

theorem not_holds_woken (job : Job) : ¬ holds WorkerPc.woken job := by
  rintro (h | h) <;> cases h

theorem not_holds_exited (job : Job) : ¬ holds WorkerPc.exited job := by
  rintro (h | h) <;> cases h

theorem sched_inv_wake (s : Sched) (inv : SchedInv s) (w : Nat) :
    SchedInv (worker_wake s w) := by
  unfold worker_wake
  simp only []
  split
  · exact ⟨inv.len, inv.dep, inv.inq,
      held_of_set s inv w _ (fun job h => absurd h (not_holds_exited job))⟩
  · exact ⟨inv.len, inv.dep, inv.inq,
      held_of_set s inv w _ (fun job h => absurd h (not_holds_woken job))⟩

theorem sched_inv_take (s : Sched) (inv : SchedInv s) (w : Nat) :
    SchedInv (worker_take s w) := by
  unfold worker_take
  have hwait : SchedInv { s with workers := s.workers.set w WorkerPc.wait } :=
    ⟨inv.len, inv.dep, inv.inq,
      held_of_set s inv w _ (fun job h => absurd h (not_holds_wait job))⟩
  split
  · cases hq : s.queue with
    | nil =>
      have : get_job s = ({ start := 0, mid := 0, end_ := 0, id := -1 }, s) := by
        unfold get_job; rw [hq]
      rw [this]
      simp only []
      rw [if_pos trivial]
      exact hwait
    | cons j rest =>
      have : get_job s = (j, { s with queue := rest, job_count := s.job_count - 1 }) := by
        unfold get_job; rw [hq]
      rw [this]
      simp only []
      have hj : job_marked s.progress_done j := inv.inq j (by rw [hq]; exact List.mem_cons_self _ _)
      have hrest : ∀ job, job ∈ rest → job_marked s.progress_done job :=
        fun job h => inv.inq job (by rw [hq]; exact List.mem_cons_of_mem _ h)
      split
      · exact ⟨inv.len, inv.dep, hrest,
          held_of_set s inv w _ (fun job h => absurd h (not_holds_wait job))⟩
      · refine ⟨inv.len, inv.dep, hrest, held_of_set s inv w _ ?_⟩
        intro job h
        rcases h with h | h
        · cases h; exact hj
        · cases h
  · exact hwait

theorem sched_inv_run (s : Sched) (inv : SchedInv s) (w : Nat) (job : Job)
    (hw : s.workers.get? w = some (WorkerPc.run job)) : SchedInv (worker_run s w job) := by
  unfold worker_run
  have hj : job_marked s.progress_done job :=
    inv.held _ job (List.get?_mem hw) (Or.inl rfl)
  refine ⟨inv.len, inv.dep, inv.inq, held_of_set s inv w _ ?_⟩
  intro job2 h
  rcases h with h | h
  · cases h
  · cases h; exact hj

theorem status_set_completed (pd : List JobStatus) (i x : Nat)
    (h : status_at pd x = JobStatus.COMPLETED) :
    status_at (pd.set i JobStatus.COMPLETED) x = JobStatus.COMPLETED := by
  rw [status_at_set]; split
  · rfl
  · exact h

theorem status_set_marked (pd : List JobStatus) (i x : Nat)
    (h : status_at pd x ≠ JobStatus.NOT_DISPATCHED) :
    status_at (pd.set i JobStatus.COMPLETED) x ≠ JobStatus.NOT_DISPATCHED := by
  rw [status_at_set]; split
  · intro hc; cases hc
  · exact h

theorem job_set_marked (pd : List JobStatus) (i : Nat) (job : Job) (h : job_marked pd job) :
    job_marked (pd.set i JobStatus.COMPLETED) job :=
  ⟨h.1, h.2.1, fun h7 => status_set_marked pd i _ (h.2.2 h7)⟩

theorem sched_inv_report (s : Sched) (inv : SchedInv s) (w : Nat) (job : Job)
    (hw : s.workers.get? w = some (WorkerPc.report job)) :
    SchedInv (worker_report s w job) := by
  unfold worker_report
  have hj : job_marked s.progress_done job :=
    inv.held _ job (List.get?_mem hw) (Or.inr rfl)
  refine ⟨by rw [List.length_set]; exact inv.len, ?_, ?_, ?_⟩
  · intro p hp hs
    have hs2 : status_at (s.progress_done.set job.id.toNat JobStatus.COMPLETED) p ≠
        JobStatus.NOT_DISPATCHED := hs
    rw [status_at_set] at hs2
    have hold : status_at s.progress_done p ≠ JobStatus.NOT_DISPATCHED := by
      intro hnd
      by_cases hc : job.id.toNat = p ∧ job.id.toNat < s.progress_done.length
      · have h7 : job.id < 7 := by
          have := hj.1
          omega
        have := hj.2.2 h7
        rw [hc.1] at this
        exact absurd hnd this
      · rw [if_neg hc] at hs2
        exact absurd hnd hs2
    obtain ⟨c1, c2⟩ := inv.dep p hp hold
    exact ⟨status_set_completed _ _ _ c1, status_set_completed _ _ _ c2⟩
  · intro job2 h
    exact job_set_marked _ _ job2 (inv.inq job2 h)
  · intro pc job2 hpc hh
    rcases List.mem_or_eq_of_mem_set hpc with h | h
    · exact job_set_marked _ _ job2 (inv.held pc job2 h hh)
    · rw [h] at hh; exact absurd hh (not_holds_wait job2)

theorem sched_inv_step (s t : Sched) (inv : SchedInv s) (h : Step s t) : SchedInv t := by
  cases h with
  | seed _ => exact sched_inv_seed s inv
  | test _ =>
    unfold dispatcher_test
    split
    · exact sched_inv_frame s _ inv rfl rfl rfl
    · exact sched_inv_frame s _ inv rfl rfl rfl
  | scan _ _ => exact sched_inv_scan s inv
  | wake w _ _ => exact sched_inv_wake s inv w
  | take w _ => exact sched_inv_take s inv w
  | run w job hw => exact sched_inv_run s inv w job hw
  | report w job hw => exact sched_inv_report s inv w job hw
  | cleanup _ _ => exact sched_inv_frame s _ inv rfl rfl rfl

theorem sched_inv_reachable (input scratch : List Int) (n : Nat) (s : Sched)
    (h : Reachable input scratch n s) : SchedInv s := by
  induction h with
  | init => exact sched_inv_init input scratch n
  | step s t _ hst ih => exact sched_inv_step s t ih hst

/-! ## Reachability along a schedule -/

theorem perform_step (s t : Sched) (m : Move) (h : perform s m = some t) : Step s t := by
  cases m with
  | seed =>
    by_cases hc : s.dispatcher = DispatcherPc.seed
    · simp only [perform, if_pos hc, Option.some.injEq] at h
      rw [← h]; exact Step.seed s hc
    · simp [perform, hc] at h
  | test =>
    by_cases hc : s.dispatcher = DispatcherPc.test
    · simp only [perform, if_pos hc, Option.some.injEq] at h
      rw [← h]; exact Step.test s hc
    · simp [perform, hc] at h
  | scan =>
    by_cases hc : s.dispatcher = DispatcherPc.wait ∧ 0 < s.dispatcher_signal
    · simp only [perform, if_pos hc, Option.some.injEq] at h
      rw [← h]; exact Step.scan s hc.1 hc.2
    · simp only [perform, if_neg hc] at h
      cases h
  | wake w =>
    by_cases hc : s.workers.get? w = some WorkerPc.wait ∧ 0 < s.jobs_available
    · simp only [perform, if_pos hc, Option.some.injEq] at h
      rw [← h]; exact Step.wake s w hc.1 hc.2
    · simp only [perform, if_neg hc] at h
      cases h
  | take w =>
    by_cases hc : s.workers.get? w = some WorkerPc.woken
    · simp only [perform, if_pos hc, Option.some.injEq] at h
      rw [← h]; exact Step.take s w hc
    · simp only [perform, if_neg hc] at h
      cases h
  | run w =>
    simp only [perform] at h
    split at h
    · rename_i job hw
      simp only [Option.some.injEq] at h
      rw [← h]; exact Step.run s w job hw
    · cases h
  | report w =>
    simp only [perform] at h
    split at h
    · rename_i job hw
      simp only [Option.some.injEq] at h
      rw [← h]; exact Step.report s w job hw
    · cases h
  | cleanup =>
    by_cases hc : s.dispatcher = DispatcherPc.done ∧ s.joined = false
    · simp only [perform, if_pos hc, Option.some.injEq] at h
      rw [← h]; exact Step.cleanup s hc.1 hc.2
    · simp only [perform, if_neg hc] at h
      cases h

theorem perform_all_reachable (input scratch : List Int) (n : Nat) (l : List Move)
    (s t : Sched) (hr : Reachable input scratch n s) (h : perform_all s l = some t) :
    Reachable input scratch n t := by
  induction l generalizing s with
  | nil =>
    have : s = t := by simpa [perform_all] using h
    rw [← this]; exact hr
  | cons m rest ih =>
    cases hp : perform s m with
    | none => simp [perform_all, hp] at h
    | some u =>
      have h2 : perform_all u rest = some t := by simpa [perform_all, hp] using h
      exact ih u (Reachable.step s u hr (perform_step s u m hp)) h2

theorem first_merge_state_reachable :
    Reachable sample_input sample_scratch 1 first_merge_state :=
  perform_all_reachable sample_input sample_scratch 1 first_merge_schedule _ _
    Reachable.init (by rfl)

theorem finished_state_reachable :
    Reachable sample_input sample_scratch 1 finished_state :=
  perform_all_reachable sample_input sample_scratch 1 whole_trial_schedule _ _
    Reachable.init (by rfl)

set_option maxRecDepth 100000 in
theorem first_merge_state_facts :
    status_at first_merge_state.progress_done 3 = JobStatus.DISPATCHED ∧
    node_job 8 3 ∈ first_merge_state.queue ∧
    status_at first_merge_state.progress_done 7 = JobStatus.COMPLETED ∧
    status_at first_merge_state.progress_done 8 = JobStatus.COMPLETED :=
  ⟨by decide, by decide, by decide, by decide⟩

set_option maxRecDepth 100000 in
theorem finished_state_facts :
    status_at finished_state.progress_done 0 = JobStatus.COMPLETED ∧
    finished_state.dispatcher = DispatcherPc.done ∧
    finished_state.array = [1, 2, 3, 4, 5, 6, 7, 9] ∧
    finished_state.queue = [] ∧ finished_state.job_cnt = 15 :=
  ⟨by decide, by decide, by decide, by decide, by decide⟩

/-! ## Shared facts about the sample orders -/

theorem single_worker_order_respects : respects_dependencies single_worker_order := by
  unfold respects_dependencies single_worker_order NUM_TASKS
  decide

theorem eager_order_respects : respects_dependencies eager_order := by
  unfold respects_dependencies eager_order NUM_TASKS
  decide

/-! ## The claims -/

/-- C1: for every input array (of any length `n`, in particular `n <= 1,000,000`
and `n < 8`) and every order of the fifteen dispatcher jobs in which each merge
runs after both of its children, the array after the run has the same length
and is non-decreasing: `out[i] <= out[i+1]` for every `i` with `i + 1 < n`. -/
theorem run_order_nondecreasing (input scratch : List Int) (order : List Nat)
    (hs : scratch.length = input.length) (ho : respects_dependencies order) :
    (run_order input.length order (input, scratch)).1.length = input.length ∧
    ∀ i, i + 1 < input.length →
      (run_order input.length order (input, scratch)).1.getD i 0 ≤
        (run_order input.length order (input, scratch)).1.getD (i + 1) 0 := by
  obtain ⟨h1, h2⟩ := run_sorted_perm input scratch order hs ho
  have hl := h2.length_eq
  refine ⟨hl, ?_⟩
  intro i hi
  have hsl : (slice (run_order input.length order (input, scratch)).1 0
      (run_order input.length order (input, scratch)).1.length).Sorted (· ≤ ·) := by
    rw [slice_full]; exact h1
  exact ordered_of_sorted_slice _ 0 _ (le_refl _) hsl i (i + 1) (by omega) (by omega)
    (by omega) (by omega)

/-- Witness of C1 on the eight-element sample with the single-worker order. -/
theorem run_order_nondecreasing_witness :
    (sample_scratch.length = sample_input.length ∧
      respects_dependencies single_worker_order) ∧
    ((run_order sample_input.length single_worker_order
        (sample_input, sample_scratch)).1.length = sample_input.length ∧
      ∀ i, i + 1 < sample_input.length →
        (run_order sample_input.length single_worker_order
            (sample_input, sample_scratch)).1.getD i 0 ≤
          (run_order sample_input.length single_worker_order
            (sample_input, sample_scratch)).1.getD (i + 1) 0) :=
  ⟨⟨rfl, single_worker_order_respects⟩,
    run_order_nondecreasing sample_input sample_scratch single_worker_order rfl
      single_worker_order_respects⟩

/-- C2: after the fifteen jobs have run in any dependency-respecting order the
array is a permutation of the input, and the sum of its elements is the sum of
the input. -/
theorem run_order_permutation (input scratch : List Int) (order : List Nat)
    (hs : scratch.length = input.length) (ho : respects_dependencies order) :
    (run_order input.length order (input, scratch)).1.Perm input ∧
    (run_order input.length order (input, scratch)).1.sum = input.sum := by
  obtain ⟨_, h2⟩ := run_sorted_perm input scratch order hs ho
  exact ⟨h2, h2.sum_eq⟩

/-- Witness of C2 on the eight-element sample with the eager order. -/
theorem run_order_permutation_witness :
    (sample_scratch.length = sample_input.length ∧ respects_dependencies eager_order) ∧
    ((run_order sample_input.length eager_order (sample_input, sample_scratch)).1.Perm
        sample_input ∧
      (run_order sample_input.length eager_order (sample_input, sample_scratch)).1.sum =
        sample_input.sum) :=
  ⟨⟨rfl, eager_order_respects⟩,
    run_order_permutation sample_input sample_scratch eager_order rfl eager_order_respects⟩

/-- C3: for a fixed input, any two dependency-respecting orders of the fifteen
jobs (whatever the initial contents of the scratch buffer) leave the same final
array. -/
theorem run_order_deterministic (input scratch1 scratch2 : List Int)
    (order1 order2 : List Nat)
    (hs1 : scratch1.length = input.length) (hs2 : scratch2.length = input.length)
    (ho1 : respects_dependencies order1) (ho2 : respects_dependencies order2) :
    (run_order input.length order1 (input, scratch1)).1 =
      (run_order input.length order2 (input, scratch2)).1 := by
  obtain ⟨a1, a2⟩ := run_sorted_perm input scratch1 order1 hs1 ho1
  obtain ⟨b1, b2⟩ := run_sorted_perm input scratch2 order2 hs2 ho2
  exact List.eq_of_perm_of_sorted (a2.trans b2.symm) a1 b1

/-- Witness of C3: the single-worker order and the eager order on the sample. -/
theorem run_order_deterministic_witness :
    (sample_scratch.length = sample_input.length ∧
      respects_dependencies single_worker_order ∧ respects_dependencies eager_order) ∧
    (run_order sample_input.length single_worker_order (sample_input, sample_scratch)).1 =
      (run_order sample_input.length eager_order (sample_input, sample_scratch)).1 :=
  ⟨⟨rfl, single_worker_order_respects, eager_order_respects⟩,
    run_order_deterministic sample_input sample_scratch sample_scratch single_worker_order
      eager_order rfl rfl single_worker_order_respects eager_order_respects⟩

/-- C4: in every reachable state of the scheduler an internal node `p` of
`0..6` that is no longer `NOT_DISPATCHED` (it is `DISPATCHED` or `COMPLETED`)
has both children `2p+1` and `2p+2` `COMPLETED`; and every merge job that is in
the queue or held by a worker has both children `COMPLETED`. -/
theorem dispatched_children_completed (input scratch : List Int) (n : Nat) (s : Sched)
    (hr : Reachable input scratch n s) :
    (∀ p, p < 7 → status_at s.progress_done p ≠ JobStatus.NOT_DISPATCHED →
      status_at s.progress_done (2 * p + 1) = JobStatus.COMPLETED ∧
      status_at s.progress_done (2 * p + 2) = JobStatus.COMPLETED) ∧
    (∀ job, (job ∈ s.queue ∨ ∃ pc, pc ∈ s.workers ∧ holds pc job) → job.id < 7 →
      0 ≤ job.id ∧
      status_at s.progress_done (2 * job.id.toNat + 1) = JobStatus.COMPLETED ∧
      status_at s.progress_done (2 * job.id.toNat + 2) = JobStatus.COMPLETED) := by
  have inv := sched_inv_reachable input scratch n s hr
  refine ⟨inv.dep, ?_⟩
  intro job hj h7
  have hm : job_marked s.progress_done job := by
    rcases hj with h | ⟨pc, h1, h2⟩
    · exact inv.inq job h
    · exact inv.held pc job h1 h2
  exact ⟨hm.1, inv.dep job.id.toNat (by have := hm.1; omega) (hm.2.2 h7)⟩

/-- Witness of C4: the state of the one-worker sample trial in which the scan
has just dispatched node `3`: node `3` is `DISPATCHED`, its merge job is in the
queue, and its children `7` and `8` are `COMPLETED`. -/
theorem dispatched_children_completed_witness :
    Reachable sample_input sample_scratch 1 first_merge_state ∧
    (status_at first_merge_state.progress_done 3 = JobStatus.DISPATCHED ∧
      node_job 8 3 ∈ first_merge_state.queue ∧
      status_at first_merge_state.progress_done 7 = JobStatus.COMPLETED ∧
      status_at first_merge_state.progress_done 8 = JobStatus.COMPLETED) ∧
    (status_at first_merge_state.progress_done (2 * 3 + 1) = JobStatus.COMPLETED ∧
      status_at first_merge_state.progress_done (2 * 3 + 2) = JobStatus.COMPLETED) ∧
    (0 ≤ (node_job 8 3).id ∧
      status_at first_merge_state.progress_done (2 * (node_job 8 3).id.toNat + 1) =
        JobStatus.COMPLETED ∧
      status_at first_merge_state.progress_done (2 * (node_job 8 3).id.toNat + 2) =
        JobStatus.COMPLETED) :=
  ⟨first_merge_state_reachable, first_merge_state_facts,
    (dispatched_children_completed sample_input sample_scratch 1 first_merge_state
      first_merge_state_reachable).1 3 (by decide)
      (by rw [first_merge_state_facts.1]; decide),
    (dispatched_children_completed sample_input sample_scratch 1 first_merge_state
      first_merge_state_reachable).2 (node_job 8 3) (Or.inl first_merge_state_facts.2.1)
      (by decide)⟩

/-- C5: one pass of the dependency scan is a function of the table before the
pass.  The queue after the pass is the queue before it followed by the jobs
`added`; for every internal node `p` of `0..6`, when before the pass `p` was
`NOT_DISPATCHED` and both children were `COMPLETED`, `p` is `DISPATCHED` after
the pass and exactly one added job has id `p`; otherwise the entry of `p` is
unchanged and no added job has id `p`.  The entries of all other nodes are
unchanged and the table keeps its fifteen entries. -/
theorem scan_pass_from_table (s : Sched) (hl : s.progress_done.length = 15) :
    ∃ added : List Job,
      (scan_pass s).queue = s.queue ++ added ∧
      (∀ p, p < 7 →
        ((status_at s.progress_done (2 * p + 1) = JobStatus.COMPLETED ∧
            status_at s.progress_done (2 * p + 2) = JobStatus.COMPLETED ∧
            status_at s.progress_done p = JobStatus.NOT_DISPATCHED) →
          status_at (scan_pass s).progress_done p = JobStatus.DISPATCHED ∧
          added.countP (fun job => job.id = (p : Int)) = 1) ∧
        (¬ (status_at s.progress_done (2 * p + 1) = JobStatus.COMPLETED ∧
            status_at s.progress_done (2 * p + 2) = JobStatus.COMPLETED ∧
            status_at s.progress_done p = JobStatus.NOT_DISPATCHED) →
          status_at (scan_pass s).progress_done p = status_at s.progress_done p ∧
          added.countP (fun job => job.id = (p : Int)) = 0)) ∧
      (∀ k, 7 ≤ k → status_at (scan_pass s).progress_done k = status_at s.progress_done k) ∧
      (scan_pass s).progress_done.length = 15 := by
  rw [scan_pass_result s hl]
  refine ⟨(ready_list s.progress_done 7).map
    (fun q => scan_job s.num_elements.toNat s.chunk_size (2 * q + 1)), rfl, ?_, ?_, ?_⟩
  · intro p hp
    have hst := mark_ready_status s.progress_done hl 7 (le_refl _) p
    have hct := ready_list_count s.progress_done 7 p (le_refl _)
    constructor
    · intro hm
      have hm2 : mergeable s.progress_done p := hm
      rw [if_pos ⟨by omega, hp, hm2⟩] at hst hct
      exact ⟨hst, by rw [scan_jobs_count]; exact hct⟩
    · intro hm
      have hm2 : ¬ mergeable s.progress_done p := hm
      rw [if_neg (fun h => hm2 h.2.2)] at hst hct
      exact ⟨hst, by rw [scan_jobs_count]; exact hct⟩
  · intro k hk
    have hst := mark_ready_status s.progress_done hl 7 (le_refl _) k
    rw [if_neg (by omega)] at hst
    exact hst
  · show (mark_ready s.progress_done 7).length = 15
    rw [mark_ready_length]; exact hl

/-- Witness of C5: the pass run in a state whose eight leaves are `COMPLETED`
marks the nodes `6, 5, 4, 3` and enqueues their four jobs. -/
theorem scan_pass_from_table_witness :
    leaves_done_state.progress_done.length = 15 ∧
    ∃ added : List Job,
      (scan_pass leaves_done_state).queue = leaves_done_state.queue ++ added ∧
      (∀ p, p < 7 →
        ((status_at leaves_done_state.progress_done (2 * p + 1) = JobStatus.COMPLETED ∧
            status_at leaves_done_state.progress_done (2 * p + 2) = JobStatus.COMPLETED ∧
            status_at leaves_done_state.progress_done p = JobStatus.NOT_DISPATCHED) →
          status_at (scan_pass leaves_done_state).progress_done p = JobStatus.DISPATCHED ∧
          added.countP (fun job => job.id = (p : Int)) = 1) ∧
        (¬ (status_at leaves_done_state.progress_done (2 * p + 1) = JobStatus.COMPLETED ∧
            status_at leaves_done_state.progress_done (2 * p + 2) = JobStatus.COMPLETED ∧
            status_at leaves_done_state.progress_done p = JobStatus.NOT_DISPATCHED) →
          status_at (scan_pass leaves_done_state).progress_done p =
            status_at leaves_done_state.progress_done p ∧
          added.countP (fun job => job.id = (p : Int)) = 0)) ∧
      (∀ k, 7 ≤ k → status_at (scan_pass leaves_done_state).progress_done k =
        status_at leaves_done_state.progress_done k) ∧
      (scan_pass leaves_done_state).progress_done.length = 15 :=
  ⟨rfl, scan_pass_from_table leaves_done_state rfl⟩

/-- C6: for every `n` and every internal node `p` of `0..6`, the merge job the
dispatcher builds for `p` carries the id `p`, starts where the job of the left
child `2p+1` starts, has its `mid` where the left child ends and the right
child `2p+2` starts, and ends where the right child ends, with
`start <= mid <= end`; the job of node `0` covers `[0, n)`. -/
theorem merge_job_ranges (n p : Nat) (hp : p < 7) :
    (node_job n p = scan_job n (n / NUM_SORT_TASKS) (2 * p + 1) ∧
      (node_job n p).id = (p : Int)) ∧
    ((node_job n p).start = (node_job n (2 * p + 1)).start ∧
      (node_job n p).mid = (node_job n (2 * p + 1)).end_ ∧
      (node_job n p).mid = (node_job n (2 * p + 2)).start ∧
      (node_job n p).end_ = (node_job n (2 * p + 2)).end_) ∧
    ((node_job n p).start ≤ (node_job n p).mid ∧
      (node_job n p).mid ≤ (node_job n p).end_) ∧
    ((node_job n 0).start = 0 ∧ (node_job n 0).end_ = n) := by
  refine ⟨⟨?_, (node_job_range n p (by omega)).2.2⟩, node_range_children n p hp,
    node_range_mid n p hp, ?_⟩
  · unfold node_job; rw [if_neg (by omega)]
  · obtain ⟨e1, e2, _⟩ := node_job_range n 0 (by omega)
    rw [e1, e2]
    simp [node_lo, node_hi, boundary]

/-- Witness of C6: node `2` in an array of eleven elements. -/
theorem merge_job_ranges_witness :
    2 < 7 ∧
    ((node_job 11 2 = scan_job 11 (11 / NUM_SORT_TASKS) (2 * 2 + 1) ∧
        (node_job 11 2).id = ((2 : Nat) : Int)) ∧
      ((node_job 11 2).start = (node_job 11 (2 * 2 + 1)).start ∧
        (node_job 11 2).mid = (node_job 11 (2 * 2 + 1)).end_ ∧
        (node_job 11 2).mid = (node_job 11 (2 * 2 + 2)).start ∧
        (node_job 11 2).end_ = (node_job 11 (2 * 2 + 2)).end_) ∧
      ((node_job 11 2).start ≤ (node_job 11 2).mid ∧
        (node_job 11 2).mid ≤ (node_job 11 2).end_) ∧
      ((node_job 11 0).start = 0 ∧ (node_job 11 0).end_ = 11)) :=
  ⟨by decide, merge_job_ranges 11 2 (by decide)⟩

/-- C7: with `c = n / 8`, the seed phase of a trial on an input of `n` elements
enqueues the eight leaf jobs with ids `7..14` and ranges `[i*c, (i+1)*c)` for
`i = 0..6` and `[7*c, n)` for `i = 7`.  The ranges are contiguous in id order,
pairwise disjoint, start at `0`, end at `n` and cover every index below `n`;
the first seven hold exactly `c` elements and the last one `c + n mod 8`. -/
theorem seeded_leaf_ranges (input scratch : List Int) (workers : Nat) :
    (dispatcher_seed (init_state input scratch workers)).queue =
      (List.range 8).map (seed_job input.length (input.length / 8)) ∧
    (∀ i, i < 8 →
      (seed_job input.length (input.length / 8) i).id = 7 + (i : Int) ∧
      (seed_job input.length (input.length / 8) i).start = i * (input.length / 8) ∧
      (seed_job input.length (input.length / 8) i).end_ =
        (if i = 7 then input.length else (i + 1) * (input.length / 8)) ∧
      (seed_job input.length (input.length / 8) i).start ≤
        (seed_job input.length (input.length / 8) i).end_) ∧
    (∀ i, i < 7 →
      (seed_job input.length (input.length / 8) i).end_ =
        (seed_job input.length (input.length / 8) (i + 1)).start ∧
      (seed_job input.length (input.length / 8) i).end_ -
        (seed_job input.length (input.length / 8) i).start = input.length / 8) ∧
    ((seed_job input.length (input.length / 8) 0).start = 0 ∧
      (seed_job input.length (input.length / 8) 7).end_ = input.length ∧
      (seed_job input.length (input.length / 8) 7).end_ -
        (seed_job input.length (input.length / 8) 7).start =
          input.length / 8 + input.length % 8) ∧
    (∀ i j, i < j → j < 8 →
      (seed_job input.length (input.length / 8) i).end_ ≤
        (seed_job input.length (input.length / 8) j).start) ∧
    (∀ x, x < input.length → ∃ i, i < 8 ∧
      (seed_job input.length (input.length / 8) i).start ≤ x ∧
      x < (seed_job input.length (input.length / 8) i).end_) := by
  have hc : 8 * (input.length / 8) + input.length % 8 = input.length :=
    Nat.div_add_mod input.length 8
  generalize hcdef : input.length / 8 = c at hc
  refine ⟨?_, ?_, ?_, ?_, ?_, ?_⟩
  · simp only [dispatcher_seed, seed_loop_spec]
    simp [init_state, NUM_SORT_TASKS, hcdef, List.range_eq_range']
  · intro i hi
    refine ⟨rfl, rfl, rfl, ?_⟩
    simp only [seed_job, NUM_SORT_TASKS]
    split_ifs with h
    · subst h; omega
    · rw [Nat.add_mul]; omega
  · intro i hi
    simp only [seed_job, NUM_SORT_TASKS]
    rw [if_neg (by omega)]
    refine ⟨rfl, ?_⟩
    rw [Nat.add_mul]; omega
  · simp only [seed_job, NUM_SORT_TASKS]
    refine ⟨by omega, by simp, ?_⟩
    simp
    omega
  · intro i j hij hj
    simp only [seed_job, NUM_SORT_TASKS]
    rw [if_neg (by omega)]
    exact Nat.mul_le_mul_right c (by omega)
  · intro x hx
    by_cases hx7 : x < 7 * c
    · have hcpos : 0 < c := by
        rcases Nat.eq_zero_or_pos c with h | h
        · rw [h] at hx7; omega
        · exact h
      have h7 : x / c < 7 := (Nat.div_lt_iff_lt_mul hcpos).2 hx7
      have hdm : c * (x / c) + x % c = x := Nat.div_add_mod x c
      have hml : x % c < c := Nat.mod_lt x hcpos
      have hcm : x / c * c = c * (x / c) := Nat.mul_comm _ _
      refine ⟨x / c, by omega, ?_, ?_⟩
      · simp only [seed_job]
        omega
      · simp only [seed_job, NUM_SORT_TASKS]
        rw [if_neg (by omega), Nat.add_mul]
        omega
    · refine ⟨7, by omega, ?_, ?_⟩
      · simp only [seed_job]; omega
      · simp only [seed_job, NUM_SORT_TASKS]; simpa using hx

/-- C8: for every array and `start <= end <= length`, `bubble_sort(start, end)`
leaves `array[start..end)` non-decreasing and a permutation of what that slice
held before the call. -/
theorem bubble_sort_slice_sorted (array : List Int) (start end_ : Nat)
    (h1 : start ≤ end_) (h2 : end_ ≤ array.length) :
    (slice (bubble_sort array start end_) start end_).Sorted (· ≤ ·) ∧
    (slice (bubble_sort array start end_) start end_).Perm (slice array start end_) :=
  bubble_sort_sorted_perm array start end_ h1 h2

/-- Witness of C8: the slice `[2, 6)` of the sample. -/
theorem bubble_sort_slice_sorted_witness :
    (2 ≤ 6 ∧ 6 ≤ sample_input.length) ∧
    ((slice (bubble_sort sample_input 2 6) 2 6).Sorted (· ≤ ·) ∧
      (slice (bubble_sort sample_input 2 6) 2 6).Perm (slice sample_input 2 6)) :=
  ⟨⟨by decide, by decide⟩, bubble_sort_slice_sorted sample_input 2 6 (by decide) (by decide)⟩

/-- C9: for every array and `start <= mid <= end <= length` (the scratch buffer
having the length of the array, as allocated) such that `array[start..mid)` and
`array[mid..end)` are non-decreasing, `merge(start, mid, end)` leaves
`array[start..end)` non-decreasing and a permutation of what that slice held
before the call; an empty run is allowed. -/
theorem merge_slice_sorted (array temp_array : List Int) (start mid end_ : Nat)
    (h1 : start ≤ mid) (h2 : mid ≤ end_) (h3 : end_ ≤ array.length)
    (h4 : temp_array.length = array.length)
    (hl : (slice array start mid).Sorted (· ≤ ·))
    (hr : (slice array mid end_).Sorted (· ≤ ·)) :
    (slice (merge array temp_array start mid end_).1 start end_).Sorted (· ≤ ·) ∧
    (slice (merge array temp_array start mid end_).1 start end_).Perm
      (slice array start end_) :=
  merge_sorted_perm array temp_array start mid end_ h1 h2 h3 h4 hl hr

/-- Witness of C9: the runs `[1, 4, 5]` and `[2, 3]` inside a longer array. -/
theorem merge_slice_sorted_witness :
    (1 ≤ 4 ∧ 4 ≤ 6 ∧ 6 ≤ ([9, 1, 4, 5, 2, 3, 0] : List Int).length ∧
      ([0, 0, 0, 0, 0, 0, 0] : List Int).length = ([9, 1, 4, 5, 2, 3, 0] : List Int).length ∧
      (slice [9, 1, 4, 5, 2, 3, 0] 1 4).Sorted (· ≤ ·) ∧
      (slice [9, 1, 4, 5, 2, 3, 0] 4 6).Sorted (· ≤ ·)) ∧
    ((slice (merge [9, 1, 4, 5, 2, 3, 0] [0, 0, 0, 0, 0, 0, 0] 1 4 6).1 1 6).Sorted (· ≤ ·) ∧
      (slice (merge [9, 1, 4, 5, 2, 3, 0] [0, 0, 0, 0, 0, 0, 0] 1 4 6).1 1 6).Perm
        (slice [9, 1, 4, 5, 2, 3, 0] 1 6)) :=
  ⟨⟨by decide, by decide, by decide, rfl, by decide, by decide⟩,
    merge_slice_sorted [9, 1, 4, 5, 2, 3, 0] [0, 0, 0, 0, 0, 0, 0] 1 4 6 (by decide)
      (by decide) (by decide) rfl (by decide) (by decide)⟩

/-- C10: for `start <= mid <= end <= length` (the scratch buffer reaching up to
`end`), the slice `array[start..end)` after `merge(start, mid, end)` is the
left-biased two-way merge of the lists `array[start..mid)` and
`array[mid..end)` taken before the call, whether or not they are sorted. -/
theorem merge_refines_left_biased_merge (array temp_array : List Int)
    (start mid end_ : Nat) (h1 : start ≤ mid) (h2 : mid ≤ end_)
    (h3 : end_ ≤ array.length) (h4 : end_ ≤ temp_array.length) :
    slice (merge array temp_array start mid end_).1 start end_ =
      left_biased_merge (slice array start mid) (slice array mid end_) :=
  merge_slice array temp_array start mid end_ h1 h2 h3 h4

/-- Witness of C10: two runs with equal heads. -/
theorem merge_refines_left_biased_merge_witness :
    (1 ≤ 3 ∧ 3 ≤ 5 ∧ 5 ≤ ([9, 2, 7, 2, 3, 0] : List Int).length ∧
      5 ≤ ([0, 0, 0, 0, 0, 0] : List Int).length) ∧
    slice (merge [9, 2, 7, 2, 3, 0] [0, 0, 0, 0, 0, 0] 1 3 5).1 1 5 =
      left_biased_merge (slice [9, 2, 7, 2, 3, 0] 1 3) (slice [9, 2, 7, 2, 3, 0] 3 5) :=
  ⟨⟨by decide, by decide, by decide, by decide⟩,
    merge_refines_left_biased_merge [9, 2, 7, 2, 3, 0] [0, 0, 0, 0, 0, 0] 1 3 5 (by decide)
      (by decide) (by decide) (by decide)⟩

/-! ## Lemmas on the linked job queue -/

theorem chain_last_next (heap : List Node) (p : Option Nat) (cells : List (Nat × Job))
    (t : Nat) (j : Job) (h : chain heap p (cells ++ [(t, j)])) :
    ∃ node, heap.get? t = some node ∧ node.job = j ∧ node.next = none := by
  induction cells generalizing p with
  | nil =>
    obtain ⟨_, node, h1, h2, h3⟩ := h
    exact ⟨node, h1, h2, h3⟩
  | cons c rest ih =>
    obtain ⟨_, node, _, _, h3⟩ := h
    exact ih node.next h3

theorem chain_append_node (heap : List Node) (p : Option Nat) (cells : List (Nat × Job))
    (t : Nat) (j job : Job) (nt : Node) (ht : heap.get? t = some nt)
    (h : chain heap p (cells ++ [(t, j)])) :
    chain ((heap ++ [({ job := job, next := none } : Node)]).set t
        ({ nt with next := some heap.length } : Node)) p
      (cells ++ [(t, j), (heap.length, job)]) := by
  have htl : t < heap.length := by
    rw [List.get?_eq_getElem?] at ht
    exact (List.getElem?_eq_some_iff.1 ht).1
  induction cells generalizing p with
  | nil =>
    obtain ⟨hp, node, h1, h2, h3⟩ := h
    rw [ht] at h1
    cases h1
    refine ⟨hp, ({ nt with next := some heap.length } : Node), ?_, h2, rfl, ?_⟩
    · rw [List.get?_eq_getElem?, List.getElem?_set_self (by rw [List.length_append]; omega)]
    · refine ⟨({ job := job, next := none } : Node), ?_, rfl, rfl⟩
      have hne : t ≠ heap.length := by omega
      rw [List.get?_eq_getElem?, List.getElem?_set_ne hne]
      simp
  | cons c rest ih =>
    obtain ⟨hp, node, h1, h2, h3⟩ := h
    have hne : t ≠ c.1 := by
      intro hc
      rw [← hc, ht] at h1
      cases h1
      obtain ⟨nl, g1, _, g3⟩ := chain_last_next heap nt.next rest t j h3
      cases hr : rest with
      | nil =>
        rw [hr] at h3
        obtain ⟨hp2, _⟩ := h3
        rw [ht] at g1; cases g1
        rw [g3] at hp2; cases hp2
      | cons c2 rest2 =>
        rw [hr] at h3
        obtain ⟨hp2, _⟩ := h3
        rw [ht] at g1; cases g1
        rw [g3] at hp2; cases hp2
    have hcl : c.1 < heap.length := by
      rw [List.get?_eq_getElem?] at h1
      exact (List.getElem?_eq_some_iff.1 h1).1
    refine ⟨hp, node, ?_, h2, ih node.next h3⟩
    rw [List.get?_eq_getElem?] at h1 ⊢
    rw [List.getElem?_set_ne hne, List.getElem?_append_left hcl]
    exact h1

theorem represents_empty (heap : List Node) : represents (empty_queue heap) [] :=
  ⟨[], rfl, rfl, rfl, rfl⟩

theorem represents_head (q : JobQueue) (jobs : List Job) (h : represents q jobs) :
    jobs = [] ↔ q.job_queue_head = none := by
  obtain ⟨cells, hc, hm, _, _⟩ := h
  cases cells with
  | nil =>
    have : jobs = [] := by rw [← hm]; rfl
    exact ⟨fun _ => hc, fun _ => this⟩
  | cons c rest =>
    obtain ⟨hp, _⟩ := hc
    constructor
    · intro hj; rw [hj] at hm; cases hm
    · intro hn; rw [hn] at hp; cases hp

theorem represents_add (q : JobQueue) (jobs : List Job) (job : Job)
    (h : represents q jobs) : represents (linked_add_job q job) (jobs ++ [job]) := by
  obtain ⟨cells, hc, hm, ht, hn⟩ := h
  rcases List.eq_nil_or_concat cells with hnil | ⟨init, last, hlast⟩
  · subst hnil
    have hj : jobs = [] := by rw [← hm]; rfl
    have htail : q.job_queue_tail = none := ht
    subst hj
    unfold linked_add_job
    simp only [htail]
    refine ⟨[(q.heap.length, job)], ⟨rfl, ({ job := job, next := none } : Node), ?_, rfl, rfl⟩,
      rfl, rfl, ?_⟩
    · rw [List.get?_eq_getElem?]; simp
    · show q.job_count + 1 = _
      rw [hn]; rfl
  · subst hlast
    obtain ⟨t, j⟩ := last
    rw [List.concat_eq_append] at hc hm ht
    obtain ⟨nt, g1, _, _⟩ := chain_last_next q.heap _ init t j hc
    have htail : q.job_queue_tail = some t := by
      rw [ht]; simp
    have htl : t < q.heap.length := by
      rw [List.get?_eq_getElem?] at g1
      exact (List.getElem?_eq_some_iff.1 g1).1
    have g2 : (q.heap ++ [({ job := job, next := none } : Node)]).get? t = some nt := by
      rw [List.get?_eq_getElem?] at g1 ⊢
      rw [List.getElem?_append_left htl]; exact g1
    unfold linked_add_job
    simp only [htail, g2]
    refine ⟨init ++ [(t, j), (q.heap.length, job)],
      chain_append_node q.heap _ init t j job nt g1 hc, ?_, ?_, ?_⟩
    · rw [← hm]; simp
    · simp
    · show q.job_count + 1 = _
      rw [hn]; simp

theorem represents_get_nil (q : JobQueue) (h : represents q []) :
    linked_get_job q = (empty_job, q) := by
  have := (represents_head q [] h).1 rfl
  unfold linked_get_job
  rw [this]

theorem represents_get_cons (q : JobQueue) (j : Job) (rest : List Job)
    (h : represents q (j :: rest)) :
    (linked_get_job q).1 = j ∧ represents (linked_get_job q).2 rest ∧
    (linked_get_job q).2.job_count = q.job_count - 1 ∧
    (linked_get_job q).2.job_cnt = q.job_cnt := by
  obtain ⟨cells, hc, hm, ht, hn⟩ := h
  cases cells with
  | nil => cases hm
  | cons c cs =>
    obtain ⟨hp, node, h1, h2, h3⟩ := hc
    have hm1 : c.2 = j := by
      have := congrArg List.head? hm
      simpa using this
    have hm2 : cs.map Prod.snd = rest := by
      have := congrArg List.tail hm
      simpa using this
    have hg : linked_get_job q = (node.job,
        { q with
          job_queue_head := node.next,
          job_queue_tail := if node.next = none then none else q.job_queue_tail,
          job_count := q.job_count - 1 }) := by
      unfold linked_get_job
      rw [hp]
      simp only [h1]
    rw [hg]
    refine ⟨by rw [h2, hm1], ⟨cs, h3, hm2, ?_, ?_⟩, rfl, rfl⟩
    · show (if node.next = none then none else q.job_queue_tail) = _
      cases cs with
      | nil =>
        have : node.next = none := h3
        rw [if_pos this]; rfl
      | cons c2 cs2 =>
        obtain ⟨hp2, _⟩ := h3
        rw [if_neg (by rw [hp2]; simp), ht]
        simp [List.getLast?_cons_cons]
    · show q.job_count - 1 = _
      rw [hn]; simp

theorem linked_run_refines (q : JobQueue) (jobs : List Job) (ops : List QueueOp)
    (h : represents q jobs) :
    (linked_run q ops).1 = (fifo_run jobs ops).1 ∧
    represents (linked_run q ops).2 (fifo_run jobs ops).2 := by
  induction ops generalizing q jobs with
  | nil => exact ⟨rfl, h⟩
  | cons op ops ih =>
    cases op with
    | push job =>
      exact ih (linked_add_job q job) (jobs ++ [job]) (represents_add q jobs job h)
    | pop =>
      cases jobs with
      | nil =>
        have hg := represents_get_nil q h
        have := ih q [] h
        simp only [linked_run, fifo_run, hg]
        exact ⟨by rw [this.1], this.2⟩
      | cons j rest =>
        obtain ⟨g1, g2, _, _⟩ := represents_get_cons q j rest h
        have := ih (linked_get_job q).2 rest g2
        simp only [linked_run, fifo_run]
        exact ⟨by rw [g1, this.1], this.2⟩

theorem fifo_run_pushes (jobs later : List Job) (ops : List QueueOp) :
    fifo_run jobs (later.map QueueOp.push ++ ops) = fifo_run (jobs ++ later) ops := by
  induction later generalizing jobs with
  | nil => simp
  | cons j rest ih =>
    have := ih (jobs ++ [j])
    rw [List.append_assoc] at this
    exact this

theorem fifo_run_pops (jobs : List Job) :
    fifo_run jobs (List.replicate jobs.length QueueOp.pop) = (jobs, []) := by
  induction jobs with
  | nil => rfl
  | cons j rest ih =>
    simp only [List.length_cons, List.replicate_succ, fifo_run]
    rw [ih]

theorem sched_queue_abstracts (s : Sched) (q : JobQueue) (job : Job)
    (h : represents q s.queue) :
    represents (linked_add_job q job) (add_job s job).queue ∧
    (linked_get_job q).1 = (get_job s).1 ∧
    represents (linked_get_job q).2 (get_job s).2.queue := by
  refine ⟨represents_add q s.queue job h, ?_⟩
  cases hq : s.queue with
  | nil =>
    rw [hq] at h
    have hs : get_job s = (empty_job, s) := by unfold get_job; rw [hq]; rfl
    rw [represents_get_nil q h, hs]
    exact ⟨rfl, by show represents q s.queue; rw [hq]; exact h⟩
  | cons j rest =>
    rw [hq] at h
    have hs : get_job s = (j, { s with queue := rest, job_count := s.job_count - 1 }) := by
      unfold get_job; rw [hq]
    obtain ⟨g1, g2, _, _⟩ := represents_get_cons q j rest h
    rw [hs]
    exact ⟨g1, g2⟩

/-- C11: for `start <= mid <= end <= length` (the scratch buffer reaching up to
`end`) and every index `k` outside `[start, end)`, `array[k]` is the same after
`bubble_sort(start, end)` and after `merge(start, mid, end)` as before, and
`temp_array[k]` is the same after `merge`; the lengths of both buffers are
unchanged, and a leaf job leaves the scratch buffer as it is. -/
theorem jobs_write_only_their_range (array temp_array : List Int) (start mid end_ k : Nat)
    (h1 : start ≤ mid) (h2 : mid ≤ end_) (h3 : end_ ≤ array.length)
    (h4 : end_ ≤ temp_array.length) (hk : k < start ∨ end_ ≤ k) :
    ((bubble_sort array start end_).getD k 0 = array.getD k 0 ∧
      (bubble_sort array start end_).length = array.length) ∧
    ((merge array temp_array start mid end_).1.getD k 0 = array.getD k 0 ∧
      (merge array temp_array start mid end_).1.length = array.length) ∧
    ((merge array temp_array start mid end_).2.getD k 0 = temp_array.getD k 0 ∧
      (merge array temp_array start mid end_).2.length = temp_array.length) ∧
    (∀ job : Job, job.id ≥ 7 →
      (exec_job job (array, temp_array)).2 = temp_array) := by
  obtain ⟨g1, g2⟩ := merge_spec array temp_array start mid end_ h1 h2 h3 h4
  refine ⟨⟨bubble_sort_frame array start end_ k h3 hk, bubble_sort_length _ _ _⟩,
    ⟨?_, g1⟩, ⟨?_, ?_⟩, ?_⟩
  · rw [g2 k, if_neg (by omega)]
  · rw [merge_temp, memcpy_from_getD temp_array array start (end_ - start) k (by omega),
      if_neg (by omega)]
  · rw [merge_temp, memcpy_from_length]
  · intro job hj
    rw [exec_job_leaf job _ hj]

/-- Witness of C11: index `0` is outside the range `[1, 6)`. -/
theorem jobs_write_only_their_range_witness :
    (1 ≤ 4 ∧ 4 ≤ 6 ∧ 6 ≤ ([9, 1, 4, 5, 2, 3, 0] : List Int).length ∧
      6 ≤ ([8, 8, 8, 8, 8, 8, 8] : List Int).length ∧ (0 < 1 ∨ 6 ≤ 0)) ∧
    (((bubble_sort [9, 1, 4, 5, 2, 3, 0] 1 6).getD 0 0 =
          ([9, 1, 4, 5, 2, 3, 0] : List Int).getD 0 0 ∧
        (bubble_sort [9, 1, 4, 5, 2, 3, 0] 1 6).length =
          ([9, 1, 4, 5, 2, 3, 0] : List Int).length) ∧
      ((merge [9, 1, 4, 5, 2, 3, 0] [8, 8, 8, 8, 8, 8, 8] 1 4 6).1.getD 0 0 =
          ([9, 1, 4, 5, 2, 3, 0] : List Int).getD 0 0 ∧
        (merge [9, 1, 4, 5, 2, 3, 0] [8, 8, 8, 8, 8, 8, 8] 1 4 6).1.length =
          ([9, 1, 4, 5, 2, 3, 0] : List Int).length) ∧
      ((merge [9, 1, 4, 5, 2, 3, 0] [8, 8, 8, 8, 8, 8, 8] 1 4 6).2.getD 0 0 =
          ([8, 8, 8, 8, 8, 8, 8] : List Int).getD 0 0 ∧
        (merge [9, 1, 4, 5, 2, 3, 0] [8, 8, 8, 8, 8, 8, 8] 1 4 6).2.length =
          ([8, 8, 8, 8, 8, 8, 8] : List Int).length) ∧
      (∀ job : Job, job.id ≥ 7 →
        (exec_job job ([9, 1, 4, 5, 2, 3, 0], [8, 8, 8, 8, 8, 8, 8])).2 =
          [8, 8, 8, 8, 8, 8, 8])) :=
  ⟨⟨by decide, by decide, by decide, by decide, by decide⟩,
    jobs_write_only_their_range [9, 1, 4, 5, 2, 3, 0] [8, 8, 8, 8, 8, 8, 8] 1 4 6 0
      (by decide) (by decide) (by decide) (by decide) (by decide)⟩

/-- C12: the job queue is first-in first-out.  Starting from the empty queue
(`job_queue_head = job_queue_tail = NULL`, `job_count = 0`, any heap),
`add_job(j1), ..., add_job(jk)` followed by `k` calls of `get_job` return
`j1, ..., jk` in that order, each with its four fields, and leave the queue
empty; and for every sequence of `add_job` and `get_job` calls the jobs
returned are those the first-in first-out queue of the specification returns
(each `get_job` returns the oldest job not yet removed), the linked list holding
at the end the jobs that queue holds. -/
theorem job_queue_fifo (heap : List Node) (jobs : List Job) (ops : List QueueOp) :
    ((linked_run (empty_queue heap)
        (jobs.map QueueOp.push ++ List.replicate jobs.length QueueOp.pop)).1 = jobs ∧
      (linked_run (empty_queue heap)
        (jobs.map QueueOp.push ++ List.replicate jobs.length QueueOp.pop)).2.job_queue_head
          = none ∧
      (linked_run (empty_queue heap)
        (jobs.map QueueOp.push ++ List.replicate jobs.length QueueOp.pop)).2.job_queue_tail
          = none ∧
      (linked_run (empty_queue heap)
        (jobs.map QueueOp.push ++ List.replicate jobs.length QueueOp.pop)).2.job_count
          = 0) ∧
    ((linked_run (empty_queue heap) ops).1 = (fifo_run [] ops).1 ∧
      represents (linked_run (empty_queue heap) ops).2 (fifo_run [] ops).2) := by
  refine ⟨?_, linked_run_refines _ [] ops (represents_empty heap)⟩
  obtain ⟨r1, r2⟩ := linked_run_refines (empty_queue heap) []
    (jobs.map QueueOp.push ++ List.replicate jobs.length QueueOp.pop) (represents_empty heap)
  have hf : fifo_run [] (jobs.map QueueOp.push ++ List.replicate jobs.length QueueOp.pop) =
      (jobs, []) := by
    rw [fifo_run_pushes, List.nil_append, fifo_run_pops]
  rw [hf] at r1 r2
  obtain ⟨cells, hc, hm, ht, hn⟩ := r2
  have hcells : cells = [] := by
    cases cells with
    | nil => rfl
    | cons c cs => cases hm
  subst hcells
  exact ⟨r1, hc, ht, hn⟩

/-- C13: for a linked list holding the jobs `jobs`, all with ids in `0..14`:
`get_job` returns a job with id `-1` exactly when `jobs` is empty; on the empty
queue it returns the invalid job `{0, 0, 0, -1}` and leaves the queue, with
`job_count`, unchanged; on a non-empty queue it returns the oldest of the jobs
pushed, which is not the invalid job, decreases `job_count` by exactly `1` and
leaves the remaining jobs in the list. -/
theorem get_job_signals_empty (q : JobQueue) (jobs : List Job) (h : represents q jobs)
    (hid : ∀ job, job ∈ jobs → 0 ≤ job.id ∧ job.id ≤ 14) :
    ((linked_get_job q).1.id = -1 ↔ jobs = []) ∧
    (jobs = [] →
      linked_get_job q = ({ start := 0, mid := 0, end_ := 0, id := -1 }, q)) ∧
    (jobs ≠ [] →
      jobs.head? = some (linked_get_job q).1 ∧
      (linked_get_job q).1 ∈ jobs ∧
      (linked_get_job q).1 ≠ { start := 0, mid := 0, end_ := 0, id := -1 } ∧
      (linked_get_job q).2.job_count = q.job_count - 1 ∧
      represents (linked_get_job q).2 jobs.tail) := by
  cases jobs with
  | nil =>
    have hg := represents_get_nil q h
    refine ⟨⟨fun _ => rfl, fun _ => by rw [hg]; rfl⟩, fun _ => hg, fun hne => absurd rfl hne⟩
  | cons j rest =>
    obtain ⟨g1, g2, g3, _⟩ := represents_get_cons q j rest h
    have hj := hid j (List.mem_cons_self _ _)
    refine ⟨⟨?_, ?_⟩, ?_, ?_⟩
    · intro hc
      rw [g1] at hc
      omega
    · intro hc; cases hc
    · intro hc; cases hc
    · intro _
      refine ⟨by rw [g1]; rfl, by rw [g1]; exact List.mem_cons_self _ _, ?_, g3, g2⟩
      rw [g1]
      intro hc
      rw [hc] at hj
      simp at hj

/-- Witness of C13: the queue after one `add_job` of the first leaf job. -/
theorem get_job_signals_empty_witness :
    (represents (linked_add_job (empty_queue []) (seed_job 8 1 0)) [seed_job 8 1 0] ∧
      ∀ job, job ∈ [seed_job 8 1 0] → 0 ≤ job.id ∧ job.id ≤ 14) ∧
    (((linked_get_job (linked_add_job (empty_queue []) (seed_job 8 1 0))).1.id = -1 ↔
        [seed_job 8 1 0] = []) ∧
      ([seed_job 8 1 0] = [] →
        linked_get_job (linked_add_job (empty_queue []) (seed_job 8 1 0)) =
          ({ start := 0, mid := 0, end_ := 0, id := -1 },
            linked_add_job (empty_queue []) (seed_job 8 1 0))) ∧
      ([seed_job 8 1 0] ≠ [] →
        [seed_job 8 1 0].head? =
          some (linked_get_job (linked_add_job (empty_queue []) (seed_job 8 1 0))).1 ∧
        (linked_get_job (linked_add_job (empty_queue []) (seed_job 8 1 0))).1 ∈
          [seed_job 8 1 0] ∧
        (linked_get_job (linked_add_job (empty_queue []) (seed_job 8 1 0))).1 ≠
          { start := 0, mid := 0, end_ := 0, id := -1 } ∧
        (linked_get_job (linked_add_job (empty_queue []) (seed_job 8 1 0))).2.job_count =
          (linked_add_job (empty_queue []) (seed_job 8 1 0)).job_count - 1 ∧
        represents (linked_get_job (linked_add_job (empty_queue []) (seed_job 8 1 0))).2
          [seed_job 8 1 0].tail)) :=
  ⟨⟨represents_add _ [] _ (represents_empty []), by
      intro job hj
      rw [List.mem_singleton] at hj
      rw [hj]
      decide⟩,
    get_job_signals_empty _ [seed_job 8 1 0] (represents_add _ [] _ (represents_empty []))
      (by
        intro job hj
        rw [List.mem_singleton] at hj
        rw [hj]
        decide)⟩

/-- C15: from the freshly initialised trial state the seed phase enqueues
exactly the eight leaf jobs, with ids `7, 8, ..., 14` in that order and no
merge job among them, and raises `jobs_available` from `0` to `8`, by one with
each job: after the first `k` iterations of the seed loop the queue holds `k`
jobs and `jobs_available` is `k`.  The status table is not touched. -/
theorem seed_enqueues_eight_leaves (input scratch : List Int) (n : Nat) :
    (init_state input scratch n).queue = [] ∧
    (init_state input scratch n).jobs_available = 0 ∧
    (dispatcher_seed (init_state input scratch n)).queue =
      (List.range 8).map (seed_job input.length (input.length / 8)) ∧
    (dispatcher_seed (init_state input scratch n)).queue.map Job.id =
      [7, 8, 9, 10, 11, 12, 13, 14] ∧
    (∀ job, job ∈ (dispatcher_seed (init_state input scratch n)).queue → 7 ≤ job.id) ∧
    (dispatcher_seed (init_state input scratch n)).jobs_available = 8 ∧
    (dispatcher_seed (init_state input scratch n)).job_count = 8 ∧
    (dispatcher_seed (init_state input scratch n)).job_cnt = 8 ∧
    (∀ k, k ≤ 8 →
      (seed_loop { init_state input scratch n with
          chunk_size := (init_state input scratch n).num_elements.toNat / NUM_SORT_TASKS }
        0 k).queue.length = k ∧
      (seed_loop { init_state input scratch n with
          chunk_size := (init_state input scratch n).num_elements.toNat / NUM_SORT_TASKS }
        0 k).jobs_available = k) ∧
    (dispatcher_seed (init_state input scratch n)).progress_done =
      (init_state input scratch n).progress_done := by
  have hq : (dispatcher_seed (init_state input scratch n)).queue =
      (List.range 8).map (seed_job input.length (input.length / 8)) := by
    simp only [dispatcher_seed, seed_loop_spec]
    simp [init_state, NUM_SORT_TASKS, List.range_eq_range']
  refine ⟨rfl, rfl, hq, ?_, ?_, ?_, ?_, ?_, ?_, ?_⟩
  · rw [hq]; rfl
  · intro job hj
    rw [hq] at hj
    obtain ⟨i, _, rfl⟩ := List.mem_map.1 hj
    simp [seed_job]
  · simp only [dispatcher_seed, seed_loop_spec]
    simp [init_state, NUM_SORT_TASKS]
  · simp only [dispatcher_seed, seed_loop_spec]
    simp [init_state, NUM_SORT_TASKS]
  · simp only [dispatcher_seed, seed_loop_spec]
    simp [init_state, NUM_SORT_TASKS]
  · intro k _
    rw [seed_loop_spec]
    simp [init_state]
  · simp only [dispatcher_seed, seed_loop_spec]

theorem scanned_int_of_range (value : Int) (hlo : -2147483648 ≤ value)
    (hhi : value ≤ 2147483647) : scanned_int value = value := by
  unfold scanned_int
  simp only []
  rw [if_neg (by omega), if_neg (by omega)]
  omega

theorem read_input_file_count (count : Int) (rest : List Token) (g : InputVars)
    (fresh1 fresh2 : Nat → Int) :
    read_input_file (some (Token.int count :: rest)) g fresh1 fresh2 =
      if scanned_int count > (MAX_ELEMENTS : Int) then
        (-1, { g with num_elements := scanned_int count })
      else
        (0, { num_elements := scanned_int count,
              array := read_loop (malloc_ints (scanned_int count) fresh1) rest 0
                (scanned_int count).toNat,
              temp_array := malloc_ints (scanned_int count) fresh2 }) := by
  simp only [read_input_file, fscanf_int]

/-- C19 (counterexample): the declared count `4294967297` exceeds `1,000,000`,
but it does not fit an `int`: `fscanf` stores `1`, the test against
`MAX_ELEMENTS` passes, `read_input_file` returns `0` with one element loaded
and `main` starts the trial. -/
theorem oversized_count_accepted :
    (4294967297 : Int) > 1000000 ∧
    read_input_file (some [Token.int 4294967297, Token.int 5])
        { num_elements := 0, array := [], temp_array := [] } (fun _ => 0) (fun _ => 0) =
      (0, { num_elements := 1, array := [5], temp_array := [0] }) ∧
    main_begin_trial (some [Token.int 4294967297, Token.int 5])
        { num_elements := 0, array := [], temp_array := [] } (fun _ => 0) (fun _ => 0) 1 =
      Except.ok (trial_state { num_elements := 1, array := [5], temp_array := [0] } 1) :=
  ⟨by decide, by decide, rfl⟩

/-- C19 (amended): when `input.txt` opens and begins with a numeral `count`,
`read_input_file` returns `-1` exactly when the `int` stored for `count`
exceeds `1,000,000`, and `main` returns the exit status `1` before starting
the trial exactly then.  For a `count` that fits an `int` the stored value is
`count` itself: `read_input_file` returns `-1` exactly when `count` exceeds
`1,000,000`, and returns `0`, with `num_elements = count`, for every `count`
up to and including `1,000,000`. -/
theorem read_input_file_rejects_large_count (count : Int) (rest : List Token)
    (g : InputVars) (fresh1 fresh2 : Nat → Int) (n : Nat)
    (hlo : -2147483648 ≤ count) (hhi : count ≤ 2147483647) :
    (∀ numeral : Int,
      ((read_input_file (some (Token.int numeral :: rest)) g fresh1 fresh2).1 = -1 ↔
        scanned_int numeral > 1000000) ∧
      (main_begin_trial (some (Token.int numeral :: rest)) g fresh1 fresh2 n =
        Except.error 1 ↔ scanned_int numeral > 1000000)) ∧
    scanned_int count = count ∧
    ((read_input_file (some (Token.int count :: rest)) g fresh1 fresh2).1 = -1 ↔
      count > 1000000) ∧
    (count ≤ 1000000 →
      (read_input_file (some (Token.int count :: rest)) g fresh1 fresh2).1 = 0 ∧
      (read_input_file (some (Token.int count :: rest)) g fresh1 fresh2).2.num_elements
        = count) ∧
    (main_begin_trial (some (Token.int count :: rest)) g fresh1 fresh2 n = Except.error 1 ↔
      count > 1000000) := by
  have general : ∀ numeral : Int,
      ((read_input_file (some (Token.int numeral :: rest)) g fresh1 fresh2).1 = -1 ↔
        scanned_int numeral > 1000000) ∧
      ((read_input_file (some (Token.int numeral :: rest)) g fresh1 fresh2).1 = 0 ↔
        ¬ scanned_int numeral > 1000000) ∧
      (¬ scanned_int numeral > 1000000 →
        (read_input_file (some (Token.int numeral :: rest)) g fresh1 fresh2).2.num_elements
          = scanned_int numeral) ∧
      (main_begin_trial (some (Token.int numeral :: rest)) g fresh1 fresh2 n =
        Except.error 1 ↔ scanned_int numeral > 1000000) := by
    intro numeral
    have hm : (MAX_ELEMENTS : Int) = 1000000 := rfl
    by_cases hc : scanned_int numeral > (MAX_ELEMENTS : Int)
    · have hr := read_input_file_count numeral rest g fresh1 fresh2
      rw [if_pos hc] at hr
      have hc2 : scanned_int numeral > 1000000 := by rw [← hm]; exact hc
      refine ⟨by rw [hr]; exact ⟨fun _ => hc2, fun _ => rfl⟩, ?_, fun h => absurd hc2 h, ?_⟩
      · rw [hr]
        constructor
        · intro h
          have h2 : (-1 : Int) = 0 := h
          omega
        · intro h; exact absurd hc2 h
      · unfold main_begin_trial
        rw [hr]
        exact ⟨fun _ => hc2, fun _ => rfl⟩
    · have hr := read_input_file_count numeral rest g fresh1 fresh2
      rw [if_neg hc] at hr
      have hc2 : ¬ scanned_int numeral > 1000000 := by rw [← hm]; exact hc
      refine ⟨?_, by rw [hr]; exact ⟨fun _ => hc2, fun _ => rfl⟩, fun _ => by rw [hr], ?_⟩
      · rw [hr]
        constructor
        · intro h
          have h2 : (0 : Int) = -1 := h
          omega
        · intro h; exact absurd h hc2
      · unfold main_begin_trial
        rw [hr]
        constructor
        · intro h
          rw [if_neg (by simp)] at h
          cases h
        · intro h; exact absurd h hc2
  have hs := scanned_int_of_range count hlo hhi
  obtain ⟨g1, g2, g3, g4⟩ := general count
  rw [hs] at g1 g2 g3 g4
  refine ⟨fun numeral => ⟨(general numeral).1, (general numeral).2.2.2⟩, hs, g1, ?_, g4⟩
  intro hle
  exact ⟨g2.2 (by omega), g3 (by omega)⟩

/-- Witness of C19 (amended): the count `1,000,000`, which is accepted, with
the count `1,000,001`, which is rejected. -/
theorem read_input_file_rejects_large_count_witness :
    ((-2147483648 : Int) ≤ 1000000 ∧ (1000000 : Int) ≤ 2147483647) ∧
    (read_input_file (some [Token.int 1000000])
        { num_elements := 0, array := [], temp_array := [] } (fun _ => 0) (fun _ => 0)).1
      = 0 ∧
    (read_input_file (some [Token.int 1000001])
        { num_elements := 0, array := [], temp_array := [] } (fun _ => 0) (fun _ => 0)).1
      = -1 :=
  ⟨⟨by decide, by decide⟩,
    ((read_input_file_rejects_large_count 1000000 []
      { num_elements := 0, array := [], temp_array := [] } (fun _ => 0) (fun _ => 0) 1
      (by decide) (by decide)).2.2.2.1 (by decide)).1,
    (read_input_file_rejects_large_count 1000001 []
      { num_elements := 0, array := [], temp_array := [] } (fun _ => 0) (fun _ => 0) 1
      (by decide) (by decide)).2.2.1.2 (by decide)⟩

theorem sample_sorted_perm :
    ([1, 2, 3, 4, 5, 6, 7, 9] : List Int).Sorted (· ≤ ·) ∧
    ([1, 2, 3, 4, 5, 6, 7, 9] : List Int).Perm sample_input := by
  unfold sample_input
  decide

theorem bubble_sort_single (array : List Int) (i : Nat) :
    bubble_sort array i (i + 1) = array := by
  unfold bubble_sort
  rw [show i + 1 - 1 - i = 0 by omega]
  rfl

/-- C20: for every input of exactly eight elements, leaf `i` has the range
`[i, i + 1)`, every leaf sort leaves the array as it is, and the fifteen jobs,
run in any dependency-respecting order, leave the sorted permutation of the
input; for the input `[5, 3, 1, 4, 2, 9, 7, 6]` the final array is
`[1, 2, 3, 4, 5, 6, 7, 9]`. -/
theorem eight_elements_scenario (input scratch : List Int) (order : List Nat)
    (h8 : input.length = 8) (hs : scratch.length = 8)
    (ho : respects_dependencies order) :
    (∀ i, i < 8 →
      (node_job 8 (7 + i)).start = i ∧ (node_job 8 (7 + i)).end_ = i + 1 ∧
      ∀ array : List Int, exec_job (node_job 8 (7 + i)) (array, scratch) =
        (array, scratch)) ∧
    ((run_order 8 order (input, scratch)).1.Sorted (· ≤ ·) ∧
      (run_order 8 order (input, scratch)).1.Perm input) ∧
    (input = [5, 3, 1, 4, 2, 9, 7, 6] →
      (run_order 8 order (input, scratch)).1 = [1, 2, 3, 4, 5, 6, 7, 9]) := by
  have hrun := run_sorted_perm input scratch order (by rw [hs, h8]) ho
  rw [h8] at hrun
  refine ⟨?_, hrun, ?_⟩
  · intro i hi
    have hj : node_job 8 (7 + i) = { start := i, mid := 0, end_ := i + 1, id := 7 + (i : Int) } := by
      interval_cases i <;> rfl
    rw [hj]
    refine ⟨rfl, rfl, ?_⟩
    intro array
    rw [exec_job_leaf _ _ (by show (7 : Int) + (i : Int) ≥ 7; omega)]
    show (bubble_sort array i (i + 1), scratch) = _
    rw [bubble_sort_single]
  · intro hin
    have hp : (run_order 8 order (input, scratch)).1.Perm [1, 2, 3, 4, 5, 6, 7, 9] := by
      refine hrun.2.trans ?_
      rw [hin]
      exact sample_sorted_perm.2.symm
    exact List.eq_of_perm_of_sorted hp hrun.1 sample_sorted_perm.1

/-- Witness of C20: the sample input run in the single-worker order. -/
theorem eight_elements_scenario_witness :
    (sample_input.length = 8 ∧ sample_scratch.length = 8 ∧
      respects_dependencies single_worker_order) ∧
    ((∀ i, i < 8 →
        (node_job 8 (7 + i)).start = i ∧ (node_job 8 (7 + i)).end_ = i + 1 ∧
        ∀ array : List Int, exec_job (node_job 8 (7 + i)) (array, sample_scratch) =
          (array, sample_scratch)) ∧
      ((run_order 8 single_worker_order (sample_input, sample_scratch)).1.Sorted (· ≤ ·) ∧
        (run_order 8 single_worker_order (sample_input, sample_scratch)).1.Perm
          sample_input) ∧
      (sample_input = [5, 3, 1, 4, 2, 9, 7, 6] →
        (run_order 8 single_worker_order (sample_input, sample_scratch)).1 =
          [1, 2, 3, 4, 5, 6, 7, 9])) :=
  ⟨⟨rfl, rfl, single_worker_order_respects⟩,
    eight_elements_scenario sample_input sample_scratch single_worker_order rfl rfl
      single_worker_order_respects⟩

/-! ## Lemmas on the worker loop -/

theorem get?_set_self (l : List WorkerPc) (w : Nat) (pc : WorkerPc) (hw : w < l.length) :
    (l.set w pc).get? w = some pc := by
  rw [List.get?_eq_getElem?, List.getElem?_set_self hw]

theorem worker_wake_running (s : Sched) (w : Nat) (hn : s.num_elements ≠ -1) :
    worker_wake s w =
      { s with jobs_available := s.jobs_available - 1,
               workers := s.workers.set w WorkerPc.woken } := by
  unfold worker_wake
  simp only []
  rw [if_neg hn]

theorem worker_take_head (s : Sched) (w : Nat) (job : Job) (rest : List Job)
    (hq : s.queue = job :: rest) (hc : 0 < s.job_count) (hid : job.id ≠ -1) :
    worker_take s w =
      { s with queue := rest, job_count := s.job_count - 1,
               workers := s.workers.set w (WorkerPc.run job) } := by
  have hg : get_job s = (job, { s with queue := rest, job_count := s.job_count - 1 }) := by
    unfold get_job; rw [hq]
  unfold worker_take
  rw [if_pos hc, hg]
  simp only []
  rw [if_neg hid]

theorem worker_iteration_job (s : Sched) (w : Nat) (job : Job) (rest : List Job)
    (hw : w < s.workers.length) (hn : s.num_elements ≠ -1)
    (hq : s.queue = job :: rest) (hc : 0 < s.job_count) (hid : job.id ≠ -1) :
    worker_iteration s w =
      { s with
        jobs_available := s.jobs_available - 1,
        queue := rest,
        job_count := s.job_count - 1,
        array := (exec_job job (s.array, s.temp_array)).1,
        temp_array := (exec_job job (s.array, s.temp_array)).2,
        progress_done := s.progress_done.set job.id.toNat JobStatus.COMPLETED,
        dispatcher_signal := s.dispatcher_signal + 1,
        workers := s.workers.set w WorkerPc.wait } := by
  unfold worker_iteration
  simp only []
  rw [worker_wake_running s w hn]
  simp only [get?_set_self s.workers w _ hw]
  have ht := worker_take_head
    ({ s with jobs_available := s.jobs_available - 1,
              workers := s.workers.set w WorkerPc.woken } : Sched) w job rest hq hc hid
  rw [ht]
  simp only [get?_set_self _ w _ (show w < (s.workers.set w WorkerPc.woken).length by
    rw [List.length_set]; exact hw)]
  simp only [worker_report, worker_run, List.set_set]

/-! ## Lemmas on the flow of jobs and signals -/

theorem mem_set_of_ne (l : List WorkerPc) (w : Nat) (old x pc : WorkerPc)
    (hw : l.get? w = some old) (hpc : pc ∈ l) (hne : pc ≠ old) : pc ∈ l.set w x := by
  induction l generalizing w with
  | nil => cases hpc
  | cons a l ih =>
    cases w with
    | zero =>
      have : a = old := by simpa using hw
      rcases List.mem_cons.1 hpc with h | h
      · exact absurd (h.trans this) hne
      · exact List.mem_cons_of_mem _ h
    | succ w =>
      rcases List.mem_cons.1 hpc with h | h
      · rw [h]; exact List.mem_cons_self _ _
      · exact List.mem_cons_of_mem _ (ih w (by simpa using hw) h)

theorem count_set (l : List WorkerPc) (w : Nat) (old x y : WorkerPc)
    (hw : l.get? w = some old) :
    (l.set w x).count y + (if old = y then 1 else 0) =
      l.count y + (if x = y then 1 else 0) := by
  induction l generalizing w with
  | nil => cases hw
  | cons a l ih =>
    cases w with
    | zero =>
      have : a = old := by simpa using hw
      subst this
      simp only [List.set_cons_zero, List.count_cons, beq_iff_eq]
      omega
    | succ w =>
      have := ih w (by simpa using hw)
      simp only [List.set_cons_succ, List.count_cons]
      omega

theorem weight_set (l : List WorkerPc) (w : Nat) (old x : WorkerPc)
    (hw : l.get? w = some old) :
    ((l.set w x).map worker_weight).sum + worker_weight old =
      (l.map worker_weight).sum + worker_weight x := by
  induction l generalizing w with
  | nil => cases hw
  | cons a l ih =>
    cases w with
    | zero =>
      have : a = old := by simpa using hw
      subst this
      simp only [List.set_cons_zero, List.map_cons, List.sum_cons]
      omega
    | succ w =>
      have := ih w (by simpa using hw)
      simp only [List.set_cons_succ, List.map_cons, List.sum_cons]
      omega

theorem get?_lt (l : List WorkerPc) (w : Nat) (pc : WorkerPc) (hw : l.get? w = some pc) :
    w < l.length := by
  rw [List.get?_eq_getElem?] at hw
  exact (List.getElem?_eq_some_iff.1 hw).1

theorem in_flight_mono (s t : Sched) (v : Nat)
    (hq : ∀ job, job ∈ s.queue → job.id = (v : Int) → flying t job)
    (hw : ∀ pc job, pc ∈ s.workers → holds pc job → job.id = (v : Int) → flying t job)
    (h : in_flight s v) : in_flight t v := by
  obtain ⟨job, hid, hf⟩ := h
  rcases hf with h1 | ⟨pc, h1, h2⟩
  · exact ⟨job, hid, hq job h1 hid⟩
  · exact ⟨job, hid, hw pc job h1 h2 hid⟩

theorem in_flight_same (s t : Sched) (v : Nat)
    (hq : ∀ job, job ∈ s.queue → job ∈ t.queue) (hw : t.workers = s.workers)
    (h : in_flight s v) : in_flight t v :=
  in_flight_mono s t v (fun job h1 _ => Or.inl (hq job h1))
    (fun pc job h1 h2 _ => Or.inr ⟨pc, by rw [hw]; exact h1, h2⟩) h

theorem flow_inv_init (input scratch : List Int) (n : Nat) :
    FlowInv (init_state input scratch n) := by
  refine ⟨rfl, ?_, ?_, ?_, ?_, ?_, ?_, ?_, ?_, ?_, ?_⟩
  · intro _
    show ((input.length : Nat) : Int) ≠ -1
    omega
  · intro _ h
    have := List.eq_of_mem_replicate h
    cases this
  · intro h; cases h
  · intro _
    show 0 + (List.replicate n WorkerPc.wait).count WorkerPc.woken = 0
    rw [List.count_replicate]
    simp
  · intro _ p hp hm
    have : status_at (init_state input scratch n).progress_done (2 * p + 1) =
        JobStatus.NOT_DISPATCHED := by
      interval_cases p <;> rfl
    rw [hm.1] at this
    cases this
  · intro h; cases h
  · intro h; cases h
  · intro v _ h
    have : status_at (init_state input scratch n).progress_done v =
        JobStatus.NOT_DISPATCHED := by
      unfold status_at init_state NUM_TASKS
      simp only [List.getD_eq_getElem?_getD, List.getElem?_replicate]
      split <;> rfl
    rw [this] at h
    cases h
  · intro p hp h
    have : status_at (init_state input scratch n).progress_done p =
        JobStatus.NOT_DISPATCHED := by
      interval_cases p <;> rfl
    rw [this] at h
    cases h
  · intro h
    exact absurd rfl h

theorem flow_inv_test (s : Sched) (inv : FlowInv s)
    (hd : s.dispatcher = DispatcherPc.test) : FlowInv (dispatcher_test s) := by
  have hj : s.joined = false := by
    cases hjv : s.joined with
    | false => rfl
    | true =>
      have := inv.nojoin hjv
      rw [hd] at this
      cases this
  unfold dispatcher_test
  split
  · rename_i hroot
    refine ⟨inv.cnt, inv.numel, inv.noexit, ?_, inv.tokens, inv.quiet, ?_, ?_, inv.leafnd,
      ?_, ?_⟩
    · intro h
      have : s.joined = true := h
      rw [hj] at this
      cases this
    · intro h; cases h
    · intro _ hc; exact absurd hc hroot
    · intro p hp h
      exact in_flight_same s _ p (fun _ h1 => h1) rfl (inv.flightd p hp h)
    · intro _ v h7 hv h
      exact in_flight_same s _ v (fun _ h1 => h1) rfl
        (inv.flightl (by rw [hd]; intro hc; cases hc) v h7 hv h)
  · rename_i hroot
    refine ⟨inv.cnt, inv.numel, inv.noexit, fun _ => rfl, inv.tokens, inv.quiet, ?_, ?_,
      inv.leafnd, ?_, ?_⟩
    · intro _
      by_contra hc
      exact hroot hc
    · intro h; cases h
    · intro p hp h
      exact in_flight_same s _ p (fun _ h1 => h1) rfl (inv.flightd p hp h)
    · intro _ v h7 hv h
      exact in_flight_same s _ v (fun _ h1 => h1) rfl
        (inv.flightl (by rw [hd]; intro hc; cases hc) v h7 hv h)

theorem flow_inv_cleanup (s : Sched) (inv : FlowInv s)
    (hd : s.dispatcher = DispatcherPc.done) : FlowInv (main_cleanup s) := by
  unfold main_cleanup
  refine ⟨inv.cnt, ?_, ?_, fun _ => hd, ?_, inv.quiet, inv.done, inv.rootsig, inv.leafnd,
    ?_, ?_⟩
  · intro h; cases h
  · intro h; cases h
  · intro h; cases h
  · intro p hp h
    exact in_flight_same s _ p (fun _ h1 => h1) rfl (inv.flightd p hp h)
  · intro _ v h7 hv h
    exact in_flight_same s _ v (fun _ h1 => h1) rfl
      (inv.flightl (by rw [hd]; intro hc; cases hc) v h7 hv h)

theorem flow_inv_seed (s : Sched) (inv : FlowInv s)
    (hd : s.dispatcher = DispatcherPc.seed) : FlowInv (dispatcher_seed s) := by
  have hj : s.joined = false := by
    cases hjv : s.joined with
    | false => rfl
    | true =>
      have := inv.nojoin hjv
      rw [hd] at this
      cases this
  simp only [dispatcher_seed, seed_loop_spec]
  refine ⟨?_, inv.numel, inv.noexit, ?_, ?_, inv.quiet, ?_, ?_, inv.leafnd, ?_, ?_⟩
  · show s.job_count + NUM_SORT_TASKS = (s.queue ++ _).length
    rw [List.length_append, List.length_map, List.length_range', inv.cnt]
  · intro h
    have : s.joined = true := h
    rw [hj] at this
    cases this
  · intro h
    show s.jobs_available + NUM_SORT_TASKS + s.workers.count WorkerPc.woken =
      (s.queue ++ _).length
    have := inv.tokens h
    rw [List.length_append, List.length_map, List.length_range']
    omega
  · intro h; cases h
  · intro h; cases h
  · intro p hp h
    exact in_flight_same s _ p (fun _ h1 => List.mem_append_left _ h1) rfl
      (inv.flightd p hp h)
  · intro _ v h7 hv _
    refine ⟨seed_job s.num_elements.toNat (s.num_elements.toNat / NUM_SORT_TASKS) (v - 7),
      ?_, Or.inl ?_⟩
    · show (7 : Int) + ((v - 7 : Nat) : Int) = (v : Int)
      omega
    · apply List.mem_append_right
      apply List.mem_map_of_mem
      rw [List.mem_range'_1]
      simp only [NUM_SORT_TASKS]
      omega

theorem mark_ready_quiet (pd : List JobStatus) (hl : pd.length = 15) (p : Nat) (hp : p < 7) :
    ¬ mergeable (mark_ready pd 7) p := by
  intro hm
  obtain ⟨h1, h2, h3⟩ := hm
  rw [mark_ready_completed pd hl 7 (le_refl _)] at h1 h2
  rw [mark_ready_status pd hl 7 (le_refl _)] at h3
  by_cases hc : mergeable pd p
  · rw [if_pos ⟨by omega, hp, hc⟩] at h3
    cases h3
  · rw [if_neg (fun h => hc h.2.2)] at h3
    exact hc ⟨h1, h2, h3⟩

theorem flow_inv_scan (s : Sched) (sinv : SchedInv s) (inv : FlowInv s)
    (hd : s.dispatcher = DispatcherPc.wait) : FlowInv (dispatcher_scan s) := by
  have hl := sinv.len
  have hj : s.joined = false := by
    cases hjv : s.joined with
    | false => rfl
    | true =>
      have := inv.nojoin hjv
      rw [hd] at this
      cases this
  simp only [dispatcher_scan]
  rw [scan_pass_result _ (by exact hl)]
  refine ⟨?_, inv.numel, inv.noexit, ?_, ?_, ?_, ?_, ?_, ?_, ?_, ?_⟩
  · show s.job_count + _ = (s.queue ++ _).length
    rw [List.length_append, List.length_map, inv.cnt]
  · intro h
    have : s.joined = true := h
    rw [hj] at this
    cases this
  · intro h
    show s.jobs_available + (ready_list s.progress_done 7).length +
      s.workers.count WorkerPc.woken =
        (s.queue ++ (ready_list s.progress_done 7).map
          (fun q => scan_job s.num_elements.toNat s.chunk_size (2 * q + 1))).length
    have := inv.tokens h
    rw [List.length_append, List.length_map]
    omega
  · intro _ p hp
    exact mark_ready_quiet s.progress_done hl p hp
  · intro h; cases h
  · intro h; cases h
  · intro v h7
    show status_at (mark_ready s.progress_done 7) v ≠ _
    rw [mark_ready_status _ hl 7 (le_refl _), if_neg (by omega)]
    exact inv.leafnd v h7
  · intro p hp h
    have h : status_at (mark_ready s.progress_done 7) p = JobStatus.DISPATCHED := h
    rw [mark_ready_status _ hl 7 (le_refl _)] at h
    by_cases hc : mergeable s.progress_done p
    · refine ⟨scan_job s.num_elements.toNat s.chunk_size (2 * p + 1), scan_job_id _ _ p,
        Or.inl ?_⟩
      apply List.mem_append_right
      exact List.mem_map_of_mem _ ((ready_list_mem _ 7 p (le_refl _)).2 ⟨by omega, hp, hc⟩)
    · rw [if_neg (fun h => hc h.2.2)] at h
      exact in_flight_same s _ p (fun _ h1 => List.mem_append_left _ h1) rfl
        (inv.flightd p hp h)
  · intro _ v h7 hv h
    have h : status_at (mark_ready s.progress_done 7) v = JobStatus.NOT_DISPATCHED := h
    rw [mark_ready_status _ hl 7 (le_refl _), if_neg (by omega)] at h
    exact in_flight_same s _ v (fun _ h1 => List.mem_append_left _ h1) rfl
      (inv.flightl (by rw [hd]; intro hc; cases hc) v h7 hv h)

theorem holds_set_mem (l : List WorkerPc) (w : Nat) (old x pc : WorkerPc) (job : Job)
    (hw : l.get? w = some old) (hold : ∀ j, ¬ holds old j) (hpc : pc ∈ l)
    (hh : holds pc job) : pc ∈ l.set w x := by
  apply mem_set_of_ne l w old x pc hw hpc
  intro hc
  rw [hc] at hh
  exact hold job hh

theorem flow_inv_wake (s : Sched) (inv : FlowInv s) (w : Nat)
    (hw : s.workers.get? w = some WorkerPc.wait) (hja : 0 < s.jobs_available) :
    FlowInv (worker_wake s w) := by
  unfold worker_wake
  simp only []
  split
  · rename_i hshut
    have hj : s.joined = true := by
      cases hjv : s.joined with
      | true => rfl
      | false => exact absurd hshut (inv.numel hjv)
    refine ⟨inv.cnt, inv.numel, ?_, inv.nojoin, ?_, inv.quiet, inv.done, inv.rootsig,
      inv.leafnd, ?_, ?_⟩
    · intro h
      have : s.joined = false := h
      rw [hj] at this
      cases this
    · intro h
      have : s.joined = false := h
      rw [hj] at this
      cases this
    · intro p hp h
      exact in_flight_mono s _ p (fun job h1 _ => Or.inl h1)
        (fun pc job h1 h2 _ => Or.inr ⟨pc,
          holds_set_mem _ w _ _ pc job hw not_holds_wait h1 h2, h2⟩) (inv.flightd p hp h)
    · intro hs v h7 hv h
      exact in_flight_mono s _ v (fun job h1 _ => Or.inl h1)
        (fun pc job h1 h2 _ => Or.inr ⟨pc,
          holds_set_mem _ w _ _ pc job hw not_holds_wait h1 h2, h2⟩) (inv.flightl hs v h7 hv h)
  · refine ⟨inv.cnt, inv.numel, ?_, inv.nojoin, ?_, inv.quiet, inv.done, inv.rootsig,
      inv.leafnd, ?_, ?_⟩
    · intro h hmem
      rcases List.mem_or_eq_of_mem_set hmem with h1 | h1
      · exact inv.noexit h h1
      · cases h1
    · intro h
      show s.jobs_available - 1 + (s.workers.set w WorkerPc.woken).count WorkerPc.woken =
        s.queue.length
      have h1 := inv.tokens h
      have h2 := count_set s.workers w WorkerPc.wait WorkerPc.woken WorkerPc.woken hw
      rw [if_neg (by decide), if_pos rfl] at h2
      omega
    · intro p hp h
      exact in_flight_mono s _ p (fun job h1 _ => Or.inl h1)
        (fun pc job h1 h2 _ => Or.inr ⟨pc,
          holds_set_mem _ w _ _ pc job hw not_holds_wait h1 h2, h2⟩) (inv.flightd p hp h)
    · intro hs v h7 hv h
      exact in_flight_mono s _ v (fun job h1 _ => Or.inl h1)
        (fun pc job h1 h2 _ => Or.inr ⟨pc,
          holds_set_mem _ w _ _ pc job hw not_holds_wait h1 h2, h2⟩) (inv.flightl hs v h7 hv h)

theorem flow_inv_idle (s : Sched) (inv : FlowInv s) (w : Nat) (old : WorkerPc)
    (hw : s.workers.get? w = some old) (hold : ∀ j, ¬ holds old j)
    (hcount : s.joined = false →
      s.jobs_available + (s.workers.set w WorkerPc.wait).count WorkerPc.woken =
        s.queue.length) :
    FlowInv { s with workers := s.workers.set w WorkerPc.wait } := by
  refine ⟨inv.cnt, inv.numel, ?_, inv.nojoin, hcount, inv.quiet, inv.done, inv.rootsig,
    inv.leafnd, ?_, ?_⟩
  · intro h hmem
    rcases List.mem_or_eq_of_mem_set hmem with h1 | h1
    · exact inv.noexit h h1
    · cases h1
  · intro p hp h
    exact in_flight_mono s _ p (fun job h1 _ => Or.inl h1)
      (fun pc job h1 h2 _ => Or.inr ⟨pc,
        holds_set_mem _ w _ _ pc job hw hold h1 h2, h2⟩) (inv.flightd p hp h)
  · intro hs v h7 hv h
    exact in_flight_mono s _ v (fun job h1 _ => Or.inl h1)
      (fun pc job h1 h2 _ => Or.inr ⟨pc,
        holds_set_mem _ w _ _ pc job hw hold h1 h2, h2⟩) (inv.flightl hs v h7 hv h)

theorem woken_count_pos (s : Sched) (w : Nat)
    (hw : s.workers.get? w = some WorkerPc.woken) :
    0 < s.workers.count WorkerPc.woken :=
  List.count_pos_iff.2 (List.get?_mem hw)

theorem flow_inv_take (s : Sched) (sinv : SchedInv s) (inv : FlowInv s) (w : Nat)
    (hw : s.workers.get? w = some WorkerPc.woken) : FlowInv (worker_take s w) := by
  have hwl := get?_lt _ _ _ hw
  have hpos := woken_count_pos s w hw
  by_cases hc : s.job_count > 0
  · cases hq : s.queue with
    | nil =>
      have := inv.cnt
      rw [hq] at this
      simp at this
      omega
    | cons j rest =>
      have hjm := sinv.inq j (by rw [hq]; exact List.mem_cons_self _ _)
      have hid : j.id ≠ -1 := by
        have := hjm.1
        omega
      rw [worker_take_head s w j rest hq hc hid]
      have hcs := count_set s.workers w WorkerPc.woken (WorkerPc.run j) WorkerPc.woken hw
      rw [if_pos rfl, if_neg (by intro h; cases h)] at hcs
      have hrun : WorkerPc.run j ∈ s.workers.set w (WorkerPc.run j) :=
        List.mem_set _ _ hwl _
      have hfly : ∀ v, in_flight s v →
          in_flight { s with queue := rest, job_count := s.job_count - 1,
                             workers := s.workers.set w (WorkerPc.run j) } v := by
        intro v
        apply in_flight_mono
        · intro job h1 _
          rw [hq] at h1
          rcases List.mem_cons.1 h1 with h2 | h2
          · exact Or.inr ⟨WorkerPc.run j, hrun, Or.inl (by rw [h2])⟩
          · exact Or.inl h2
        · intro pc job h1 h2 _
          exact Or.inr ⟨pc, holds_set_mem _ w _ _ pc job hw not_holds_woken h1 h2, h2⟩
      refine ⟨?_, inv.numel, ?_, inv.nojoin, ?_, inv.quiet, inv.done, inv.rootsig,
        inv.leafnd, ?_, ?_⟩
      · show s.job_count - 1 = rest.length
        have := inv.cnt
        rw [hq] at this
        simp at this
        omega
      · intro h hmem
        rcases List.mem_or_eq_of_mem_set hmem with h1 | h1
        · exact inv.noexit h h1
        · cases h1
      · intro h
        show s.jobs_available + (s.workers.set w (WorkerPc.run j)).count WorkerPc.woken =
          rest.length
        have := inv.tokens h
        rw [hq] at this
        simp at this
        omega
      · intro p hp h
        exact hfly p (inv.flightd p hp h)
      · intro hs v h7 hv h
        exact hfly v (inv.flightl hs v h7 hv h)
  · have ht : worker_take s w = { s with workers := s.workers.set w WorkerPc.wait } := by
      unfold worker_take
      rw [if_neg hc]
    rw [ht]
    apply flow_inv_idle s inv w _ hw not_holds_woken
    intro h
    have h1 := inv.tokens h
    have h2 := inv.cnt
    omega

theorem flow_inv_run (s : Sched) (inv : FlowInv s) (w : Nat) (job : Job)
    (hw : s.workers.get? w = some (WorkerPc.run job)) : FlowInv (worker_run s w job) := by
  have hwl := get?_lt _ _ _ hw
  unfold worker_run
  simp only []
  have hcs := count_set s.workers w (WorkerPc.run job) (WorkerPc.report job)
    WorkerPc.woken hw
  rw [if_neg (by intro h; cases h), if_neg (by intro h; cases h)] at hcs
  have hrep : WorkerPc.report job ∈ s.workers.set w (WorkerPc.report job) :=
    List.mem_set _ _ hwl _
  have hfly : ∀ v (t : Sched), t.queue = s.queue →
      t.workers = s.workers.set w (WorkerPc.report job) → in_flight s v → in_flight t v := by
    intro v t hq hws
    apply in_flight_mono
    · intro j h1 _
      exact Or.inl (by rw [hq]; exact h1)
    · intro pc j h1 h2 _
      by_cases hpc : pc = WorkerPc.run job
      · rw [hpc] at h2
        rcases h2 with h3 | h3
        · cases h3
          exact Or.inr ⟨WorkerPc.report job, by rw [hws]; exact hrep, Or.inr rfl⟩
        · cases h3
      · exact Or.inr ⟨pc, by rw [hws]; exact mem_set_of_ne _ w _ _ pc hw h1 hpc, h2⟩
  refine ⟨inv.cnt, inv.numel, ?_, inv.nojoin, ?_, inv.quiet, inv.done, inv.rootsig,
    inv.leafnd, ?_, ?_⟩
  · intro h hmem
    rcases List.mem_or_eq_of_mem_set hmem with h1 | h1
    · exact inv.noexit h h1
    · cases h1
  · intro h
    show s.jobs_available + (s.workers.set w (WorkerPc.report job)).count WorkerPc.woken =
      s.queue.length
    have := inv.tokens h
    omega
  · intro p hp h
    exact hfly p _ rfl rfl (inv.flightd p hp h)
  · intro hs v h7 hv h
    exact hfly v _ rfl rfl (inv.flightl hs v h7 hv h)

theorem flow_inv_report (s : Sched) (sinv : SchedInv s) (inv : FlowInv s) (w : Nat)
    (job : Job) (hw : s.workers.get? w = some (WorkerPc.report job)) :
    FlowInv (worker_report s w job) := by
  have hjm := sinv.held _ job (List.get?_mem hw) (Or.inr rfl)
  have hlen := sinv.len
  unfold worker_report
  have hcs := count_set s.workers w (WorkerPc.report job) WorkerPc.wait WorkerPc.woken hw
  rw [if_neg (by intro h; cases h), if_neg (by intro h; cases h)] at hcs
  have hfly : ∀ (v : Nat) (t : Sched), t.queue = s.queue →
      t.workers = s.workers.set w WorkerPc.wait → job.id ≠ (v : Int) →
      in_flight s v → in_flight t v := by
    intro v t hq hws hne
    apply in_flight_mono
    · intro j h1 _
      exact Or.inl (by rw [hq]; exact h1)
    · intro pc j h1 h2 hid
      by_cases hpc : pc = WorkerPc.report job
      · rw [hpc] at h2
        rcases h2 with h3 | h3
        · cases h3
        · cases h3
          exact absurd hid hne
      · exact Or.inr ⟨pc, by rw [hws]; exact mem_set_of_ne _ w _ _ pc hw h1 hpc, h2⟩
  have hset : ∀ (v : Nat) st, status_at (s.progress_done.set job.id.toNat JobStatus.COMPLETED) v = st →
      st ≠ JobStatus.COMPLETED → job.id ≠ (v : Int) ∧ status_at s.progress_done v = st := by
    intro v st h hst
    rw [status_at_set] at h
    by_cases hc : job.id.toNat = v ∧ job.id.toNat < s.progress_done.length
    · rw [if_pos hc] at h
      exact absurd h.symm hst
    · rw [if_neg hc] at h
      refine ⟨?_, h⟩
      intro hid
      apply hc
      have := hjm.2.1
      rw [hlen]
      omega
  refine ⟨inv.cnt, inv.numel, ?_, inv.nojoin, ?_, ?_, ?_, ?_, ?_, ?_, ?_⟩
  · intro h hmem
    rcases List.mem_or_eq_of_mem_set hmem with h1 | h1
    · exact inv.noexit h h1
    · cases h1
  · intro h
    show s.jobs_available + (s.workers.set w WorkerPc.wait).count WorkerPc.woken =
      s.queue.length
    have := inv.tokens h
    omega
  · intro h
    have : s.dispatcher_signal + 1 = 0 := h
    omega
  · intro h
    exact status_set_completed _ _ _ (inv.done h)
  · intro _ _
    show 0 < s.dispatcher_signal + 1
    omega
  · intro v h7 h
    obtain ⟨_, h2⟩ := hset v _ h (by intro hc; cases hc)
    exact inv.leafnd v h7 h2
  · intro p hp h
    obtain ⟨h1, h2⟩ := hset p _ h (by intro hc; cases hc)
    exact hfly p _ (by rfl) (by rfl) h1 (inv.flightd p hp h2)
  · intro hs v h7 hv h
    obtain ⟨h1, h2⟩ := hset v _ h (by intro hc; cases hc)
    exact hfly v _ (by rfl) (by rfl) h1 (inv.flightl hs v h7 hv h2)

theorem flow_inv_step (s t : Sched) (sinv : SchedInv s) (inv : FlowInv s) (h : Step s t) :
    FlowInv t := by
  cases h with
  | seed hd => exact flow_inv_seed s inv hd
  | test hd => exact flow_inv_test s inv hd
  | scan hd _ => exact flow_inv_scan s sinv inv hd
  | wake w hw hja => exact flow_inv_wake s inv w hw hja
  | take w hw => exact flow_inv_take s sinv inv w hw
  | run w job hw => exact flow_inv_run s inv w job hw
  | report w job hw => exact flow_inv_report s sinv inv w job hw
  | cleanup hd _ => exact flow_inv_cleanup s inv hd

theorem flow_inv_reachable (input scratch : List Int) (n : Nat) (s : Sched)
    (h : Reachable input scratch n s) : FlowInv s := by
  induction h with
  | init => exact flow_inv_init input scratch n
  | step s t hs hst ih =>
    exact flow_inv_step s t (sched_inv_reachable input scratch n s hs) ih hst

theorem workers_length_reachable (input scratch : List Int) (n : Nat) (s : Sched)
    (h : Reachable input scratch n s) : s.workers.length = n := by
  induction h with
  | init => simp [init_state]
  | step s t _ hst ih =>
    cases hst with
    | seed _ => simpa only [dispatcher_seed, seed_loop_spec] using ih
    | test _ => unfold dispatcher_test; split <;> exact ih
    | scan _ _ =>
      simp only [dispatcher_scan]
      rw [scan_pass_result _ (by exact (sched_inv_reachable input scratch n s ‹_›).len)]
      exact ih
    | wake w _ _ =>
      unfold worker_wake
      simp only []
      split <;> (simp only [List.length_set]; exact ih)
    | take w _ =>
      unfold worker_take get_job
      split
      · split
        · simp only []
          split <;> (simp only [List.length_set]; exact ih)
        · simp only []
          split <;> (simp only [List.length_set]; exact ih)
      · simp only [List.length_set]; exact ih
    | run w job _ => simp only [worker_run, List.length_set]; exact ih
    | report w job _ => simp only [worker_report, List.length_set]; exact ih
    | cleanup _ _ => exact ih

/-! ## Lemmas on progress and termination -/

theorem status_cases (st : JobStatus) :
    st = JobStatus.NOT_DISPATCHED ∨ st = JobStatus.DISPATCHED ∨ st = JobStatus.COMPLETED := by
  cases st
  · exact Or.inl rfl
  · exact Or.inr (Or.inl rfl)
  · exact Or.inr (Or.inr rfl)

theorem idle_leaf_completed (s : Sched) (inv : FlowInv s)
    (hidle : ∀ v, ¬ in_flight s v) (hd : s.dispatcher ≠ DispatcherPc.seed)
    (v : Nat) (h7 : 7 ≤ v) (hv : v < 15) :
    status_at s.progress_done v = JobStatus.COMPLETED := by
  rcases status_cases (status_at s.progress_done v) with h | h | h
  · exact absurd (inv.flightl hd v h7 hv h) (hidle v)
  · exact absurd h (inv.leafnd v h7)
  · exact h

theorem idle_merge_completed (s : Sched) (inv : FlowInv s)
    (hidle : ∀ v, ¬ in_flight s v) (hsig : s.dispatcher_signal = 0)
    (p : Nat) (hp : p < 7)
    (h1 : status_at s.progress_done (2 * p + 1) = JobStatus.COMPLETED)
    (h2 : status_at s.progress_done (2 * p + 2) = JobStatus.COMPLETED) :
    status_at s.progress_done p = JobStatus.COMPLETED := by
  rcases status_cases (status_at s.progress_done p) with h | h | h
  · exact absurd ⟨h1, h2, h⟩ (inv.quiet hsig p hp)
  · exact absurd (inv.flightd p hp h) (hidle p)
  · exact h

theorem idle_root_completed (s : Sched) (inv : FlowInv s)
    (hidle : ∀ v, ¬ in_flight s v) (hsig : s.dispatcher_signal = 0)
    (hd : s.dispatcher ≠ DispatcherPc.seed) :
    status_at s.progress_done 0 = JobStatus.COMPLETED := by
  have l7 := idle_leaf_completed s inv hidle hd 7 (by omega) (by omega)
  have l8 := idle_leaf_completed s inv hidle hd 8 (by omega) (by omega)
  have l9 := idle_leaf_completed s inv hidle hd 9 (by omega) (by omega)
  have l10 := idle_leaf_completed s inv hidle hd 10 (by omega) (by omega)
  have l11 := idle_leaf_completed s inv hidle hd 11 (by omega) (by omega)
  have l12 := idle_leaf_completed s inv hidle hd 12 (by omega) (by omega)
  have l13 := idle_leaf_completed s inv hidle hd 13 (by omega) (by omega)
  have l14 := idle_leaf_completed s inv hidle hd 14 (by omega) (by omega)
  have m3 := idle_merge_completed s inv hidle hsig 3 (by omega) l7 l8
  have m4 := idle_merge_completed s inv hidle hsig 4 (by omega) l9 l10
  have m5 := idle_merge_completed s inv hidle hsig 5 (by omega) l11 l12
  have m6 := idle_merge_completed s inv hidle hsig 6 (by omega) l13 l14
  have m1 := idle_merge_completed s inv hidle hsig 1 (by omega) m3 m4
  have m2 := idle_merge_completed s inv hidle hsig 2 (by omega) m5 m6
  exact idle_merge_completed s inv hidle hsig 0 (by omega) m1 m2

theorem step_of_busy_worker (s : Sched) (inv : FlowInv s) (hj : s.joined = false)
    (w : Nat) (pc : WorkerPc) (hw : s.workers.get? w = some pc) (hne : pc ≠ WorkerPc.wait) :
    ∃ t, Step s t := by
  cases pc with
  | wait => exact absurd rfl hne
  | woken => exact ⟨_, Step.take s w hw⟩
  | run job => exact ⟨_, Step.run s w job hw⟩
  | report job => exact ⟨_, Step.report s w job hw⟩
  | exited => exact absurd (List.get?_mem hw) (inv.noexit hj)

theorem progress_of_reachable (input scratch : List Int) (n : Nat) (hn : 1 ≤ n) (s : Sched)
    (hr : Reachable input scratch n s) (hd : s.dispatcher ≠ DispatcherPc.done) :
    ∃ t, Step s t := by
  have inv := flow_inv_reachable input scratch n s hr
  have hwl := workers_length_reachable input scratch n s hr
  have hj : s.joined = false := by
    cases hjv : s.joined with
    | false => rfl
    | true => exact absurd (inv.nojoin hjv) hd
  cases hdp : s.dispatcher with
  | seed => exact ⟨_, Step.seed s hdp⟩
  | test => exact ⟨_, Step.test s hdp⟩
  | done => exact absurd hdp hd
  | wait =>
    by_cases hsig : 0 < s.dispatcher_signal
    · exact ⟨_, Step.scan s hdp hsig⟩
    · by_cases hbusy : ∃ w pc, s.workers.get? w = some pc ∧ pc ≠ WorkerPc.wait
      · obtain ⟨w, pc, hw, hne⟩ := hbusy
        exact step_of_busy_worker s inv hj w pc hw hne
      · have hall : ∀ pc, pc ∈ s.workers → pc = WorkerPc.wait := by
          intro pc hpc
          by_contra hne
          obtain ⟨w, hw⟩ := List.mem_iff_get?.1 hpc
          exact hbusy ⟨w, pc, hw, hne⟩
        by_cases hja : 0 < s.jobs_available
        · have h0 : 0 < s.workers.length := by omega
          have hg : s.workers.get? 0 = some (s.workers.get ⟨0, h0⟩) := List.get?_eq_get h0
          have := hall _ (List.get?_mem hg)
          rw [this] at hg
          exact ⟨_, Step.wake s 0 hg hja⟩
        · exfalso
          have hcount : s.workers.count WorkerPc.woken = 0 := by
            rw [List.count_eq_zero]
            intro hmem
            have := hall _ hmem
            cases this
          have htok := inv.tokens hj
          have hq : s.queue = [] := by
            apply List.eq_nil_of_length_eq_zero
            omega
          have hidle : ∀ v, ¬ in_flight s v := by
            rintro v ⟨job, _, hf⟩
            rcases hf with h1 | ⟨pc, h1, h2⟩
            · rw [hq] at h1; cases h1
            · rw [hall pc h1] at h2
              exact not_holds_wait job h2
          have hroot := idle_root_completed s inv hidle (by omega)
            (by rw [hdp]; intro hc; cases hc)
          have := inv.rootsig hdp hroot
          omega

theorem pending_bit_set_completed (pd : List JobStatus) (i p : Nat) :
    pending_bit (pd.set i JobStatus.COMPLETED) p ≤ pending_bit pd p := by
  unfold pending_bit
  rw [status_at_set]
  by_cases hc : i = p ∧ i < pd.length
  · rw [if_pos hc, if_neg (by intro h; cases h)]
    exact Nat.zero_le _
  · rw [if_neg hc]

theorem pending_set_completed (pd : List JobStatus) (i : Nat) :
    pending_merges (pd.set i JobStatus.COMPLETED) ≤ pending_merges pd := by
  unfold pending_merges
  have h0 := pending_bit_set_completed pd i 0
  have h1 := pending_bit_set_completed pd i 1
  have h2 := pending_bit_set_completed pd i 2
  have h3 := pending_bit_set_completed pd i 3
  have h4 := pending_bit_set_completed pd i 4
  have h5 := pending_bit_set_completed pd i 5
  have h6 := pending_bit_set_completed pd i 6
  omega

theorem pending_bit_mark_ready (pd : List JobStatus) (hl : pd.length = 15) (p : Nat)
    (hp : p < 7) :
    pending_bit (mark_ready pd 7) p + (if mergeable pd p then 1 else 0) =
      pending_bit pd p := by
  unfold pending_bit
  have hst := mark_ready_status pd hl 7 (le_refl _) p
  by_cases hm : mergeable pd p
  · have hc : 7 - 7 ≤ p ∧ p < 7 ∧ mergeable pd p := ⟨by omega, hp, hm⟩
    rw [if_pos hc] at hst
    have h1 : ¬ status_at (mark_ready pd 7) p = JobStatus.NOT_DISPATCHED := by
      rw [hst]; intro h; cases h
    have h2 : status_at pd p = JobStatus.NOT_DISPATCHED := hm.2.2
    rw [if_neg h1, if_pos hm, if_pos h2]
  · have hc : ¬ (7 - 7 ≤ p ∧ p < 7 ∧ mergeable pd p) := fun h => hm h.2.2
    rw [if_neg hc] at hst
    rw [hst, if_neg hm, Nat.add_zero]

theorem ready_list_length_succ (pd : List JobStatus) (k : Nat) :
    (ready_list pd (k + 1)).length =
      (ready_list pd k).length + (if mergeable pd (6 - k) then 1 else 0) := by
  show (ready_list pd k ++ (if mergeable pd (6 - k) then [6 - k] else [])).length = _
  rw [List.length_append]
  split <;> rfl

theorem ready_list_length (pd : List JobStatus) :
    (ready_list pd 7).length =
      (if mergeable pd 0 then 1 else 0) + (if mergeable pd 1 then 1 else 0) +
      (if mergeable pd 2 then 1 else 0) + (if mergeable pd 3 then 1 else 0) +
      (if mergeable pd 4 then 1 else 0) + (if mergeable pd 5 then 1 else 0) +
      (if mergeable pd 6 then 1 else 0) := by
  rw [ready_list_length_succ, ready_list_length_succ, ready_list_length_succ,
    ready_list_length_succ, ready_list_length_succ, ready_list_length_succ,
    ready_list_length_succ]
  have : (ready_list pd 0).length = 0 := rfl
  rw [this]
  simp only [Nat.sub_zero, Nat.sub_self, Nat.reduceSub]
  omega

theorem pending_mark_ready (pd : List JobStatus) (hl : pd.length = 15) :
    pending_merges (mark_ready pd 7) + (ready_list pd 7).length = pending_merges pd := by
  rw [ready_list_length]
  unfold pending_merges
  have h0 := pending_bit_mark_ready pd hl 0 (by omega)
  have h1 := pending_bit_mark_ready pd hl 1 (by omega)
  have h2 := pending_bit_mark_ready pd hl 2 (by omega)
  have h3 := pending_bit_mark_ready pd hl 3 (by omega)
  have h4 := pending_bit_mark_ready pd hl 4 (by omega)
  have h5 := pending_bit_mark_ready pd hl 5 (by omega)
  have h6 := pending_bit_mark_ready pd hl 6 (by omega)
  omega

theorem measure_seed (s : Sched) (hd : s.dispatcher = DispatcherPc.seed) :
    sched_measure (dispatcher_seed s) < sched_measure s := by
  simp only [dispatcher_seed, seed_loop_spec]
  unfold sched_measure
  simp only [hd, dispatcher_weight, List.length_append, List.length_map, List.length_range',
    NUM_SORT_TASKS]
  omega

theorem measure_test (s : Sched) (hd : s.dispatcher = DispatcherPc.test) :
    sched_measure (dispatcher_test s) < sched_measure s := by
  unfold dispatcher_test
  split <;>
  · unfold sched_measure
    simp only [hd, dispatcher_weight]
    omega

theorem measure_scan (s : Sched) (hl : s.progress_done.length = 15)
    (hd : s.dispatcher = DispatcherPc.wait) (hsig : 0 < s.dispatcher_signal) :
    sched_measure (dispatcher_scan s) < sched_measure s := by
  simp only [dispatcher_scan]
  rw [scan_pass_result _ (by exact hl)]
  have hp := pending_mark_ready s.progress_done hl
  unfold sched_measure
  simp only [scan_result, hd, dispatcher_weight, List.length_append, List.length_map]
  omega

theorem measure_wake (s : Sched) (w : Nat)
    (hw : s.workers.get? w = some WorkerPc.wait) (hja : 0 < s.jobs_available) :
    sched_measure (worker_wake s w) < sched_measure s := by
  unfold worker_wake
  simp only []
  split
  · have h := weight_set s.workers w WorkerPc.wait WorkerPc.exited hw
    unfold sched_measure
    simp only [worker_weight, List.length_set] at h ⊢
    omega
  · have h := weight_set s.workers w WorkerPc.wait WorkerPc.woken hw
    unfold sched_measure
    simp only [worker_weight, List.length_set] at h ⊢
    omega

theorem measure_take (s : Sched) (w : Nat)
    (hw : s.workers.get? w = some WorkerPc.woken) :
    sched_measure (worker_take s w) < sched_measure s := by
  have hwait := weight_set s.workers w WorkerPc.woken WorkerPc.wait hw
  unfold worker_take
  split
  · cases hq : s.queue with
    | nil =>
      have hg : get_job s = ({ start := 0, mid := 0, end_ := 0, id := -1 }, s) := by
        unfold get_job; rw [hq]
      rw [hg]
      simp only []
      rw [if_pos trivial]
      unfold sched_measure
      simp only [worker_weight, List.length_set] at hwait ⊢
      omega
    | cons j rest =>
      have hg : get_job s = (j, { s with queue := rest, job_count := s.job_count - 1 }) := by
        unfold get_job; rw [hq]
      rw [hg]
      simp only []
      split
      · unfold sched_measure
        simp only [worker_weight, List.length_set, hq, List.length_cons] at hwait ⊢
        omega
      · have hrun := weight_set s.workers w WorkerPc.woken (WorkerPc.run j) hw
        unfold sched_measure
        simp only [worker_weight, List.length_set, hq, List.length_cons] at hrun ⊢
        omega
  · unfold sched_measure
    simp only [worker_weight, List.length_set] at hwait ⊢
    omega

theorem measure_run (s : Sched) (w : Nat) (job : Job)
    (hw : s.workers.get? w = some (WorkerPc.run job)) :
    sched_measure (worker_run s w job) < sched_measure s := by
  have h := weight_set s.workers w (WorkerPc.run job) (WorkerPc.report job) hw
  unfold worker_run sched_measure
  simp only [worker_weight, List.length_set] at h ⊢
  omega

theorem measure_report (s : Sched) (w : Nat) (job : Job)
    (hw : s.workers.get? w = some (WorkerPc.report job)) :
    sched_measure (worker_report s w job) < sched_measure s := by
  have h := weight_set s.workers w (WorkerPc.report job) WorkerPc.wait hw
  have hp := pending_set_completed s.progress_done job.id.toNat
  unfold worker_report sched_measure
  simp only [worker_weight, List.length_set] at h ⊢
  omega

theorem measure_cleanup (s : Sched) (hj : s.joined = false) :
    sched_measure (main_cleanup s) < sched_measure s := by
  unfold main_cleanup sched_measure
  simp only [hj]
  simp
  omega

theorem measure_step (s t : Sched) (hl : s.progress_done.length = 15) (h : Step s t) :
    sched_measure t < sched_measure s := by
  cases h with
  | seed hd => exact measure_seed s hd
  | test hd => exact measure_test s hd
  | scan hd hsig => exact measure_scan s hl hd hsig
  | wake w hw hja => exact measure_wake s w hw hja
  | take w hw => exact measure_take s w hw
  | run w job hw => exact measure_run s w job hw
  | report w job hw => exact measure_report s w job hw
  | cleanup _ hj => exact measure_cleanup s hj

/-! ## Facts about the sample states -/

theorem seeded_state_reachable : Reachable sample_input sample_scratch 1 seeded_state :=
  Reachable.step _ _ Reachable.init (Step.seed _ rfl)

theorem leaf_run_state_reachable : Reachable sample_input sample_scratch 1 leaf_run_state :=
  Reachable.step _ _
    (Reachable.step _ _
      (Reachable.step _ _ seeded_state_reachable
        (Step.wake seeded_state 0 rfl (by decide)))
      (Step.take (worker_wake seeded_state 0) 0 rfl))
    (Step.run (worker_take (worker_wake seeded_state 0) 0) 0 (seed_job 8 1 0) rfl)

theorem status_rank_le (st : JobStatus) : status_rank st ≤ 2 := by
  cases st <;> decide

theorem step_status (s t : Sched) (sinv : SchedInv s) (h : Step s t) (v : Nat) :
    status_at t.progress_done v = status_at s.progress_done v ∨
    (v < 7 ∧ status_at s.progress_done v = JobStatus.NOT_DISPATCHED ∧
      status_at t.progress_done v = JobStatus.DISPATCHED) ∨
    (status_at t.progress_done v = JobStatus.COMPLETED ∧
      ∃ job, job_marked s.progress_done job ∧ job.id.toNat = v) := by
  cases h with
  | seed _ =>
    left
    simp only [dispatcher_seed, seed_loop_spec]
  | test _ =>
    left
    unfold dispatcher_test
    split <;> rfl
  | scan _ _ =>
    simp only [dispatcher_scan]
    rw [scan_pass_result _ (by exact sinv.len)]
    have hst := mark_ready_status s.progress_done sinv.len 7 (le_refl _) v
    by_cases hc : 7 - 7 ≤ v ∧ v < 7 ∧ mergeable s.progress_done v
    · rw [if_pos hc] at hst
      exact Or.inr (Or.inl ⟨hc.2.1, hc.2.2.2.2, hst⟩)
    · rw [if_neg hc] at hst
      exact Or.inl hst
  | wake w _ _ =>
    left
    unfold worker_wake
    simp only []
    split <;> rfl
  | take w _ =>
    left
    unfold worker_take get_job
    split
    · split
      · simp only []
        split <;> rfl
      · simp only []
        split <;> rfl
    · rfl
  | run w job _ => exact Or.inl rfl
  | report w job hw =>
    have hjm := sinv.held _ job (List.get?_mem hw) (Or.inr rfl)
    have hst : status_at (worker_report s w job).progress_done v =
        if job.id.toNat = v ∧ job.id.toNat < s.progress_done.length then JobStatus.COMPLETED
        else status_at s.progress_done v := status_at_set _ _ _ _
    by_cases hc : job.id.toNat = v ∧ job.id.toNat < s.progress_done.length
    · rw [if_pos hc] at hst
      exact Or.inr (Or.inr ⟨hst, job, hjm, hc.1⟩)
    · rw [if_neg hc] at hst
      exact Or.inl hst
  | cleanup _ _ => exact Or.inl rfl

/-- C14 (counterexample): in a one-worker trial on the sample, the worker's
report of the job of leaf `7` takes the status of node `7` from
`NOT_DISPATCHED` straight to `COMPLETED`; the node is never `DISPATCHED`. -/
theorem leaf_completed_from_not_dispatched :
    Reachable sample_input sample_scratch 1 leaf_run_state ∧
    Step leaf_run_state (worker_report leaf_run_state 0 (seed_job 8 1 0)) ∧
    status_at leaf_run_state.progress_done 7 = JobStatus.NOT_DISPATCHED ∧
    status_at (worker_report leaf_run_state 0 (seed_job 8 1 0)).progress_done 7 =
      JobStatus.COMPLETED ∧
    ¬ (∀ s t : Sched, Reachable sample_input sample_scratch 1 s → Step s t →
        ∀ v, v < 15 → status_at t.progress_done v = JobStatus.COMPLETED →
          status_at s.progress_done v = JobStatus.DISPATCHED ∨
          status_at s.progress_done v = JobStatus.COMPLETED) := by
  have hstep : Step leaf_run_state (worker_report leaf_run_state 0 (seed_job 8 1 0)) :=
    Step.report leaf_run_state 0 (seed_job 8 1 0) rfl
  have h1 : status_at leaf_run_state.progress_done 7 = JobStatus.NOT_DISPATCHED := rfl
  have h2 : status_at (worker_report leaf_run_state 0 (seed_job 8 1 0)).progress_done 7 =
      JobStatus.COMPLETED := rfl
  refine ⟨leaf_run_state_reachable, hstep, h1, h2, ?_⟩
  intro hall
  rcases hall _ _ leaf_run_state_reachable hstep 7 (by decide) h2 with h | h
  · rw [h1] at h; cases h
  · rw [h1] at h; cases h

/-- C14 (amended): along every step of a reachable state and for each of the
fifteen nodes, the status never moves backward; it becomes `DISPATCHED` only
from `NOT_DISPATCHED`, and only for an internal node; an internal node becomes
`COMPLETED` only from `DISPATCHED`; a leaf is never `DISPATCHED` and becomes
`COMPLETED` directly from `NOT_DISPATCHED`. -/
theorem status_life_cycle (input scratch : List Int) (n : Nat) (s t : Sched)
    (hr : Reachable input scratch n s) (hst : Step s t) (v : Nat) (hv : v < 15) :
    status_rank (status_at s.progress_done v) ≤ status_rank (status_at t.progress_done v) ∧
    (status_at t.progress_done v = JobStatus.DISPATCHED →
      status_at s.progress_done v ≠ JobStatus.DISPATCHED →
      status_at s.progress_done v = JobStatus.NOT_DISPATCHED ∧ v < 7) ∧
    (status_at t.progress_done v = JobStatus.COMPLETED →
      status_at s.progress_done v ≠ JobStatus.COMPLETED →
      (v < 7 → status_at s.progress_done v = JobStatus.DISPATCHED) ∧
      (7 ≤ v → status_at s.progress_done v = JobStatus.NOT_DISPATCHED)) ∧
    (7 ≤ v → status_at s.progress_done v ≠ JobStatus.DISPATCHED ∧
      status_at t.progress_done v ≠ JobStatus.DISPATCHED) := by
  have sinv := sched_inv_reachable input scratch n s hr
  have inv := flow_inv_reachable input scratch n s hr
  have invt := flow_inv_step s t sinv inv hst
  refine ⟨?_, ?_, ?_, fun h7 => ⟨inv.leafnd v h7, invt.leafnd v h7⟩⟩
  · rcases step_status s t sinv hst v with h | ⟨_, h1, h2⟩ | ⟨h1, _⟩
    · rw [h]
    · rw [h1, h2]; decide
    · rw [h1]; exact status_rank_le _
  · intro hd hnd
    rcases step_status s t sinv hst v with h | ⟨h0, h1, _⟩ | ⟨h1, _⟩
    · rw [h] at hd; exact absurd hd hnd
    · exact ⟨h1, h0⟩
    · rw [h1] at hd; cases hd
  · intro hc hnc
    rcases step_status s t sinv hst v with h | ⟨_, _, h2⟩ | ⟨_, job, hjm, hid⟩
    · rw [h] at hc; exact absurd hc hnc
    · rw [h2] at hc; cases hc
    · constructor
      · intro h7
        have hm := hjm.2.2 (by have := hjm.1; omega)
        rw [hid] at hm
        rcases status_cases (status_at s.progress_done v) with h | h | h
        · exact absurd h hm
        · exact h
        · exact absurd h hnc
      · intro h7
        rcases status_cases (status_at s.progress_done v) with h | h | h
        · exact h
        · exact absurd h (inv.leafnd v h7)
        · exact absurd h hnc

/-- Witness of C14 (amended): the report step of leaf `7` in the sample trial. -/
theorem status_life_cycle_witness :
    (Reachable sample_input sample_scratch 1 leaf_run_state ∧
      Step leaf_run_state (worker_report leaf_run_state 0 (seed_job 8 1 0)) ∧ 7 < 15) ∧
    (status_rank (status_at leaf_run_state.progress_done 7) ≤
        status_rank
          (status_at (worker_report leaf_run_state 0 (seed_job 8 1 0)).progress_done 7) ∧
      (status_at (worker_report leaf_run_state 0 (seed_job 8 1 0)).progress_done 7 =
          JobStatus.DISPATCHED →
        status_at leaf_run_state.progress_done 7 ≠ JobStatus.DISPATCHED →
        status_at leaf_run_state.progress_done 7 = JobStatus.NOT_DISPATCHED ∧ 7 < 7) ∧
      (status_at (worker_report leaf_run_state 0 (seed_job 8 1 0)).progress_done 7 =
          JobStatus.COMPLETED →
        status_at leaf_run_state.progress_done 7 ≠ JobStatus.COMPLETED →
        (7 < 7 → status_at leaf_run_state.progress_done 7 = JobStatus.DISPATCHED) ∧
        (7 ≤ 7 → status_at leaf_run_state.progress_done 7 = JobStatus.NOT_DISPATCHED)) ∧
      (7 ≤ 7 → status_at leaf_run_state.progress_done 7 ≠ JobStatus.DISPATCHED ∧
        status_at (worker_report leaf_run_state 0 (seed_job 8 1 0)).progress_done 7 ≠
          JobStatus.DISPATCHED)) :=
  ⟨⟨leaf_run_state_reachable, Step.report leaf_run_state 0 (seed_job 8 1 0) rfl, by decide⟩,
    status_life_cycle sample_input sample_scratch 1 leaf_run_state _
      leaf_run_state_reachable (Step.report leaf_run_state 0 (seed_job 8 1 0) rfl) 7
      (by decide)⟩

/-- C16: in a state whose queue is `job :: rest` (counted by `job_count`), with
no shutdown flag and a positive `jobs_available`, one iteration of worker `w`
removes the head job, runs `bubble_sort(start, end)` when the id is in `7..14`
and `merge(start, mid, end)` when it is in `0..6`, sets the status of exactly
that node to `COMPLETED`, every other entry of the table being unchanged, and
raises `dispatcher_signal` by exactly one; it has consumed one unit of
`jobs_available`. -/
theorem worker_iteration_runs_head_job (s : Sched) (w : Nat) (job : Job) (rest : List Job)
    (hw : w < s.workers.length) (hn : s.num_elements ≠ -1) (hja : 0 < s.jobs_available)
    (hq : s.queue = job :: rest) (hc : s.job_count = s.queue.length)
    (hid : 0 ≤ job.id ∧ job.id ≤ 14) (hl : s.progress_done.length = 15) :
    worker_iteration s w =
      { s with
        jobs_available := s.jobs_available - 1,
        queue := rest,
        job_count := s.job_count - 1,
        array := (exec_job job (s.array, s.temp_array)).1,
        temp_array := (exec_job job (s.array, s.temp_array)).2,
        progress_done := s.progress_done.set job.id.toNat JobStatus.COMPLETED,
        dispatcher_signal := s.dispatcher_signal + 1,
        workers := s.workers.set w WorkerPc.wait } ∧
    (7 ≤ job.id → exec_job job (s.array, s.temp_array) =
      (bubble_sort s.array job.start job.end_, s.temp_array)) ∧
    (job.id ≤ 6 → exec_job job (s.array, s.temp_array) =
      merge s.array s.temp_array job.start job.mid job.end_) ∧
    status_at (worker_iteration s w).progress_done job.id.toNat = JobStatus.COMPLETED ∧
    (∀ k, k ≠ job.id.toNat →
      status_at (worker_iteration s w).progress_done k = status_at s.progress_done k) ∧
    (worker_iteration s w).queue = rest ∧
    (worker_iteration s w).dispatcher_signal = s.dispatcher_signal + 1 ∧
    (worker_iteration s w).jobs_available + 1 = s.jobs_available := by
  have hcount : 0 < s.job_count := by rw [hc, hq]; simp
  have hit := worker_iteration_job s w job rest hw hn hq hcount (by omega)
  rw [hit]
  refine ⟨rfl, fun h7 => exec_job_leaf _ _ h7, fun h6 => exec_job_merge _ _ (by omega), ?_, ?_,
    rfl, rfl, ?_⟩
  rotate_left 2
  · show s.jobs_available - 1 + 1 = s.jobs_available
    omega
  · show status_at (s.progress_done.set job.id.toNat JobStatus.COMPLETED) job.id.toNat = _
    rw [status_at_set, if_pos ⟨rfl, by omega⟩]
  · intro k hk
    show status_at (s.progress_done.set job.id.toNat JobStatus.COMPLETED) k = _
    rw [status_at_set, if_neg (fun h => hk h.1.symm)]

/-- Witness of C16: the worker of the sample trial right after the seed phase;
the head job is the leaf job of node `7`. -/
theorem worker_iteration_runs_head_job_witness :
    (0 < seeded_state.workers.length ∧ seeded_state.num_elements ≠ -1 ∧
      0 < seeded_state.jobs_available ∧
      seeded_state.queue = seed_job 8 1 0 :: (List.range' 1 7).map (seed_job 8 1) ∧
      seeded_state.job_count = seeded_state.queue.length ∧
      (0 ≤ (seed_job 8 1 0).id ∧ (seed_job 8 1 0).id ≤ 14) ∧
      seeded_state.progress_done.length = 15) ∧
    (worker_iteration seeded_state 0).queue = (List.range' 1 7).map (seed_job 8 1) ∧
    status_at (worker_iteration seeded_state 0).progress_done 7 = JobStatus.COMPLETED :=
  ⟨⟨by decide, by decide, by decide, rfl, rfl, by decide, rfl⟩,
    (worker_iteration_runs_head_job seeded_state 0 (seed_job 8 1 0)
      ((List.range' 1 7).map (seed_job 8 1)) (by decide) (by decide) (by decide) rfl rfl
      (by decide) rfl).2.2.2.2.2.1,
    (worker_iteration_runs_head_job seeded_state 0 (seed_job 8 1 0)
      ((List.range' 1 7).map (seed_job 8 1)) (by decide) (by decide) (by decide) rfl rfl
      (by decide) rfl).2.2.2.1⟩

theorem all_completed_of_root (s : Sched) (sinv : SchedInv s)
    (h0 : status_at s.progress_done 0 = JobStatus.COMPLETED) (v : Nat) (hv : v < 15) :
    status_at s.progress_done v = JobStatus.COMPLETED := by
  have down : ∀ p, p < 7 → status_at s.progress_done p = JobStatus.COMPLETED →
      status_at s.progress_done (2 * p + 1) = JobStatus.COMPLETED ∧
      status_at s.progress_done (2 * p + 2) = JobStatus.COMPLETED := by
    intro p hp h
    exact sinv.dep p hp (by rw [h]; intro hc; cases hc)
  obtain ⟨c1, c2⟩ := down 0 (by omega) h0
  obtain ⟨c3, c4⟩ := down 1 (by omega) c1
  obtain ⟨c5, c6⟩ := down 2 (by omega) c2
  obtain ⟨c7, c8⟩ := down 3 (by omega) c3
  obtain ⟨c9, c10⟩ := down 4 (by omega) c4
  obtain ⟨c11, c12⟩ := down 5 (by omega) c5
  obtain ⟨c13, c14⟩ := down 6 (by omega) c6
  interval_cases v <;> assumption

/-- C17: the test of the dispatcher's `while` loop leads to the terminal state
exactly when node `0` is `COMPLETED`, and to the wait otherwise; in every
reachable state in which node `0` is `COMPLETED` all fifteen nodes are
`COMPLETED`, and so they are in every reachable state in which the dispatcher
has returned. -/
theorem dispatcher_returns_after_all_jobs (input scratch : List Int) (n : Nat) (s : Sched)
    (hr : Reachable input scratch n s) :
    ((dispatcher_test s).dispatcher = DispatcherPc.done ↔
      status_at s.progress_done 0 = JobStatus.COMPLETED) ∧
    ((dispatcher_test s).dispatcher = DispatcherPc.wait ↔
      status_at s.progress_done 0 ≠ JobStatus.COMPLETED) ∧
    (status_at s.progress_done 0 = JobStatus.COMPLETED →
      ∀ v, v < 15 → status_at s.progress_done v = JobStatus.COMPLETED) ∧
    (s.dispatcher = DispatcherPc.done →
      ∀ v, v < 15 → status_at s.progress_done v = JobStatus.COMPLETED) := by
  have sinv := sched_inv_reachable input scratch n s hr
  have inv := flow_inv_reachable input scratch n s hr
  refine ⟨?_, ?_, all_completed_of_root s sinv,
    fun hd => all_completed_of_root s sinv (inv.done hd)⟩
  · unfold dispatcher_test
    by_cases h : status_at s.progress_done 0 = JobStatus.COMPLETED
    · rw [if_neg (fun hc => hc h)]
      exact ⟨fun _ => h, fun _ => rfl⟩
    · rw [if_pos h]
      constructor
      · intro hc; cases hc
      · intro hc; exact absurd hc h
  · unfold dispatcher_test
    by_cases h : status_at s.progress_done 0 = JobStatus.COMPLETED
    · rw [if_neg (fun hc => hc h)]
      constructor
      · intro hc; cases hc
      · intro hc; exact absurd h hc
    · rw [if_pos h]
      exact ⟨fun _ => h, fun _ => rfl⟩

/-- Witness of C17: the state of the one-worker sample trial in which the
dispatcher has returned: node `0` is `COMPLETED`, and so are all fifteen
nodes. -/
theorem dispatcher_returns_after_all_jobs_witness :
    Reachable sample_input sample_scratch 1 finished_state ∧
    (status_at finished_state.progress_done 0 = JobStatus.COMPLETED ∧
      finished_state.dispatcher = DispatcherPc.done) ∧
    (∀ v, v < 15 → status_at finished_state.progress_done v = JobStatus.COMPLETED) ∧
    (((dispatcher_test finished_state).dispatcher = DispatcherPc.done ↔
        status_at finished_state.progress_done 0 = JobStatus.COMPLETED) ∧
      ((dispatcher_test finished_state).dispatcher = DispatcherPc.wait ↔
        status_at finished_state.progress_done 0 ≠ JobStatus.COMPLETED) ∧
      (status_at finished_state.progress_done 0 = JobStatus.COMPLETED →
        ∀ v, v < 15 → status_at finished_state.progress_done v = JobStatus.COMPLETED) ∧
      (finished_state.dispatcher = DispatcherPc.done →
        ∀ v, v < 15 → status_at finished_state.progress_done v = JobStatus.COMPLETED)) :=
  ⟨finished_state_reachable, ⟨finished_state_facts.1, finished_state_facts.2.1⟩,
    (dispatcher_returns_after_all_jobs sample_input sample_scratch 1 finished_state
      finished_state_reachable).2.2.2 finished_state_facts.2.1,
    dispatcher_returns_after_all_jobs sample_input sample_scratch 1 finished_state
      finished_state_reachable⟩

theorem measure_init (input scratch : List Int) (n : Nat) :
    sched_measure (init_state input scratch n) = 93 + 2 * n := by
  have hsum : ((List.replicate n WorkerPc.wait).map worker_weight).sum = 0 := by
    induction n with
    | zero => rfl
    | succ k ih =>
      rw [List.replicate_succ, List.map_cons, List.sum_cons, ih]
      rfl
  have hpend : pending_merges (init_state input scratch n).progress_done = 7 := rfl
  unfold sched_measure
  rw [hpend]
  simp only [init_state, dispatcher_weight, List.length_replicate, hsum, List.length_nil]
  simp
  omega

theorem run_len_bound (input scratch : List Int) (n k : Nat) (s : Sched)
    (h : RunLen (init_state input scratch n) k s) :
    Reachable input scratch n s ∧ k + sched_measure s ≤ 93 + 2 * n := by
  generalize hs0 : init_state input scratch n = s0 at h
  induction h with
  | zero =>
    subst hs0
    exact ⟨Reachable.init, by rw [measure_init]; omega⟩
  | succ t u k _ hst ih =>
    obtain ⟨hr, hb⟩ := ih
    have := measure_step t u (sched_inv_reachable input scratch n t hr).len hst
    exact ⟨Reachable.step t u hr hst, by omega⟩

theorem done_absorbing (s t : Sched) (h : Step s t) (hd : s.dispatcher = DispatcherPc.done) :
    t.dispatcher = DispatcherPc.done := by
  cases h with
  | seed h1 => rw [hd] at h1; cases h1
  | test h1 => rw [hd] at h1; cases h1
  | scan h1 _ => rw [hd] at h1; cases h1
  | wake w _ _ =>
    unfold worker_wake
    simp only []
    split <;> exact hd
  | take w _ =>
    unfold worker_take get_job
    split
    · split
      · simp only []
        split <;> exact hd
      · simp only []
        split <;> exact hd
    · exact hd
  | run w job _ => exact hd
  | report w job _ => exact hd
  | cleanup _ _ => exact hd

/-! ## More lemmas on the dependency scan -/

theorem ready_list_quiet (pd : List JobStatus) (h : ∀ p, p < 7 → ¬ mergeable pd p)
    (k : Nat) (hk : k ≤ 7) : ready_list pd k = [] ∧ mark_ready pd k = pd := by
  induction k with
  | zero => exact ⟨rfl, rfl⟩
  | succ k ih =>
    obtain ⟨h1, h2⟩ := ih (by omega)
    have hm := h (6 - k) (by omega)
    unfold ready_list mark_ready
    rw [if_neg hm, if_neg hm, h1, h2]
    exact ⟨rfl, rfl⟩

theorem scan_pass_twice (s : Sched) (hl : s.progress_done.length = 15) :
    scan_pass (scan_pass s) = scan_pass s := by
  have hl2 : (scan_pass s).progress_done.length = 15 := by
    rw [scan_pass_result s hl]
    show (mark_ready s.progress_done 7).length = 15
    rw [mark_ready_length]; exact hl
  have hq : ∀ p, p < 7 → ¬ mergeable (scan_pass s).progress_done p := by
    rw [scan_pass_result s hl]
    exact fun p hp => mark_ready_quiet s.progress_done hl p hp
  obtain ⟨h1, h2⟩ := ready_list_quiet (scan_pass s).progress_done hq 7 (le_refl _)
  rw [scan_pass_result (scan_pass s) hl2]
  unfold scan_result
  rw [h1, h2]
  simp

theorem scan_pass_unfold (s : Sched) :
    scan_pass s =
      scan_step (scan_step (scan_step (scan_step (scan_step (scan_step
        (scan_step s 13) 11) 9) 7) 5) 3) 1 := by
  unfold scan_pass
  rw [scan_loop, if_pos (by decide), scan_loop, if_pos (by decide), scan_loop,
    if_pos (by decide), scan_loop, if_pos (by decide), scan_loop, if_pos (by decide),
    scan_loop, if_pos (by decide), scan_loop, if_pos (by decide), scan_loop,
    if_neg (by decide)]

theorem ready_list_descending (pd : List JobStatus) (k : Nat) (hk : k ≤ 7) :
    (ready_list pd k).Pairwise (· > ·) := by
  induction k with
  | zero => exact List.Pairwise.nil
  | succ k ih =>
    unfold ready_list
    rw [List.pairwise_append]
    refine ⟨ih (by omega), ?_, ?_⟩
    · split
      · exact List.pairwise_singleton _ _
      · exact List.Pairwise.nil
    · intro a ha b hb
      have h1 := (ready_list_mem pd k a (by omega)).1 ha
      split at hb
      · rw [List.mem_singleton] at hb
        omega
      · cases hb

theorem not_both_mergeable (pd : List JobStatus) (v : Nat) (hv : 0 < v)
    (h1 : mergeable pd v) (h2 : mergeable pd ((v - 1) / 2)) : False := by
  have hnd := h1.2.2
  rcases Nat.even_or_odd v with he | ho
  · obtain ⟨k, hk⟩ := he
    have : 2 * ((v - 1) / 2) + 2 = v := by omega
    have hc := h2.2.1
    rw [this, hnd] at hc
    cases hc
  · obtain ⟨k, hk⟩ := ho
    have : 2 * ((v - 1) / 2) + 1 = v := by omega
    have hc := h2.1
    rw [this, hnd] at hc
    cases hc

theorem mark_ready_dispatched (pd : List JobStatus) (hl : pd.length = 15) (v : Nat)
    (h1 : status_at pd v ≠ JobStatus.DISPATCHED)
    (h2 : status_at (mark_ready pd 7) v = JobStatus.DISPATCHED) : v < 7 ∧ mergeable pd v := by
  rw [mark_ready_status pd hl 7 (le_refl _)] at h2
  by_cases hc : 7 - 7 ≤ v ∧ v < 7 ∧ mergeable pd v
  · exact hc.2
  · rw [if_neg hc] at h2
    exact absurd h2 h1

/-- C29: for every state whose status table has its fifteen entries, a second
pass of the dependency scan run right after a first one, with no worker
completion in between, changes nothing: the state after the two passes is the
state after the first, so the second pass changes no status and enqueues no
job; after a pass no internal node is ready. -/
theorem scan_pass_idempotent (s : Sched) (hl : s.progress_done.length = 15) :
    scan_pass (scan_pass s) = scan_pass s ∧
    (scan_pass (scan_pass s)).progress_done = (scan_pass s).progress_done ∧
    (scan_pass (scan_pass s)).queue = (scan_pass s).queue ∧
    (scan_pass (scan_pass s)).job_cnt = (scan_pass s).job_cnt ∧
    (∀ p, p < 7 →
      ¬ (status_at (scan_pass s).progress_done (2 * p + 1) = JobStatus.COMPLETED ∧
        status_at (scan_pass s).progress_done (2 * p + 2) = JobStatus.COMPLETED ∧
        status_at (scan_pass s).progress_done p = JobStatus.NOT_DISPATCHED)) := by
  have h := scan_pass_twice s hl
  refine ⟨h, by rw [h], by rw [h], by rw [h], ?_⟩
  rw [scan_pass_result s hl]
  exact fun p hp => mark_ready_quiet s.progress_done hl p hp

/-- Witness of C29: two passes in the state whose eight leaves are `COMPLETED`. -/
theorem scan_pass_idempotent_witness :
    leaves_done_state.progress_done.length = 15 ∧
    (scan_pass (scan_pass leaves_done_state) = scan_pass leaves_done_state ∧
      (scan_pass (scan_pass leaves_done_state)).progress_done =
        (scan_pass leaves_done_state).progress_done ∧
      (scan_pass (scan_pass leaves_done_state)).queue = (scan_pass leaves_done_state).queue ∧
      (scan_pass (scan_pass leaves_done_state)).job_cnt =
        (scan_pass leaves_done_state).job_cnt ∧
      (∀ p, p < 7 →
        ¬ (status_at (scan_pass leaves_done_state).progress_done (2 * p + 1) =
              JobStatus.COMPLETED ∧
          status_at (scan_pass leaves_done_state).progress_done (2 * p + 2) =
              JobStatus.COMPLETED ∧
          status_at (scan_pass leaves_done_state).progress_done p =
              JobStatus.NOT_DISPATCHED))) :=
  ⟨rfl, scan_pass_idempotent leaves_done_state rfl⟩

/-- C22: one pass of the dependency scan examines the pairs at the loop
variables `13, 11, 9, 7, 5, 3, 1`, that is the parents `6, 5, 4, 3, 2, 1, 0`,
in that order; the jobs it adds to the queue carry strictly decreasing node
ids; and no node is dispatched in the same pass as its parent, whatever the
table (of fifteen entries) before the pass. -/
theorem scan_pass_bottom_up (s : Sched) (hl : s.progress_done.length = 15) :
    (scan_pass s =
        scan_step (scan_step (scan_step (scan_step (scan_step (scan_step
          (scan_step s 13) 11) 9) 7) 5) 3) 1 ∧
      [(13 - 1) / 2, (11 - 1) / 2, (9 - 1) / 2, (7 - 1) / 2, (5 - 1) / 2, (3 - 1) / 2,
        (1 - 1) / 2] = [6, 5, 4, 3, 2, 1, 0]) ∧
    (∃ added : List Job, (scan_pass s).queue = s.queue ++ added ∧
      (added.map Job.id).Pairwise (· > ·)) ∧
    (∀ v, 0 < v →
      ¬ ((status_at s.progress_done v ≠ JobStatus.DISPATCHED ∧
          status_at (scan_pass s).progress_done v = JobStatus.DISPATCHED) ∧
        (status_at s.progress_done ((v - 1) / 2) ≠ JobStatus.DISPATCHED ∧
          status_at (scan_pass s).progress_done ((v - 1) / 2) = JobStatus.DISPATCHED))) := by
  refine ⟨⟨scan_pass_unfold s, by decide⟩, ?_, ?_⟩
  · rw [scan_pass_result s hl]
    refine ⟨(ready_list s.progress_done 7).map
      (fun q => scan_job s.num_elements.toNat s.chunk_size (2 * q + 1)), rfl, ?_⟩
    rw [List.map_map, List.pairwise_map]
    refine (ready_list_descending s.progress_done 7 (le_refl _)).imp ?_
    intro a b hab
    show (scan_job _ _ (2 * a + 1)).id > (scan_job _ _ (2 * b + 1)).id
    rw [scan_job_id, scan_job_id]
    omega
  · intro v hv h
    rw [scan_pass_result s hl] at h
    obtain ⟨⟨a1, a2⟩, ⟨b1, b2⟩⟩ := h
    have hm1 := mark_ready_dispatched s.progress_done hl v a1 a2
    have hm2 := mark_ready_dispatched s.progress_done hl _ b1 b2
    exact not_both_mergeable s.progress_done v hv hm1.2 hm2.2

/-- Witness of C22: the pass in the state whose eight leaves are `COMPLETED`. -/
theorem scan_pass_bottom_up_witness :
    leaves_done_state.progress_done.length = 15 ∧
    (∃ added : List Job, (scan_pass leaves_done_state).queue =
        leaves_done_state.queue ++ added ∧ (added.map Job.id).Pairwise (· > ·)) :=
  ⟨rfl, (scan_pass_bottom_up leaves_done_state rfl).2.1⟩

/-! ## More lemmas on the worker loop -/

theorem worker_iteration_shutdown (s : Sched) (w : Nat) (hw : w < s.workers.length)
    (hn : s.num_elements = -1) :
    worker_iteration s w =
      { s with jobs_available := s.jobs_available - 1,
               workers := s.workers.set w WorkerPc.exited } := by
  have hwake : worker_wake s w =
      { s with jobs_available := s.jobs_available - 1,
               workers := s.workers.set w WorkerPc.exited } := by
    unfold worker_wake
    simp only []
    rw [if_pos hn]
  unfold worker_iteration
  simp only []
  rw [hwake]
  simp only [get?_set_self s.workers w _ hw]

theorem worker_iteration_empty (s : Sched) (w : Nat) (hw : w < s.workers.length)
    (hn : s.num_elements ≠ -1) (hc : s.job_count = 0) :
    worker_iteration s w =
      { s with jobs_available := s.jobs_available - 1,
               workers := s.workers.set w WorkerPc.wait } := by
  have htake : worker_take
      ({ s with jobs_available := s.jobs_available - 1,
                workers := s.workers.set w WorkerPc.woken } : Sched) w =
      { s with jobs_available := s.jobs_available - 1,
               workers := s.workers.set w WorkerPc.wait } := by
    unfold worker_take
    rw [if_neg (by show ¬ s.job_count > 0; omega)]
    simp only [List.set_set]
  unfold worker_iteration
  simp only []
  rw [worker_wake_running s w hn]
  simp only [get?_set_self s.workers w _ hw]
  rw [htake]
  simp only [get?_set_self s.workers w _ hw]

/-- C24: when worker `w` is released from its wait (`jobs_available` was
positive) without the shutdown flag and finds `job_count = 0`, its iteration
changes nothing but the semaphore it consumed: the array, the scratch buffer,
the status table, the queue with its counters and `dispatcher_signal` are
unchanged, and the worker is back at its wait on `jobs_available`. -/
theorem worker_spurious_wake (s : Sched) (w : Nat) (hw : w < s.workers.length)
    (hn : s.num_elements ≠ -1) (hja : 0 < s.jobs_available) (hc : s.job_count = 0) :
    worker_iteration s w =
      { s with jobs_available := s.jobs_available - 1,
               workers := s.workers.set w WorkerPc.wait } ∧
    (worker_iteration s w).array = s.array ∧
    (worker_iteration s w).temp_array = s.temp_array ∧
    (worker_iteration s w).progress_done = s.progress_done ∧
    (worker_iteration s w).queue = s.queue ∧
    (worker_iteration s w).job_count = s.job_count ∧
    (worker_iteration s w).dispatcher_signal = s.dispatcher_signal ∧
    (worker_iteration s w).workers.get? w = some WorkerPc.wait ∧
    (worker_iteration s w).jobs_available + 1 = s.jobs_available := by
  rw [worker_iteration_empty s w hw hn hc]
  refine ⟨rfl, rfl, rfl, rfl, rfl, rfl, rfl, get?_set_self _ _ _ hw, ?_⟩
  show s.jobs_available - 1 + 1 = s.jobs_available
  omega

/-- Witness of C24: a state with one unit of `jobs_available` and an empty
queue. -/
theorem worker_spurious_wake_witness :
    (0 < spurious_state.workers.length ∧ spurious_state.num_elements ≠ -1 ∧
      0 < spurious_state.jobs_available ∧ spurious_state.job_count = 0) ∧
    (worker_iteration spurious_state 0).progress_done = spurious_state.progress_done ∧
    (worker_iteration spurious_state 0).dispatcher_signal =
      spurious_state.dispatcher_signal :=
  ⟨⟨by decide, by decide, by decide, rfl⟩,
    (worker_spurious_wake spurious_state 0 (by decide) (by decide) (by decide)
      rfl).2.2.2.1,
    (worker_spurious_wake spurious_state 0 (by decide) (by decide) (by decide)
      rfl).2.2.2.2.2.2.1⟩

theorem shutdown_only_by_cleanup (input scratch : List Int) (n : Nat) (s t : Sched)
    (hr : Reachable input scratch n s) (hst : Step s t) (ht : t.num_elements = -1)
    (hs : s.num_elements ≠ -1) : s.dispatcher = DispatcherPc.done ∧ t = main_cleanup s := by
  cases hst with
  | seed _ =>
    simp only [dispatcher_seed, seed_loop_spec] at ht
    exact absurd ht hs
  | test _ =>
    unfold dispatcher_test at ht
    split at ht <;> exact absurd ht hs
  | scan _ _ =>
    simp only [dispatcher_scan] at ht
    rw [scan_pass_result _ (by exact (sched_inv_reachable input scratch n s hr).len)] at ht
    exact absurd ht hs
  | wake w2 _ _ =>
    unfold worker_wake at ht
    simp only [] at ht
    split at ht <;> exact absurd ht hs
  | take w2 _ =>
    unfold worker_take get_job at ht
    split at ht
    · split at ht
      · simp only [] at ht
        split at ht <;> exact absurd ht hs
      · simp only [] at ht
        split at ht <;> exact absurd ht hs
    · exact absurd ht hs
  | run w2 job _ => exact absurd ht hs
  | report w2 job _ => exact absurd ht hs
  | cleanup hd _ => exact ⟨hd, rfl⟩

/-- C25: a worker `w` that wakes and observes `num_elements == -1` leaves its
loop: nothing is dequeued, no job is run, the status table and
`dispatcher_signal` are unchanged, whatever the queue holds.  Whenever such a
state is reachable the dispatcher has returned; the only step that sets the
flag is the cleanup of `main`, which is enabled only when the dispatcher has
returned and posts `jobs_available` exactly once per worker. -/
theorem worker_exits_on_shutdown (s : Sched) (w : Nat) (hw : w < s.workers.length)
    (hn : s.num_elements = -1) :
    (worker_iteration s w =
        { s with jobs_available := s.jobs_available - 1,
                 workers := s.workers.set w WorkerPc.exited } ∧
      (worker_iteration s w).queue = s.queue ∧
      (worker_iteration s w).job_count = s.job_count ∧
      (worker_iteration s w).array = s.array ∧
      (worker_iteration s w).temp_array = s.temp_array ∧
      (worker_iteration s w).progress_done = s.progress_done ∧
      (worker_iteration s w).dispatcher_signal = s.dispatcher_signal ∧
      (worker_iteration s w).workers.get? w = some WorkerPc.exited) ∧
    (∀ input scratch n, Reachable input scratch n s →
      s.dispatcher = DispatcherPc.done ∧ s.joined = true) ∧
    (∀ input scratch n u t, Reachable input scratch n u → Step u t →
      t.num_elements = -1 → u.num_elements ≠ -1 →
      u.dispatcher = DispatcherPc.done ∧ t = main_cleanup u ∧
      t.jobs_available = u.jobs_available + n) := by
  refine ⟨?_, ?_, ?_⟩
  · rw [worker_iteration_shutdown s w hw hn]
    exact ⟨rfl, rfl, rfl, rfl, rfl, rfl, rfl, get?_set_self _ _ _ hw⟩
  · intro input scratch n hr
    have inv := flow_inv_reachable input scratch n s hr
    cases hj : s.joined with
    | false => exact absurd hn (inv.numel hj)
    | true => exact ⟨inv.nojoin hj, rfl⟩
  · intro input scratch n u t hr hst ht hu
    obtain ⟨h1, h2⟩ := shutdown_only_by_cleanup input scratch n u t hr hst ht hu
    refine ⟨h1, h2, ?_⟩
    rw [h2]
    show u.jobs_available + u.workers.length = _
    rw [workers_length_reachable input scratch n u hr]

/-- Witness of C25: a state with the shutdown flag set and eight jobs left in
the queue. -/
theorem worker_exits_on_shutdown_witness :
    (0 < shutdown_state.workers.length ∧ shutdown_state.num_elements = -1) ∧
    (worker_iteration shutdown_state 0).queue = shutdown_state.queue ∧
    (worker_iteration shutdown_state 0).progress_done = shutdown_state.progress_done ∧
    (worker_iteration shutdown_state 0).dispatcher_signal =
      shutdown_state.dispatcher_signal ∧
    (worker_iteration shutdown_state 0).workers.get? 0 = some WorkerPc.exited :=
  ⟨⟨by decide, rfl⟩,
    (worker_exits_on_shutdown shutdown_state 0 (by decide) rfl).1.2.1,
    (worker_exits_on_shutdown shutdown_state 0 (by decide) rfl).1.2.2.2.2.2.1,
    (worker_exits_on_shutdown shutdown_state 0 (by decide) rfl).1.2.2.2.2.2.2.1,
    (worker_exits_on_shutdown shutdown_state 0 (by decide) rfl).1.2.2.2.2.2.2.2⟩

/-! ## The loop counters of `merge` -/

theorem merge_both_counters (T : List Int) (mid end_ fuel : Nat) (v : MergeVars)
    (hi : v.i ≤ mid) (hj : v.j ≤ end_) (hf : (mid - v.i) + (end_ - v.j) ≤ fuel) :
    v.i ≤ (merge_both T mid end_ fuel v).i ∧ (merge_both T mid end_ fuel v).i ≤ mid ∧
    v.j ≤ (merge_both T mid end_ fuel v).j ∧ (merge_both T mid end_ fuel v).j ≤ end_ ∧
    (merge_both T mid end_ fuel v).k + v.i + v.j =
      v.k + (merge_both T mid end_ fuel v).i + (merge_both T mid end_ fuel v).j ∧
    ¬ ((merge_both T mid end_ fuel v).i < mid ∧ (merge_both T mid end_ fuel v).j < end_) := by
  induction fuel generalizing v with
  | zero =>
    have : merge_both T mid end_ 0 v = v := rfl
    rw [this]
    exact ⟨le_refl _, hi, le_refl _, hj, by omega, by omega⟩
  | succ f ih =>
    by_cases hc : v.i < mid ∧ v.j < end_
    · by_cases hle : T.getD v.i 0 ≤ T.getD v.j 0
      · have hu : merge_both T mid end_ (f + 1) v = merge_both T mid end_ f
            { array := v.array.set v.k (T.getD v.i 0), i := v.i + 1, j := v.j, k := v.k + 1 } := by
          rw [merge_both, if_pos hc, if_pos hle]
        rw [hu]
        obtain ⟨a1, a2, a3, a4, a5, a6⟩ := ih
          { array := v.array.set v.k (T.getD v.i 0), i := v.i + 1, j := v.j, k := v.k + 1 }
          (by show v.i + 1 ≤ mid; omega) hj (by show mid - (v.i + 1) + (end_ - v.j) ≤ f; omega)
        have a1 : v.i + 1 ≤ _ := a1
        have a3 : v.j ≤ _ := a3
        have a5 : _ + (v.i + 1) + v.j = v.k + 1 + _ + _ := a5
        exact ⟨by omega, a2, a3, a4, by omega, a6⟩
      · have hu : merge_both T mid end_ (f + 1) v = merge_both T mid end_ f
            { array := v.array.set v.k (T.getD v.j 0), i := v.i, j := v.j + 1, k := v.k + 1 } := by
          rw [merge_both, if_pos hc, if_neg hle]
        rw [hu]
        obtain ⟨a1, a2, a3, a4, a5, a6⟩ := ih
          { array := v.array.set v.k (T.getD v.j 0), i := v.i, j := v.j + 1, k := v.k + 1 }
          hi (by show v.j + 1 ≤ end_; omega)
          (by show mid - v.i + (end_ - (v.j + 1)) ≤ f; omega)
        have a1 : v.i ≤ _ := a1
        have a3 : v.j + 1 ≤ _ := a3
        have a5 : _ + v.i + (v.j + 1) = v.k + 1 + _ + _ := a5
        exact ⟨a1, a2, by omega, a4, by omega, a6⟩
    · have hu : merge_both T mid end_ (f + 1) v = v := by rw [merge_both, if_neg hc]
      rw [hu]
      exact ⟨le_refl _, hi, le_refl _, hj, by omega, hc⟩

theorem merge_left_counters (T : List Int) (mid fuel : Nat) (v : MergeVars)
    (hi : v.i ≤ mid) (hf : mid - v.i ≤ fuel) :
    (merge_left T mid fuel v).i = mid ∧ (merge_left T mid fuel v).j = v.j ∧
    (merge_left T mid fuel v).k = v.k + (mid - v.i) := by
  induction fuel generalizing v with
  | zero =>
    have : merge_left T mid 0 v = v := rfl
    rw [this]
    exact ⟨by omega, rfl, by omega⟩
  | succ f ih =>
    by_cases hc : v.i < mid
    · have hu : merge_left T mid (f + 1) v = merge_left T mid f
          { array := v.array.set v.k (T.getD v.i 0), i := v.i + 1, j := v.j, k := v.k + 1 } := by
        rw [merge_left, if_pos hc]
      rw [hu]
      obtain ⟨a1, a2, a3⟩ := ih
        { array := v.array.set v.k (T.getD v.i 0), i := v.i + 1, j := v.j, k := v.k + 1 }
        (by show v.i + 1 ≤ mid; omega) (by show mid - (v.i + 1) ≤ f; omega)
      have a3 : _ = v.k + 1 + (mid - (v.i + 1)) := a3
      exact ⟨a1, a2, by omega⟩
    · have hu : merge_left T mid (f + 1) v = v := by rw [merge_left, if_neg hc]
      rw [hu]
      exact ⟨by omega, rfl, by omega⟩

theorem merge_right_counters (T : List Int) (end_ fuel : Nat) (v : MergeVars)
    (hj : v.j ≤ end_) (hf : end_ - v.j ≤ fuel) :
    (merge_right T end_ fuel v).i = v.i ∧ (merge_right T end_ fuel v).j = end_ ∧
    (merge_right T end_ fuel v).k = v.k + (end_ - v.j) := by
  induction fuel generalizing v with
  | zero =>
    have : merge_right T end_ 0 v = v := rfl
    rw [this]
    exact ⟨rfl, by omega, by omega⟩
  | succ f ih =>
    by_cases hc : v.j < end_
    · have hu : merge_right T end_ (f + 1) v = merge_right T end_ f
          { array := v.array.set v.k (T.getD v.j 0), i := v.i, j := v.j + 1, k := v.k + 1 } := by
        rw [merge_right, if_pos hc]
      rw [hu]
      obtain ⟨a1, a2, a3⟩ := ih
        { array := v.array.set v.k (T.getD v.j 0), i := v.i, j := v.j + 1, k := v.k + 1 }
        (by show v.j + 1 ≤ end_; omega) (by show end_ - (v.j + 1) ≤ f; omega)
      have a3 : _ = v.k + 1 + (end_ - (v.j + 1)) := a3
      exact ⟨a1, a2, by omega⟩
    · have hu : merge_right T end_ (f + 1) v = v := by rw [merge_right, if_neg hc]
      rw [hu]
      exact ⟨rfl, by omega, by omega⟩

theorem merge_final_counters (a t : List Int) (s m e : Nat) (h1 : s ≤ m) (h2 : m ≤ e) :
    (merge_final a t s m e).array = (merge a t s m e).1 ∧
    (merge_final a t s m e).i = m ∧ (merge_final a t s m e).j = e ∧
    (merge_final a t s m e).k = e := by
  obtain ⟨b1, b2, b3, b4, b5, _⟩ := merge_both_counters (memcpy_from t a s (e - s)) m e (e - s)
    { array := a, i := s, j := m, k := s } h1 h2 (by show m - s + (e - m) ≤ e - s; omega)
  obtain ⟨l1, l2, l3⟩ := merge_left_counters (memcpy_from t a s (e - s)) m (e - s)
    (merge_both (memcpy_from t a s (e - s)) m e (e - s)
      { array := a, i := s, j := m, k := s }) b2 (by
        have : s ≤ _ := b1
        omega)
  obtain ⟨r1, r2, r3⟩ := merge_right_counters (memcpy_from t a s (e - s)) e (e - s)
    (merge_left (memcpy_from t a s (e - s)) m (e - s)
      (merge_both (memcpy_from t a s (e - s)) m e (e - s)
        { array := a, i := s, j := m, k := s })) (by rw [l2]; exact b4) (by
        rw [l2]
        have : m ≤ _ := b3
        omega)
  have b1 : s ≤ _ := b1
  have b3 : m ≤ _ := b3
  have b5 : _ + s + m = s + _ + _ := b5
  refine ⟨rfl, ?_, ?_, ?_⟩
  · show (merge_right _ _ _ _).i = m
    rw [r1, l1]
  · show (merge_right _ _ _ _).j = e
    exact r2
  · show (merge_right _ _ _ _).k = e
    rw [r3, l2, l3]
    omega

/-- C28: for `start <= mid <= end <= length` (the scratch buffer reaching up to
`end`) and every array content, sorted runs or not, `merge(start, mid, end)`
leaves `array[start..end)` a permutation of what that slice held before the
call.  The write index `k`, advanced by one with every write `array[k++]`,
runs from `start` to `end` while `i` reaches `mid` and `j` reaches `end`: each
of the `end - start` positions is written once. -/
theorem merge_permutes_any_runs (array temp_array : List Int) (start mid end_ : Nat)
    (h1 : start ≤ mid) (h2 : mid ≤ end_) (h3 : end_ ≤ array.length)
    (h4 : end_ ≤ temp_array.length) :
    (slice (merge array temp_array start mid end_).1 start end_).Perm
      (slice array start end_) ∧
    (merge array temp_array start mid end_).1.length = array.length ∧
    ((merge_final array temp_array start mid end_).array =
        (merge array temp_array start mid end_).1 ∧
      (merge_final array temp_array start mid end_).i = mid ∧
      (merge_final array temp_array start mid end_).j = end_ ∧
      (merge_final array temp_array start mid end_).k = end_) := by
  refine ⟨?_, (merge_spec array temp_array start mid end_ h1 h2 h3 h4).1,
    merge_final_counters array temp_array start mid end_ h1 h2⟩
  rw [merge_slice array temp_array start mid end_ h1 h2 h3 h4,
    ← slice_append array start mid end_ h1 h2 h3]
  exact left_biased_merge_perm _ _

/-- Witness of C28: two unsorted runs. -/
theorem merge_permutes_any_runs_witness :
    (1 ≤ 3 ∧ 3 ≤ 6 ∧ 6 ≤ ([0, 9, 2, 8, 1, 7, 0] : List Int).length ∧
      6 ≤ ([0, 0, 0, 0, 0, 0, 0] : List Int).length) ∧
    ((slice (merge [0, 9, 2, 8, 1, 7, 0] [0, 0, 0, 0, 0, 0, 0] 1 3 6).1 1 6).Perm
        (slice [0, 9, 2, 8, 1, 7, 0] 1 6) ∧
      (merge [0, 9, 2, 8, 1, 7, 0] [0, 0, 0, 0, 0, 0, 0] 1 3 6).1.length =
        ([0, 9, 2, 8, 1, 7, 0] : List Int).length ∧
      ((merge_final [0, 9, 2, 8, 1, 7, 0] [0, 0, 0, 0, 0, 0, 0] 1 3 6).array =
          (merge [0, 9, 2, 8, 1, 7, 0] [0, 0, 0, 0, 0, 0, 0] 1 3 6).1 ∧
        (merge_final [0, 9, 2, 8, 1, 7, 0] [0, 0, 0, 0, 0, 0, 0] 1 3 6).i = 3 ∧
        (merge_final [0, 9, 2, 8, 1, 7, 0] [0, 0, 0, 0, 0, 0, 0] 1 3 6).j = 6 ∧
        (merge_final [0, 9, 2, 8, 1, 7, 0] [0, 0, 0, 0, 0, 0, 0] 1 3 6).k = 6)) :=
  ⟨⟨by decide, by decide, by decide, by decide⟩,
    merge_permutes_any_runs [0, 9, 2, 8, 1, 7, 0] [0, 0, 0, 0, 0, 0, 0] 1 3 6 (by decide)
      (by decide) (by decide) (by decide)⟩

/-! ## The read loop on items that are not numerals -/

theorem read_loop_length (array : List Int) (stream : List Token) (i trips : Nat) :
    (read_loop array stream i trips).length = array.length := by
  induction trips generalizing array stream i with
  | zero => rfl
  | succ t ih =>
    have hu : read_loop array stream i (t + 1) =
        read_loop (match (fscanf_int stream).1 with
          | some value => array.set i value
          | none => array) (fscanf_int stream).2 (i + 1) t := rfl
    rw [hu, ih]
    cases (fscanf_int stream).1 with
    | none => rfl
    | some value => exact List.length_set _ _ _

theorem read_loop_getD (trips : Nat) (stream : List Token) (array : List Int) (i x : Nat)
    (hx : x < array.length) :
    (read_loop array stream i trips).getD x 0 =
      if i ≤ x ∧ x < i + trips then (fscanf_nth (x - i) stream).getD (array.getD x 0)
      else array.getD x 0 := by
  induction trips generalizing stream array i with
  | zero =>
    have hu : read_loop array stream i 0 = array := rfl
    rw [hu, if_neg (by omega)]
  | succ t ih =>
    have hu : read_loop array stream i (t + 1) =
        read_loop (match (fscanf_int stream).1 with
          | some value => array.set i value
          | none => array) (fscanf_int stream).2 (i + 1) t := rfl
    have hlen : (match (fscanf_int stream).1 with
          | some value => array.set i value
          | none => array).length = array.length := by
      cases (fscanf_int stream).1 with
      | none => rfl
      | some value => exact List.length_set _ _ _
    rw [hu, ih _ _ _ (by rw [hlen]; exact hx)]
    by_cases hix : i = x
    · subst hix
      have hc1 : ¬ (i + 1 ≤ i ∧ i < i + 1 + t) := by omega
      have hc2 : i ≤ i ∧ i < i + (t + 1) := ⟨le_refl _, by omega⟩
      rw [if_neg hc1, if_pos hc2, Nat.sub_self]
      have h0 : fscanf_nth 0 stream = (fscanf_int stream).1 := rfl
      rw [h0]
      cases (fscanf_int stream).1 with
      | none => rfl
      | some value =>
        show (array.set i value).getD i 0 = value
        rw [getD_set_eq, if_pos ⟨rfl, hx⟩]
    · have hkeep : (match (fscanf_int stream).1 with
          | some value => array.set i value
          | none => array).getD x 0 = array.getD x 0 := by
        cases (fscanf_int stream).1 with
        | none => rfl
        | some value =>
          show (array.set i value).getD x 0 = _
          rw [getD_set_eq, if_neg (fun h => hix h.1)]
      rw [hkeep]
      by_cases hc : i + 1 ≤ x ∧ x < i + 1 + t
      · have hc2 : i ≤ x ∧ x < i + (t + 1) := by omega
        rw [if_pos hc, if_pos hc2]
        have hs : x - i = (x - (i + 1)) + 1 := by omega
        rw [hs]
        rfl
      · have hc2 : ¬ (i ≤ x ∧ x < i + (t + 1)) := by omega
        rw [if_neg hc, if_neg hc2]

theorem fscanf_nth_int (k : Nat) (stream : List Token) (v : Int)
    (hk : ∀ t, t ∈ stream.take k → t ≠ Token.other)
    (hg : stream.get? k = some (Token.int v)) :
    fscanf_nth k stream = some (scanned_int v) := by
  induction k generalizing stream with
  | zero =>
    cases stream with
    | nil => cases hg
    | cons t rest =>
      have : t = Token.int v := by simpa using hg
      rw [this]
      rfl
  | succ k ih =>
    cases stream with
    | nil => cases hg
    | cons t rest =>
      have hrest : ∀ u, u ∈ rest.take k → u ≠ Token.other :=
        fun u hu => hk u (by rw [List.take_succ_cons]; exact List.mem_cons_of_mem _ hu)
      have hg2 : rest.get? k = some (Token.int v) := by simpa using hg
      have ht : t ≠ Token.other :=
        hk t (by rw [List.take_succ_cons]; exact List.mem_cons_self _ _)
      cases t with
      | int u => exact ih rest hrest hg2
      | sign => exact ih rest hrest hg2
      | other => exact absurd rfl ht

theorem fscanf_nth_sign (k : Nat) (stream : List Token)
    (hk : ∀ t, t ∈ stream.take k → t ≠ Token.other)
    (hg : stream.get? k = some Token.sign) :
    fscanf_nth k stream = none := by
  induction k generalizing stream with
  | zero =>
    cases stream with
    | nil => cases hg
    | cons t rest =>
      have : t = Token.sign := by simpa using hg
      rw [this]
      rfl
  | succ k ih =>
    cases stream with
    | nil => cases hg
    | cons t rest =>
      have hrest : ∀ u, u ∈ rest.take k → u ≠ Token.other :=
        fun u hu => hk u (by rw [List.take_succ_cons]; exact List.mem_cons_of_mem _ hu)
      have hg2 : rest.get? k = some Token.sign := by simpa using hg
      have ht : t ≠ Token.other :=
        hk t (by rw [List.take_succ_cons]; exact List.mem_cons_self _ _)
      cases t with
      | int u => exact ih rest hrest hg2
      | sign => exact ih rest hrest hg2
      | other => exact absurd rfl ht

theorem fscanf_nth_blocked (k : Nat) (rest : List Token) :
    fscanf_nth k (Token.other :: rest) = none ∧ fscanf_nth k [] = none := by
  induction k with
  | zero => exact ⟨rfl, rfl⟩
  | succ k ih => exact ih

theorem fscanf_nth_stuck (j k : Nat) (stream : List Token) (hjk : j ≤ k)
    (hj : ∀ t, t ∈ stream.take j → t ≠ Token.other)
    (hg : stream.get? j = some Token.other ∨ stream.get? j = none) :
    fscanf_nth k stream = none := by
  induction j generalizing stream k with
  | zero =>
    cases stream with
    | nil => exact (fscanf_nth_blocked k []).2
    | cons t rest =>
      rcases hg with hg | hg
      · have : t = Token.other := by simpa using hg
        rw [this]
        exact (fscanf_nth_blocked k rest).1
      · simp at hg
  | succ j ih =>
    obtain ⟨k1, hk1⟩ : ∃ k1, k = k1 + 1 := ⟨k - 1, by omega⟩
    subst hk1
    cases stream with
    | nil => exact (fscanf_nth_blocked (k1 + 1) []).2
    | cons t rest =>
      have hrest : ∀ u, u ∈ rest.take j → u ≠ Token.other :=
        fun u hu => hj u (by rw [List.take_succ_cons]; exact List.mem_cons_of_mem _ hu)
      have hg2 : rest.get? j = some Token.other ∨ rest.get? j = none := by simpa using hg
      have ht : t ≠ Token.other :=
        hj t (by rw [List.take_succ_cons]; exact List.mem_cons_self _ _)
      cases t with
      | int u => exact ih k1 rest (by omega) hrest hg2
      | sign => exact ih k1 rest (by omega) hrest hg2
      | other => exact absurd rfl ht

/-- C26 (counterexample): on a file announcing three elements whose second data
item is text that cannot begin a numeral (`3 5 x 7 9`), `read_input_file`
returns success, but the integers 7 and 9 that follow the malformed item are
not stored: the item stays unread, every later conversion fails on it, and the
second and third entry keep what `malloc` left there. -/
theorem malformed_token_blocks_later_integers :
    read_input_file (some malformed_file) { num_elements := 0, array := [], temp_array := [] }
        (fun _ => 0) (fun _ => 0) =
      (0, { num_elements := 3, array := [5, 0, 0], temp_array := [0, 0, 0] }) ∧
    (read_input_file (some malformed_file) { num_elements := 0, array := [], temp_array := [] }
        (fun _ => 0) (fun _ => 0)).2.array ≠ [5, 7, 9] ∧
    (7 : Int) ∉ (read_input_file (some malformed_file)
        { num_elements := 0, array := [], temp_array := [] } (fun _ => 0) (fun _ => 0)).2.array ∧
    (9 : Int) ∉ (read_input_file (some malformed_file)
        { num_elements := 0, array := [], temp_array := [] } (fun _ => 0) (fun _ => 0)).2.array := by
  decide

/-- C26 (amended): a data item that is not a numeral is never fatal, and it is
not skipped in the sense of the claim.  For a file that begins with a count
`count <= 1,000,000` fitting an `int`, followed by the items `data`,
`read_input_file` returns success with `count` elements, and iteration `x` of
the load loop deals with item `x` of `data` as long as no earlier item is text
that cannot begin a numeral: a numeral is stored in `array[x]` (as the `int`
that `fscanf` makes of it); a lone sign is consumed and `array[x]` keeps the
value the allocation left there, the following items still being read, each
into the entry of its own position; text that cannot begin a numeral, or the
end of the file, is never passed, so `array[x]` and every later entry keep the
values the allocation left there. -/
theorem read_input_file_malformed_items (count : Int) (data : List Token)
    (g : InputVars) (fresh1 fresh2 : Nat → Int)
    (hlo : -2147483648 ≤ count) (hc : count ≤ 1000000) :
    (read_input_file (some (Token.int count :: data)) g fresh1 fresh2).1 = 0 ∧
    (read_input_file (some (Token.int count :: data)) g fresh1 fresh2).2.num_elements = count ∧
    (read_input_file (some (Token.int count :: data)) g fresh1 fresh2).2.array.length =
      count.toNat ∧
    (∀ x v, x < count.toNat → (∀ t, t ∈ data.take x → t ≠ Token.other) →
      data.get? x = some (Token.int v) →
      (read_input_file (some (Token.int count :: data)) g fresh1 fresh2).2.array.getD x 0 =
        scanned_int v) ∧
    (∀ x, x < count.toNat → (∀ t, t ∈ data.take x → t ≠ Token.other) →
      data.get? x = some Token.sign →
      (read_input_file (some (Token.int count :: data)) g fresh1 fresh2).2.array.getD x 0 =
        fresh1 x) ∧
    (∀ x y, x ≤ y → y < count.toNat → (∀ t, t ∈ data.take x → t ≠ Token.other) →
      (data.get? x = some Token.other ∨ data.get? x = none) →
      (read_input_file (some (Token.int count :: data)) g fresh1 fresh2).2.array.getD y 0 =
        fresh1 y) := by
  have hs := scanned_int_of_range count hlo (by omega)
  have hu := read_input_file_count count data g fresh1 fresh2
  have hn : ¬ scanned_int count > (MAX_ELEMENTS : Int) := by
    have : (MAX_ELEMENTS : Int) = 1000000 := rfl
    rw [hs]
    omega
  rw [if_neg hn, hs] at hu
  have hml : (malloc_ints count fresh1).length = count.toNat := by
    unfold malloc_ints
    rw [List.length_map, List.length_range]
  have hmg : ∀ x, x < count.toNat → (malloc_ints count fresh1).getD x 0 = fresh1 x := by
    intro x hx
    unfold malloc_ints
    rw [List.getD_eq_getElem?_getD, List.getElem?_map, List.getElem?_range hx]
    rfl
  have hget : ∀ x, x < count.toNat →
      (read_loop (malloc_ints count fresh1) data 0 count.toNat).getD x 0 =
        (fscanf_nth x data).getD (fresh1 x) := by
    intro x hx
    have hcond : 0 ≤ x ∧ x < 0 + count.toNat := ⟨Nat.zero_le _, by omega⟩
    rw [read_loop_getD count.toNat data _ 0 x (by rw [hml]; exact hx), if_pos hcond,
      Nat.sub_zero, hmg x hx]
  rw [hu]
  refine ⟨rfl, rfl, ?_, ?_, ?_, ?_⟩
  · show (read_loop _ _ _ _).length = _
    rw [read_loop_length, hml]
  · intro x v hx hk hg
    show (read_loop _ _ _ _).getD x 0 = _
    rw [hget x hx, fscanf_nth_int x data v hk hg]
    rfl
  · intro x hx hk hg
    show (read_loop _ _ _ _).getD x 0 = _
    rw [hget x hx, fscanf_nth_sign x data hk hg]
    rfl
  · intro x y hxy hy hk hg
    show (read_loop _ _ _ _).getD y 0 = _
    rw [hget y hy, fscanf_nth_stuck x y data hxy hk hg]
    rfl

/-- Witness of C26 (amended): on the file `3 5 - 7 9` the entries are `5`, the
value left by the allocation, and `7`. -/
theorem read_input_file_malformed_items_witness :
    ((-2147483648 : Int) ≤ 3 ∧ (3 : Int) ≤ 1000000) ∧
    signed_file = Token.int 3 :: [Token.int 5, Token.sign, Token.int 7, Token.int 9] ∧
    (read_input_file (some signed_file) { num_elements := 0, array := [], temp_array := [] }
      (fun x => 40 + x) (fun _ => 0)).1 = 0 ∧
    (read_input_file (some signed_file) { num_elements := 0, array := [], temp_array := [] }
      (fun x => 40 + x) (fun _ => 0)).2.array.getD 0 0 = scanned_int 5 ∧
    (read_input_file (some signed_file) { num_elements := 0, array := [], temp_array := [] }
      (fun x => 40 + x) (fun _ => 0)).2.array.getD 1 0 = 41 ∧
    (read_input_file (some signed_file) { num_elements := 0, array := [], temp_array := [] }
      (fun x => 40 + x) (fun _ => 0)).2.array.getD 2 0 = scanned_int 7 :=
  ⟨⟨by decide, by decide⟩, rfl,
    (read_input_file_malformed_items 3 [Token.int 5, Token.sign, Token.int 7, Token.int 9]
      { num_elements := 0, array := [], temp_array := [] } (fun x => 40 + x) (fun _ => 0)
      (by decide) (by decide)).1,
    (read_input_file_malformed_items 3 [Token.int 5, Token.sign, Token.int 7, Token.int 9]
      { num_elements := 0, array := [], temp_array := [] } (fun x => 40 + x) (fun _ => 0)
      (by decide) (by decide)).2.2.2.1 0 5 (by decide) (by decide) rfl,
    (read_input_file_malformed_items 3 [Token.int 5, Token.sign, Token.int 7, Token.int 9]
      { num_elements := 0, array := [], temp_array := [] } (fun x => 40 + x) (fun _ => 0)
      (by decide) (by decide)).2.2.2.2.1 1 (by decide) (by decide) rfl,
    (read_input_file_malformed_items 3 [Token.int 5, Token.sign, Token.int 7, Token.int 9]
      { num_elements := 0, array := [], temp_array := [] } (fun x => 40 + x) (fun _ => 0)
      (by decide) (by decide)).2.2.2.1 2 7 (by decide) (by decide) rfl⟩

/-! ## Lemmas on the history of the job queue -/

theorem sum_map_set (f : WorkerPc → Nat) (l : List WorkerPc) (w : Nat) (old x : WorkerPc)
    (hw : l.get? w = some old) :
    ((l.set w x).map f).sum + f old = (l.map f).sum + f x := by
  induction l generalizing w with
  | nil => cases hw
  | cons a l ih =>
    cases w with
    | zero =>
      have : a = old := by simpa using hw
      subst this
      simp only [List.set_cons_zero, List.map_cons, List.sum_cons]
      omega
    | succ w =>
      have := ih w (by simpa using hw)
      simp only [List.set_cons_succ, List.map_cons, List.sum_cons]
      omega

theorem le_sum_map (f : WorkerPc → Nat) (l : List WorkerPc) (pc : WorkerPc) (h : pc ∈ l) :
    f pc ≤ (l.map f).sum := by
  induction l with
  | nil => cases h
  | cons a l ih =>
    simp only [List.map_cons, List.sum_cons]
    rcases List.mem_cons.1 h with h | h
    · rw [h]; omega
    · have := ih h
      omega

theorem mem_of_get? (l : List WorkerPc) (w : Nat) (pc : WorkerPc) (hw : l.get? w = some pc) :
    pc ∈ l := by
  rw [List.get?_eq_getElem?] at hw
  obtain ⟨h1, h2⟩ := List.getElem?_eq_some_iff.1 hw
  rw [← h2]
  exact List.getElem_mem h1

theorem id_count_append (a b : List Job) (v : Nat) :
    id_count (a ++ b) v = id_count a v + id_count b v := by
  unfold id_count
  exact List.countP_append _ _ _

theorem id_count_single (job : Job) (v : Nat) :
    id_count [job] v = if job.id = (v : Int) then 1 else 0 := by
  unfold id_count
  by_cases h : job.id = (v : Int)
  · rw [if_pos h]; simp [List.countP_cons, h]
  · rw [if_neg h]; simp [List.countP_cons, h]

theorem id_count_pos (jobs : List Job) (job : Job) (v : Nat) (h : job ∈ jobs)
    (hid : job.id = (v : Int)) : 0 < id_count jobs v := by
  unfold id_count
  exact List.countP_pos_iff.2 ⟨job, h, by simpa using hid⟩

theorem hold_bit_holds (pc : WorkerPc) (job : Job) (v : Nat) (h : holds pc job)
    (hid : job.id = (v : Int)) : hold_bit v pc = 1 := by
  rcases h with h | h
  · rw [h]; exact if_pos hid
  · rw [h]; exact if_pos hid

theorem held_count_pos (s : Sched) (pc : WorkerPc) (job : Job) (v : Nat) (hm : pc ∈ s.workers)
    (h : holds pc job) (hid : job.id = (v : Int)) : 0 < held_count s v := by
  have := le_sum_map (hold_bit v) s.workers pc hm
  rw [hold_bit_holds pc job v h hid] at this
  exact this

theorem seed_jobs_count (a c v : Nat) (hv : v < 15) :
    id_count ((List.range' 0 NUM_SORT_TASKS).map (seed_job a c)) v = if 7 ≤ v then 1 else 0 := by
  interval_cases v <;> rfl

theorem seed_jobs_node (m : Nat) (job : Job)
    (h : job ∈ (List.range' 0 NUM_SORT_TASKS).map (seed_job m (m / NUM_SORT_TASKS))) :
    ∃ v, v < 15 ∧ job = node_job m v := by
  obtain ⟨i, hi, hj⟩ := List.mem_map.1 h
  rw [List.mem_range'_1] at hi
  have hi8 : i < 8 := by simpa [NUM_SORT_TASKS] using hi.2
  refine ⟨i + 7, by omega, ?_⟩
  unfold node_job
  rw [if_pos (by omega), Nat.add_sub_cancel]
  exact hj.symm

theorem scan_jobs_node (m : Nat) (l : List Nat) (hl : ∀ q, q ∈ l → q < 7) (job : Job)
    (h : job ∈ l.map (fun q => scan_job m (m / NUM_SORT_TASKS) (2 * q + 1))) :
    ∃ v, v < 15 ∧ job = node_job m v := by
  obtain ⟨q, hq, hj⟩ := List.mem_map.1 h
  have := hl q hq
  refine ⟨q, by omega, ?_⟩
  unfold node_job
  rw [if_neg (by omega)]
  exact hj.symm

theorem pending_bit_set_same (pd : List JobStatus) (i p : Nat)
    (h : i < 7 → status_at pd i ≠ JobStatus.NOT_DISPATCHED) (hp : p < 7) :
    pending_bit (pd.set i JobStatus.COMPLETED) p = pending_bit pd p := by
  unfold pending_bit
  rw [status_at_set]
  by_cases hc : i = p ∧ i < pd.length
  · rw [if_pos hc, if_neg (by intro hx; cases hx), if_neg (by rw [← hc.1]; exact h (by omega))]
  · rw [if_neg hc]

theorem pending_merges_set_same (pd : List JobStatus) (i : Nat)
    (h : i < 7 → status_at pd i ≠ JobStatus.NOT_DISPATCHED) :
    pending_merges (pd.set i JobStatus.COMPLETED) = pending_merges pd := by
  unfold pending_merges
  rw [pending_bit_set_same pd i 0 h (by omega), pending_bit_set_same pd i 1 h (by omega),
    pending_bit_set_same pd i 2 h (by omega), pending_bit_set_same pd i 3 h (by omega),
    pending_bit_set_same pd i 4 h (by omega), pending_bit_set_same pd i 5 h (by omega),
    pending_bit_set_same pd i 6 h (by omega)]

theorem queue_kept (s t : Sched) (h : t.queue = s.queue) :
    enqueued_by s t = [] ∧ dequeued_by s t = [] := by
  unfold enqueued_by dequeued_by
  rw [h, Nat.sub_self]
  exact ⟨List.drop_length _, rfl⟩

theorem queue_appended (s t : Sched) (more : List Job) (h : t.queue = s.queue ++ more) :
    enqueued_by s t = more ∧ dequeued_by s t = [] := by
  unfold enqueued_by dequeued_by
  rw [h, List.drop_left, List.length_append]
  refine ⟨rfl, ?_⟩
  have : s.queue.length - (s.queue.length + more.length) = 0 := by omega
  rw [this]
  rfl

theorem queue_popped (s t : Sched) (job : Job) (rest : List Job) (h1 : s.queue = job :: rest)
    (h2 : t.queue = rest) : enqueued_by s t = [] ∧ dequeued_by s t = [job] := by
  unfold enqueued_by dequeued_by
  rw [h1, h2]
  refine ⟨List.drop_eq_nil_of_le (by simp), ?_⟩
  have : (job :: rest).length - rest.length = 1 := by simp
  rw [this]
  rfl

theorem sum_map_zero (f : WorkerPc → Nat) (l : List WorkerPc) (h : ∀ pc, pc ∈ l → f pc = 0) :
    (l.map f).sum = 0 := by
  induction l with
  | nil => rfl
  | cons a l ih =>
    simp only [List.map_cons, List.sum_cons]
    rw [h a (List.mem_cons_self _ _), ih (fun pc hp => h pc (List.mem_cons_of_mem _ hp))]

theorem joined_false_of_ne_done (s : Sched) (inv : FlowInv s)
    (hd : s.dispatcher ≠ DispatcherPc.done) : s.joined = false := by
  cases hjv : s.joined with
  | false => rfl
  | true => exact absurd (inv.nojoin hjv) hd

theorem ledger_init (input scratch : List Int) (n : Nat) :
    Ledger input (init_state input scratch n) [] [] := by
  refine ⟨rfl, rfl, ?_, ?_, ?_, ?_, ?_, ?_, ?_, ?_, ?_⟩
  · intro job h; cases h
  · intro v hv
    interval_cases v <;> rfl
  · intro v hv
    have h0 : held_count (init_state input scratch n) v = 0 := by
      apply sum_map_zero
      intro pc hp
      have : pc = WorkerPc.wait := List.eq_of_mem_replicate hp
      rw [this]
      rfl
    rw [h0]
    interval_cases v <;> rfl
  · intro pc job hp hh
    have : pc = WorkerPc.wait := List.eq_of_mem_replicate hp
    rw [this] at hh
    exact absurd hh (not_holds_wait job)
  · intro h
    exact absurd rfl h
  · intro _
    rfl
  · intro h
    cases h
  · intro h
    cases h
  · rfl

theorem ledger_quiet (input : List Int) (s t : Sched) (enq deq : List Job)
    (led : Ledger input s enq deq) (hq : t.queue = s.queue)
    (hp : t.progress_done = s.progress_done) (hc : t.job_cnt = s.job_cnt)
    (hk : t.dispatcher ≠ DispatcherPc.seed → t.chunk_size = input.length / NUM_SORT_TASKS)
    (hd : t.dispatcher = DispatcherPc.seed ↔ s.dispatcher = DispatcherPc.seed)
    (hh : ∀ v, held_count t v = held_count s v)
    (hw : ∀ pc job, pc ∈ t.workers → holds pc job → ∃ old, old ∈ s.workers ∧ holds old job)
    (hn : t.joined = false → t.num_elements = (input.length : Int))
    (hs : t.joined = true → t.num_elements = -1 ∧ WorkerPc.woken ∉ t.workers) :
    Ledger input t (enq ++ enqueued_by s t) (deq ++ dequeued_by s t) := by
  rw [(queue_kept s t hq).1, (queue_kept s t hq).2, List.append_nil, List.append_nil]
  have hf : ∀ v, fresh_bit t v = fresh_bit s v := by
    intro v
    unfold fresh_bit
    rw [hp]
    by_cases h : s.dispatcher = DispatcherPc.seed
    · rw [if_pos h, if_pos (hd.2 h)]
    · rw [if_neg h, if_neg (fun g => h (hd.1 g))]
  refine ⟨?_, ?_, led.jobs, ?_, ?_, ?_, hk, hn, fun h => (hs h).1, fun h => (hs h).2, ?_⟩
  · rw [hq]; exact led.fifo
  · rw [hc]; exact led.cnt
  · intro v hv
    rw [hf v]
    exact led.once v hv
  · intro v hv
    rw [hh v, hp]
    exact led.taken v hv
  · intro pc job h1 h2
    obtain ⟨old, o1, o2⟩ := hw pc job h1 h2
    exact led.heldin old job o1 o2
  · rw [hc, hp]
    by_cases h : s.dispatcher = DispatcherPc.seed
    · rw [if_pos (hd.2 h)]
      have := led.total
      rw [if_pos h] at this
      exact this
    · rw [if_neg (fun g => h (hd.1 g))]
      have := led.total
      rw [if_neg h] at this
      exact this

theorem ledger_unique (input : List Int) (s : Sched) (enq deq : List Job)
    (led : Ledger input s enq deq) (v : Nat) (hv : v < 15) :
    id_count s.queue v + held_count s v + done_bit s.progress_done v + fresh_bit s v = 1 := by
  have h1 := led.once v hv
  have h2 := led.taken v hv
  have h3 : id_count enq v = id_count deq v + id_count s.queue v := by
    rw [led.fifo]
    exact id_count_append _ _ _
  omega

theorem ledger_queue_job (input : List Int) (s : Sched) (enq deq : List Job)
    (led : Ledger input s enq deq) (job : Job) (h : job ∈ s.queue) :
    ∃ v, v < 15 ∧ job = node_job input.length v ∧ job.id = (v : Int) ∧
      status_at s.progress_done v ≠ JobStatus.COMPLETED := by
  obtain ⟨v, hv, hj⟩ := led.jobs job (by rw [led.fifo]; exact List.mem_append_right _ h)
  have hid : job.id = (v : Int) := by
    rw [hj]; exact (node_job_range input.length v hv).2.2
  refine ⟨v, hv, hj, hid, ?_⟩
  intro hc
  have h1 := ledger_unique input s enq deq led v hv
  have h2 := id_count_pos s.queue job v h hid
  have h3 : done_bit s.progress_done v = 1 := if_pos hc
  omega

theorem ledger_held_job (input : List Int) (s : Sched) (enq deq : List Job)
    (led : Ledger input s enq deq) (pc : WorkerPc) (job : Job) (hm : pc ∈ s.workers)
    (h : holds pc job) :
    ∃ v, v < 15 ∧ job = node_job input.length v ∧ job.id = (v : Int) ∧
      status_at s.progress_done v ≠ JobStatus.COMPLETED := by
  obtain ⟨v, hv, hj⟩ := led.jobs job (by
    rw [led.fifo]; exact List.mem_append_left _ (led.heldin pc job hm h))
  have hid : job.id = (v : Int) := by
    rw [hj]; exact (node_job_range input.length v hv).2.2
  refine ⟨v, hv, hj, hid, ?_⟩
  intro hc
  have h1 := ledger_unique input s enq deq led v hv
  have h2 := held_count_pos s pc job v hm h hid
  have h3 : done_bit s.progress_done v = 1 := if_pos hc
  omega

theorem ledger_queue_empty (input : List Int) (s : Sched) (enq deq : List Job)
    (sinv : SchedInv s) (led : Ledger input s enq deq)
    (h0 : status_at s.progress_done 0 = JobStatus.COMPLETED) : s.queue = [] := by
  cases hq : s.queue with
  | nil => rfl
  | cons job rest =>
    obtain ⟨v, hv, _, _, hn⟩ := ledger_queue_job input s enq deq led job
      (by rw [hq]; exact List.mem_cons_self _ _)
    exact absurd (all_completed_of_root s sinv h0 v hv) hn

theorem ledger_worker (input : List Int) (s t : Sched) (enq deq : List Job)
    (led : Ledger input s enq deq) (w : Nat) (old x : WorkerPc)
    (hw : s.workers.get? w = some old) (ht : t.workers = s.workers.set w x)
    (hq : t.queue = s.queue) (hp : t.progress_done = s.progress_done)
    (hc : t.job_cnt = s.job_cnt) (hk : t.chunk_size = s.chunk_size)
    (hd : t.dispatcher = s.dispatcher) (hj : t.joined = s.joined)
    (hn : t.num_elements = s.num_elements)
    (hb : ∀ v, hold_bit v x = hold_bit v old) (hx : ∀ job, holds x job → holds old job)
    (hwk : x = WorkerPc.woken → s.joined = false) :
    Ledger input t (enq ++ enqueued_by s t) (deq ++ dequeued_by s t) := by
  apply ledger_quiet input s t enq deq led hq hp hc
  · intro h
    rw [hk]
    exact led.chunk (by rw [← hd]; exact h)
  · rw [hd]
  · intro v
    unfold held_count
    rw [ht]
    have := sum_map_set (hold_bit v) s.workers w old x hw
    rw [hb v] at this
    omega
  · intro pc job h1 h2
    rw [ht] at h1
    rcases List.mem_or_eq_of_mem_set h1 with h | h
    · exact ⟨pc, h, h2⟩
    · rw [h] at h2
      exact ⟨old, mem_of_get? _ _ _ hw, hx job h2⟩
  · intro h
    rw [hn]
    exact led.numel (by rw [← hj]; exact h)
  · intro h
    rw [hj] at h
    refine ⟨by rw [hn]; exact led.shut h, ?_⟩
    intro hm
    rw [ht] at hm
    rcases List.mem_or_eq_of_mem_set hm with g | g
    · exact led.nowoken h g
    · have := hwk g.symm
      rw [h] at this
      cases this

theorem ledger_test (input : List Int) (s : Sched) (enq deq : List Job)
    (led : Ledger input s enq deq) (hd : s.dispatcher = DispatcherPc.test) :
    Ledger input (dispatcher_test s) (enq ++ enqueued_by s (dispatcher_test s))
      (deq ++ dequeued_by s (dispatcher_test s)) := by
  have hk := led.chunk (by rw [hd]; intro h; cases h)
  have hns : ¬ s.dispatcher = DispatcherPc.seed := by rw [hd]; intro h; cases h
  by_cases hroot : status_at s.progress_done 0 ≠ JobStatus.COMPLETED
  · have hu : dispatcher_test s = { s with dispatcher := DispatcherPc.wait } := by
      unfold dispatcher_test
      exact if_pos hroot
    rw [hu]
    exact ledger_quiet input s _ enq deq led rfl rfl rfl (fun _ => hk)
      ⟨(fun h => by cases h), fun h => absurd h hns⟩ (fun _ => rfl)
      (fun pc job h1 h2 => ⟨pc, h1, h2⟩) led.numel (fun h => ⟨led.shut h, led.nowoken h⟩)
  · have hu : dispatcher_test s = { s with dispatcher := DispatcherPc.done } := by
      unfold dispatcher_test
      exact if_neg hroot
    rw [hu]
    exact ledger_quiet input s _ enq deq led rfl rfl rfl (fun _ => hk)
      ⟨(fun h => by cases h), fun h => absurd h hns⟩ (fun _ => rfl)
      (fun pc job h1 h2 => ⟨pc, h1, h2⟩) led.numel (fun h => ⟨led.shut h, led.nowoken h⟩)

theorem ledger_cleanup (input : List Int) (s : Sched) (enq deq : List Job)
    (sinv : SchedInv s) (inv : FlowInv s) (led : Ledger input s enq deq)
    (hd : s.dispatcher = DispatcherPc.done) (hj : s.joined = false) :
    Ledger input (main_cleanup s) (enq ++ enqueued_by s (main_cleanup s))
      (deq ++ dequeued_by s (main_cleanup s)) := by
  have hk := led.chunk (by rw [hd]; intro h; cases h)
  have hq := ledger_queue_empty input s enq deq sinv led (inv.done hd)
  have htok := inv.tokens hj
  rw [hq] at htok
  have hzero : s.workers.count WorkerPc.woken = 0 := by
    have : ([] : List Job).length = 0 := rfl
    omega
  refine ledger_quiet input s _ enq deq led rfl rfl rfl (fun _ => hk) Iff.rfl
    (fun _ => rfl) (fun pc job h1 h2 => ⟨pc, h1, h2⟩) ?_ ?_
  · intro h; cases h
  · intro _
    exact ⟨rfl, List.count_eq_zero.1 hzero⟩

theorem ledger_wake (input : List Int) (s : Sched) (enq deq : List Job)
    (led : Ledger input s enq deq) (w : Nat)
    (hw : s.workers.get? w = some WorkerPc.wait) :
    Ledger input (worker_wake s w) (enq ++ enqueued_by s (worker_wake s w))
      (deq ++ dequeued_by s (worker_wake s w)) := by
  by_cases hshut : s.num_elements = -1
  · have hu : worker_wake s w =
        { s with jobs_available := s.jobs_available - 1,
                 workers := s.workers.set w WorkerPc.exited } := by
      unfold worker_wake
      exact if_pos hshut
    rw [hu]
    exact ledger_worker input s _ enq deq led w WorkerPc.wait WorkerPc.exited hw rfl rfl rfl
      rfl rfl rfl rfl rfl (fun _ => rfl) (fun job h => absurd h (not_holds_exited job))
      (fun h => by cases h)
  · have hu : worker_wake s w =
        { s with jobs_available := s.jobs_available - 1,
                 workers := s.workers.set w WorkerPc.woken } := by
      unfold worker_wake
      exact if_neg hshut
    rw [hu]
    refine ledger_worker input s _ enq deq led w WorkerPc.wait WorkerPc.woken hw rfl rfl rfl
      rfl rfl rfl rfl rfl (fun _ => rfl) (fun job h => absurd h (not_holds_woken job)) ?_
    intro _
    cases hjv : s.joined with
    | false => rfl
    | true => exact absurd (led.shut hjv) hshut

theorem ledger_run (input : List Int) (s : Sched) (enq deq : List Job)
    (led : Ledger input s enq deq) (w : Nat) (job : Job)
    (hw : s.workers.get? w = some (WorkerPc.run job)) :
    Ledger input (worker_run s w job) (enq ++ enqueued_by s (worker_run s w job))
      (deq ++ dequeued_by s (worker_run s w job)) := by
  refine ledger_worker input s _ enq deq led w (WorkerPc.run job) (WorkerPc.report job) hw rfl
      rfl rfl rfl rfl rfl rfl rfl (fun _ => rfl) ?_ (fun h => by cases h)
  intro j h
  rcases h with h | h
  · cases h
  · cases h
    exact Or.inl rfl

theorem ledger_append (input : List Int) (s t : Sched) (enq deq more : List Job)
    (led : Ledger input s enq deq) (hq : t.queue = s.queue ++ more)
    (hc : t.job_cnt = s.job_cnt + more.length) (hw : t.workers = s.workers)
    (hj : t.joined = s.joined) (hn : t.num_elements = s.num_elements)
    (hjobs : ∀ job, job ∈ more → ∃ v, v < 15 ∧ job = node_job input.length v)
    (honce : ∀ v, v < 15 → id_count more v + fresh_bit t v = fresh_bit s v)
    (hdone : ∀ v, v < 15 → done_bit t.progress_done v = done_bit s.progress_done v)
    (hk : t.dispatcher ≠ DispatcherPc.seed → t.chunk_size = input.length / NUM_SORT_TASKS)
    (htot : t.job_cnt + pending_merges t.progress_done +
      (if t.dispatcher = DispatcherPc.seed then 8 else 0) = 15) :
    Ledger input t (enq ++ enqueued_by s t) (deq ++ dequeued_by s t) := by
  rw [(queue_appended s t more hq).1, (queue_appended s t more hq).2, List.append_nil]
  refine ⟨?_, ?_, ?_, ?_, ?_, ?_, hk, ?_, ?_, ?_, htot⟩
  · rw [hq, led.fifo, List.append_assoc]
  · rw [List.length_append, led.cnt, hc]
  · intro job h
    rcases List.mem_append.1 h with h | h
    · exact led.jobs job h
    · exact hjobs job h
  · intro v hv
    have h1 := led.once v hv
    have h2 := honce v hv
    rw [id_count_append]
    omega
  · intro v hv
    have : held_count t v = held_count s v := by unfold held_count; rw [hw]
    rw [this, hdone v hv]
    exact led.taken v hv
  · intro pc job h1 h2
    rw [hw] at h1
    exact led.heldin pc job h1 h2
  · intro h
    rw [hn]
    exact led.numel (by rw [← hj]; exact h)
  · intro h
    rw [hn]
    exact led.shut (by rw [← hj]; exact h)
  · intro h
    rw [hw]
    exact led.nowoken (by rw [← hj]; exact h)

theorem ledger_seed (input : List Int) (s : Sched) (enq deq : List Job)
    (inv : FlowInv s) (led : Ledger input s enq deq) (hd : s.dispatcher = DispatcherPc.seed) :
    Ledger input (dispatcher_seed s) (enq ++ enqueued_by s (dispatcher_seed s))
      (deq ++ dequeued_by s (dispatcher_seed s)) := by
  have hj := joined_false_of_ne_done s inv (by rw [hd]; intro h; cases h)
  have hnum : s.num_elements.toNat = input.length := by
    rw [led.numel hj]
    exact Int.toNat_ofNat _
  have hu : dispatcher_seed s =
      { s with
        chunk_size := input.length / NUM_SORT_TASKS,
        queue := s.queue ++ (List.range' 0 NUM_SORT_TASKS).map
          (seed_job input.length (input.length / NUM_SORT_TASKS)),
        job_count := s.job_count + NUM_SORT_TASKS,
        job_cnt := s.job_cnt + NUM_SORT_TASKS,
        jobs_available := s.jobs_available + NUM_SORT_TASKS,
        dispatcher := DispatcherPc.test } := by
    simp only [dispatcher_seed, seed_loop_spec]
    rw [hnum]
  rw [hu]
  have htot := led.total
  rw [if_pos hd] at htot
  refine ledger_append input s _ enq deq
    ((List.range' 0 NUM_SORT_TASKS).map (seed_job input.length (input.length / NUM_SORT_TASKS)))
    led rfl ?_ rfl rfl rfl (seed_jobs_node input.length) ?_ (fun _ _ => rfl) (fun _ => rfl) ?_
  · show s.job_cnt + NUM_SORT_TASKS = s.job_cnt + _
    rw [List.length_map, List.length_range']
  · intro v hv
    rw [seed_jobs_count _ _ v hv]
    unfold fresh_bit
    by_cases h7 : 7 ≤ v
    · rw [if_pos h7, if_pos h7, if_pos h7, if_pos hd, if_neg (by intro h; cases h)]
    · rw [if_neg h7, if_neg h7, if_neg h7, Nat.zero_add]
  · show s.job_cnt + NUM_SORT_TASKS + pending_merges s.progress_done +
      (if DispatcherPc.test = DispatcherPc.seed then 8 else 0) = 15
    rw [if_neg (by intro h; cases h)]
    simp only [NUM_SORT_TASKS]
    omega

theorem ledger_scan (input : List Int) (s : Sched) (enq deq : List Job)
    (sinv : SchedInv s) (inv : FlowInv s) (led : Ledger input s enq deq)
    (hd : s.dispatcher = DispatcherPc.wait) :
    Ledger input (dispatcher_scan s) (enq ++ enqueued_by s (dispatcher_scan s))
      (deq ++ dequeued_by s (dispatcher_scan s)) := by
  have hl := sinv.len
  have hj := joined_false_of_ne_done s inv (by rw [hd]; intro h; cases h)
  have hnum : s.num_elements.toNat = input.length := by
    rw [led.numel hj]
    exact Int.toNat_ofNat _
  have hk := led.chunk (by rw [hd]; intro h; cases h)
  have hu : dispatcher_scan s =
      { s with
        dispatcher_signal := s.dispatcher_signal - 1,
        progress_done := mark_ready s.progress_done 7,
        queue := s.queue ++ (ready_list s.progress_done 7).map
          (fun q => scan_job input.length (input.length / NUM_SORT_TASKS) (2 * q + 1)),
        job_count := s.job_count + (ready_list s.progress_done 7).length,
        job_cnt := s.job_cnt + (ready_list s.progress_done 7).length,
        jobs_available := s.jobs_available + (ready_list s.progress_done 7).length,
        dispatcher := DispatcherPc.test } := by
    simp only [dispatcher_scan]
    rw [scan_pass_result _ (by exact hl)]
    simp only [scan_result]
    rw [hnum, hk]
  rw [hu]
  have htot := led.total
  rw [if_neg (by rw [hd]; intro h; cases h)] at htot
  have hpm := pending_mark_ready s.progress_done hl
  refine ledger_append input s _ enq deq
    ((ready_list s.progress_done 7).map
      (fun q => scan_job input.length (input.length / NUM_SORT_TASKS) (2 * q + 1)))
    led rfl ?_ rfl rfl rfl ?_ ?_ ?_ (fun _ => hk) ?_
  · show s.job_cnt + _ = s.job_cnt + _
    rw [List.length_map]
  · exact scan_jobs_node input.length _
      (fun q hq => ((ready_list_mem s.progress_done 7 q (le_refl _)).1 hq).2.1)
  · intro v hv
    have hc : id_count ((ready_list s.progress_done 7).map
        (fun q => scan_job input.length (input.length / NUM_SORT_TASKS) (2 * q + 1))) v =
        (ready_list s.progress_done 7).count v :=
      scan_jobs_count _ _ _ v
    rw [hc, ready_list_count _ 7 v (le_refl _)]
    unfold fresh_bit
    by_cases h7 : 7 ≤ v
    · rw [if_pos h7, if_pos h7, if_neg (by omega), hd, if_neg (by intro h; cases h),
        if_neg (by intro h; cases h)]
    · rw [if_neg h7, if_neg h7]
      show _ + pending_bit (mark_ready s.progress_done 7) v = _
      have hst := mark_ready_status s.progress_done hl 7 (le_refl _) v
      by_cases hm : mergeable s.progress_done v
      · have hcond : 7 - 7 ≤ v ∧ v < 7 ∧ mergeable s.progress_done v := ⟨by omega, by omega, hm⟩
        rw [if_pos hcond] at hst
        have hb1 : pending_bit (mark_ready s.progress_done 7) v = 0 := by
          unfold pending_bit
          rw [hst]
          exact if_neg (by intro h; cases h)
        have hb2 : pending_bit s.progress_done v = 1 := by
          unfold pending_bit
          exact if_pos hm.2.2
        rw [if_pos hcond, hb1, hb2]
      · have hcond : ¬ (7 - 7 ≤ v ∧ v < 7 ∧ mergeable s.progress_done v) := fun h => hm h.2.2
        rw [if_neg hcond] at hst
        have hb1 : pending_bit (mark_ready s.progress_done 7) v =
            pending_bit s.progress_done v := by
          unfold pending_bit
          rw [hst]
        rw [if_neg hcond, hb1, Nat.zero_add]
  · intro v _
    show done_bit (mark_ready s.progress_done 7) v = _
    unfold done_bit
    by_cases hcv : status_at s.progress_done v = JobStatus.COMPLETED
    · rw [if_pos hcv, if_pos ((mark_ready_completed _ hl 7 (le_refl _) v).2 hcv)]
    · rw [if_neg hcv, if_neg (fun h => hcv ((mark_ready_completed _ hl 7 (le_refl _) v).1 h))]
  · show s.job_cnt + (ready_list s.progress_done 7).length +
      pending_merges (mark_ready s.progress_done 7) +
      (if DispatcherPc.test = DispatcherPc.seed then 8 else 0) = 15
    rw [if_neg (by intro h; cases h)]
    omega

theorem ledger_take (input : List Int) (s : Sched) (enq deq : List Job)
    (sinv : SchedInv s) (inv : FlowInv s) (led : Ledger input s enq deq) (w : Nat)
    (hw : s.workers.get? w = some WorkerPc.woken) :
    Ledger input (worker_take s w) (enq ++ enqueued_by s (worker_take s w))
      (deq ++ dequeued_by s (worker_take s w)) := by
  cases hq : s.queue with
  | nil =>
    have hc : ¬ s.job_count > 0 := by
      have := inv.cnt
      rw [hq] at this
      have h0 : ([] : List Job).length = 0 := rfl
      omega
    have hu : worker_take s w = { s with workers := s.workers.set w WorkerPc.wait } := by
      unfold worker_take
      exact if_neg hc
    rw [hu]
    exact ledger_worker input s _ enq deq led w WorkerPc.woken WorkerPc.wait hw rfl rfl rfl
      rfl rfl rfl rfl rfl (fun _ => rfl) (fun job h => absurd h (not_holds_wait job))
      (fun h => by cases h)
  | cons job rest =>
    have hc : 0 < s.job_count := by
      have := inv.cnt
      rw [hq] at this
      have h0 : (job :: rest).length = rest.length + 1 := rfl
      omega
    have hjm := sinv.inq job (by rw [hq]; exact List.mem_cons_self _ _)
    have hid : job.id ≠ -1 := by
      have := hjm.1
      omega
    rw [worker_take_head s w job rest hq hc hid]
    have hpop := queue_popped s
      { s with queue := rest, job_count := s.job_count - 1,
               workers := s.workers.set w (WorkerPc.run job) } job rest hq rfl
    rw [hpop.1, hpop.2, List.append_nil]
    refine ⟨?_, led.cnt, led.jobs, led.once, ?_, ?_, led.chunk, led.numel, led.shut, ?_,
      led.total⟩
    · show enq = deq ++ [job] ++ rest
      rw [led.fifo, hq, List.append_assoc]
      rfl
    · intro v hv
      have h1 := led.taken v hv
      have h2 := sum_map_set (hold_bit v) s.workers w WorkerPc.woken (WorkerPc.run job) hw
      have h3 : hold_bit v WorkerPc.woken = 0 := rfl
      have h4 : hold_bit v (WorkerPc.run job) = if job.id = (v : Int) then 1 else 0 := rfl
      rw [id_count_append, id_count_single]
      show _ = ((s.workers.set w (WorkerPc.run job)).map (hold_bit v)).sum +
        done_bit s.progress_done v
      unfold held_count at h1
      omega
    · intro pc j h1 h2
      have h1 : pc ∈ s.workers.set w (WorkerPc.run job) := h1
      rcases List.mem_or_eq_of_mem_set h1 with h | h
      · exact List.mem_append_left _ (led.heldin pc j h h2)
      · rw [h] at h2
        rcases h2 with g | g
        · cases g
          exact List.mem_append_right _ (List.mem_singleton_self _)
        · cases g
    · intro h hm
      have hm : WorkerPc.woken ∈ s.workers.set w (WorkerPc.run job) := hm
      rcases List.mem_or_eq_of_mem_set hm with g | g
      · exact led.nowoken h g
      · cases g

theorem ledger_report (input : List Int) (s : Sched) (enq deq : List Job)
    (sinv : SchedInv s) (led : Ledger input s enq deq) (w : Nat) (job : Job)
    (hw : s.workers.get? w = some (WorkerPc.report job)) :
    Ledger input (worker_report s w job) (enq ++ enqueued_by s (worker_report s w job))
      (deq ++ dequeued_by s (worker_report s w job)) := by
  have hmem := mem_of_get? _ _ _ hw
  have hjm := sinv.held _ job hmem (Or.inr rfl)
  have hlen := sinv.len
  have hi15 : job.id.toNat < 15 := by
    have a := hjm.1
    have b := hjm.2.1
    omega
  have hid : job.id = ((job.id.toNat : Nat) : Int) := by
    have a := hjm.1
    omega
  have hnd : job.id.toNat < 7 → status_at s.progress_done job.id.toNat ≠
      JobStatus.NOT_DISPATCHED := by
    intro h
    exact hjm.2.2 (by omega)
  have hkept := queue_kept s (worker_report s w job) rfl
  rw [hkept.1, hkept.2, List.append_nil, List.append_nil]
  unfold worker_report
  refine ⟨led.fifo, led.cnt, led.jobs, ?_, ?_, ?_, led.chunk, led.numel, led.shut, ?_, ?_⟩
  · intro v hv
    have h1 := led.once v hv
    have hf : fresh_bit { s with
        progress_done := s.progress_done.set job.id.toNat JobStatus.COMPLETED,
        dispatcher_signal := s.dispatcher_signal + 1,
        workers := s.workers.set w WorkerPc.wait } v = fresh_bit s v := by
      unfold fresh_bit
      by_cases h7 : 7 ≤ v
      · rw [if_pos h7, if_pos h7]
      · rw [if_neg h7, if_neg h7]
        exact pending_bit_set_same s.progress_done job.id.toNat v hnd (by omega)
    rw [hf]
    exact h1
  · intro v hv
    have h1 := led.taken v hv
    have h2 := sum_map_set (hold_bit v) s.workers w (WorkerPc.report job) WorkerPc.wait hw
    have h3 : hold_bit v WorkerPc.wait = 0 := rfl
    have h4 : hold_bit v (WorkerPc.report job) = if job.id = (v : Int) then 1 else 0 := rfl
    show _ = ((s.workers.set w WorkerPc.wait).map (hold_bit v)).sum +
      done_bit (s.progress_done.set job.id.toNat JobStatus.COMPLETED) v
    unfold held_count at h1
    by_cases hv2 : job.id.toNat = v
    · have hjv : job.id = (v : Int) := by rw [← hv2]; exact hid
      rw [if_pos hjv] at h4
      have hu := ledger_unique input s enq deq led v hv
      have hpos := held_count_pos s _ job v hmem (Or.inr rfl) hjv
      have hd0 : done_bit s.progress_done v = 0 := by omega
      have hst := status_at_set s.progress_done job.id.toNat v JobStatus.COMPLETED
      have hcond : job.id.toNat = v ∧ job.id.toNat < s.progress_done.length :=
        ⟨hv2, by omega⟩
      rw [if_pos hcond] at hst
      have hd1 : done_bit (s.progress_done.set job.id.toNat JobStatus.COMPLETED) v = 1 := by
        unfold done_bit
        rw [hst]
        exact if_pos rfl
      omega
    · have hjv : ¬ job.id = (v : Int) := by
        intro h
        apply hv2
        omega
      rw [if_neg hjv] at h4
      have hst := status_at_set s.progress_done job.id.toNat v JobStatus.COMPLETED
      have hcond : ¬ (job.id.toNat = v ∧ job.id.toNat < s.progress_done.length) :=
        fun h => hv2 h.1
      rw [if_neg hcond] at hst
      have hd1 : done_bit (s.progress_done.set job.id.toNat JobStatus.COMPLETED) v =
          done_bit s.progress_done v := by
        unfold done_bit
        rw [hst]
      omega
  · intro pc j h1 h2
    have h1 : pc ∈ s.workers.set w WorkerPc.wait := h1
    rcases List.mem_or_eq_of_mem_set h1 with h | h
    · exact led.heldin pc j h h2
    · rw [h] at h2
      exact absurd h2 (not_holds_wait j)
  · intro h hm
    have hm : WorkerPc.woken ∈ s.workers.set w WorkerPc.wait := hm
    rcases List.mem_or_eq_of_mem_set hm with g | g
    · exact led.nowoken h g
    · cases g
  · show s.job_cnt + pending_merges (s.progress_done.set job.id.toNat JobStatus.COMPLETED) + _
      = 15
    rw [pending_merges_set_same s.progress_done job.id.toNat hnd]
    exact led.total

theorem ledger_step (input : List Int) (s t : Sched) (enq deq : List Job)
    (sinv : SchedInv s) (inv : FlowInv s) (led : Ledger input s enq deq) (h : Step s t) :
    Ledger input t (enq ++ enqueued_by s t) (deq ++ dequeued_by s t) := by
  cases h with
  | seed hd => exact ledger_seed input s enq deq inv led hd
  | test hd => exact ledger_test input s enq deq led hd
  | scan hd _ => exact ledger_scan input s enq deq sinv inv led hd
  | wake w hw _ => exact ledger_wake input s enq deq led w hw
  | take w hw => exact ledger_take input s enq deq sinv inv led w hw
  | run w job hw => exact ledger_run input s enq deq led w job hw
  | report w job hw => exact ledger_report input s enq deq sinv led w job hw
  | cleanup hd hj => exact ledger_cleanup input s enq deq sinv inv led hd hj

theorem history_ledger (input scratch : List Int) (n : Nat) (s : Sched) (enq deq : List Job)
    (h : History input scratch n s enq deq) :
    Reachable input scratch n s ∧ Ledger input s enq deq := by
  induction h with
  | init => exact ⟨Reachable.init, ledger_init input scratch n⟩
  | step s t enq deq _ hst ih =>
    exact ⟨Reachable.step s t ih.1 hst,
      ledger_step input s t enq deq (sched_inv_reachable input scratch n s ih.1)
        (flow_inv_reachable input scratch n s ih.1) ih.2 hst⟩

theorem history_of_reachable (input scratch : List Int) (n : Nat) (s : Sched)
    (h : Reachable input scratch n s) : ∃ enq deq, History input scratch n s enq deq := by
  induction h with
  | init => exact ⟨[], [], History.init⟩
  | step s t _ hst ih =>
    obtain ⟨enq, deq, hh⟩ := ih
    exact ⟨_, _, History.step s t enq deq hh hst⟩

theorem ledger_reachable (input scratch : List Int) (n : Nat) (s : Sched)
    (h : Reachable input scratch n s) : ∃ enq deq, Ledger input s enq deq := by
  obtain ⟨enq, deq, hh⟩ := history_of_reachable input scratch n s h
  exact ⟨enq, deq, (history_ledger input scratch n s enq deq hh).2⟩

/-! ## In-flight jobs, queue history and wake-ups -/

theorem completed_below (s : Sched) (sinv : SchedInv s) (v w : Nat) (hv : v < 15) (hw : w < 15)
    (hne : w ≠ v) (hnd : v < 7 → status_at s.progress_done v ≠ JobStatus.NOT_DISPATCHED)
    (h : is_ancestor 3 v w = true) : status_at s.progress_done w = JobStatus.COMPLETED := by
  have hv7 := is_ancestor_internal v hv w hw hne h
  obtain ⟨c1, c2⟩ := sinv.dep v hv7 (hnd hv7)
  have hmem : ∀ x, x ∈ (List.range 15).filter
      (fun x => decide (status_at s.progress_done x = JobStatus.COMPLETED)) ↔
      x < 15 ∧ status_at s.progress_done x = JobStatus.COMPLETED := by
    intro x
    rw [List.mem_filter, List.mem_range, decide_eq_true_eq]
  have hclosed : ∀ p, p < 7 →
      p ∈ (List.range 15).filter
        (fun x => decide (status_at s.progress_done x = JobStatus.COMPLETED)) →
      2 * p + 1 ∈ (List.range 15).filter
        (fun x => decide (status_at s.progress_done x = JobStatus.COMPLETED)) ∧
      2 * p + 2 ∈ (List.range 15).filter
        (fun x => decide (status_at s.progress_done x = JobStatus.COMPLETED)) := by
    intro p hp hm
    have hc := ((hmem p).1 hm).2
    obtain ⟨d1, d2⟩ := sinv.dep p hp (by rw [hc]; intro g; cases g)
    exact ⟨(hmem _).2 ⟨by omega, d1⟩, (hmem _).2 ⟨by omega, d2⟩⟩
  rcases is_ancestor_child v hv w hw hne h with g | g
  · exact ((hmem w).1 (closed_descendant _ hclosed 2 _ w hw
      ((hmem _).2 ⟨by omega, c1⟩) g)).2
  · exact ((hmem w).1 (closed_descendant _ hclosed 2 _ w hw
      ((hmem _).2 ⟨by omega, c2⟩) g)).2

theorem flying_node (input scratch : List Int) (n : Nat) (s : Sched)
    (hr : Reachable input scratch n s) (job : Job) (hf : flying s job) :
    ∃ v, v < 15 ∧ job = node_job input.length v ∧ job.id = (v : Int) ∧
      status_at s.progress_done v ≠ JobStatus.COMPLETED ∧
      (v < 7 → status_at s.progress_done v ≠ JobStatus.NOT_DISPATCHED) := by
  obtain ⟨enq, deq, led⟩ := ledger_reachable input scratch n s hr
  have sinv := sched_inv_reachable input scratch n s hr
  rcases hf with h | ⟨pc, h1, h2⟩
  · obtain ⟨v, hv, hj, hid, hc⟩ := ledger_queue_job input s enq deq led job h
    refine ⟨v, hv, hj, hid, hc, ?_⟩
    intro h7
    have hm := (sinv.inq job h).2.2 (by omega)
    have : job.id.toNat = v := by omega
    rw [this] at hm
    exact hm
  · obtain ⟨v, hv, hj, hid, hc⟩ := ledger_held_job input s enq deq led pc job h1 h2
    refine ⟨v, hv, hj, hid, hc, ?_⟩
    intro h7
    have hm := (sinv.held pc job h1 h2).2.2 (by omega)
    have : job.id.toNat = v := by omega
    rw [this] at hm
    exact hm

theorem woken_takes_job (input scratch : List Int) (n : Nat) (s : Sched)
    (hr : Reachable input scratch n s) (w : Nat)
    (hw : s.workers.get? w = some WorkerPc.woken) :
    s.joined = false ∧ 0 < s.job_count ∧ (get_job s).1.id ≠ -1 ∧
    ∃ job rest, s.queue = job :: rest ∧
      worker_take s w = { s with queue := rest, job_count := s.job_count - 1,
                                 workers := s.workers.set w (WorkerPc.run job) } := by
  obtain ⟨enq, deq, led⟩ := ledger_reachable input scratch n s hr
  have sinv := sched_inv_reachable input scratch n s hr
  have inv := flow_inv_reachable input scratch n s hr
  have hj : s.joined = false := by
    cases hjv : s.joined with
    | false => rfl
    | true => exact absurd (mem_of_get? _ _ _ hw) (led.nowoken hjv)
  have htok := inv.tokens hj
  have hpos := woken_count_pos s w hw
  have hcnt := inv.cnt
  cases hq : s.queue with
  | nil =>
    rw [hq] at htok
    have h0 : ([] : List Job).length = 0 := rfl
    omega
  | cons job rest =>
    have hc : 0 < s.job_count := by
      rw [hq] at hcnt
      have h0 : (job :: rest).length = rest.length + 1 := rfl
      omega
    have hid : job.id ≠ -1 := by
      have := (sinv.inq job (by rw [hq]; exact List.mem_cons_self _ _)).1
      omega
    have hg : (get_job s).1 = job := by
      unfold get_job
      rw [hq]
    refine ⟨hj, hc, by rw [hg]; exact hid, job, rest, rfl, ?_⟩
    exact worker_take_head s w job rest hq hc hid

/-- C21: in every reachable state at most one job of each node is in flight
(in the queue or held by a worker); every job in flight is the job of a node
that is not `COMPLETED`; two distinct jobs in flight belong to different
nodes, neither of which is an ancestor of the other, and their ranges
`[start, end)` do not overlap; and the ranges of any two nodes of which
neither is an ancestor of the other do not overlap. -/
theorem in_flight_ranges_disjoint (input scratch : List Int) (n : Nat) (s : Sched)
    (hr : Reachable input scratch n s) :
    (∀ v, v < 15 → id_count s.queue v + held_count s v ≤ 1) ∧
    (∀ job, flying s job → ∃ v, v < 15 ∧ job = node_job input.length v ∧
      status_at s.progress_done v ≠ JobStatus.COMPLETED) ∧
    (∀ j1 j2, flying s j1 → flying s j2 → j1 ≠ j2 →
      j1.id ≠ j2.id ∧
      is_ancestor 3 j1.id.toNat j2.id.toNat = false ∧
      is_ancestor 3 j2.id.toNat j1.id.toNat = false ∧
      (j1.end_ ≤ j2.start ∨ j2.end_ ≤ j1.start)) ∧
    (∀ m v w, v < 15 → w < 15 → is_ancestor 3 v w = false → is_ancestor 3 w v = false →
      (node_job m v).end_ ≤ (node_job m w).start ∨
      (node_job m w).end_ ≤ (node_job m v).start) := by
  have sinv := sched_inv_reachable input scratch n s hr
  refine ⟨?_, ?_, ?_, fun m v w hv hw h1 h2 => node_range_disjoint m v w hv hw h1 h2⟩
  · intro v hv
    obtain ⟨enq, deq, led⟩ := ledger_reachable input scratch n s hr
    have := ledger_unique input s enq deq led v hv
    omega
  · intro job hf
    obtain ⟨v, hv, hj, _, hc, _⟩ := flying_node input scratch n s hr job hf
    exact ⟨v, hv, hj, hc⟩
  · intro j1 j2 f1 f2 hne
    obtain ⟨v, hv, hj1, hid1, hc1, hn1⟩ := flying_node input scratch n s hr j1 f1
    obtain ⟨w, hw, hj2, hid2, hc2, hn2⟩ := flying_node input scratch n s hr j2 f2
    have hvw : v ≠ w := by
      intro h
      apply hne
      rw [hj1, hj2, h]
    have t1 : j1.id.toNat = v := by omega
    have t2 : j2.id.toNat = w := by omega
    have a1 : is_ancestor 3 v w = false := by
      cases ha : is_ancestor 3 v w with
      | false => rfl
      | true => exact absurd (completed_below s sinv v w hv hw (Ne.symm hvw) hn1 ha) hc2
    have a2 : is_ancestor 3 w v = false := by
      cases ha : is_ancestor 3 w v with
      | false => rfl
      | true => exact absurd (completed_below s sinv w v hw hv hvw hn2 ha) hc1
    refine ⟨by omega, by rw [t1, t2]; exact a1, by rw [t1, t2]; exact a2, ?_⟩
    rw [hj1, hj2]
    exact node_range_disjoint input.length v w hv hw a1 a2

/-- Witness of C21: the sample trial with leaf `7` held by the worker and the
other seven leaves in the queue. -/
theorem in_flight_ranges_disjoint_witness :
    Reachable sample_input sample_scratch 1 leaf_run_state ∧
    ((∀ v, v < 15 → id_count leaf_run_state.queue v + held_count leaf_run_state v ≤ 1) ∧
    (∀ job, flying leaf_run_state job → ∃ v, v < 15 ∧ job = node_job sample_input.length v ∧
      status_at leaf_run_state.progress_done v ≠ JobStatus.COMPLETED) ∧
    (∀ j1 j2, flying leaf_run_state j1 → flying leaf_run_state j2 → j1 ≠ j2 →
      j1.id ≠ j2.id ∧
      is_ancestor 3 j1.id.toNat j2.id.toNat = false ∧
      is_ancestor 3 j2.id.toNat j1.id.toNat = false ∧
      (j1.end_ ≤ j2.start ∨ j2.end_ ≤ j1.start)) ∧
    (∀ m v w, v < 15 → w < 15 → is_ancestor 3 v w = false → is_ancestor 3 w v = false →
      (node_job m v).end_ ≤ (node_job m w).start ∨
      (node_job m w).end_ ≤ (node_job m v).start)) :=
  ⟨leaf_run_state_reachable,
    in_flight_ranges_disjoint sample_input sample_scratch 1 leaf_run_state
      leaf_run_state_reachable⟩

/-- C23: in every reachable state of a trial, whatever history of enqueued and
dequeued jobs led to it, each of the fifteen node ids occurs at most once among
the enqueued jobs and at most once among the dequeued jobs, every enqueued job
is the job of one of the fifteen nodes, the queue holds the enqueued jobs not
yet dequeued, and `job_cnt` is the number of enqueued jobs; so the queue never
holds more than 15 jobs and `job_cnt` never exceeds 15; once node `0` is
`COMPLETED`, `job_cnt` is exactly 15 and the queue is empty. -/
theorem each_node_enqueued_once (input scratch : List Int) (n : Nat) (s : Sched)
    (hr : Reachable input scratch n s) :
    (∃ enq deq, History input scratch n s enq deq) ∧
    (∀ enq deq, History input scratch n s enq deq →
      enq = deq ++ s.queue ∧ enq.length = s.job_cnt ∧
      (∀ job, job ∈ enq → 0 ≤ job.id ∧ job.id < 15) ∧
      (∀ v, v < 15 → id_count enq v ≤ 1 ∧ id_count deq v ≤ 1)) ∧
    s.queue.length ≤ 15 ∧ s.job_cnt ≤ 15 ∧
    (status_at s.progress_done 0 = JobStatus.COMPLETED → s.job_cnt = 15 ∧ s.queue = []) := by
  have sinv := sched_inv_reachable input scratch n s hr
  obtain ⟨enq0, deq0, led0⟩ := ledger_reachable input scratch n s hr
  have hcnt : s.job_cnt ≤ 15 := by
    have := led0.total
    omega
  refine ⟨history_of_reachable input scratch n s hr, ?_, ?_, hcnt, ?_⟩
  · intro enq deq hh
    have led := (history_ledger input scratch n s enq deq hh).2
    refine ⟨led.fifo, led.cnt, ?_, ?_⟩
    · intro job hj
      obtain ⟨v, hv, hjv⟩ := led.jobs job hj
      have hid : job.id = (v : Int) := by
        rw [hjv]; exact (node_job_range input.length v hv).2.2
      omega
    · intro v hv
      have h1 := led.once v hv
      have h2 : id_count enq v = id_count deq v + id_count s.queue v := by
        rw [led.fifo]
        exact id_count_append _ _ _
      omega
  · have h1 := led0.cnt
    have h2 : enq0.length = deq0.length + s.queue.length := by
      rw [led0.fifo]
      exact List.length_append _ _
    omega
  · intro h0
    have hall := all_completed_of_root s sinv h0
    refine ⟨?_, ledger_queue_empty input s enq0 deq0 sinv led0 h0⟩
    have hns : ¬ s.dispatcher = DispatcherPc.seed := by
      intro hd
      have hu := ledger_unique input s enq0 deq0 led0 7 (by omega)
      have hd1 : done_bit s.progress_done 7 = 1 := if_pos (hall 7 (by omega))
      have hf1 : fresh_bit s 7 = 1 := by
        unfold fresh_bit
        rw [if_pos (le_refl _), if_pos hd]
      omega
    have hpend : pending_merges s.progress_done = 0 := by
      have hb : ∀ p, p < 7 → pending_bit s.progress_done p = 0 := by
        intro p hp
        unfold pending_bit
        rw [hall p (by omega)]
        exact if_neg (by intro g; cases g)
      unfold pending_merges
      rw [hb 0 (by omega), hb 1 (by omega), hb 2 (by omega), hb 3 (by omega), hb 4 (by omega),
        hb 5 (by omega), hb 6 (by omega)]
    have := led0.total
    rw [if_neg hns, hpend] at this
    omega

/-- Witness of C23: the sample trial after the seed phase. -/
theorem each_node_enqueued_once_witness :
    Reachable sample_input sample_scratch 1 seeded_state ∧
    ((∃ enq deq, History sample_input sample_scratch 1 seeded_state enq deq) ∧
    (∀ enq deq, History sample_input sample_scratch 1 seeded_state enq deq →
      enq = deq ++ seeded_state.queue ∧ enq.length = seeded_state.job_cnt ∧
      (∀ job, job ∈ enq → 0 ≤ job.id ∧ job.id < 15) ∧
      (∀ v, v < 15 → id_count enq v ≤ 1 ∧ id_count deq v ≤ 1)) ∧
    seeded_state.queue.length ≤ 15 ∧ seeded_state.job_cnt ≤ 15 ∧
    (status_at seeded_state.progress_done 0 = JobStatus.COMPLETED →
      seeded_state.job_cnt = 15 ∧ seeded_state.queue = [])) :=
  ⟨seeded_state_reachable,
    each_node_enqueued_once sample_input sample_scratch 1 seeded_state seeded_state_reachable⟩

/-- C27: in every reachable state before shutdown, `jobs_available` plus the
number of workers that have passed `sem_wait` and not yet dequeued is at most
(in fact equal to) the number of jobs in the queue, and after shutdown no
worker is between the wait and the dequeue.  So a worker past the wait finds
`job_count > 0` and a head job whose id is not `-1`: `worker_take` dequeues
the head and goes on to run it, and neither the branch for an empty queue nor
the `continue` for the id `-1` is taken; the same holds right after a wake-up
before shutdown. -/
theorem woken_worker_finds_job (input scratch : List Int) (n : Nat) (s : Sched)
    (hr : Reachable input scratch n s) :
    (s.joined = false →
      s.jobs_available + s.workers.count WorkerPc.woken ≤ s.queue.length ∧
      s.job_count = s.queue.length) ∧
    (s.joined = true → WorkerPc.woken ∉ s.workers) ∧
    (∀ w, s.workers.get? w = some WorkerPc.woken →
      0 < s.job_count ∧ (get_job s).1.id ≠ -1 ∧
      ∃ job rest, s.queue = job :: rest ∧
        worker_take s w = { s with queue := rest, job_count := s.job_count - 1,
                                   workers := s.workers.set w (WorkerPc.run job) }) ∧
    (∀ w, s.workers.get? w = some WorkerPc.wait → 0 < s.jobs_available →
      s.num_elements ≠ -1 →
      0 < (worker_wake s w).job_count ∧ (get_job (worker_wake s w)).1.id ≠ -1 ∧
      ∃ job, (worker_take (worker_wake s w) w).workers.get? w = some (WorkerPc.run job)) := by
  have inv := flow_inv_reachable input scratch n s hr
  obtain ⟨enq, deq, led⟩ := ledger_reachable input scratch n s hr
  refine ⟨?_, led.nowoken, ?_, ?_⟩
  · intro hj
    exact ⟨le_of_eq (inv.tokens hj), inv.cnt⟩
  · intro w hw
    exact (woken_takes_job input scratch n s hr w hw).2
  · intro w hw hja hn
    have hwl := get?_lt _ _ _ hw
    have hr2 : Reachable input scratch n (worker_wake s w) :=
      Reachable.step s _ hr (Step.wake s w hw hja)
    have hwk : (worker_wake s w).workers.get? w = some WorkerPc.woken := by
      rw [worker_wake_running s w hn]
      exact get?_set_self _ _ _ hwl
    obtain ⟨_, h1, h2, job, rest, _, h4⟩ :=
      woken_takes_job input scratch n (worker_wake s w) hr2 w hwk
    refine ⟨h1, h2, job, ?_⟩
    rw [h4]
    have hwl2 : w < (worker_wake s w).workers.length := get?_lt _ _ _ hwk
    exact get?_set_self _ _ _ hwl2

/-- Witness of C27: the sample trial with the worker past its first wait. -/
theorem woken_worker_finds_job_witness :
    Reachable sample_input sample_scratch 1 woken_state ∧
    ((woken_state.joined = false →
      woken_state.jobs_available + woken_state.workers.count WorkerPc.woken ≤
        woken_state.queue.length ∧
      woken_state.job_count = woken_state.queue.length) ∧
    (woken_state.joined = true → WorkerPc.woken ∉ woken_state.workers) ∧
    (∀ w, woken_state.workers.get? w = some WorkerPc.woken →
      0 < woken_state.job_count ∧ (get_job woken_state).1.id ≠ -1 ∧
      ∃ job rest, woken_state.queue = job :: rest ∧
        worker_take woken_state w =
          { woken_state with queue := rest, job_count := woken_state.job_count - 1,
                             workers := woken_state.workers.set w (WorkerPc.run job) }) ∧
    (∀ w, woken_state.workers.get? w = some WorkerPc.wait → 0 < woken_state.jobs_available →
      woken_state.num_elements ≠ -1 →
      0 < (worker_wake woken_state w).job_count ∧
      (get_job (worker_wake woken_state w)).1.id ≠ -1 ∧
      ∃ job, (worker_take (worker_wake woken_state w) w).workers.get? w =
        some (WorkerPc.run job))) :=
  ⟨Reachable.step _ _ seeded_state_reachable (Step.wake seeded_state 0 rfl (by decide)),
    woken_worker_finds_job sample_input sample_scratch 1 woken_state
      (Reachable.step _ _ seeded_state_reachable (Step.wake seeded_state 0 rfl (by decide)))⟩

/-! ## Lemmas on the trial with mutexes -/

theorem sum_set_any {α : Type} (f : α → Nat) (l : List α) (w : Nat) (old x : α)
    (hw : l.get? w = some old) :
    ((l.set w x).map f).sum + f old = (l.map f).sum + f x := by
  induction l generalizing w with
  | nil => cases hw
  | cons a l ih =>
    cases w with
    | zero =>
      have : a = old := by simpa using hw
      subst this
      simp only [List.set_cons_zero, List.map_cons, List.sum_cons]
      omega
    | succ w =>
      have := ih w (by simpa using hw)
      simp only [List.set_cons_succ, List.map_cons, List.sum_cons]
      omega

theorem exists_of_sum_pos {α : Type} (f : α → Nat) (l : List α) (h : 0 < (l.map f).sum) :
    ∃ w x, l.get? w = some x ∧ 0 < f x := by
  induction l with
  | nil => simp at h
  | cons a l ih =>
    simp only [List.map_cons, List.sum_cons] at h
    by_cases ha : 0 < f a
    · exact ⟨0, a, rfl, ha⟩
    · obtain ⟨w, x, hw, hx⟩ := ih (by omega)
      exact ⟨w + 1, x, by simpa using hw, hx⟩

theorem le_sum_any {α : Type} (f : α → Nat) (l : List α) (w : Nat) (x : α)
    (hw : l.get? w = some x) : f x ≤ (l.map f).sum := by
  induction l generalizing w with
  | nil => cases hw
  | cons a l ih =>
    simp only [List.map_cons, List.sum_cons]
    cases w with
    | zero =>
      have : a = x := by simpa using hw
      rw [this]; omega
    | succ w =>
      have := ih w (by simpa using hw)
      omega

theorem get?_map_coarse (l : List LockWorkerPc) (w : Nat) (pc : LockWorkerPc)
    (hw : l.get? w = some pc) : (l.map coarse_worker).get? w = some (coarse_worker pc) := by
  rw [List.get?_eq_getElem?] at hw ⊢
  rw [List.getElem?_map, hw]
  rfl

theorem get?_of_map_coarse (l : List LockWorkerPc) (w : Nat) (c : WorkerPc)
    (hw : (l.map coarse_worker).get? w = some c) :
    ∃ pc, l.get? w = some pc ∧ coarse_worker pc = c := by
  rw [List.get?_eq_getElem?] at hw ⊢
  rw [List.getElem?_map] at hw
  cases hl : l[w]? with
  | none => rw [hl] at hw; cases hw
  | some pc =>
    rw [hl] at hw
    exact ⟨pc, rfl, by simpa using hw⟩

theorem map_set_coarse (l : List LockWorkerPc) (w : Nat) (pc : LockWorkerPc) :
    (l.set w pc).map coarse_worker = (l.map coarse_worker).set w (coarse_worker pc) := by
  induction l generalizing w with
  | nil => rfl
  | cons a l ih =>
    cases w with
    | zero => rfl
    | succ w => simp only [List.set_cons_succ, List.map_cons, ih]

theorem set_same_coarse (l : List LockWorkerPc) (w : Nat) (old pc : LockWorkerPc)
    (hw : l.get? w = some old) (h : coarse_worker pc = coarse_worker old) :
    (l.set w pc).map coarse_worker = l.map coarse_worker := by
  induction l generalizing w with
  | nil => rfl
  | cons a l ih =>
    cases w with
    | zero =>
      have : a = old := by simpa using hw
      subst this
      simp only [List.set_cons_zero, List.map_cons, h]
    | succ w =>
      simp only [List.set_cons_succ, List.map_cons, ih w (by simpa using hw)]

theorem sched_eq (a b : Sched) (h1 : a.array = b.array) (h2 : a.temp_array = b.temp_array)
    (h3 : a.num_elements = b.num_elements) (h4 : a.progress_done = b.progress_done)
    (h5 : a.queue = b.queue) (h6 : a.job_count = b.job_count) (h7 : a.job_cnt = b.job_cnt)
    (h8 : a.jobs_available = b.jobs_available)
    (h9 : a.dispatcher_signal = b.dispatcher_signal) (h10 : a.chunk_size = b.chunk_size)
    (h11 : a.dispatcher = b.dispatcher) (h12 : a.workers = b.workers)
    (h13 : a.joined = b.joined) : a = b := by
  cases a
  cases b
  simp only [Sched.mk.injEq]
  exact ⟨h1, h2, h3, h4, h5, h6, h7, h8, h9, h10, h11, h12, h13⟩

theorem tail_marks_fuel (fuel : Nat) (pd : List JobStatus) (n : Nat) (h : n ≤ fuel) :
    tail_marks (fuel + 1) pd n = tail_marks fuel pd n := by
  induction fuel generalizing pd n with
  | zero =>
    have : n = 0 := by omega
    subst this
    rfl
  | succ f ih =>
    rw [tail_marks]
    conv => rhs; rw [tail_marks]
    by_cases hn : n > 0
    · rw [if_pos hn, if_pos hn, ih _ _ (by omega), ih _ _ (by omega)]
    · rw [if_neg hn, if_neg hn]

theorem tail_jobs_fuel (m c fuel : Nat) (pd : List JobStatus) (n : Nat) (h : n ≤ fuel) :
    tail_jobs m c (fuel + 1) pd n = tail_jobs m c fuel pd n := by
  induction fuel generalizing pd n with
  | zero =>
    have : n = 0 := by omega
    subst this
    rfl
  | succ f ih =>
    rw [tail_jobs]
    conv => rhs; rw [tail_jobs]
    by_cases hn : n > 0
    · rw [if_pos hn, if_pos hn, ih _ _ (by omega), ih _ _ (by omega)]
    · rw [if_neg hn, if_neg hn]

theorem tail_marks_length (fuel : Nat) (pd : List JobStatus) (n : Nat) :
    (tail_marks fuel pd n).length = pd.length := by
  induction fuel generalizing pd n with
  | zero => rfl
  | succ f ih =>
    rw [tail_marks]
    split
    · split
      · rw [ih, List.length_set]
      · exact ih _ _
    · rfl

theorem scan_loop_tail (fuel : Nat) (v : Sched) (n : Nat) :
    scan_loop fuel v n =
      { v with
        progress_done := tail_marks fuel v.progress_done n,
        queue := v.queue ++ tail_jobs v.num_elements.toNat v.chunk_size fuel v.progress_done n,
        job_count := v.job_count +
          (tail_jobs v.num_elements.toNat v.chunk_size fuel v.progress_done n).length,
        job_cnt := v.job_cnt +
          (tail_jobs v.num_elements.toNat v.chunk_size fuel v.progress_done n).length,
        jobs_available := v.jobs_available +
          (tail_jobs v.num_elements.toNat v.chunk_size fuel v.progress_done n).length } := by
  induction fuel generalizing v n with
  | zero =>
    simp only [scan_loop, tail_marks, tail_jobs, List.append_nil, List.length_nil, Nat.add_zero]
  | succ f ih =>
    rw [scan_loop, tail_marks, tail_jobs]
    by_cases hn : n > 0
    · rw [if_pos hn, if_pos hn, if_pos hn, ih]
      unfold scan_step
      by_cases hc : status_at v.progress_done n = JobStatus.COMPLETED ∧
          status_at v.progress_done (n + 1) = JobStatus.COMPLETED ∧
          status_at v.progress_done ((n - 1) / 2) = JobStatus.NOT_DISPATCHED
      · rw [if_pos hc, if_pos hc, if_pos hc]
        apply sched_eq <;> simp only [add_job, List.append_assoc, List.singleton_append,
          List.length_cons] <;> omega
      · rw [if_neg hc, if_neg hc, if_neg hc]
    · rw [if_neg hn, if_neg hn, if_neg hn]
      simp only [List.append_nil, List.length_nil, Nat.add_zero]

theorem sum_replicate_zero {α : Type} (f : α → Nat) (x : α) (k : Nat) (h : f x = 0) :
    ((List.replicate k x).map f).sum = 0 := by
  induction k with
  | zero => rfl
  | succ k ih => rw [List.replicate_succ, List.map_cons, List.sum_cons, ih, h]

/-! ## Each step with mutexes is a step of `Step` or leaves its state unchanged -/

theorem tail_marks_step (pd : List JobStatus) (n : Nat) (hn : n > 0) :
    tail_marks n pd n =
      if status_at pd n = JobStatus.COMPLETED ∧ status_at pd (n + 1) = JobStatus.COMPLETED ∧
          status_at pd ((n - 1) / 2) = JobStatus.NOT_DISPATCHED then
        tail_marks (n - 2) (pd.set ((n - 1) / 2) JobStatus.DISPATCHED) (n - 2)
      else tail_marks (n - 2) pd (n - 2) := by
  obtain ⟨m, rfl⟩ : ∃ m, n = m + 1 := ⟨n - 1, by omega⟩
  rw [tail_marks, if_pos hn]
  cases m with
  | zero => rfl
  | succ k =>
    have e : k + 1 + 1 - 2 = k := by omega
    rw [e, tail_marks_fuel k _ k (le_refl _), tail_marks_fuel k _ k (le_refl _)]

theorem tail_jobs_step (m c : Nat) (pd : List JobStatus) (n : Nat) (hn : n > 0) :
    tail_jobs m c n pd n =
      if status_at pd n = JobStatus.COMPLETED ∧ status_at pd (n + 1) = JobStatus.COMPLETED ∧
          status_at pd ((n - 1) / 2) = JobStatus.NOT_DISPATCHED then
        scan_job m c n ::
          tail_jobs m c (n - 2) (pd.set ((n - 1) / 2) JobStatus.DISPATCHED) (n - 2)
      else tail_jobs m c (n - 2) pd (n - 2) := by
  obtain ⟨k, rfl⟩ : ∃ k, n = k + 1 := ⟨n - 1, by omega⟩
  rw [tail_jobs, if_pos hn]
  cases k with
  | zero => rfl
  | succ j =>
    have e : j + 1 + 1 - 2 = j := by omega
    rw [e, tail_jobs_fuel m c j _ j (le_refl _), tail_jobs_fuel m c j _ j (le_refl _)]

theorem coarse_seed_enter (s : LockSched) (hd : s.dispatcher = LockDispatcherPc.start) :
    coarse (lock_seed_enter s) = dispatcher_seed (coarse s) := by
  simp only [dispatcher_seed, seed_loop_spec]
  apply sched_eq <;> simp [coarse, lock_seed_enter, hd, rest_marks, rest_jobs,
    coarse_dispatcher]

theorem coarse_seed_iter (s : LockSched) (i : Nat)
    (hd : s.dispatcher = LockDispatcherPc.seeding i) :
    coarse (lock_seed_iter s i) = coarse s := by
  unfold lock_seed_iter
  by_cases hi : i < NUM_SORT_TASKS
  · rw [if_pos hi]
    have hr : List.range' i (NUM_SORT_TASKS - i) =
        i :: List.range' (i + 1) (NUM_SORT_TASKS - (i + 1)) := by
      obtain ⟨k, hk⟩ : ∃ k, NUM_SORT_TASKS - i = k + 1 := ⟨NUM_SORT_TASKS - i - 1, by omega⟩
      have hk2 : NUM_SORT_TASKS - (i + 1) = k := by omega
      rw [hk, hk2, List.range'_succ]
    apply sched_eq <;> simp [coarse, lock_add_job, hd, rest_marks, rest_jobs,
      coarse_dispatcher, hr] <;> omega
  · rw [if_neg hi]
    have hz : NUM_SORT_TASKS - i = 0 := by omega
    apply sched_eq <;> simp [coarse, hd, rest_marks, rest_jobs, coarse_dispatcher, hz]

theorem coarse_signal (s : LockSched) (hd : s.dispatcher = LockDispatcherPc.wait)
    (hs : 0 < s.dispatcher_signal) : coarse (lock_signal s) = coarse s := by
  apply sched_eq <;> simp [coarse, lock_signal, hd, rest_marks, rest_jobs,
    coarse_dispatcher]
  omega

theorem coarse_scan_iter (s : LockSched) (n : Nat)
    (hd : s.dispatcher = LockDispatcherPc.scan n) :
    coarse (lock_scan_iter s n) = coarse s := by
  unfold lock_scan_iter
  by_cases hn : n > 0
  · rw [if_pos hn]
    have hm := tail_marks_step s.progress_done n hn
    have hj := tail_jobs_step s.num_elements.toNat s.chunk_size s.progress_done n hn
    by_cases hc : status_at s.progress_done n = JobStatus.COMPLETED ∧
        status_at s.progress_done (n + 1) = JobStatus.COMPLETED ∧
        status_at s.progress_done ((n - 1) / 2) = JobStatus.NOT_DISPATCHED
    · rw [if_pos hc]
      rw [if_pos hc] at hm hj
      apply sched_eq <;> simp [coarse, hd, rest_marks, rest_jobs, coarse_dispatcher, hm, hj]
    · rw [if_neg hc]
      rw [if_neg hc] at hm hj
      apply sched_eq <;> simp [coarse, hd, rest_marks, rest_jobs, coarse_dispatcher, hm, hj]
  · rw [if_neg hn]
    have h0 : n = 0 := by omega
    subst h0
    apply sched_eq <;> simp [coarse, hd, rest_marks, rest_jobs, coarse_dispatcher,
      tail_marks, tail_jobs]

theorem coarse_add_enter (s : LockSched) (n : Nat) (job : Job)
    (hd : s.dispatcher = LockDispatcherPc.add n job) :
    coarse (lock_add_enter s n job) = coarse s := by
  apply sched_eq <;> simp [coarse, lock_add_enter, hd, rest_marks, rest_jobs,
    coarse_dispatcher]

theorem coarse_add_body (s : LockSched) (n : Nat) (job : Job)
    (hd : s.dispatcher = LockDispatcherPc.adding n job) :
    coarse (lock_add_body s n job) = coarse s := by
  apply sched_eq <;> simp [coarse, lock_add_body, lock_add_job, hd, rest_marks, rest_jobs,
    coarse_dispatcher] <;> omega

theorem coarse_take_enter (s : LockSched) (w : Nat)
    (hw : s.workers.get? w = some LockWorkerPc.woken) :
    coarse (lock_take_enter s w) = coarse s := by
  have hm := set_same_coarse s.workers w LockWorkerPc.woken LockWorkerPc.locked hw rfl
  apply sched_eq <;> simp [coarse, lock_take_enter, hm]

theorem coarse_mark_enter (s : LockSched) (w : Nat) (job : Job)
    (hw : s.workers.get? w = some (LockWorkerPc.report job)) :
    coarse (lock_mark_enter s w job) = coarse s := by
  have hm := set_same_coarse s.workers w (LockWorkerPc.report job) (LockWorkerPc.marking job)
    hw rfl
  apply sched_eq <;> simp [coarse, lock_mark_enter, hm]

theorem coarse_test (s : LockSched) (hd : s.dispatcher = LockDispatcherPc.test) :
    coarse (lock_test s) = dispatcher_test (coarse s) := by
  have hpd : (coarse s).progress_done = s.progress_done := by
    simp [coarse, hd, rest_marks]
  unfold lock_test dispatcher_test
  rw [hpd]
  by_cases hroot : status_at s.progress_done 0 ≠ JobStatus.COMPLETED
  · rw [if_pos hroot, if_pos hroot]
    apply sched_eq <;> simp [coarse, hd, rest_marks, rest_jobs, coarse_dispatcher]
  · rw [if_neg hroot, if_neg hroot]
    apply sched_eq <;> simp [coarse, hd, rest_marks, rest_jobs, coarse_dispatcher]

theorem coarse_scan_enter (s : LockSched) (hd : s.dispatcher = LockDispatcherPc.enter) :
    coarse (lock_scan_enter s) = dispatcher_scan (coarse s) := by
  simp only [dispatcher_scan, scan_pass, scan_loop_tail]
  apply sched_eq <;> simp [coarse, lock_scan_enter, hd, rest_marks, rest_jobs,
    coarse_dispatcher]

theorem coarse_wake (s : LockSched) (w : Nat) (hja : 0 < s.jobs_available) :
    coarse (lock_wake s w) = worker_wake (coarse s) w := by
  unfold lock_wake worker_wake
  simp only []
  have hn : (coarse s).num_elements = s.num_elements := rfl
  rw [hn]
  by_cases hshut : s.num_elements = -1
  · rw [if_pos hshut, if_pos hshut]
    apply sched_eq <;> simp [coarse, map_set_coarse, coarse_worker]
    omega
  · rw [if_neg hshut, if_neg hshut]
    apply sched_eq <;> simp [coarse, map_set_coarse, coarse_worker]
    omega

theorem coarse_take_body (s : LockSched) (w : Nat) (job : Job) (rest : List Job)
    (hq : s.queue = job :: rest) (hc : 0 < s.job_count) (hid : job.id ≠ -1) :
    coarse (lock_take_body s w) = worker_take (coarse s) w := by
  have hq2 : (coarse s).queue = job ::
      (rest ++ rest_jobs s.dispatcher s.num_elements.toNat s.chunk_size s.progress_done) := by
    simp [coarse, hq]
  have hc2 : 0 < (coarse s).job_count := by
    have : (coarse s).job_count = s.job_count + _ := rfl
    omega
  rw [worker_take_head (coarse s) w job _ hq2 hc2 hid]
  have hg : lock_get_job s = (job, { s with queue := rest, job_count := s.job_count - 1 }) := by
    unfold lock_get_job
    rw [hq]
  unfold lock_take_body
  rw [if_pos hc, hg]
  simp only []
  rw [if_neg hid]
  apply sched_eq <;> simp [coarse, map_set_coarse, coarse_worker]
  omega

theorem coarse_run (s : LockSched) (w : Nat) (job : Job) :
    coarse (lock_run s w job) = worker_run (coarse s) w job := by
  unfold lock_run worker_run
  apply sched_eq <;> simp [coarse, map_set_coarse, coarse_worker]

theorem rest_marks_idle (pc : LockDispatcherPc) (pd : List JobStatus)
    (h : dispatcher_holds_progress pc = 0) : rest_marks pc pd = pd := by
  cases pc <;> first | rfl | (simp [dispatcher_holds_progress] at h)

theorem rest_jobs_idle (pc : LockDispatcherPc) (m c : Nat) (pd1 pd2 : List JobStatus)
    (h : dispatcher_holds_progress pc = 0) : rest_jobs pc m c pd1 = rest_jobs pc m c pd2 := by
  cases pc <;> first | rfl | (simp [dispatcher_holds_progress] at h)

theorem coarse_mark_body (s : LockSched) (w : Nat) (job : Job)
    (h : dispatcher_holds_progress s.dispatcher = 0) :
    coarse (lock_mark_body s w job) = worker_report (coarse s) w job := by
  unfold lock_mark_body worker_report
  have hj := rest_jobs_idle s.dispatcher s.num_elements.toNat s.chunk_size
    (s.progress_done.set job.id.toNat JobStatus.COMPLETED) s.progress_done h
  apply sched_eq <;> simp [coarse, map_set_coarse, coarse_worker, rest_marks_idle _ _ h, hj]
  omega

theorem coarse_cleanup (s : LockSched) (hd : s.dispatcher = LockDispatcherPc.done) :
    coarse (lock_cleanup s) = main_cleanup (coarse s) := by
  unfold lock_cleanup main_cleanup
  apply sched_eq <;> simp [coarse, hd, rest_marks, rest_jobs, coarse_dispatcher]

/-! ## The invariant of the trial with mutexes -/

theorem lock_take_facts (input scratch : List Int) (n : Nat) (s : LockSched)
    (inv : LockInv input scratch n s) (w : Nat)
    (hw : s.workers.get? w = some LockWorkerPc.locked) :
    ∃ job rest, s.queue = job :: rest ∧ 0 < s.job_count ∧ job.id ≠ -1 := by
  have hr := inv.reach
  have sinv := sched_inv_reachable input scratch n _ hr
  have finv := flow_inv_reachable input scratch n _ hr
  have hwc : (coarse s).workers.get? w = some WorkerPc.woken :=
    get?_map_coarse s.workers w _ hw
  obtain ⟨hj, _, _, _⟩ := woken_takes_job input scratch n (coarse s) hr w hwc
  have htok := finv.tokens hj
  have hcnt := finv.cnt
  have hpos := woken_count_pos (coarse s) w hwc
  have e1 : (coarse s).jobs_available = s.jobs_available +
      (rest_jobs s.dispatcher s.num_elements.toNat s.chunk_size s.progress_done).length := rfl
  have e2 : (coarse s).queue.length = s.queue.length +
      (rest_jobs s.dispatcher s.num_elements.toNat s.chunk_size s.progress_done).length := by
    show (s.queue ++ _).length = _
    rw [List.length_append]
  have e3 : (coarse s).job_count = s.job_count +
      (rest_jobs s.dispatcher s.num_elements.toNat s.chunk_size s.progress_done).length := rfl
  cases hq : s.queue with
  | nil =>
    rw [hq] at e2
    have h0 : ([] : List Job).length = 0 := rfl
    omega
  | cons job rest =>
    rw [hq] at e2
    have h1 : (job :: rest).length = rest.length + 1 := rfl
    refine ⟨job, rest, rfl, by omega, ?_⟩
    have hmem : job ∈ (coarse s).queue := by
      show job ∈ s.queue ++ _
      rw [hq]
      exact List.mem_append_left _ (List.mem_cons_self _ _)
    have := (sinv.inq job hmem).1
    omega

theorem lock_inv_init (g : InputVars) (n : Nat) (hg : g.num_elements = (g.array.length : Int)) :
    LockInv g.array g.temp_array n (lock_trial_state g n) := by
  have hc : coarse (lock_trial_state g n) = init_state g.array g.temp_array n := by
    apply sched_eq <;> simp [coarse, lock_trial_state, init_state, rest_marks, rest_jobs,
      coarse_dispatcher, hg, coarse_worker]
  have hz1 := sum_replicate_zero worker_holds_queue LockWorkerPc.wait n rfl
  have hz2 := sum_replicate_zero worker_holds_progress LockWorkerPc.wait n rfl
  refine ⟨by rw [hc]; exact Reachable.init, ?_, ?_, ?_⟩
  · show 0 + ((List.replicate n LockWorkerPc.wait).map worker_holds_queue).sum = 0
    rw [hz1]
  · show 0 + ((List.replicate n LockWorkerPc.wait).map worker_holds_progress).sum = 0
    rw [hz2]
  · intro k job h
    rcases h with h | h <;> cases h

theorem lock_inv_seed_enter (input scratch : List Int) (n : Nat) (s : LockSched)
    (inv : LockInv input scratch n s) (hd : s.dispatcher = LockDispatcherPc.start)
    (hq : s.queue_mutex = false) : LockInv input scratch n (lock_seed_enter s) := by
  have h1 := inv.qhold
  have h2 := inv.phold
  simp only [queue_holders, progress_holders, hd, hq, dispatcher_holds_queue,
    dispatcher_holds_progress] at h1 h2
  have hstep : Step (coarse s) (dispatcher_seed (coarse s)) :=
    Step.seed _ (by simp [coarse, hd, coarse_dispatcher])
  rw [← coarse_seed_enter s hd] at hstep
  refine ⟨Reachable.step _ _ inv.reach hstep, ?_, ?_, ?_⟩
  · simp only [queue_holders, lock_seed_enter, dispatcher_holds_queue]
    simp at h1 ⊢
    omega
  · simp only [progress_holders, lock_seed_enter, dispatcher_holds_progress]
    exact h2
  · intro k job h
    rcases h with h | h <;> cases h

theorem lock_inv_seed_iter (input scratch : List Int) (n : Nat) (s : LockSched)
    (inv : LockInv input scratch n s) (i : Nat)
    (hd : s.dispatcher = LockDispatcherPc.seeding i) :
    LockInv input scratch n (lock_seed_iter s i) := by
  have h1 := inv.qhold
  have h2 := inv.phold
  simp only [queue_holders, progress_holders, hd, dispatcher_holds_queue,
    dispatcher_holds_progress] at h1 h2
  have hr : Reachable input scratch n (coarse (lock_seed_iter s i)) := by
    rw [coarse_seed_iter s i hd]; exact inv.reach
  unfold lock_seed_iter at hr ⊢
  by_cases hi : i < NUM_SORT_TASKS
  · rw [if_pos hi] at hr ⊢
    refine ⟨hr, h1, h2, ?_⟩
    intro k job h
    rcases h with h | h <;> cases h
  · rw [if_neg hi] at hr ⊢
    refine ⟨hr, ?_, h2, ?_⟩
    · simp only [queue_holders, dispatcher_holds_queue]
      by_cases hm : s.queue_mutex = true
      · rw [if_pos hm] at h1
        simp
        omega
      · rw [if_neg hm] at h1
        omega
    · intro k job h
      rcases h with h | h <;> cases h

theorem lock_inv_test (input scratch : List Int) (n : Nat) (s : LockSched)
    (inv : LockInv input scratch n s) (hd : s.dispatcher = LockDispatcherPc.test) :
    LockInv input scratch n (lock_test s) := by
  have h1 := inv.qhold
  have h2 := inv.phold
  simp only [queue_holders, progress_holders, hd, dispatcher_holds_queue,
    dispatcher_holds_progress] at h1 h2
  have hstep : Step (coarse s) (dispatcher_test (coarse s)) :=
    Step.test _ (by simp [coarse, hd, coarse_dispatcher])
  rw [← coarse_test s hd] at hstep
  have hr := Reachable.step _ _ inv.reach hstep
  unfold lock_test at hr ⊢
  by_cases hroot : status_at s.progress_done 0 ≠ JobStatus.COMPLETED
  · rw [if_pos hroot] at hr ⊢
    refine ⟨hr, h1, h2, ?_⟩
    intro k job h
    rcases h with h | h <;> cases h
  · rw [if_neg hroot] at hr ⊢
    refine ⟨hr, h1, h2, ?_⟩
    intro k job h
    rcases h with h | h <;> cases h

theorem lock_inv_signal (input scratch : List Int) (n : Nat) (s : LockSched)
    (inv : LockInv input scratch n s) (hd : s.dispatcher = LockDispatcherPc.wait)
    (hs : 0 < s.dispatcher_signal) : LockInv input scratch n (lock_signal s) := by
  have h1 := inv.qhold
  have h2 := inv.phold
  simp only [queue_holders, progress_holders, hd, dispatcher_holds_queue,
    dispatcher_holds_progress] at h1 h2
  refine ⟨by rw [coarse_signal s hd hs]; exact inv.reach, h1, h2, ?_⟩
  intro k job h
  rcases h with h | h <;> cases h

theorem lock_inv_scan_enter (input scratch : List Int) (n : Nat) (s : LockSched)
    (inv : LockInv input scratch n s) (hd : s.dispatcher = LockDispatcherPc.enter)
    (hp : s.progress_mutex = false) : LockInv input scratch n (lock_scan_enter s) := by
  have h1 := inv.qhold
  have h2 := inv.phold
  simp only [queue_holders, progress_holders, hd, hp, dispatcher_holds_queue,
    dispatcher_holds_progress] at h1 h2
  have hstep : Step (coarse s) (dispatcher_scan (coarse s)) :=
    Step.scan _ (by simp [coarse, hd, coarse_dispatcher]) (by simp [coarse, hd])
  rw [← coarse_scan_enter s hd] at hstep
  refine ⟨Reachable.step _ _ inv.reach hstep, h1, ?_, ?_⟩
  · simp only [progress_holders, lock_scan_enter, dispatcher_holds_progress]
    simp at h2 ⊢
    omega
  · intro k job h
    rcases h with h | h <;> cases h

theorem lock_inv_scan_iter (input scratch : List Int) (n : Nat) (s : LockSched)
    (inv : LockInv input scratch n s) (k : Nat)
    (hd : s.dispatcher = LockDispatcherPc.scan k) :
    LockInv input scratch n (lock_scan_iter s k) := by
  have h1 := inv.qhold
  have h2 := inv.phold
  simp only [queue_holders, progress_holders, hd, dispatcher_holds_queue,
    dispatcher_holds_progress] at h1 h2
  have hr : Reachable input scratch n (coarse (lock_scan_iter s k)) := by
    rw [coarse_scan_iter s k hd]; exact inv.reach
  unfold lock_scan_iter at hr ⊢
  by_cases hk : k > 0
  · rw [if_pos hk] at hr ⊢
    by_cases hc : status_at s.progress_done k = JobStatus.COMPLETED ∧
        status_at s.progress_done (k + 1) = JobStatus.COMPLETED ∧
        status_at s.progress_done ((k - 1) / 2) = JobStatus.NOT_DISPATCHED
    · rw [if_pos hc] at hr ⊢
      refine ⟨hr, h1, h2, ?_⟩
      intro j job h
      rcases h with h | h
      · cases h; exact hk
      · cases h
    · rw [if_neg hc] at hr ⊢
      refine ⟨hr, h1, h2, ?_⟩
      intro j job h
      rcases h with h | h <;> cases h
  · rw [if_neg hk] at hr ⊢
    refine ⟨hr, h1, ?_, ?_⟩
    · simp only [progress_holders, dispatcher_holds_progress]
      by_cases hm : s.progress_mutex = true
      · rw [if_pos hm] at h2
        simp
        omega
      · rw [if_neg hm] at h2
        omega
    · intro j job h
      rcases h with h | h <;> cases h

theorem lock_inv_add_enter (input scratch : List Int) (n : Nat) (s : LockSched)
    (inv : LockInv input scratch n s) (k : Nat) (job : Job)
    (hd : s.dispatcher = LockDispatcherPc.add k job) (hq : s.queue_mutex = false) :
    LockInv input scratch n (lock_add_enter s k job) := by
  have h1 := inv.qhold
  have h2 := inv.phold
  simp only [queue_holders, progress_holders, hd, hq, dispatcher_holds_queue,
    dispatcher_holds_progress] at h1 h2
  refine ⟨by rw [coarse_add_enter s k job hd]; exact inv.reach, ?_, h2, ?_⟩
  · simp only [queue_holders, lock_add_enter, dispatcher_holds_queue]
    simp at h1 ⊢
    omega
  · intro j jb h
    rcases h with h | h
    · cases h
    · cases h
      exact inv.addpos k job (Or.inl hd)

theorem lock_inv_add_body (input scratch : List Int) (n : Nat) (s : LockSched)
    (inv : LockInv input scratch n s) (k : Nat) (job : Job)
    (hd : s.dispatcher = LockDispatcherPc.adding k job) :
    LockInv input scratch n (lock_add_body s k job) := by
  have h1 := inv.qhold
  have h2 := inv.phold
  simp only [queue_holders, progress_holders, hd, dispatcher_holds_queue,
    dispatcher_holds_progress] at h1 h2
  refine ⟨by rw [coarse_add_body s k job hd]; exact inv.reach, ?_, h2, ?_⟩
  · simp only [queue_holders, lock_add_body, lock_add_job, dispatcher_holds_queue]
    by_cases hm : s.queue_mutex = true
    · rw [if_pos hm] at h1
      simp
      omega
    · rw [if_neg hm] at h1
      omega
  · intro j jb h
    rcases h with h | h <;> cases h

theorem lock_inv_worker (input scratch : List Int) (n : Nat) (s t : LockSched)
    (inv : LockInv input scratch n s) (w : Nat) (old x : LockWorkerPc)
    (hw : s.workers.get? w = some old) (hr : Reachable input scratch n (coarse t))
    (hd : t.dispatcher = s.dispatcher) (hws : t.workers = s.workers.set w x)
    (hq : worker_holds_queue x + (if s.queue_mutex = true then 1 else 0) =
      worker_holds_queue old + (if t.queue_mutex = true then 1 else 0))
    (hp : worker_holds_progress x + (if s.progress_mutex = true then 1 else 0) =
      worker_holds_progress old + (if t.progress_mutex = true then 1 else 0)) :
    LockInv input scratch n t := by
  have h1 := inv.qhold
  have h2 := inv.phold
  have s1 := sum_set_any worker_holds_queue s.workers w old x hw
  have s2 := sum_set_any worker_holds_progress s.workers w old x hw
  unfold queue_holders at h1
  unfold progress_holders at h2
  refine ⟨hr, ?_, ?_, ?_⟩
  · unfold queue_holders
    rw [hd, hws]
    omega
  · unfold progress_holders
    rw [hd, hws]
    omega
  · intro k job h
    rw [hd] at h
    exact inv.addpos k job h

theorem lock_inv_wake (input scratch : List Int) (n : Nat) (s : LockSched)
    (inv : LockInv input scratch n s) (w : Nat)
    (hw : s.workers.get? w = some LockWorkerPc.wait) (hja : 0 < s.jobs_available) :
    LockInv input scratch n (lock_wake s w) := by
  have hstep : Step (coarse s) (worker_wake (coarse s) w) :=
    Step.wake _ w (get?_map_coarse s.workers w _ hw) (by
      have : (coarse s).jobs_available = s.jobs_available + _ := rfl
      omega)
  rw [← coarse_wake s w hja] at hstep
  have hr := Reachable.step _ _ inv.reach hstep
  unfold lock_wake at hr ⊢
  simp only [] at hr ⊢
  by_cases hshut : s.num_elements = -1
  · rw [if_pos hshut] at hr ⊢
    exact lock_inv_worker input scratch n s _ inv w LockWorkerPc.wait LockWorkerPc.exited hw hr
      rfl rfl rfl rfl
  · rw [if_neg hshut] at hr ⊢
    exact lock_inv_worker input scratch n s _ inv w LockWorkerPc.wait LockWorkerPc.woken hw hr
      rfl rfl rfl rfl

theorem lock_inv_take_enter (input scratch : List Int) (n : Nat) (s : LockSched)
    (inv : LockInv input scratch n s) (w : Nat)
    (hw : s.workers.get? w = some LockWorkerPc.woken) (hq : s.queue_mutex = false) :
    LockInv input scratch n (lock_take_enter s w) := by
  refine lock_inv_worker input scratch n s _ inv w LockWorkerPc.woken LockWorkerPc.locked hw
    (by rw [coarse_take_enter s w hw]; exact inv.reach) rfl rfl ?_ rfl
  rw [hq]
  rfl

theorem locked_holds_queue (input scratch : List Int) (n : Nat) (s : LockSched)
    (inv : LockInv input scratch n s) (w : Nat)
    (hw : s.workers.get? w = some LockWorkerPc.locked) :
    s.queue_mutex = true ∧ dispatcher_holds_queue s.dispatcher = 0 := by
  have h1 := inv.qhold
  have h3 := le_sum_any worker_holds_queue s.workers w _ hw
  have h4 : worker_holds_queue LockWorkerPc.locked = 1 := rfl
  unfold queue_holders at h1
  by_cases hm : s.queue_mutex = true
  · rw [if_pos hm] at h1
    exact ⟨hm, by omega⟩
  · rw [if_neg hm] at h1
    omega

theorem marking_holds_progress (input scratch : List Int) (n : Nat) (s : LockSched)
    (inv : LockInv input scratch n s) (w : Nat) (job : Job)
    (hw : s.workers.get? w = some (LockWorkerPc.marking job)) :
    s.progress_mutex = true ∧ dispatcher_holds_progress s.dispatcher = 0 := by
  have h1 := inv.phold
  have h3 := le_sum_any worker_holds_progress s.workers w _ hw
  have h4 : worker_holds_progress (LockWorkerPc.marking job) = 1 := rfl
  unfold progress_holders at h1
  by_cases hm : s.progress_mutex = true
  · rw [if_pos hm] at h1
    exact ⟨hm, by omega⟩
  · rw [if_neg hm] at h1
    omega

theorem lock_take_body_head (s : LockSched) (w : Nat) (job : Job) (rest : List Job)
    (hq : s.queue = job :: rest) (hc : 0 < s.job_count) (hid : job.id ≠ -1) :
    lock_take_body s w =
      { s with queue := rest, job_count := s.job_count - 1, queue_mutex := false,
               workers := s.workers.set w (LockWorkerPc.run job) } := by
  have hg : lock_get_job s = (job, { s with queue := rest, job_count := s.job_count - 1 }) := by
    unfold lock_get_job
    rw [hq]
  unfold lock_take_body
  rw [if_pos hc, hg]
  simp only []
  rw [if_neg hid]

theorem lock_inv_take_body (input scratch : List Int) (n : Nat) (s : LockSched)
    (inv : LockInv input scratch n s) (w : Nat)
    (hw : s.workers.get? w = some LockWorkerPc.locked) :
    LockInv input scratch n (lock_take_body s w) := by
  obtain ⟨job, rest, hq, hc, hid⟩ := lock_take_facts input scratch n s inv w hw
  obtain ⟨hm, _⟩ := locked_holds_queue input scratch n s inv w hw
  have hstep : Step (coarse s) (worker_take (coarse s) w) :=
    Step.take _ w (get?_map_coarse s.workers w _ hw)
  rw [← coarse_take_body s w job rest hq hc hid] at hstep
  have hr := Reachable.step _ _ inv.reach hstep
  rw [lock_take_body_head s w job rest hq hc hid] at hr ⊢
  refine lock_inv_worker input scratch n s _ inv w LockWorkerPc.locked (LockWorkerPc.run job)
    hw hr rfl rfl ?_ rfl
  rw [hm]
  rfl

theorem lock_inv_run (input scratch : List Int) (n : Nat) (s : LockSched)
    (inv : LockInv input scratch n s) (w : Nat) (job : Job)
    (hw : s.workers.get? w = some (LockWorkerPc.run job)) :
    LockInv input scratch n (lock_run s w job) := by
  have hstep : Step (coarse s) (worker_run (coarse s) w job) :=
    Step.run _ w job (get?_map_coarse s.workers w _ hw)
  rw [← coarse_run s w job] at hstep
  exact lock_inv_worker input scratch n s _ inv w (LockWorkerPc.run job)
    (LockWorkerPc.report job) hw (Reachable.step _ _ inv.reach hstep) rfl rfl rfl rfl

theorem lock_inv_mark_enter (input scratch : List Int) (n : Nat) (s : LockSched)
    (inv : LockInv input scratch n s) (w : Nat) (job : Job)
    (hw : s.workers.get? w = some (LockWorkerPc.report job)) (hp : s.progress_mutex = false) :
    LockInv input scratch n (lock_mark_enter s w job) := by
  refine lock_inv_worker input scratch n s _ inv w (LockWorkerPc.report job)
    (LockWorkerPc.marking job) hw
    (by rw [coarse_mark_enter s w job hw]; exact inv.reach) rfl rfl rfl ?_
  rw [hp]
  rfl

theorem lock_inv_mark_body (input scratch : List Int) (n : Nat) (s : LockSched)
    (inv : LockInv input scratch n s) (w : Nat) (job : Job)
    (hw : s.workers.get? w = some (LockWorkerPc.marking job)) :
    LockInv input scratch n (lock_mark_body s w job) := by
  obtain ⟨hm, hd⟩ := marking_holds_progress input scratch n s inv w job hw
  have hstep : Step (coarse s) (worker_report (coarse s) w job) :=
    Step.report _ w job (get?_map_coarse s.workers w _ hw)
  rw [← coarse_mark_body s w job hd] at hstep
  refine lock_inv_worker input scratch n s _ inv w (LockWorkerPc.marking job)
    LockWorkerPc.wait hw (Reachable.step _ _ inv.reach hstep) rfl rfl rfl ?_
  rw [hm]
  rfl

theorem lock_inv_cleanup (input scratch : List Int) (n : Nat) (s : LockSched)
    (inv : LockInv input scratch n s) (hd : s.dispatcher = LockDispatcherPc.done)
    (hj : s.joined = false) : LockInv input scratch n (lock_cleanup s) := by
  have hstep : Step (coarse s) (main_cleanup (coarse s)) :=
    Step.cleanup _ (by simp [coarse, hd, coarse_dispatcher]) hj
  rw [← coarse_cleanup s hd] at hstep
  refine ⟨Reachable.step _ _ inv.reach hstep, inv.qhold, inv.phold, ?_⟩
  intro k job h
  exact inv.addpos k job h

theorem lock_inv_step (input scratch : List Int) (n : Nat) (s t : LockSched)
    (inv : LockInv input scratch n s) (h : LockStep s t) : LockInv input scratch n t := by
  cases h with
  | seed_enter hd hq => exact lock_inv_seed_enter input scratch n s inv hd hq
  | seed_iter i hd => exact lock_inv_seed_iter input scratch n s inv i hd
  | test hd => exact lock_inv_test input scratch n s inv hd
  | signal hd hs => exact lock_inv_signal input scratch n s inv hd hs
  | scan_enter hd hp => exact lock_inv_scan_enter input scratch n s inv hd hp
  | scan_iter k hd => exact lock_inv_scan_iter input scratch n s inv k hd
  | add_enter k job hd hq => exact lock_inv_add_enter input scratch n s inv k job hd hq
  | add_body k job hd => exact lock_inv_add_body input scratch n s inv k job hd
  | wake w hw hja => exact lock_inv_wake input scratch n s inv w hw hja
  | take_enter w hw hq => exact lock_inv_take_enter input scratch n s inv w hw hq
  | take_body w hw => exact lock_inv_take_body input scratch n s inv w hw
  | run w job hw => exact lock_inv_run input scratch n s inv w job hw
  | mark_enter w job hw hp => exact lock_inv_mark_enter input scratch n s inv w job hw hp
  | mark_body w job hw => exact lock_inv_mark_body input scratch n s inv w job hw
  | cleanup hd hj => exact lock_inv_cleanup input scratch n s inv hd hj

theorem lock_inv_reachable (g : InputVars) (n : Nat)
    (hg : g.num_elements = (g.array.length : Int)) (s : LockSched)
    (h : LockReachable (lock_trial_state g n) s) : LockInv g.array g.temp_array n s := by
  induction h with
  | init => exact lock_inv_init g n hg
  | step s t _ hst ih => exact lock_inv_step g.array g.temp_array n s t ih hst

/-! ## Progress and termination of the trial with mutexes -/

theorem queue_holder_exists (input scratch : List Int) (n : Nat) (s : LockSched)
    (inv : LockInv input scratch n s) (hm : s.queue_mutex = true)
    (hd : dispatcher_holds_queue s.dispatcher = 0) :
    ∃ w, s.workers.get? w = some LockWorkerPc.locked := by
  have h1 := inv.qhold
  unfold queue_holders at h1
  rw [if_pos hm, hd] at h1
  obtain ⟨w, x, hw, hx⟩ := exists_of_sum_pos worker_holds_queue s.workers (by omega)
  refine ⟨w, ?_⟩
  cases x <;> first | exact hw | (exact absurd hx (Nat.lt_irrefl 0))

theorem progress_holder_exists (input scratch : List Int) (n : Nat) (s : LockSched)
    (inv : LockInv input scratch n s) (hm : s.progress_mutex = true)
    (hd : dispatcher_holds_progress s.dispatcher = 0) :
    ∃ w job, s.workers.get? w = some (LockWorkerPc.marking job) := by
  have h1 := inv.phold
  unfold progress_holders at h1
  rw [if_pos hm, hd] at h1
  obtain ⟨w, x, hw, hx⟩ := exists_of_sum_pos worker_holds_progress s.workers (by omega)
  cases x with
  | marking job => exact ⟨w, job, hw⟩
  | wait => exact absurd hx (Nat.lt_irrefl 0)
  | woken => exact absurd hx (Nat.lt_irrefl 0)
  | locked => exact absurd hx (Nat.lt_irrefl 0)
  | run job => exact absurd hx (Nat.lt_irrefl 0)
  | report job => exact absurd hx (Nat.lt_irrefl 0)
  | exited => exact absurd hx (Nat.lt_irrefl 0)

theorem lock_queue_step (input scratch : List Int) (n : Nat) (s : LockSched)
    (inv : LockInv input scratch n s) (hd : dispatcher_holds_queue s.dispatcher = 0)
    (hm : s.queue_mutex ≠ false) : ∃ t, LockStep s t := by
  have hm2 : s.queue_mutex = true := by
    cases hq : s.queue_mutex with
    | false => exact absurd hq hm
    | true => rfl
  obtain ⟨w, hw⟩ := queue_holder_exists input scratch n s inv hm2 hd
  exact ⟨_, LockStep.take_body s w hw⟩

theorem lock_progress_step (input scratch : List Int) (n : Nat) (s : LockSched)
    (inv : LockInv input scratch n s) (hd : dispatcher_holds_progress s.dispatcher = 0)
    (hm : s.progress_mutex ≠ false) : ∃ t, LockStep s t := by
  have hm2 : s.progress_mutex = true := by
    cases hq : s.progress_mutex with
    | false => exact absurd hq hm
    | true => rfl
  obtain ⟨w, job, hw⟩ := progress_holder_exists input scratch n s inv hm2 hd
  exact ⟨_, LockStep.mark_body s w job hw⟩

theorem lock_busy_worker (input scratch : List Int) (n : Nat) (s : LockSched)
    (inv : LockInv input scratch n s) (hdq : dispatcher_holds_queue s.dispatcher = 0)
    (hdp : dispatcher_holds_progress s.dispatcher = 0) (w : Nat) (pc : LockWorkerPc)
    (hw : s.workers.get? w = some pc) (h1 : pc ≠ LockWorkerPc.wait)
    (h2 : pc ≠ LockWorkerPc.exited) : ∃ t, LockStep s t := by
  cases pc with
  | wait => exact absurd rfl h1
  | exited => exact absurd rfl h2
  | woken =>
    by_cases hm : s.queue_mutex = false
    · exact ⟨_, LockStep.take_enter s w hw hm⟩
    · exact lock_queue_step input scratch n s inv hdq hm
  | locked => exact ⟨_, LockStep.take_body s w hw⟩
  | run job => exact ⟨_, LockStep.run s w job hw⟩
  | report job =>
    by_cases hm : s.progress_mutex = false
    · exact ⟨_, LockStep.mark_enter s w job hw hm⟩
    · exact lock_progress_step input scratch n s inv hdp hm
  | marking job => exact ⟨_, LockStep.mark_body s w job hw⟩

theorem lock_progress (input scratch : List Int) (n : Nat) (hn : 1 ≤ n) (s : LockSched)
    (inv : LockInv input scratch n s) (hd : s.dispatcher ≠ LockDispatcherPc.done) :
    ∃ t, LockStep s t := by
  cases hdp : s.dispatcher with
  | done => exact absurd hdp hd
  | start =>
    by_cases hm : s.queue_mutex = false
    · exact ⟨_, LockStep.seed_enter s hdp hm⟩
    · exact lock_queue_step input scratch n s inv (by rw [hdp]; rfl) hm
  | seeding i => exact ⟨_, LockStep.seed_iter s i hdp⟩
  | test => exact ⟨_, LockStep.test s hdp⟩
  | enter =>
    by_cases hm : s.progress_mutex = false
    · exact ⟨_, LockStep.scan_enter s hdp hm⟩
    · exact lock_progress_step input scratch n s inv (by rw [hdp]; rfl) hm
  | scan k => exact ⟨_, LockStep.scan_iter s k hdp⟩
  | add k job =>
    by_cases hm : s.queue_mutex = false
    · exact ⟨_, LockStep.add_enter s k job hdp hm⟩
    · exact lock_queue_step input scratch n s inv (by rw [hdp]; rfl) hm
  | adding k job => exact ⟨_, LockStep.add_body s k job hdp⟩
  | wait =>
    by_cases hsig : 0 < s.dispatcher_signal
    · exact ⟨_, LockStep.signal s hdp hsig⟩
    · by_cases hbusy : ∃ w pc, s.workers.get? w = some pc ∧ pc ≠ LockWorkerPc.wait ∧
          pc ≠ LockWorkerPc.exited
      · obtain ⟨w, pc, hw, h1, h2⟩ := hbusy
        exact lock_busy_worker input scratch n s inv (by rw [hdp]; rfl) (by rw [hdp]; rfl)
          w pc hw h1 h2
      · have hidle : ∀ w pc, s.workers.get? w = some pc →
            pc = LockWorkerPc.wait ∨ pc = LockWorkerPc.exited := by
          intro w pc hw
          by_cases h1 : pc = LockWorkerPc.wait
          · exact Or.inl h1
          · by_cases h2 : pc = LockWorkerPc.exited
            · exact Or.inr h2
            · exact absurd ⟨w, pc, hw, h1, h2⟩ hbusy
        have hcd : (coarse s).dispatcher = DispatcherPc.wait := by
          simp [coarse, hdp, coarse_dispatcher]
        have hcs : (coarse s).dispatcher_signal = 0 := by
          simp [coarse, hdp]
          omega
        have hcj : (coarse s).jobs_available = s.jobs_available := by
          simp [coarse, hdp, rest_jobs]
        obtain ⟨t, hstep⟩ := progress_of_reachable input scratch n hn (coarse s) inv.reach
          (by rw [hcd]; intro h; cases h)
        generalize hv : coarse s = v at hstep hcd hcs hcj
        have hvw : v.workers = s.workers.map coarse_worker := by rw [← hv]; rfl
        cases hstep with
        | seed h => rw [hcd] at h; cases h
        | test h => rw [hcd] at h; cases h
        | scan _ h => omega
        | cleanup h _ => rw [hcd] at h; cases h
        | wake w hw hja =>
          rw [hvw] at hw
          obtain ⟨pc, hpc, hco⟩ := get?_of_map_coarse s.workers w _ hw
          rcases hidle w pc hpc with h | h
          · rw [h] at hpc
            exact ⟨_, LockStep.wake s w hpc (by omega)⟩
          · rw [h] at hco
            cases hco
        | take w hw =>
          rw [hvw] at hw
          obtain ⟨pc, hpc, hco⟩ := get?_of_map_coarse s.workers w _ hw
          rcases hidle w pc hpc with h | h <;> (rw [h] at hco; cases hco)
        | run w job hw =>
          rw [hvw] at hw
          obtain ⟨pc, hpc, hco⟩ := get?_of_map_coarse s.workers w _ hw
          rcases hidle w pc hpc with h | h <;> (rw [h] at hco; cases hco)
        | report w job hw =>
          rw [hvw] at hw
          obtain ⟨pc, hpc, hco⟩ := get?_of_map_coarse s.workers w _ hw
          rcases hidle w pc hpc with h | h <;> (rw [h] at hco; cases hco)

theorem lock_done_absorbing (s t : LockSched) (h : LockStep s t)
    (hd : s.dispatcher = LockDispatcherPc.done) : t.dispatcher = LockDispatcherPc.done := by
  cases h with
  | seed_enter h1 _ => rw [hd] at h1; cases h1
  | seed_iter i h1 => rw [hd] at h1; cases h1
  | test h1 => rw [hd] at h1; cases h1
  | signal h1 _ => rw [hd] at h1; cases h1
  | scan_enter h1 _ => rw [hd] at h1; cases h1
  | scan_iter k h1 => rw [hd] at h1; cases h1
  | add_enter k job h1 _ => rw [hd] at h1; cases h1
  | add_body k job h1 => rw [hd] at h1; cases h1
  | wake w _ _ =>
    unfold lock_wake
    simp only []
    split <;> exact hd
  | take_enter w _ _ => exact hd
  | take_body w _ =>
    unfold lock_take_body lock_get_job
    split
    · split
      · simp only []
        split <;> exact hd
      · simp only []
        split <;> exact hd
    · exact hd
  | run w job _ => exact hd
  | mark_enter w job _ _ => exact hd
  | mark_body w job _ => exact hd
  | cleanup _ _ => exact hd

/-! ## The measure of the trial with mutexes -/

theorem lock_weight_worker (s t : LockSched) (w : Nat) (old x : LockWorkerPc)
    (hw : s.workers.get? w = some old) (hd : t.dispatcher = s.dispatcher)
    (hws : t.workers = s.workers.set w x) :
    lock_weight t + lock_worker_weight old = lock_weight s + lock_worker_weight x := by
  have := sum_set_any lock_worker_weight s.workers w old x hw
  unfold lock_weight
  rw [hd, hws]
  omega

theorem lock_step_effect (input scratch : List Int) (n : Nat) (s t : LockSched)
    (inv : LockInv input scratch n s) (h : LockStep s t) :
    (coarse t = coarse s ∧ lock_weight t < lock_weight s) ∨
    (Step (coarse s) (coarse t) ∧ lock_weight t ≤ lock_weight s + 54) := by
  cases h with
  | seed_enter hd hq =>
    right
    have hstep : Step (coarse s) (dispatcher_seed (coarse s)) :=
      Step.seed _ (by simp [coarse, hd, coarse_dispatcher])
    rw [← coarse_seed_enter s hd] at hstep
    refine ⟨hstep, ?_⟩
    simp only [lock_weight, lock_seed_enter, hd, lock_dispatcher_weight, NUM_SORT_TASKS]
    omega
  | seed_iter i hd =>
    left
    refine ⟨coarse_seed_iter s i hd, ?_⟩
    unfold lock_seed_iter
    split <;> simp only [lock_weight, lock_add_job, hd, lock_dispatcher_weight,
      NUM_SORT_TASKS] at * <;> omega
  | test hd =>
    right
    have hstep : Step (coarse s) (dispatcher_test (coarse s)) :=
      Step.test _ (by simp [coarse, hd, coarse_dispatcher])
    rw [← coarse_test s hd] at hstep
    refine ⟨hstep, ?_⟩
    unfold lock_test
    split <;> simp only [lock_weight, hd, lock_dispatcher_weight] <;> omega
  | signal hd hs =>
    left
    refine ⟨coarse_signal s hd hs, ?_⟩
    simp only [lock_weight, lock_signal, hd, lock_dispatcher_weight]
    omega
  | scan_enter hd hp =>
    right
    have hstep : Step (coarse s) (dispatcher_scan (coarse s)) :=
      Step.scan _ (by simp [coarse, hd, coarse_dispatcher]) (by simp [coarse, hd])
    rw [← coarse_scan_enter s hd] at hstep
    refine ⟨hstep, ?_⟩
    simp only [lock_weight, lock_scan_enter, hd, lock_dispatcher_weight]
    omega
  | scan_iter k hd =>
    left
    refine ⟨coarse_scan_iter s k hd, ?_⟩
    unfold lock_scan_iter
    by_cases hk : k > 0
    · rw [if_pos hk]
      split <;> simp only [lock_weight, hd, lock_dispatcher_weight] <;> omega
    · rw [if_neg hk]
      simp only [lock_weight, hd, lock_dispatcher_weight]
      omega
  | add_enter k job hd hq =>
    left
    have hk := inv.addpos k job (Or.inl hd)
    refine ⟨coarse_add_enter s k job hd, ?_⟩
    simp only [lock_weight, lock_add_enter, hd, lock_dispatcher_weight]
    omega
  | add_body k job hd =>
    left
    have hk := inv.addpos k job (Or.inr hd)
    refine ⟨coarse_add_body s k job hd, ?_⟩
    simp only [lock_weight, lock_add_body, lock_add_job, hd, lock_dispatcher_weight]
    omega
  | wake w hw hja =>
    right
    have hstep : Step (coarse s) (worker_wake (coarse s) w) :=
      Step.wake _ w (get?_map_coarse s.workers w _ hw) (by
        have : (coarse s).jobs_available = s.jobs_available + _ := rfl
        omega)
    rw [← coarse_wake s w hja] at hstep
    refine ⟨hstep, ?_⟩
    unfold lock_wake
    simp only []
    split
    · have := lock_weight_worker s
        { s with jobs_available := s.jobs_available - 1,
                 workers := s.workers.set w LockWorkerPc.exited }
        w LockWorkerPc.wait LockWorkerPc.exited hw rfl rfl
      simp only [lock_worker_weight] at this
      omega
    · have := lock_weight_worker s
        { s with jobs_available := s.jobs_available - 1,
                 workers := s.workers.set w LockWorkerPc.woken }
        w LockWorkerPc.wait LockWorkerPc.woken hw rfl rfl
      simp only [lock_worker_weight] at this
      omega
  | take_enter w hw hq =>
    left
    refine ⟨coarse_take_enter s w hw, ?_⟩
    have := lock_weight_worker s (lock_take_enter s w) w LockWorkerPc.woken
      LockWorkerPc.locked hw rfl rfl
    simp only [lock_worker_weight] at this
    omega
  | take_body w hw =>
    right
    obtain ⟨job, rest, hq, hc, hid⟩ := lock_take_facts input scratch n s inv w hw
    have hstep : Step (coarse s) (worker_take (coarse s) w) :=
      Step.take _ w (get?_map_coarse s.workers w _ hw)
    rw [← coarse_take_body s w job rest hq hc hid] at hstep
    refine ⟨hstep, ?_⟩
    rw [lock_take_body_head s w job rest hq hc hid]
    have := lock_weight_worker s
      { s with queue := rest, job_count := s.job_count - 1, queue_mutex := false,
               workers := s.workers.set w (LockWorkerPc.run job) }
      w LockWorkerPc.locked (LockWorkerPc.run job) hw rfl rfl
    simp only [lock_worker_weight] at this
    omega
  | run w job hw =>
    right
    have hstep : Step (coarse s) (worker_run (coarse s) w job) :=
      Step.run _ w job (get?_map_coarse s.workers w _ hw)
    rw [← coarse_run s w job] at hstep
    refine ⟨hstep, ?_⟩
    have := lock_weight_worker s (lock_run s w job) w (LockWorkerPc.run job)
      (LockWorkerPc.report job) hw rfl rfl
    simp only [lock_worker_weight] at this
    omega
  | mark_enter w job hw hp =>
    left
    refine ⟨coarse_mark_enter s w job hw, ?_⟩
    have := lock_weight_worker s (lock_mark_enter s w job) w (LockWorkerPc.report job)
      (LockWorkerPc.marking job) hw rfl rfl
    simp only [lock_worker_weight] at this
    omega
  | mark_body w job hw =>
    right
    obtain ⟨_, hd⟩ := marking_holds_progress input scratch n s inv w job hw
    have hstep : Step (coarse s) (worker_report (coarse s) w job) :=
      Step.report _ w job (get?_map_coarse s.workers w _ hw)
    rw [← coarse_mark_body s w job hd] at hstep
    refine ⟨hstep, ?_⟩
    have := lock_weight_worker s (lock_mark_body s w job) w (LockWorkerPc.marking job)
      LockWorkerPc.wait hw rfl rfl
    simp only [lock_worker_weight] at this
    omega
  | cleanup hd hj =>
    right
    have hstep : Step (coarse s) (main_cleanup (coarse s)) :=
      Step.cleanup _ (by simp [coarse, hd, coarse_dispatcher]) hj
    rw [← coarse_cleanup s hd] at hstep
    exact ⟨hstep, Nat.le_add_right _ _⟩

theorem lock_measure_step (input scratch : List Int) (n : Nat) (s t : LockSched)
    (inv : LockInv input scratch n s) (h : LockStep s t) :
    lock_measure t < lock_measure s := by
  unfold lock_measure
  rcases lock_step_effect input scratch n s t inv h with ⟨h1, h2⟩ | ⟨h1, h2⟩
  · rw [h1]
    omega
  · have hl := (sched_inv_reachable input scratch n _ inv.reach).len
    have := measure_step (coarse s) (coarse t) hl h1
    omega

theorem lock_measure_init (g : InputVars) (n : Nat)
    (hg : g.num_elements = (g.array.length : Int)) :
    lock_measure (lock_trial_state g n) = 60 * (93 + 2 * n) := by
  have hc : coarse (lock_trial_state g n) = init_state g.array g.temp_array n := by
    apply sched_eq <;> simp [coarse, lock_trial_state, init_state, rest_marks, rest_jobs,
      coarse_dispatcher, hg, coarse_worker]
  have hz := sum_replicate_zero lock_worker_weight LockWorkerPc.wait n rfl
  unfold lock_measure
  rw [hc, measure_init]
  show _ + (0 + ((List.replicate n LockWorkerPc.wait).map lock_worker_weight).sum) = _
  rw [hz]
  rfl

theorem lock_run_len_bound (g : InputVars) (n k : Nat)
    (hg : g.num_elements = (g.array.length : Int)) (s : LockSched)
    (h : LockRunLen (lock_trial_state g n) k s) :
    LockReachable (lock_trial_state g n) s ∧ k + lock_measure s ≤ 60 * (93 + 2 * n) := by
  generalize hs0 : lock_trial_state g n = s0 at h
  induction h with
  | zero =>
    subst hs0
    exact ⟨LockReachable.init, by rw [lock_measure_init g n hg]; omega⟩
  | succ t u k _ hst ih =>
    obtain ⟨hr, hb⟩ := ih
    subst hs0
    have := lock_measure_step g.array g.temp_array n t u (lock_inv_reachable g n hg t hr) hst
    exact ⟨LockReachable.step t u hr hst, by omega⟩

theorem read_input_file_lengths (count : Int) (data : List Token) (g0 : InputVars)
    (fresh1 fresh2 : Nat → Int) (h0 : 0 ≤ count) (hc : count ≤ 1000000) :
    (read_input_file (some (Token.int count :: data)) g0 fresh1 fresh2).1 = 0 ∧
    (read_input_file (some (Token.int count :: data)) g0 fresh1 fresh2).2.num_elements =
      ((read_input_file (some (Token.int count :: data)) g0 fresh1
        fresh2).2.array.length : Int) ∧
    (read_input_file (some (Token.int count :: data)) g0 fresh1 fresh2).2.num_elements =
      count := by
  have hs := scanned_int_of_range count (by omega) (by omega)
  have hu := read_input_file_count count data g0 fresh1 fresh2
  have hn : ¬ scanned_int count > (MAX_ELEMENTS : Int) := by
    have : (MAX_ELEMENTS : Int) = 1000000 := rfl
    rw [hs]
    omega
  rw [if_neg hn, hs] at hu
  rw [hu]
  refine ⟨rfl, ?_, rfl⟩
  show count = ((read_loop _ _ _ _).length : Int)
  rw [read_loop_length]
  unfold malloc_ints
  rw [List.length_map, List.length_range]
  omega

theorem lock_run_prepend (s t u : LockSched) (k : Nat) (hst : LockStep s t)
    (h : LockRunLen t k u) : LockRunLen s (k + 1) u := by
  induction h with
  | zero => exact LockRunLen.succ s s _ 0 (LockRunLen.zero s) hst
  | succ v x k _ hvx ih => exact LockRunLen.succ s v x (k + 1) ih hvx

theorem lock_reaches_done (input scratch : List Int) (n : Nat) (hn : 1 ≤ n) (m : Nat)
    (s : LockSched) (hm : lock_measure s ≤ m) (inv : LockInv input scratch n s) :
    ∃ k t, LockRunLen s k t ∧ t.dispatcher = LockDispatcherPc.done := by
  induction m generalizing s with
  | zero =>
    by_cases hd : s.dispatcher = LockDispatcherPc.done
    · exact ⟨0, s, LockRunLen.zero s, hd⟩
    · obtain ⟨t, hst⟩ := lock_progress input scratch n hn s inv hd
      have := lock_measure_step input scratch n s t inv hst
      omega
  | succ m ih =>
    by_cases hd : s.dispatcher = LockDispatcherPc.done
    · exact ⟨0, s, LockRunLen.zero s, hd⟩
    · obtain ⟨t, hst⟩ := lock_progress input scratch n hn s inv hd
      have hlt := lock_measure_step input scratch n s t inv hst
      obtain ⟨k, u, hrun, hdone⟩ := ih t (by omega) (lock_inv_step input scratch n s t inv hst)
      exact ⟨k + 1, u, lock_run_prepend s t u k hst hrun, hdone⟩

theorem lock_stuck (s : LockSched) (hd : s.dispatcher = LockDispatcherPc.wait)
    (hs : s.dispatcher_signal = 0) (hw : s.workers = [LockWorkerPc.exited]) :
    ∀ t, ¬ LockStep s t := by
  intro t h
  cases h with
  | seed_enter h1 _ => rw [hd] at h1; cases h1
  | seed_iter i h1 => rw [hd] at h1; cases h1
  | test h1 => rw [hd] at h1; cases h1
  | signal _ h2 => omega
  | scan_enter h1 _ => rw [hd] at h1; cases h1
  | scan_iter k h1 => rw [hd] at h1; cases h1
  | add_enter k job h1 _ => rw [hd] at h1; cases h1
  | add_body k job h1 => rw [hd] at h1; cases h1
  | cleanup h1 _ => rw [hd] at h1; cases h1
  | wake w h1 _ => rw [hw] at h1; cases w <;> simp at h1
  | take_enter w h1 _ => rw [hw] at h1; cases w <;> simp at h1
  | take_body w h1 => rw [hw] at h1; cases w <;> simp at h1
  | run w job h1 => rw [hw] at h1; cases w <;> simp at h1
  | mark_enter w job h1 _ => rw [hw] at h1; cases w <;> simp at h1
  | mark_body w job h1 => rw [hw] at h1; cases w <;> simp at h1

theorem lock_seed_iter_pc (s : LockSched) (i : Nat) (hi : i < 8) :
    (lock_seed_iter s i).dispatcher = LockDispatcherPc.seeding (i + 1) := by
  unfold lock_seed_iter
  rw [if_pos (by simpa [NUM_SORT_TASKS] using hi)]

theorem lock_seeded_reachable (s0 s : LockSched) (hr : LockReachable s0 s)
    (hd : s.dispatcher = LockDispatcherPc.seeding 0) : LockReachable s0 (lock_seeded s) := by
  have r0 := LockReachable.step _ _ hr (LockStep.seed_iter s 0 hd)
  have r1 := LockReachable.step _ _ r0
    (LockStep.seed_iter _ 1 (lock_seed_iter_pc _ 0 (by decide)))
  have r2 := LockReachable.step _ _ r1
    (LockStep.seed_iter _ 2 (lock_seed_iter_pc _ 1 (by decide)))
  have r3 := LockReachable.step _ _ r2
    (LockStep.seed_iter _ 3 (lock_seed_iter_pc _ 2 (by decide)))
  have r4 := LockReachable.step _ _ r3
    (LockStep.seed_iter _ 4 (lock_seed_iter_pc _ 3 (by decide)))
  have r5 := LockReachable.step _ _ r4
    (LockStep.seed_iter _ 5 (lock_seed_iter_pc _ 4 (by decide)))
  have r6 := LockReachable.step _ _ r5
    (LockStep.seed_iter _ 6 (lock_seed_iter_pc _ 5 (by decide)))
  have r7 := LockReachable.step _ _ r6
    (LockStep.seed_iter _ 7 (lock_seed_iter_pc _ 6 (by decide)))
  exact LockReachable.step _ _ r7
    (LockStep.seed_iter _ 8 (lock_seed_iter_pc _ 7 (by decide)))

theorem deadlocked_state_reachable :
    LockReachable (lock_trial_state negative_count_vars 1) deadlocked_state :=
  LockReachable.step _ _
    (LockReachable.step _ _
      (lock_seeded_reachable _ _
        (LockReachable.step _ _ LockReachable.init (LockStep.seed_enter _ rfl rfl)) rfl)
      (LockStep.test _ rfl))
    (LockStep.wake _ 0 rfl (by decide))

theorem contended_state_reachable :
    LockReachable (lock_trial_state sample_vars 2) contended_state :=
  LockReachable.step _ _
    (LockReachable.step _ _
      (LockReachable.step _ _
        (lock_seeded_reachable _ _
          (LockReachable.step _ _ LockReachable.init (LockStep.seed_enter _ rfl rfl)) rfl)
        (LockStep.wake _ 0 rfl (by decide)))
      (LockStep.wake _ 1 rfl (by decide)))
    (LockStep.take_enter _ 0 rfl rfl)

/-- C18 (counterexample): the input file whose count is `-1` is accepted by
`read_input_file`, which leaves `num_elements = -1`, the value that the workers
take for the shutdown flag.  In the one-worker trial the dispatcher seeds the
queue, finds node `0` not `COMPLETED` and waits on `dispatcher_signal`; the
worker wakes, reads `num_elements == -1` and leaves its loop.  The state so
reached has node `0` not `COMPLETED` and no thread can take a step: the trial
is deadlocked and the dispatcher never returns.  The eight seeded jobs stay in
the queue; their ranges play no part. -/
theorem negative_count_deadlock :
    read_input_file (some negative_count_file)
        { num_elements := 0, array := [], temp_array := [] } (fun _ => 0) (fun _ => 0) =
      (0, { num_elements := -1, array := [], temp_array := [] }) ∧
    LockReachable (lock_trial_state negative_count_vars 1) deadlocked_state ∧
    status_at deadlocked_state.progress_done 0 ≠ JobStatus.COMPLETED ∧
    deadlocked_state.dispatcher = LockDispatcherPc.wait ∧
    deadlocked_state.dispatcher_signal = 0 ∧
    deadlocked_state.workers = [LockWorkerPc.exited] ∧
    (∀ t, ¬ LockStep deadlocked_state t) :=
  ⟨by decide, deadlocked_state_reachable, by decide, by decide, by decide, by decide,
    lock_stuck deadlocked_state (by decide) (by decide) (by decide)⟩

/-- C18 (amended): for an input file whose count is between `0` and
`1,000,000`, for every worker count `n >= 1` and every interleaving of the
dispatcher and the workers, with both mutexes and both semaphores as blocking
calls: in every reachable state in which node `0` is not `COMPLETED`, and more
generally in every reachable state in which the dispatcher has not returned,
some thread can take a step; every step lowers the measure `lock_measure`, so
that every interleaving has at most `60 * (93 + 2 n)` steps; once the
dispatcher has returned it stays returned; and from every reachable state
some run leads to a state in which the dispatcher has returned.  Hence every
interleaving, continued as long as a step is possible, brings the dispatcher
to its terminal state after finitely many steps, exactly once. -/
theorem trial_progress_and_termination (count : Int) (data : List Token) (g0 : InputVars)
    (fresh1 fresh2 : Nat → Int) (n : Nat) (hn : 1 ≤ n) (h0 : 0 ≤ count)
    (hc : count ≤ 1000000) (s : LockSched)
    (hr : LockReachable (lock_trial_state
      (read_input_file (some (Token.int count :: data)) g0 fresh1 fresh2).2 n) s) :
    (status_at s.progress_done 0 ≠ JobStatus.COMPLETED → ∃ t, LockStep s t) ∧
    (s.dispatcher ≠ LockDispatcherPc.done → ∃ t, LockStep s t) ∧
    (∀ t, LockStep s t → lock_measure t < lock_measure s) ∧
    (∀ k, LockRunLen (lock_trial_state
        (read_input_file (some (Token.int count :: data)) g0 fresh1 fresh2).2 n) k s →
      k + lock_measure s ≤ 60 * (93 + 2 * n)) ∧
    (∀ t, LockStep s t → s.dispatcher = LockDispatcherPc.done →
      t.dispatcher = LockDispatcherPc.done) ∧
    (∃ k t, LockRunLen s k t ∧ t.dispatcher = LockDispatcherPc.done) := by
  have hg := (read_input_file_lengths count data g0 fresh1 fresh2 h0 hc).2.1
  have inv := lock_inv_reachable _ n hg s hr
  have hprog := lock_progress _ _ n hn s inv
  refine ⟨?_, hprog, fun t h => lock_measure_step _ _ n s t inv h,
    fun k h => (lock_run_len_bound _ n k hg s h).2,
    fun t h hd => lock_done_absorbing s t h hd,
    lock_reaches_done _ _ n hn _ s (le_refl _) inv⟩
  intro hroot
  apply hprog
  intro hd
  apply hroot
  have finv := flow_inv_reachable _ _ n _ inv.reach
  have h1 := finv.done (by simp [coarse, hd, coarse_dispatcher])
  have h2 : (coarse s).progress_done = s.progress_done := by
    simp [coarse, hd, rest_marks]
  rw [h2] at h1
  exact h1

/-- Witness of C18 (amended): the two-worker trial on the sample file in the
state in which worker `0` holds `queue_mutex` and worker `1`, past its wait,
is blocked on it. -/
theorem trial_progress_and_termination_witness :
    (1 ≤ 2 ∧ (0 : Int) ≤ 8 ∧ (8 : Int) ≤ 1000000 ∧
      LockReachable (lock_trial_state
        (read_input_file (some (Token.int 8 :: sample_input.map Token.int))
          { num_elements := 0, array := [], temp_array := [] } (fun _ => 0)
          (fun _ => 0)).2 2) contended_state) ∧
    (contended_state.queue_mutex = true ∧
      contended_state.workers = [LockWorkerPc.locked, LockWorkerPc.woken] ∧
      status_at contended_state.progress_done 0 ≠ JobStatus.COMPLETED) ∧
    ((status_at contended_state.progress_done 0 ≠ JobStatus.COMPLETED →
        ∃ t, LockStep contended_state t) ∧
      (contended_state.dispatcher ≠ LockDispatcherPc.done → ∃ t, LockStep contended_state t) ∧
      (∀ t, LockStep contended_state t → lock_measure t < lock_measure contended_state) ∧
      (∀ k, LockRunLen (lock_trial_state
          (read_input_file (some (Token.int 8 :: sample_input.map Token.int))
            { num_elements := 0, array := [], temp_array := [] } (fun _ => 0)
            (fun _ => 0)).2 2) k contended_state →
        k + lock_measure contended_state ≤ 60 * (93 + 2 * 2)) ∧
      (∀ t, LockStep contended_state t →
        contended_state.dispatcher = LockDispatcherPc.done →
        t.dispatcher = LockDispatcherPc.done) ∧
      (∃ k t, LockRunLen contended_state k t ∧ t.dispatcher = LockDispatcherPc.done)) :=
  ⟨⟨by decide, by decide, by decide, contended_state_reachable⟩,
    ⟨by decide, by decide, by decide⟩,
    trial_progress_and_termination 8 (sample_input.map Token.int)
      { num_elements := 0, array := [], temp_array := [] } (fun _ => 0) (fun _ => 0) 2
      (by decide) (by decide) (by decide) contended_state contended_state_reachable⟩

end MergeSched
